import Mathlib

/-!
# rules_gitops: commit-message codec, train grouping and query helpers

A shallow embedding of the pure helpers of `gitops/commitmsg`, `gitops/bazel`
and `gitops/prer`, followed by theorems about them.

A Go `string` is a finite sequence of bytes.  It is embedded as a list of
natural numbers, the real bytes being the values below 256.  None of the
embedded functions does arithmetic on bytes: they only compare them for
equality and order, so every theorem quantified over all lists covers every
Go string.
-/

namespace Gitops

/-- A Go string: its bytes in order. -/
abbrev GoString := List Nat

/-- The bytes of an ASCII string literal of the source. -/
def lit (s : String) : GoString := s.toList.map Char.toNat

/-- The newline byte, written '\n' in the source. -/
def NL : Nat := 10

/-- The byte ':'. -/
def COLON : Nat := 58

/-- The byte '"'. -/
def DQUOTE : Nat := 34

/-- The byte '\'. -/
def BACKSLASH : Nat := 92

/-! ## gitops/commitmsg/commitmsg.go -/

namespace commitmsg

/-- The constant `begin` of commitmsg.go. -/
def begin : GoString := lit "--- gitops targets begin ---"

/-- The constant `end` of commitmsg.go. -/
def end_ : GoString := lit "--- gitops targets end ---"

/-- The call strings.Split(msg, "\n"): the pieces of `msg` between newline
bytes, of which there is always at least one. -/
def splitLines : GoString → List GoString
  | [] => [[]]
  | c :: s =>
    if c = NL then [] :: splitLines s
    else
      match splitLines s with
      | [] => [[c]]
      | l :: ls => (c :: l) :: ls

/-- The loop state of ExtractTargets: the slice `targets` and the flag
`betweenMarkers`. -/
structure ScanState where
  targets : List GoString
  betweenMarkers : Bool
deriving DecidableEq, Repr

/-- One iteration of the loop of ExtractTargets: the `switch line`. -/
def scanLine (st : ScanState) (line : GoString) : ScanState :=
  if line = begin then { st with betweenMarkers := true }
  else if line = end_ then { st with betweenMarkers := false }
  else if st.betweenMarkers then { st with targets := st.targets ++ [line] }
  else st

/-- The loop of ExtractTargets over the lines, from a given state. -/
def scanLines (st : ScanState) (lines : List GoString) : ScanState :=
  lines.foldl scanLine st

/-- ExtractTargets of commitmsg.go.  The nil slice and the empty slice are
both the empty list. -/
def ExtractTargets (msg : GoString) : List GoString :=
  let st := scanLines { targets := [], betweenMarkers := false } (splitLines msg)
  if st.betweenMarkers then [] else st.targets

/-- Generate of commitmsg.go: the writes to the strings.Builder in order. -/
def Generate (targets : List GoString) : GoString :=
  let sb : GoString := []
  let sb := sb ++ [NL]
  let sb := sb ++ begin
  let sb := sb ++ [NL]
  let sb := targets.foldl (fun sb t => (sb ++ t) ++ [NL]) sb
  let sb := sb ++ end_
  let sb := sb ++ [NL]
  sb

/-- The targets written one per line, each followed by a newline, in front of
`rest`. -/
def targetBlock : List GoString → GoString → GoString
  | [], rest => rest
  | t :: T, rest => t ++ NL :: targetBlock T rest

end commitmsg

/-! ## Go runtime and standard library pieces used by the embedded code -/

/-- The call strings.HasPrefix(s, prefix). -/
def hasPrefix : GoString → GoString → Bool
  | _, [] => true
  | [], _ :: _ => false
  | c :: s, p :: ps => if c = p then hasPrefix s ps else false

/-- The call strings.Replace(s, old, new, 1): the first occurrence of `old` in
`s`, if there is one, is replaced by `new`. -/
def stringsReplace1 (s old new : GoString) : GoString :=
  match s with
  | [] => if old = [] then new else []
  | c :: t =>
    if hasPrefix (c :: t) old then new ++ (c :: t).drop old.length
    else c :: stringsReplace1 t old new

/-- The call strings.Join(elems, sep). -/
def stringsJoin : List GoString → GoString → GoString
  | [], _ => []
  | [a], _ => a
  | a :: b :: rest, sep => a ++ sep ++ stringsJoin (b :: rest) sep

/-- The comparison `a < b` of two Go strings: byte-wise lexicographic, a proper
prefix being smaller. -/
def strLess : GoString → GoString → Bool
  | _, [] => false
  | [], _ :: _ => true
  | a :: as, b :: bs => if a < b then true else if b < a then false else strLess as bs

/-- The comparison `a <= b` of two Go strings. -/
def strLe (a b : GoString) : Prop := strLess b a = false

instance strLe.decidable : DecidableRel strLe := fun a b =>
  inferInstanceAs (Decidable (strLess b a = false))

/-- The call sort.Strings(x).  It leaves the elements of `x` in increasing
order; the order of strings being total and antisymmetric, that result is the
same whatever the algorithm, and it is computed here by insertion. -/
def sortStrings (x : List GoString) : List GoString :=
  List.insertionSort strLe x

/-- Whether each element of the list stands in the relation `r` to its
successor. -/
def chainB (r : GoString → GoString → Bool) : List GoString → Bool
  | a :: b :: rest => r a b && chainB r (b :: rest)
  | _ => true

/-- A list of strings in which each element is strictly less than its
successor. -/
def strictlySorted (l : List GoString) : Prop := chainB strLess l = true

instance strictlySorted.decidable (l : List GoString) : Decidable (strictlySorted l) :=
  inferInstanceAs (Decidable (chainB strLess l = true))

/-- A list of strings in which each element is less than or equal to its
successor. -/
def weaklySorted (l : List GoString) : Prop := chainB (fun a b => !strLess b a) l = true

instance weaklySorted.decidable (l : List GoString) : Decidable (weaklySorted l) :=
  inferInstanceAs (Decidable (chainB (fun a b => !strLess b a) l = true))

/-- The digit table `lowerhex` of strconv: "0123456789abcdef". -/
def lowerhex (n : Nat) : Nat := if n < 10 then 48 + n else 87 + n

/-- The function strconv.IsPrint on a rune below utf8.RuneSelf (0x80). -/
def isPrintASCII (r : Nat) : Bool := decide (0x20 ≤ r) && decide (r ≤ 0x7e)

/-- What strconv.appendEscapedRune (quote '"', ASCIIonly and graphicOnly false)
appends for a rune `r` below utf8.RuneSelf. -/
def escapedASCII (r : Nat) : GoString :=
  if r = 34 ∨ r = 92 then [92, r]
  else if isPrintASCII r then [r]
  else if r = 7 then lit "\\a"
  else if r = 8 then lit "\\b"
  else if r = 12 then lit "\\f"
  else if r = 10 then lit "\\n"
  else if r = 13 then lit "\\r"
  else if r = 9 then lit "\\t"
  else if r = 11 then lit "\\v"
  else lit "\\x" ++ [lowerhex (r / 16), lowerhex (r % 16)]

/-- A byte that strconv.Quote copies as it is: printable ASCII other than the
double quote and the backslash. -/
def plainByte (c : Nat) : Prop := 0x20 ≤ c ∧ c ≤ 0x7e ∧ c ≠ DQUOTE ∧ c ≠ BACKSLASH

instance plainByte.decidable (c : Nat) : Decidable (plainByte c) :=
  inferInstanceAs (Decidable (0x20 ≤ c ∧ c ≤ 0x7e ∧ c ≠ DQUOTE ∧ c ≠ BACKSLASH))

/-- The loop of strconv.appendQuotedWith: what it appends for the rest `s` of
the string.  A byte below 0x80 is a rune of width one.  From a byte at or above
0x80 on, the output depends on UTF-8 decoding and on the Unicode tables of
strconv.IsPrint; it is the parameter `nonASCII`, a function of the rest of the
string. -/
def quotedBody (nonASCII : GoString → GoString) : GoString → GoString
  | [] => []
  | c :: s =>
    if c < 0x80 then escapedASCII c ++ quotedBody nonASCII s
    else nonASCII (c :: s)

/-- The verb %q of fmt applied to a string, that is strconv.Quote. -/
def strconvQuote (nonASCII : GoString → GoString) (s : GoString) : GoString :=
  [34] ++ quotedBody nonASCII s ++ [34]

/-- A Go map with string keys: its entries, each key occurring once.  The order
of the list is an order in which `range` may visit the entries. -/
abbrev GoMap (α : Type) := List (GoString × α)

/-- The two-valued index expression `v, ok := m[k]`. -/
def mapLookup {α : Type} : GoMap α → GoString → Option α
  | [], _ => none
  | (k', v) :: rest, k => if k' = k then some v else mapLookup rest k

/-- The index expression `m[k]` on a map of slices: the nil slice when the key
is absent. -/
def mapGet {α : Type} (m : GoMap (List α)) (k : GoString) : List α :=
  (mapLookup m k).getD []

/-- The assignment `m[k] = v`. -/
def mapSet {α : Type} : GoMap α → GoString → α → GoMap α
  | [], k, v => [(k, v)]
  | (k', v') :: rest, k, v =>
    if k' = k then (k, v) :: rest else (k', v') :: mapSet rest k v

/-! ## gitops/bazel/bazeltargets.go -/

namespace bazel

/-- TargetToExecutable of bazeltargets.go. -/
def TargetToExecutable (target : GoString) : GoString :=
  if !hasPrefix target (lit "//") then target
  else
    let tg := lit "bazel-bin/" ++ target.drop 2
    let tg := stringsReplace1 tg (lit ":") (lit "/")
    tg

end bazel

/-! ## gitops/prer/prer.go -/

namespace prer

/-- The struct queryAttribute. -/
structure queryAttribute where
  Name : GoString
  StringValue : GoString
deriving DecidableEq, Repr

/-- The struct queryRule. -/
structure queryRule where
  Name : GoString
  Attribute : List queryAttribute
deriving DecidableEq, Repr

/-- The struct queryTarget. -/
structure queryTarget where
  Rule : queryRule
deriving DecidableEq, Repr

/-- The struct configuredTarget. -/
structure configuredTarget where
  Target : queryTarget
deriving DecidableEq, Repr

/-- The struct cqueryResult. -/
structure cqueryResult where
  Results : List configuredTarget
deriving DecidableEq, Repr

/-- The fields of Config read by the embedded functions. -/
structure Config where
  Target : GoString
  ReleaseBranch : GoString
  GitopsKinds : List GoString
  GitopsRuleNames : List GoString
deriving DecidableEq, Repr

/-- The body of the attribute loop of groupByTrain, on the pair
(depBranch, matchesBranch). -/
def attrStep (releaseBranch : GoString) (st : GoString × Bool)
    (attr : queryAttribute) : GoString × Bool :=
  if attr.Name = lit "deployment_branch" then (attr.StringValue, st.2)
  else if attr.Name = lit "release_branch_prefix" then
    if attr.StringValue = releaseBranch then (st.1, true) else st
  else st

/-- The attribute loop of groupByTrain, from depBranch "" and matchesBranch
false. -/
def scanAttrs (releaseBranch : GoString) (attrs : List queryAttribute) :
    GoString × Bool :=
  attrs.foldl (attrStep releaseBranch) ([], false)

/-- The body of the result loop of groupByTrain. -/
def trainStep (releaseBranch : GoString) (trains : GoMap (List GoString))
    (r : configuredTarget) : GoMap (List GoString) :=
  let rule := r.Target.Rule
  let st := scanAttrs releaseBranch rule.Attribute
  let depBranch := st.1
  let matchesBranch := st.2
  if !matchesBranch || depBranch = [] then trains
  else mapSet trains depBranch (mapGet trains depBranch ++ [rule.Name])

/-- Whether the result loop of groupByTrain files the result `r` under the
key `d`: the `continue` is not taken and depBranch is `d`. -/
def filedUnder (releaseBranch d : GoString) (r : configuredTarget) : Bool :=
  let st := scanAttrs releaseBranch r.Target.Rule.Attribute
  !(!st.2 || st.1 = []) && decide (st.1 = d)

/-- groupByTrain of prer.go: the result loop, then sort.Strings on every
value. -/
def groupByTrain (qr : cqueryResult) (releaseBranch : GoString) :
    GoMap (List GoString) :=
  let trains := qr.Results.foldl (trainStep releaseBranch) []
  trains.map (fun kv => (kv.1, sortStrings kv.2))

/-- The second loop of hasDeletedTargets, with its early return. -/
def anyMissing (cur : GoMap Unit) : List GoString → Bool
  | [] => false
  | t :: rest => if (mapLookup cur t).isNone then true else anyMissing cur rest

/-- hasDeletedTargets of prer.go. -/
def hasDeletedTargets (prev current : List GoString) : Bool :=
  let cur := current.foldl (fun cur t => mapSet cur t ()) ([] : GoMap Unit)
  anyMissing cur prev

/-- The body of the inner loop of collectAllTargets, on the pair (seen, all). -/
def collectStep (st : GoMap Unit × List GoString) (t : GoString) :
    GoMap Unit × List GoString :=
  if (mapLookup st.1 t).isNone then (mapSet st.1 t (), st.2 ++ [t]) else st

/-- The state (seen, all) of collectAllTargets agrees with itself: `all` holds
no string twice and `seen` has exactly the strings of `all` as keys. -/
def collectInv (st : GoMap Unit × List GoString) : Prop :=
  st.2.Nodup ∧ ∀ t, (mapLookup st.1 t).isSome = true ↔ t ∈ st.2

/-- collectAllTargets of prer.go, the entries of `trains` being visited in the
order of the list. -/
def collectAllTargets (trains : GoMap (List GoString)) : List GoString :=
  let st := trains.foldl (fun st kv => kv.2.foldl collectStep st)
    (([] : GoMap Unit), ([] : List GoString))
  sortStrings st.2

/-- The call fmt.Sprintf("kind(%q, %s)", kind, target). -/
def sprintfKind (nonASCII : GoString → GoString) (kind target : GoString) : GoString :=
  lit "kind(" ++ strconvQuote nonASCII kind ++ lit ", " ++ target ++ lit ")"

/-- buildKindQuery of prer.go. -/
def buildKindQuery (nonASCII : GoString → GoString) (cfg : Config) : GoString :=
  if cfg.GitopsKinds.length = 0 then cfg.Target
  else
    let parts := cfg.GitopsKinds.foldl
      (fun parts kind => parts ++ [sprintfKind nonASCII kind cfg.Target]) []
    stringsJoin parts (lit " + ")

/-- The helper makeTarget of prer_test.go. -/
def makeTarget (name depBranch relBranch : GoString) : configuredTarget :=
  { Target := { Rule := { Name := name, Attribute :=
      [ { Name := lit "deployment_branch", StringValue := depBranch },
        { Name := lit "release_branch_prefix", StringValue := relBranch } ] } } }

end prer

namespace prer

/-- The call fmt.Sprintf("kind(%q, deps(%s))", ruleName, target). -/
def sprintfKindDeps (nonASCII : GoString → GoString) (ruleName target : GoString) :
    GoString :=
  lit "kind(" ++ strconvQuote nonASCII ruleName ++ lit ", deps(" ++ target ++ lit "))"

/-- buildDepsQuery of prer.go. -/
def buildDepsQuery (nonASCII : GoString → GoString) (targets : List GoString)
    (cfg : Config) : GoString :=
  if cfg.GitopsRuleNames.length = 0 then []
  else
    let parts := targets.foldl
      (fun parts target => cfg.GitopsRuleNames.foldl
        (fun parts ruleName => parts ++ [sprintfKindDeps nonASCII ruleName target]) parts) []
    if parts.length = 0 then [] else stringsJoin parts (lit " + ")

end prer

/-! ## YAML documents as decoded by go-yaml -/

/-- A decoded YAML value: the dynamic value of an `interface{}`.  A mapping is
a map[string]interface{}, given by its entries; a sequence is a []interface{}.
The bits of a float are carried along; no embedded function looks at them.
A value of this type holds its maps themselves: it is a document in which no
map is held twice, and a function that writes to a map is given by the
document it leaves.  `Cell` and `Heap` below take maps by address, for the
functions that write to a map that may be held twice. -/
inductive Value where
  | null
  | bool (b : Bool)
  | int (i : Int)
  | float (bits : Nat)
  | str (s : GoString)
  | seq (items : List Value)
  | map (entries : List (GoString × Value))
deriving Repr

/-- A map[string]interface{}. -/
abbrev YMap := GoMap Value

mutual
/-- Structural equality of two values. -/
def Value.beq : Value → Value → Bool
  | .null, .null => true
  | .bool a, .bool b => decide (a = b)
  | .int a, .int b => decide (a = b)
  | .float a, .float b => decide (a = b)
  | .str a, .str b => decide (a = b)
  | .seq a, .seq b => Value.beqList a b
  | .map a, .map b => Value.beqEntries a b
  | _, _ => false
/-- Structural equality of two sequences of values. -/
def Value.beqList : List Value → List Value → Bool
  | [], [] => true
  | a :: as, b :: bs => Value.beq a b && Value.beqList as bs
  | _, _ => false
/-- Structural equality of two lists of entries. -/
def Value.beqEntries : List (GoString × Value) → List (GoString × Value) → Bool
  | [], [] => true
  | (k, a) :: as, (l, b) :: bs => decide (k = l) && (Value.beq a b && Value.beqEntries as bs)
  | _, _ => false
end

mutual
/-- The nesting depth of a value: 0 for a scalar. -/
def Value.depth : Value → Nat
  | .seq items => Value.depthList items + 1
  | .map entries => Value.depthEntries entries + 1
  | _ => 0
/-- The largest depth of an item. -/
def Value.depthList : List Value → Nat
  | [] => 0
  | v :: rest => max (Value.depth v) (Value.depthList rest)
/-- The largest depth of the value of an entry. -/
def Value.depthEntries : List (GoString × Value) → Nat
  | [] => 0
  | (_, v) :: rest => max (Value.depth v) (Value.depthEntries rest)
end

mutual
/-- Every mapping of a value, at any depth, the value itself included. -/
def Value.maps : Value → List (List (GoString × Value))
  | .seq items => Value.mapsList items
  | .map entries => entries :: Value.mapsEntries entries
  | _ => []
/-- Every mapping of the items of a sequence. -/
def Value.mapsList : List Value → List (List (GoString × Value))
  | [] => []
  | v :: rest => Value.maps v ++ Value.mapsList rest
/-- Every mapping of the values of the entries of a mapping. -/
def Value.mapsEntries : List (GoString × Value) → List (List (GoString × Value))
  | [] => []
  | (_, v) :: rest => Value.maps v ++ Value.mapsEntries rest
end

/-- The statement delete(m, k). -/
def mapDelete {α : Type} : GoMap α → GoString → GoMap α
  | [], _ => []
  | (k', v) :: rest, k => if k' = k then mapDelete rest k else (k', v) :: mapDelete rest k

/-- The type assertion `v.(map[string]interface{})` on the result of an index
expression. -/
def asMap : Option Value → Option YMap
  | some (.map m) => some m
  | _ => none

/-- The type assertion `v.(string)` on the result of an index expression. -/
def asString : Option Value → Option GoString
  | some (.str s) => some s
  | _ => none

/-- The type assertion `v.([]interface{})` on the result of an index
expression. -/
def asSlice : Option Value → Option (List Value)
  | some (.seq items) => some items
  | _ => none

/-- extractName of resolver.go and of filter.go, which have the same text. -/
def extractName (obj : YMap) : GoString :=
  match asMap (mapLookup obj (lit "metadata")) with
  | none => []
  | some metadata =>
    match asString (mapLookup metadata (lit "name")) with
    | none => []
    | some name => name

/-- extractKind of resolver.go and of filter.go, which have the same text. -/
def extractKind (obj : YMap) : GoString :=
  match asString (mapLookup obj (lit "kind")) with
  | none => []
  | some kind => kind

/-- One call of decoder.Decode(&obj) that does not return io.EOF: a document
that is a mapping, a document that leaves obj nil, or an error with its
message.  An input stream is the list of these results, io.EOF coming after the
last. -/
inductive Decoded where
  | obj (o : YMap)
  | null
  | err (msg : GoString)
deriving Repr

/-- Whether the call of Decode returned an error. -/
def Decoded.isErr : Decoded → Bool
  | .err _ => true
  | _ => false

/-- The separator line written between documents. -/
def SEP : GoString := lit "---\n"

/-! ## resolver/resolver.go -/

namespace resolver

/-- The result of a run with fuel: `none` when the fuel ran out, otherwise what
the Go function returns, an error message or a value. -/
abbrev Run (α : Type) := Option (Except GoString α)

/-- Sequencing of two runs. -/
def Run.andThen {α β : Type} (x : Run α) (f : α → Run β) : Run β :=
  match x with
  | none => none
  | some (.error e) => some (.error e)
  | some (.ok a) => f a

/-- The loop body of updateContainers from the index of the first item on: the
rest of the slice after the loop, or the error returned. -/
def updateContainersLoop (images : GoMap GoString) : List Value → Except GoString (List Value)
  | [] => .ok []
  | item :: rest =>
    match item with
    | .map container =>
      match mapLookup container (lit "image") with
      | some (.str imageName) =>
        match mapLookup images imageName with
        | some newName =>
          match updateContainersLoop images rest with
          | .error e => .error e
          | .ok rest' => .ok (.map (mapSet container (lit "image") (.str newName)) :: rest')
        | none =>
          if hasPrefix imageName (lit "//") then
            .error (lit "unresolved image found: " ++ imageName)
          else
            match updateContainersLoop images rest with
            | .error e => .error e
            | .ok rest' => .ok (item :: rest')
      | _ =>
        match updateContainersLoop images rest with
        | .error e => .error e
        | .ok rest' => .ok (item :: rest')
    | _ =>
      match updateContainersLoop images rest with
      | .error e => .error e
      | .ok rest' => .ok (item :: rest')

/-- The method updateContainers: the error returned, or the map `obj` after the
call. -/
def updateContainers (images : GoMap GoString) (obj : YMap) (path : GoString) :
    Except GoString YMap :=
  match mapLookup obj path with
  | some (.seq containers) =>
    match updateContainersLoop images containers with
    | .error e => .error e
    | .ok containers' => .ok (mapSet obj path (.seq containers'))
  | _ => .ok obj

/-- The method updateContainer: the error returned, or the map `obj` after the
call. -/
def updateContainer (images : GoMap GoString) (obj : YMap) (path : GoString) :
    Except GoString YMap :=
  match mapLookup obj path with
  | some (.map container) =>
    match mapLookup container (lit "image") with
    | some (.str imageName) =>
      if hasPrefix imageName (lit "//") then
        .error (lit "unresolved image found: " ++ imageName)
      else
        match mapLookup images imageName with
        | some newName =>
          .ok (mapSet obj path (.map (mapSet container (lit "image") (.str newName))))
        | none => .ok obj
    | _ => .ok obj
  | _ => .ok obj

/-- The image for which the list form fails on an item: the item is a map with
a string `image` value S that is no key of the image map and starts with //. -/
def unresolvedImage (images : GoMap GoString) : Value → Option GoString
  | .map container =>
    match mapLookup container (lit "image") with
    | some (.str imageName) =>
      if (mapLookup images imageName).isNone && hasPrefix imageName (lit "//") then
        some imageName
      else none
    | _ => none
  | _ => none

/-- An item of a containers list after the substitution: a map with a string
`image` value that is a key of the image map has its image bound to the mapped
value; any other item is as before. -/
def resolvedItem (images : GoMap GoString) : Value → Value
  | .map container =>
    match mapLookup container (lit "image") with
    | some (.str imageName) =>
      match mapLookup images imageName with
      | some newName => .map (mapSet container (lit "image") (.str newName))
      | none => .map container
    | _ => .map container
  | v => v

/-- The value is not a map with a string `image` value that is a key of the
image map or starts with //. -/
def imageUntouched (images : GoMap GoString) : Value → Bool
  | .map container =>
    match mapLookup container (lit "image") with
    | some (.str imageName) =>
      (mapLookup images imageName).isNone && !hasPrefix imageName (lit "//")
    | _ => true
  | _ => true

/-- No map under the key `container` or `spec` of the map `m`, and no item of a
list under its key `containers` or `initContainers`, has a string `image` value
that is a key of the image map or starts with //. -/
def levelClean (images : GoMap GoString) (m : YMap) : Bool :=
  ([lit "container", lit "spec"].all fun pa =>
    match mapLookup m pa with
    | some v => imageUntouched images v
    | none => true) &&
  ([lit "containers", lit "initContainers"].all fun pa =>
    match mapLookup m pa with
    | some (.seq items) => items.all (imageUntouched images)
    | _ => true)

/-- One of the two loops over paths of findAndReplaceTag, on the pair of the
map and the variable `found`. -/
def pathLoop (update : YMap → GoString → Except GoString YMap) :
    List GoString → YMap × Bool → Except GoString (YMap × Bool)
  | [], st => .ok st
  | pa :: rest, st =>
    let found := (mapLookup st.1 pa).isSome
    if found then
      match update st.1 pa with
      | .error e => .error e
      | .ok obj => pathLoop update rest (obj, found)
    else pathLoop update rest (st.1, found)

/-- The inner loop of findContainers over the items of a slice, `recur` being
findAndReplaceTag. -/
def findContainersItems (recur : YMap → Run YMap) : List Value → Run (List Value)
  | [] => some (.ok [])
  | item :: rest =>
    match item with
    | .map m =>
      Run.andThen (recur m) (fun m' =>
        Run.andThen (findContainersItems recur rest) (fun rest' =>
          some (.ok (.map m' :: rest'))))
    | _ =>
      Run.andThen (findContainersItems recur rest) (fun rest' => some (.ok (item :: rest')))

/-- The loop of findContainers over the entries of the map, `recur` being
findAndReplaceTag. -/
def findContainersEntries (recur : YMap → Run YMap) : YMap → Run YMap
  | [] => some (.ok [])
  | (key, v) :: rest =>
    match v with
    | .map typedVal =>
      Run.andThen (recur typedVal) (fun m' =>
        Run.andThen (findContainersEntries recur rest) (fun rest' =>
          some (.ok ((key, .map m') :: rest'))))
    | .seq typedVal =>
      Run.andThen (findContainersItems recur typedVal) (fun items' =>
        Run.andThen (findContainersEntries recur rest) (fun rest' =>
          some (.ok ((key, .seq items') :: rest'))))
    | _ =>
      Run.andThen (findContainersEntries recur rest) (fun rest' =>
        some (.ok ((key, v) :: rest')))

/-- The method findAndReplaceTag, with a bound `fuel` on the depth of the
recursion through findContainers. -/
def findAndReplaceTag (images : GoMap GoString) : Nat → YMap → Run YMap
  | 0, _ => none
  | fuel + 1, obj =>
    match pathLoop (updateContainer images) [lit "container", lit "spec"] (obj, false) with
    | .error e => some (.error e)
    | .ok st =>
      match pathLoop (updateContainers images) [lit "containers", lit "initContainers"] st with
      | .error e => some (.error e)
      | .ok st =>
        if !st.2 then findContainersEntries (findAndReplaceTag images fuel) st.1
        else some (.ok st.1)

/-- The method findContainers, with the fuel left for findAndReplaceTag. -/
def findContainers (images : GoMap GoString) (fuel : Nat) (obj : YMap) : Run YMap :=
  findContainersEntries (findAndReplaceTag images fuel) obj

/-- The call pt.findAndReplaceTag(obj) of ResolveImages, run with fuel above
the depth of the document, which is enough for it to return. -/
def findAndReplaceTagRun (images : GoMap GoString) (obj : YMap) : Except GoString YMap :=
  match findAndReplaceTag images (Value.depthEntries obj + 1) obj with
  | some r => r
  | none => .ok obj

/-- The loop of ResolveImages, on the variable `firstObj` and the bytes written
to `out` so far: the bytes written to `out` and the error returned, if any.
`out` is a buffer, whose Write does not fail; `fmtV` is the verb %v on a map and
`marshal` is yaml.Marshal. -/
def resolveLoop (fmtV : YMap → GoString) (marshal : YMap → Except GoString GoString)
    (images : GoMap GoString) : Bool → GoString → List Decoded → GoString × Option GoString
  | _, out, [] => (out, none)
  | firstObj, out, d :: rest =>
    match d with
    | .err e => (out, some (lit "resolving images" ++ lit ": decoding yaml: " ++ e))
    | .null => resolveLoop fmtV marshal images firstObj out rest
    | .obj obj =>
      let name := extractName obj
      if name = [] then
        (out, some (lit "resolving images" ++ lit ": missing metadata.name in object "
          ++ fmtV obj))
      else
        let kind := extractKind obj
        if kind = [] then
          (out, some (lit "resolving images" ++ lit ": missing kind in object " ++ fmtV obj))
        else
          match findAndReplaceTagRun images obj with
          | .error e => (out, some (lit "resolving images" ++ lit ": " ++ e))
          | .ok obj =>
            match marshal obj with
            | .error e =>
              (out, some (lit "resolving images" ++ lit ": marshaling object: " ++ e))
            | .ok buf =>
              let out := if firstObj then out else out ++ SEP
              resolveLoop fmtV marshal images false (out ++ buf) rest

/-- ResolveImages of resolver.go on the decoded input stream. -/
def ResolveImages (fmtV : YMap → GoString) (marshal : YMap → Except GoString GoString)
    (input : List Decoded) (imgMap : GoMap GoString) : GoString × Option GoString :=
  resolveLoop fmtV marshal imgMap true [] input

end resolver
/-! ## testing/it_manifest_filter/filter.go -/

namespace filter

/-- extractAPIVersion of filter.go. -/
def extractAPIVersion (obj : YMap) : GoString :=
  match asString (mapLookup obj (lit "apiVersion")) with
  | none => []
  | some v => v

/-- The first statements of findAndReplacePVC, `found` being the result of
findPVC(obj): with the key persistentVolumeClaim the map loses it and gets
emptyDir bound to an empty map, and findPVC is not called. -/
def replacePVCOr (obj : YMap) (found : YMap) : YMap :=
  if (mapLookup obj (lit "persistentVolumeClaim")).isSome then
    mapSet (mapDelete obj (lit "persistentVolumeClaim")) (lit "emptyDir") (.map [])
  else found

mutual
/-- The `switch` of findPVC on the value of one key. -/
def findPVCValue : Value → Value
  | .map typedVal => .map (replacePVCOr typedVal (findPVC typedVal))
  | .seq typedVal => .seq (findPVCItems typedVal)
  | v => v
/-- findPVC of filter.go: the map after the loop over its keys. -/
def findPVC : YMap → YMap
  | [] => []
  | (key, v) :: rest => (key, findPVCValue v) :: findPVC rest
/-- The inner loop of findPVC over the items of a slice. -/
def findPVCItems : List Value → List Value
  | [] => []
  | item :: rest => findPVCItem item :: findPVCItems rest
/-- The body of the inner loop of findPVC on one item. -/
def findPVCItem : Value → Value
  | .map item => .map (replacePVCOr item (findPVC item))
  | v => v
end

/-- findAndReplacePVC of filter.go: the map after the call. -/
def findAndReplacePVC (obj : YMap) : YMap :=
  replacePVCOr obj (findPVC obj)

/-- One hop of the walk of findPVC from a map to a map below it: the value of a
key, or the item of index `i` of the sequence under a key. -/
abbrev Hop := GoString × Option Nat

/-- The map reached from `m` by one hop, if there is one. -/
def descend (m : YMap) (h : Hop) : Option YMap :=
  match h.2 with
  | none => asMap (mapLookup m h.1)
  | some i =>
    match mapLookup m h.1 with
    | some (.seq items) => asMap items[i]?
    | _ => none

/-- The map reached from `m` by a list of hops, if there is one. -/
def walk : YMap → List Hop → Option YMap
  | m, [] => some m
  | m, h :: rest =>
    match descend m h with
    | some c => walk c rest
    | none => none

/-- navigateToTemplateSpec of filter.go, `none` being the nil map. -/
def navigateToTemplateSpec (spec : YMap) : Option YMap :=
  match asMap (mapLookup spec (lit "template")) with
  | none => none
  | some template =>
    match asMap (mapLookup template (lit "spec")) with
    | none => none
    | some tplSpec => some tplSpec

/-- The assignment templateSpec["volumes"] = volumes seen from `spec`, of which
templateSpec is the map at template.spec. -/
def setTemplateSpecVolumes (spec : YMap) (volumes : List Value) : YMap :=
  match asMap (mapLookup spec (lit "template")) with
  | none => spec
  | some template =>
    match asMap (mapLookup template (lit "spec")) with
    | none => spec
    | some tplSpec =>
      mapSet spec (lit "template")
        (.map (mapSet template (lit "spec")
          (.map (mapSet tplSpec (lit "volumes") (.seq volumes)))))

/-- extractVolumes of filter.go. -/
def extractVolumes (tplSpec : YMap) : List Value :=
  match mapLookup tplSpec (lit "volumes") with
  | none => []
  | some volsRaw =>
    match asSlice (some volsRaw) with
    | none => []
    | some vols => vols

/-- extractStorageRequest of filter.go. -/
def extractStorageRequest (vct : YMap) : GoString :=
  match asMap (mapLookup vct (lit "spec")) with
  | none => []
  | some spec =>
    match asMap (mapLookup spec (lit "resources")) with
    | none => []
    | some resources =>
      match asMap (mapLookup resources (lit "requests")) with
      | none => []
      | some requests =>
        match asString (mapLookup requests (lit "storage")) with
        | none => []
        | some storage => storage

/-- The loop of processStatefulSet that builds existingVolumes, from the index
`idx` of the first volume of the list on. -/
def indexVolumes : List Value → Nat → GoMap Nat → GoMap Nat
  | [], _, existingVolumes => existingVolumes
  | volRaw :: rest, idx, existingVolumes =>
    match volRaw with
    | .map volMap =>
      match asString (mapLookup volMap (lit "name")) with
      | some volName => indexVolumes rest (idx + 1) (mapSet existingVolumes volName idx)
      | none => indexVolumes rest (idx + 1) existingVolumes
    | _ => indexVolumes rest (idx + 1) existingVolumes

/-- The volume that processStatefulSet builds for a template of name tplName
and storage request `storage`. -/
def emptyDirVolume (tplName storage : GoString) : Value :=
  let emptyDir : YMap := []
  let emptyDir := if storage ≠ [] then mapSet emptyDir (lit "sizeLimit") (.str storage)
    else emptyDir
  .map [(lit "name", .str tplName), (lit "emptyDir", .map emptyDir)]

/-- The body of the loop of processStatefulSet over the templates, on the slice
`volumes`. -/
def vctStep (existingVolumes : GoMap Nat) (volumes : List Value) (vctItem : Value) :
    List Value :=
  match vctItem with
  | .map vctMap =>
    let tplName := extractName vctMap
    if tplName = [] then volumes
    else
      let storage := extractStorageRequest vctMap
      let vol := emptyDirVolume tplName storage
      match mapLookup existingVolumes tplName with
      | some idx => volumes.set idx vol
      | none => volumes ++ [vol]
  | _ => volumes

/-- The name of a volume: the string under the key `name` of an item of the
volumes list that is a map. -/
def volName : Value → Option GoString
  | .map volMap => asString (mapLookup volMap (lit "name"))
  | _ => none

/-- Whether the list of volumes has a volume of name `n`. -/
def hasVolumeNamed (volumes : List Value) (n : GoString) : Bool :=
  volumes.any (fun v => decide (volName v = some n))

/-- The name of a claim template: its metadata.name. -/
def tplName : Value → GoString
  | .map vctMap => extractName vctMap
  | _ => []

/-- The volume that processStatefulSet builds for a claim template. -/
def tplVolume : Value → Value
  | .map vctMap => emptyDirVolume (extractName vctMap) (extractStorageRequest vctMap)
  | _ => .null

/-- The slice `volumes` of processStatefulSet after its loop over the
templates `vcts`, templateSpec being `tspec`. -/
def newVolumes (tspec : YMap) (vcts : List Value) : List Value :=
  vcts.foldl (vctStep (indexVolumes (extractVolumes tspec) 0 [])) (extractVolumes tspec)

/-- processStatefulSet of filter.go: the document after the call. -/
def processStatefulSet (obj : YMap) : YMap :=
  match asMap (mapLookup obj (lit "spec")) with
  | none => obj
  | some spec =>
    match mapLookup spec (lit "volumeClaimTemplates") with
    | none => obj
    | some vctRaw =>
      match asSlice (some vctRaw) with
      | none => obj
      | some vctSlice =>
        if vctSlice.length = 0 then obj
        else
          match navigateToTemplateSpec spec with
          | none => obj
          | some templateSpec =>
            let volumes := extractVolumes templateSpec
            let existingVolumes := indexVolumes volumes 0 []
            let volumes := vctSlice.foldl (vctStep existingVolumes) volumes
            let spec := setTemplateSpecVolumes spec volumes
            let spec := mapDelete spec (lit "volumeClaimTemplates")
            let obj := mapSet obj (lit "spec") (.map spec)
            mapDelete obj (lit "status")

/-- findAndReplaceIssuerName of filter.go: the document after the call. -/
def findAndReplaceIssuerName (obj : YMap) : YMap :=
  match asMap (mapLookup obj (lit "spec")) with
  | none => obj
  | some spec =>
    match asMap (mapLookup spec (lit "issuerRef")) with
    | none => obj
    | some issuerRef =>
      if asString (mapLookup issuerRef (lit "name")) = some (lit "letsencrypt-prod") then
        mapSet obj (lit "spec")
          (.map (mapSet spec (lit "issuerRef")
            (.map (mapSet issuerRef (lit "name") (.str (lit "letsencrypt-staging"))))))
      else obj

/-- The statements of the loop body of ReplacePDWithEmptyDirs between the drop
rules and yaml.Marshal, `kind` being the kind read before them: the document
after them. -/
def transformDoc (kind : GoString) (obj : YMap) : YMap :=
  let apiVersion := extractAPIVersion obj
  let obj := if kind = lit "StatefulSet" ∧ apiVersion = lit "apps/v1" then
      processStatefulSet obj else obj
  let obj := if kind = lit "Certificate" then findAndReplaceIssuerName obj else obj
  findAndReplacePVC obj

/-- The loop of ReplacePDWithEmptyDirs, on the variable `firstObj` and the bytes
written to `out` so far: the bytes written to `out` and the error returned, if
any.  `out` is a buffer, whose Write does not fail; `fmtV` is the verb %v on a
map and `marshal` is yaml.Marshal. -/
def replaceLoop (fmtV : YMap → GoString) (marshal : YMap → Except GoString GoString) :
    Bool → GoString → List Decoded → GoString × Option GoString
  | _, out, [] => (out, none)
  | firstObj, out, d :: rest =>
    match d with
    | .err e => (out, some (lit "replacing PD with empty dirs" ++ lit ": decoding yaml: " ++ e))
    | .null => replaceLoop fmtV marshal firstObj out rest
    | .obj obj =>
      let name := extractName obj
      if name = [] then
        (out, some (lit "replacing PD with empty dirs"
          ++ lit ": missing metadata.name in object " ++ fmtV obj))
      else
        let kind := extractKind obj
        if kind = [] then
          (out, some (lit "replacing PD with empty dirs"
            ++ lit ": missing kind in object " ++ fmtV obj))
        else if kind = lit "PersistentVolumeClaim" then
          replaceLoop fmtV marshal firstObj out rest
        else if kind = lit "Ingress" then
          replaceLoop fmtV marshal firstObj out rest
        else
          let obj := transformDoc kind obj
          match marshal obj with
          | .error e =>
            (out, some (lit "replacing PD with empty dirs" ++ lit ": marshaling object: " ++ e))
          | .ok buf =>
            let out := if firstObj then out else out ++ SEP
            replaceLoop fmtV marshal false (out ++ buf) rest

/-- ReplacePDWithEmptyDirs of filter.go on the decoded input stream. -/
def ReplacePDWithEmptyDirs (fmtV : YMap → GoString)
    (marshal : YMap → Except GoString GoString) (input : List Decoded) :
    GoString × Option GoString :=
  replaceLoop fmtV marshal true [] input

end filter
/-! ## The document loop shared by the two transformers -/

/-- What a transformer does with one document that is a mapping: it returns an
error, it goes on to the next document without writing, or it writes the bytes
`buf`. -/
inductive DocAction where
  | fail (msg : GoString)
  | drop
  | emit (buf : GoString)
deriving DecidableEq, Repr

/-- Whether the action is to go on without writing. -/
def DocAction.isDrop : DocAction → Bool
  | .drop => true
  | _ => false

/-- The loop that ResolveImages and ReplacePDWithEmptyDirs have in common, the
treatment of one document being `act` and the message of a decoding error
`decodeMsg`. -/
def streamLoop (decodeMsg : GoString → GoString) (act : YMap → DocAction) :
    Bool → GoString → List Decoded → GoString × Option GoString
  | _, out, [] => (out, none)
  | firstObj, out, d :: rest =>
    match d with
    | .err e => (out, some (decodeMsg e))
    | .null => streamLoop decodeMsg act firstObj out rest
    | .obj obj =>
      match act obj with
      | .fail msg => (out, some msg)
      | .drop => streamLoop decodeMsg act firstObj out rest
      | .emit buf =>
        let out := if firstObj then out else out ++ SEP
        streamLoop decodeMsg act false (out ++ buf) rest

/-- The buffers written one after the other, each one but the first after a
separator, the first one too when `firstObj` is false. -/
def sepJoin : Bool → List GoString → GoString
  | _, [] => []
  | firstObj, buf :: rest => (if firstObj then buf else SEP ++ buf) ++ sepJoin false rest

/-- The documents of an input stream that are mappings, in order. -/
def docsOf : List Decoded → List YMap
  | [] => []
  | .obj o :: rest => o :: docsOf rest
  | _ :: rest => docsOf rest

/-- What the loop body of ResolveImages does with one document. -/
def resolver.resolveAction (fmtV : YMap → GoString)
    (marshal : YMap → Except GoString GoString) (images : GoMap GoString) (obj : YMap) :
    DocAction :=
  if extractName obj = [] then
    .fail (lit "resolving images" ++ lit ": missing metadata.name in object " ++ fmtV obj)
  else if extractKind obj = [] then
    .fail (lit "resolving images" ++ lit ": missing kind in object " ++ fmtV obj)
  else
    match resolver.findAndReplaceTagRun images obj with
    | .error e => .fail (lit "resolving images" ++ lit ": " ++ e)
    | .ok obj =>
      match marshal obj with
      | .error e => .fail (lit "resolving images" ++ lit ": marshaling object: " ++ e)
      | .ok buf => .emit buf

/-- The drop rule of the filter: the kind is neither PersistentVolumeClaim nor
Ingress. -/
def filter.kept (obj : YMap) : Bool :=
  decide (extractKind obj ≠ lit "PersistentVolumeClaim") &&
    decide (extractKind obj ≠ lit "Ingress")

/-- What the loop body of ReplacePDWithEmptyDirs does with one document. -/
def filter.replaceAction (fmtV : YMap → GoString)
    (marshal : YMap → Except GoString GoString) (obj : YMap) : DocAction :=
  if extractName obj = [] then
    .fail (lit "replacing PD with empty dirs"
      ++ lit ": missing metadata.name in object " ++ fmtV obj)
  else if extractKind obj = [] then
    .fail (lit "replacing PD with empty dirs" ++ lit ": missing kind in object " ++ fmtV obj)
  else if extractKind obj = lit "PersistentVolumeClaim" then .drop
  else if extractKind obj = lit "Ingress" then .drop
  else
    match marshal (filter.transformDoc (extractKind obj) obj) with
    | .error e =>
      .fail (lit "replacing PD with empty dirs" ++ lit ": marshaling object: " ++ e)
    | .ok buf => .emit buf

/-- The document has no usable name: metadata.name is missing, is not a string,
or is the empty string. -/
def lacksName (obj : YMap) : Prop :=
  ∀ md n, mapLookup obj (lit "metadata") = some (.map md) →
    mapLookup md (lit "name") = some (.str n) → n = []

/-- The document has no usable kind: `kind` is missing, is not a string, or is
the empty string. -/
def lacksKind (obj : YMap) : Prop :=
  ∀ k, mapLookup obj (lit "kind") = some (.str k) → k = []
/-! ## Example documents -/

namespace filter

/-- A claim template of name `data` with a storage request of 1Gi. -/
def exampleTemplateData : Value :=
  .map [(lit "metadata", .map [(lit "name", .str (lit "data"))]),
    (lit "spec", .map [(lit "resources", .map [(lit "requests",
      .map [(lit "storage", .str (lit "1Gi"))])])])]

/-- A claim template of name `logs` without storage request. -/
def exampleTemplateLogs : Value :=
  .map [(lit "metadata", .map [(lit "name", .str (lit "logs"))])]

/-- The pod spec of exampleStatefulSet, with the volumes `cfg` and `data`. -/
def exampleTemplateSpec : YMap :=
  [(lit "volumes", .seq [.map [(lit "name", .str (lit "cfg")), (lit "configMap", .map [])],
    .map [(lit "name", .str (lit "data")), (lit "hostPath", .map [])]])]

/-- The spec of exampleStatefulSet. -/
def exampleSpec : YMap :=
  [(lit "template", .map [(lit "spec", .map exampleTemplateSpec)]),
    (lit "volumeClaimTemplates", .seq [exampleTemplateData, exampleTemplateLogs])]

/-- A StatefulSet with two claim templates and a status. -/
def exampleStatefulSet : YMap :=
  [(lit "apiVersion", .str (lit "apps/v1")), (lit "kind", .str (lit "StatefulSet")),
    (lit "metadata", .map [(lit "name", .str (lit "db"))]),
    (lit "spec", .map exampleSpec), (lit "status", .map [])]

/-- A StatefulSet whose list of claim templates is empty, with a status. -/
def exampleEmptyTemplates : YMap :=
  [(lit "apiVersion", .str (lit "apps/v1")), (lit "kind", .str (lit "StatefulSet")),
    (lit "metadata", .map [(lit "name", .str (lit "db"))]),
    (lit "spec", .map [(lit "template", .map [(lit "spec", .map [])]),
      (lit "volumeClaimTemplates", .seq [])]),
    (lit "status", .map [(lit "replicas", .int 1)])]

/-- A volume with a claim, which has below it a second map with a claim. -/
def exampleNestedClaim : YMap :=
  [(lit "volume", .map [(lit "name", .str (lit "data")),
    (lit "persistentVolumeClaim", .map [(lit "claimName", .str (lit "c"))]),
    (lit "extra", .map [(lit "persistentVolumeClaim", .map [])])])]

end filter

/-- Whether no mapping of the document, at any depth, has the key
persistentVolumeClaim. -/
def filter.noClaimKey (obj : YMap) : Bool :=
  (Value.maps (.map obj)).all
    (fun m => (mapLookup m (lit "persistentVolumeClaim")).isNone)

/-- Whether the document has a mapping at `spec` with the key
volumeClaimTemplates. -/
def filter.carriesTemplates (obj : YMap) : Bool :=
  match asMap (mapLookup obj (lit "spec")) with
  | none => false
  | some spec => (mapLookup spec (lit "volumeClaimTemplates")).isSome

/-- The string at spec.issuerRef.name, if there is one. -/
def filter.issuerName (obj : YMap) : Option GoString :=
  match asMap (mapLookup obj (lit "spec")) with
  | none => none
  | some spec =>
    match asMap (mapLookup spec (lit "issuerRef")) with
    | none => none
    | some issuerRef => asString (mapLookup issuerRef (lit "name"))

/-- A document that none of the rules of the filter concerns: no key
persistentVolumeClaim at any depth, not a StatefulSet with
spec.volumeClaimTemplates, not a Certificate of issuer letsencrypt-prod, and a
kind that is neither PersistentVolumeClaim nor Ingress. -/
def filter.plainDoc (obj : YMap) : Bool :=
  filter.noClaimKey obj &&
    !(decide (extractKind obj = lit "StatefulSet") && filter.carriesTemplates obj) &&
    !(decide (extractKind obj = lit "Certificate") &&
      decide (filter.issuerName obj = some (lit "letsencrypt-prod"))) &&
    filter.kept obj

/-- The two loops over paths of findAndReplaceTag on the map `obj`: the error
returned from one of the rewrites, or the map and the variable `found` after
the loops. -/
def resolver.rewriteLevel (images : GoMap GoString) (obj : YMap) :
    Except GoString (YMap × Bool) :=
  match resolver.pathLoop (resolver.updateContainer images)
      [lit "container", lit "spec"] (obj, false) with
  | .error e => .error e
  | .ok st =>
    resolver.pathLoop (resolver.updateContainers images)
      [lit "containers", lit "initContainers"] st

/-! ## Files, and the cut of a string at a separator -/

/-- The call os.ReadFile(path) on the files of a run: the content of the file,
or the message of the error. -/
abbrev ReadFile := GoString → Except GoString GoString

/-- The call bytes.Index(s, sep) followed by the two slices s[:n] and
s[n+len(sep):]: the parts of `s` before and after the first occurrence of
`sep`, or `none` when the index is negative. -/
def stringsCut (sep : GoString) : GoString → Option (GoString × GoString)
  | [] => if sep = [] then some ([], []) else none
  | c :: rest =>
    if hasPrefix (c :: rest) sep then some ([], (c :: rest).drop sep.length)
    else
      match stringsCut sep rest with
      | some (before, after) => some (c :: before, after)
      | none => none

/-- The call strings.SplitN(s, sep, 2) with a separator that is not empty: the
two parts of `s` around the first occurrence of `sep`, or `s` alone. -/
def splitN2 (s sep : GoString) : List GoString :=
  match stringsCut sep s with
  | some (before, after) => [before, after]
  | none => [s]

/-! ## valyala/fasttemplate, on maps whose values are strings -/

namespace fasttemplate

/-- stdTagFunc: the value of the tag in the map, nothing for a tag that is no
key of it. -/
def stdTagFunc (m : GoMap GoString) (tag : GoString) : GoString :=
  match mapLookup m tag with
  | some value => value
  | none => []

/-- keepUnknownTagFunc: the value of the tag in the map, and for a tag that is
no key of it the start tag, the tag and the end tag. -/
def keepUnknownTagFunc (startTag endTag : GoString) (m : GoMap GoString) (tag : GoString) :
    GoString :=
  match mapLookup m tag with
  | some value => value
  | none => startTag ++ tag ++ endTag

/-- The loop of ExecuteFunc and the write that follows it, on the rest `s` of
the template: the bytes written.  A start tag with no end tag after it is
written as it is, with what follows.  `none` when the bound `fuel` on the
number of iterations is reached. -/
def executeFuncLoop (a b : GoString) (f : GoString → GoString) : Nat → GoString → Option GoString
  | 0, _ => none
  | fuel + 1, s =>
    match stringsCut a s with
    | none => some s
    | some (text, s1) =>
      match stringsCut b s1 with
      | none => some (text ++ a ++ s1)
      | some (tag, s2) =>
        match executeFuncLoop a b f fuel s2 with
        | none => none
        | some out => some (text ++ f tag ++ out)

/-- ExecuteFuncString, the tag function writing `f tag`: a template without
start tag is returned as it is.  The loop runs with more iterations than the
template has bytes, which is enough for it to end when the start tag is not
empty. -/
def ExecuteFuncString (template startTag endTag : GoString) (f : GoString → GoString) :
    GoString :=
  if (stringsCut startTag template).isNone then template
  else
    match executeFuncLoop startTag endTag f (template.length + 1) template with
    | some out => out
    | none => template

/-- ExecuteStringStd: unknown placeholders are kept. -/
def ExecuteStringStd (template startTag endTag : GoString) (m : GoMap GoString) : GoString :=
  ExecuteFuncString template startTag endTag (keepUnknownTagFunc startTag endTag m)

/-- A parsed template: the texts around the tags, and the tags. -/
structure Template where
  template : GoString
  texts : List GoString
  tags : List GoString
deriving DecidableEq, Repr

/-- The loop of Template.Reset on the rest `s` of the template: the texts and
the tags, or an error at a start tag with no end tag after it.  `none` when
the bound `fuel` on the number of iterations is reached. -/
def resetLoop (a b : GoString) :
    Nat → GoString → Option (Option (List GoString × List GoString))
  | 0, _ => none
  | fuel + 1, s =>
    match stringsCut a s with
    | none => some (some ([s], []))
    | some (text, s1) =>
      match stringsCut b s1 with
      | none => some none
      | some (tag, s2) =>
        match resetLoop a b fuel s2 with
        | none => none
        | some none => some none
        | some (some (texts, tags)) => some (some (text :: texts, tag :: tags))

/-- The function New with tags that are not empty: the parsed template, or
`none` when it panics, which it does on the error of Reset.  A template without
start tag has no texts and no tags. -/
def New (template startTag endTag : GoString) : Option Template :=
  if (stringsCut startTag template).isNone then some ⟨template, [], []⟩
  else
    match resetLoop startTag endTag (template.length + 1) template with
    | some (some (texts, tags)) => some ⟨template, texts, tags⟩
    | _ => none

/-- The loop of Template.ExecuteFunc over the tags and the write of the last
text. -/
def writeParts (f : GoString → GoString) : List GoString → List GoString → GoString
  | text :: texts, tag :: tags => text ++ f tag ++ writeParts f texts tags
  | text :: _, [] => text
  | [], _ => []

/-- Template.ExecuteString: unknown placeholders are written as nothing. -/
def Template.ExecuteString (t : Template) (m : GoMap GoString) : GoString :=
  if t.texts.length = 0 then t.template
  else writeParts (stdTagFunc m) t.texts t.tags

end fasttemplate

/-! ## stamper/stamper.go -/

namespace stamper

/-- The body of the loop of LoadStamps over the lines of a file. -/
def lineStep (stamps : GoMap GoString) (line : GoString) : GoMap GoString :=
  match splitN2 line (lit " ") with
  | [key, value] => mapSet stamps key value
  | _ => stamps

/-- The loop of LoadStamps over the files, on the map `stamps`. -/
def loadLoop (readFile : ReadFile) : List GoString → GoMap GoString →
    Except GoString (GoMap GoString)
  | [], stamps => .ok stamps
  | sf :: rest, stamps =>
    match readFile sf with
    | .error err => .error (lit "loading stamps" ++ lit ": " ++ err)
    | .ok content => loadLoop readFile rest ((commitmsg.splitLines content).foldl lineStep stamps)

/-- LoadStamps of stamper.go. -/
def LoadStamps (readFile : ReadFile) (infoFiles : List GoString) :
    Except GoString (GoMap GoString) :=
  loadLoop readFile infoFiles []

/-- Stamp of stamper.go. -/
def Stamp (readFile : ReadFile) (infoFiles : List GoString) (format : GoString) :
    Except GoString GoString :=
  match LoadStamps readFile infoFiles with
  | .error err => .error (lit "stamping" ++ lit ": " ++ err)
  | .ok stamps => .ok (fasttemplate.ExecuteStringStd format (lit "\x7b") (lit "\x7d") stamps)

end stamper

/-- What an item binds a key `K` to in a loop that cuts the item at its first
byte `c`, into `k` and `v`, and binds each of the keys `keys k` to `g v`. -/
def cutWrite (c : Nat) (keys : GoString → List GoString) (g : GoString → GoString)
    (x K : GoString) : Option GoString :=
  match stringsCut [c] x with
  | some (k, v) => if K ∈ keys k then some (g v) else none
  | none => none

/-! ## templating/engine.go -/

namespace templating

/-- The fields of Engine. -/
structure Engine where
  StartTag : GoString
  EndTag : GoString
  StampInfoFiles : List GoString
deriving DecidableEq, Repr

/-- The method tags of Engine. -/
def Engine.tags (en : Engine) : GoString × GoString :=
  let startTag := if en.StartTag = [] then lit "\x7b\x7b" else en.StartTag
  let endTag := if en.EndTag = [] then lit "\x7d\x7d" else en.EndTag
  (startTag, endTag)

/-- The body of the loop of loadStamps over the lines of a file. -/
def Engine.loadLine (stamps : GoMap GoString) (line : GoString) : GoMap GoString :=
  match splitN2 line (lit " ") with
  | [key, value] => mapSet stamps key value
  | _ => stamps

/-- The loop of loadStamps over the files, on the map `stamps`. -/
def Engine.loadFiles (readFile : ReadFile) : List GoString → GoMap GoString →
    Except GoString (GoMap GoString)
  | [], stamps => .ok stamps
  | sf :: rest, stamps =>
    match readFile sf with
    | .error err => .error (lit "loading stamps" ++ lit ": " ++ err)
    | .ok content =>
      Engine.loadFiles readFile rest ((commitmsg.splitLines content).foldl Engine.loadLine stamps)

/-- The method loadStamps of Engine. -/
def Engine.loadStamps (readFile : ReadFile) (en : Engine) : Except GoString (GoMap GoString) :=
  Engine.loadFiles readFile en.StampInfoFiles []

/-- The method resolveVars of Engine: the error returned, or the map `ctx`
after the call. -/
def Engine.resolveVars : List GoString → GoMap GoString → GoMap GoString →
    Except GoString (GoMap GoString)
  | [], _, ctx => .ok ctx
  | vr :: rest, stamps, ctx =>
    match splitN2 vr (lit "=") with
    | [name, value] =>
      let val := fasttemplate.ExecuteStringStd value (lit "\x7b") (lit "\x7d") stamps
      let ctx := mapSet ctx name val
      let ctx := mapSet ctx (lit "variables." ++ name) val
      Engine.resolveVars rest stamps ctx
    | _ =>
      .error (lit "resolving variables" ++ lit ": variable must be VAR=value, got " ++ vr)

/-- The body of the loop of resolveVars on a variable with a `=`: the map `ctx`
after it.  On a variable without `=`, where the loop returns, the map as it
is. -/
def Engine.bindVar (stamps ctx : GoMap GoString) (vr : GoString) : GoMap GoString :=
  match splitN2 vr (lit "=") with
  | [name, value] =>
    let val := fasttemplate.ExecuteStringStd value (lit "\x7b") (lit "\x7d") stamps
    let ctx := mapSet ctx name val
    mapSet ctx (lit "variables." ++ name) val
  | _ => ctx

/-- The method resolveImports of Engine: the error returned, or the map `ctx`
after the call. -/
def Engine.resolveImports (readFile : ReadFile) (en : Engine) : List GoString →
    GoMap GoString → GoMap GoString → Except GoString (GoMap GoString)
  | [], _, ctx => .ok ctx
  | im :: rest, stamps, ctx =>
    match splitN2 im (lit "=") with
    | [name, file] =>
      match readFile file with
      | .error err =>
        .error (lit "resolving imports" ++ lit ": reading " ++ file ++ lit ": " ++ err)
      | .ok content =>
        let val := fasttemplate.ExecuteStringStd content en.tags.1 en.tags.2 ctx
        let ctx := mapSet ctx (lit "imports." ++ name)
          (fasttemplate.ExecuteStringStd val (lit "\x7b") (lit "\x7d") stamps)
        Engine.resolveImports readFile en rest stamps ctx
    | _ =>
      .error (lit "resolving imports" ++ lit ": import must be NAME=filename, got " ++ im)

/-- The method readTemplate of Engine, `stdin` being what io.ReadAll(os.Stdin)
returns. -/
def Engine.readTemplate (readFile : ReadFile) (stdin : Except GoString GoString)
    (tplPath : GoString) : Except GoString GoString :=
  if tplPath ≠ [] then
    match readFile tplPath with
    | .error err => .error (lit "reading template" ++ lit ": " ++ err)
    | .ok content => .ok content
  else
    match stdin with
    | .error err => .error (lit "reading template" ++ lit ": reading stdin: " ++ err)
    | .ok content => .ok content

/-- The method openOutput of Engine, `openFile` being the error of os.OpenFile
on a path and a mode, if any: the error returned, if any. -/
def Engine.openOutput (openFile : GoString → Nat → Option GoString) (outPath : GoString)
    (executable : Bool) : Option GoString :=
  if outPath = [] then none
  else
    let perm := if executable then 0o777 else 0o666
    match openFile outPath perm with
    | some err => some (lit "opening output" ++ lit ": " ++ err)
    | none => none

/-- The method Expand of Engine: the error returned, or the bytes written to
the output, whose Write does not fail.  The context starts as a copy of the
stamps. -/
def Engine.Expand (readFile : ReadFile) (stdin : Except GoString GoString)
    (openFile : GoString → Nat → Option GoString) (en : Engine)
    (tplPath outPath : GoString) (vars imports : List GoString) (executable : Bool) :
    Except GoString GoString :=
  match en.loadStamps readFile with
  | .error err => .error (lit "expanding template" ++ lit ": " ++ err)
  | .ok stamps =>
    let ctx := stamps
    match Engine.resolveVars vars stamps ctx with
    | .error err => .error (lit "expanding template" ++ lit ": " ++ err)
    | .ok ctx =>
      match en.resolveImports readFile imports stamps ctx with
      | .error err => .error (lit "expanding template" ++ lit ": " ++ err)
      | .ok ctx =>
        match Engine.readTemplate readFile stdin tplPath with
        | .error err => .error (lit "expanding template" ++ lit ": " ++ err)
        | .ok tplContent =>
          match Engine.openOutput openFile outPath executable with
          | some err => .error (lit "expanding template" ++ lit ": " ++ err)
          | none =>
            .ok (fasttemplate.ExecuteStringStd tplContent en.tags.1 en.tags.2 ctx)

end templating

/-! ## gitops/prer/prer.go: stamping -/

namespace prer

/-- How a call of stampFile ends: with a panic, with an error, or with the
content written to the file. -/
inductive StampResult where
  | panicked
  | failed (err : GoString)
  | written (content : GoString)
deriving DecidableEq, Repr

/-- getStampContext of prer.go. -/
def getStampContext (gitCommit branchName : GoString) : GoMap GoString :=
  [(lit "STABLE_GIT_COMMIT", gitCommit),
   (lit "STABLE_GIT_BRANCH", branchName),
   (lit "BUILD_TIMESTAMP", lit "0"),
   (lit "BUILD_EMBED_LABEL", lit ""),
   (lit "RANDOM_SEED", lit ""),
   (lit "STABLE_BUILD_LABEL", lit "")]

/-- stampFile of prer.go, `writeFile` being the error of os.WriteFile on a path,
a content and a mode, if any. -/
def stampFile (readFile : ReadFile) (writeFile : GoString → GoString → Nat → Option GoString)
    (path : GoString) (ctx : GoMap GoString) : StampResult :=
  match readFile path with
  | .error err => .failed (lit "stamping file" ++ lit ": read " ++ path ++ lit ": " ++ err)
  | .ok data =>
    match fasttemplate.New data (lit "\x7b\x7b") (lit "\x7d\x7d") with
    | none => .panicked
    | some tpl =>
      let result := tpl.ExecuteString ctx
      match writeFile path result 0o644 with
      | some err => .failed (lit "stamping file" ++ lit ": write " ++ path ++ lit ": " ++ err)
      | none => .written result

end prer

/-! ## gitops/git/bitbucket/bitbucket.go -/

/-- The verb %d on an int. -/
def fmtD : Int → GoString
  | .ofNat n => (Nat.toDigits 10 n).map Char.toNat
  | .negSucc n => 45 :: (Nat.toDigits 10 (n + 1)).map Char.toNat

namespace bitbucket

/-- The method CreatePR of Provider, from what its calls return: the error of
json.Marshal, if any, the error of http.NewRequestWithContext, if any, and the
error of http.DefaultClient.Do or the status code of the response.  The result
is the error returned, `none` being nil. -/
def CreatePR (marshalErr buildErr : Option GoString) (resp : Except GoString Int) :
    Option GoString :=
  match marshalErr with
  | some err => some (lit "creating bitbucket pull request" ++ lit ": marshal request: " ++ err)
  | none =>
    match buildErr with
    | some err =>
      some (lit "creating bitbucket pull request" ++ lit ": build request: " ++ err)
    | none =>
      match resp with
      | .error err =>
        some (lit "creating bitbucket pull request" ++ lit ": send request: " ++ err)
      | .ok statusCode =>
        if statusCode = 201 then none
        else if statusCode = 409 then none
        else
          some (lit "creating bitbucket pull request" ++ lit ": unexpected status "
            ++ fmtD statusCode)

end bitbucket

/-! ## gitops/git/provider.go and gitops/git/repo.go -/

namespace git

/-- The type GitProviderFunc, for a type `Ctx` of contexts and a type `Err` of
returned errors. -/
abbrev GitProviderFunc (Ctx Err : Type) :=
  Ctx → GoString → GoString → GoString → GoString → Err

/-- The method CreatePR of GitProviderFunc. -/
def GitProviderFunc.CreatePR {Ctx Err : Type} (f : GitProviderFunc Ctx Err) (ctx : Ctx)
    (from_ to_ title body : GoString) : Err :=
  let body := if body = [] then title else body
  f ctx from_ to_ title body

/-- The clone as the runs of processTrain see it: for each branch that exists,
the messages of the commits it holds above the primary branch, the last commit
first. -/
abbrev Repo := GoMap (List GoString)

/-- The method SwitchToBranch: the checkout fails on a branch that does not
exist, which is then created at the primary branch. -/
def Repo.SwitchToBranch (r : Repo) (branch : GoString) : Repo × Bool :=
  match mapLookup r branch with
  | none => (mapSet r branch [], true)
  | some _ => (r, false)

/-- The method RecreateBranch: the branch is reset to the primary branch. -/
def Repo.RecreateBranch (r : Repo) (branch : GoString) : Repo :=
  mapSet r branch []

/-- The method GetLastCommitMessage with `branch` checked out, primaryMsg being
the message of the last commit of the primary branch. -/
def Repo.GetLastCommitMessage (r : Repo) (primaryMsg branch : GoString) : GoString :=
  match mapLookup r branch with
  | some (msg :: _) => msg
  | _ => primaryMsg

/-- The method Commit with `branch` checked out, `clean` being what IsClean
returns after the files are added. -/
def Repo.Commit (r : Repo) (branch message : GoString) (clean : Bool) : Repo × Bool :=
  if clean then (r, false)
  else (mapSet r branch (message :: mapGet r branch), true)

end git

/-! ## gitops/prer/prer.go: processTrain -/

namespace prer

/-- What a run of processTrain gets from outside the repository: the targets
of the train, the error of stampChangedFiles when stamping is enabled and
fails, and whether the working tree is clean once the targets have run. -/
structure TrainRun where
  targets : List GoString
  stampErr : Option GoString
  clean : Bool
deriving DecidableEq, Repr

/-- processTrain of prer.go on the repository: the repository after the call
and what the call returns. -/
def processTrain (primaryMsg : GoString) (repo : git.Repo) (depBranch : GoString)
    (run : TrainRun) : git.Repo × Except GoString Bool :=
  let (repo, isNew) := repo.SwitchToBranch depBranch
  let repo :=
    if !isNew then
      let lastMsg := repo.GetLastCommitMessage primaryMsg depBranch
      let prev := commitmsg.ExtractTargets lastMsg
      if hasDeletedTargets prev run.targets then repo.RecreateBranch depBranch else repo
    else repo
  match run.stampErr with
  | some err => (repo, .error (lit "processing deployment train" ++ lit ": stamp files: " ++ err))
  | none =>
    let msg := commitmsg.Generate run.targets
    let (repo, committed) := repo.Commit depBranch msg run.clean
    (repo, .ok committed)

/-- The runs of processTrain on one deployment branch, one after the other:
the repository after the last. -/
def processTrains (primaryMsg : GoString) (depBranch : GoString) :
    git.Repo → List TrainRun → git.Repo
  | repo, [] => repo
  | repo, run :: rest =>
    processTrains primaryMsg depBranch (processTrain primaryMsg repo depBranch run).1 rest

end prer

/-- The map at spec.issuerRef, if there is one. -/
def filter.issuerRefOf (obj : YMap) : Option YMap :=
  match asMap (mapLookup obj (lit "spec")) with
  | none => none
  | some spec => asMap (mapLookup spec (lit "issuerRef"))

/-! ## Documents with maps taken by address

A Go map is a reference: a write to it shows under every key and in every slice
that holds it, which is how a document with a YAML anchor and its aliases comes
to these functions when the decoder gives them one map.  The definitions above
take a document as a tree, which is the document when no map is held twice.
Here a document is a heap of maps, and the functions that write to a map write
to the heap.  None of them writes to a slice, so a slice is held with its
items. -/

/-- A value held by a map or by a slice: a scalar, a slice with its items, or
the address of a map. -/
inductive Cell where
  | null
  | bool (b : Bool)
  | int (i : Int)
  | float (bits : Nat)
  | str (s : GoString)
  | seq (items : List Cell)
  | ref (a : Nat)
deriving Repr

/-- The entries of a map[string]interface{} whose maps are taken by address. -/
abbrev HMap := GoMap Cell

/-- The maps of a run, each at its address, which is its index. -/
abbrev Heap := List HMap

/-- The type assertion `v.(string)` on the result of an index expression. -/
def cellString : Option Cell → Option GoString
  | some (.str s) => some s
  | _ => none

/-- The index expression `m[k]` on the map at address `a`. -/
def heapLookup (h : Heap) (a : Nat) (k : GoString) : Option Cell :=
  match h[a]? with
  | some m => mapLookup m k
  | none => none

/-- The statement `m[k] = v` on the map at address `a`. -/
def heapWrite (h : Heap) (a : Nat) (k : GoString) (v : Cell) : Heap :=
  match h[a]? with
  | some m => h.set a (mapSet m k v)
  | none => h

/-- The value that a walk from a cell reads, as yaml.Marshal does: the map at an
address is read with its entries wherever it is held.  The bound `fuel` is on
the depth of the walk; `none` when it is reached. -/
def cellValue : Nat → Heap → Cell → Option Value
  | 0, _, _ => none
  | _ + 1, _, .null => some .null
  | _ + 1, _, .bool b => some (.bool b)
  | _ + 1, _, .int i => some (.int i)
  | _ + 1, _, .float bits => some (.float bits)
  | _ + 1, _, .str s => some (.str s)
  | fuel + 1, h, .seq items => (items.mapM (cellValue fuel h)).map Value.seq
  | fuel + 1, h, .ref a =>
    match h[a]? with
    | some m =>
      (m.mapM fun kv => (cellValue fuel h kv.2).map fun v => (kv.1, v)).map Value.map
    | none => none

/-- The document at the address `obj` of a heap, as a tree. -/
def document (h : Heap) (obj : Nat) : Option YMap :=
  match cellValue (h.length + 1) h (.ref obj) with
  | some (.map m) => some m
  | _ => none

/-- The addresses of the maps that a list of values holds as items. -/
def itemRefs : List Cell → List Nat
  | [] => []
  | .ref a :: rest => a :: itemRefs rest
  | _ :: rest => itemRefs rest

/-- The addresses of the maps that a map holds, as values of its keys and as
items of the slices that are values of its keys. -/
def childRefs : HMap → List Nat
  | [] => []
  | (_, .ref a) :: rest => a :: childRefs rest
  | (_, .seq items) :: rest => itemRefs items ++ childRefs rest
  | _ :: rest => childRefs rest

namespace heap

/-- The loop of updateContainers of resolver.go from the first item of
`containers` on: the error returned, or the heap after the loop.  The image of
an item is read when the loop reaches the item. -/
def updateContainersLoop (images : GoMap GoString) : List Cell → Heap → Except GoString Heap
  | [], h => .ok h
  | item :: rest, h =>
    match item with
    | .ref c =>
      match h[c]? with
      | some container =>
        match mapLookup container (lit "image") with
        | some (.str imageName) =>
          match mapLookup images imageName with
          | some newName =>
            updateContainersLoop images rest
              (h.set c (mapSet container (lit "image") (.str newName)))
          | none =>
            if hasPrefix imageName (lit "//") then
              .error (lit "unresolved image found: " ++ imageName)
            else updateContainersLoop images rest h
        | _ => updateContainersLoop images rest h
      | none => updateContainersLoop images rest h
    | _ => updateContainersLoop images rest h

/-- The method updateContainers of resolver.go on the map at address `obj`: the
error returned, or the heap after the call. -/
def updateContainers (images : GoMap GoString) (h : Heap) (obj : Nat) (path : GoString) :
    Except GoString Heap :=
  match h[obj]? with
  | some m =>
    match mapLookup m path with
    | some (.seq containers) => updateContainersLoop images containers h
    | _ => .ok h
  | none => .ok h

/-- The method updateContainer of resolver.go on the map at address `obj`: the
error returned, or the heap after the call. -/
def updateContainer (images : GoMap GoString) (h : Heap) (obj : Nat) (path : GoString) :
    Except GoString Heap :=
  match h[obj]? with
  | some m =>
    match mapLookup m path with
    | some (.ref c) =>
      match h[c]? with
      | some container =>
        match mapLookup container (lit "image") with
        | some (.str imageName) =>
          if hasPrefix imageName (lit "//") then
            .error (lit "unresolved image found: " ++ imageName)
          else
            match mapLookup images imageName with
            | some newName => .ok (h.set c (mapSet container (lit "image") (.str newName)))
            | none => .ok h
        | _ => .ok h
      | none => .ok h
    | _ => .ok h
  | none => .ok h

/-- The image for which the loop of updateContainers fails on a map: a string
that is no key of the image map and starts with //. -/
def unresolvedImage (images : GoMap GoString) (container : HMap) : Option GoString :=
  match mapLookup container (lit "image") with
  | some (.str imageName) =>
    if (mapLookup images imageName).isNone && hasPrefix imageName (lit "//") then
      some imageName
    else none
  | _ => none

/-- A map after the substitution of the list form: a string image that is a
key of the image map is bound to the mapped value. -/
def resolvedMap (images : GoMap GoString) (container : HMap) : HMap :=
  match mapLookup container (lit "image") with
  | some (.str imageName) =>
    match mapLookup images imageName with
    | some newName => mapSet container (lit "image") (.str newName)
    | none => container
  | _ => container

/-- findAndReplaceIssuerName of filter.go on the document at address `obj`: the
heap after the call. -/
def findAndReplaceIssuerName (h : Heap) (obj : Nat) : Heap :=
  match heapLookup h obj (lit "spec") with
  | some (.ref spec) =>
    match heapLookup h spec (lit "issuerRef") with
    | some (.ref issuerRef) =>
      if cellString (heapLookup h issuerRef (lit "name")) = some (lit "letsencrypt-prod") then
        heapWrite h issuerRef (lit "name") (.str (lit "letsencrypt-staging"))
      else h
    | _ => h
  | _ => h

/-- The statement of the loop body of ReplacePDWithEmptyDirs that calls
findAndReplaceIssuerName on a document of kind Certificate. -/
def issuerStep (kind : GoString) (h : Heap) (obj : Nat) : Heap :=
  if kind = lit "Certificate" then findAndReplaceIssuerName h obj else h

/-- The address of the map at spec.issuerRef of the document at address `obj`,
if there is one. -/
def issuerRefAddr (h : Heap) (obj : Nat) : Option Nat :=
  match heapLookup h obj (lit "spec") with
  | some (.ref spec) =>
    match heapLookup h spec (lit "issuerRef") with
    | some (.ref issuerRef) => some issuerRef
    | _ => none
  | _ => none

/-- The string at spec.issuerRef.name of the document at address `obj`, if
there is one. -/
def issuerName (h : Heap) (obj : Nat) : Option GoString :=
  match issuerRefAddr h obj with
  | some issuerRef => cellString (heapLookup h issuerRef (lit "name"))
  | none => none

/-- The statement of the loop body of ReplacePDWithEmptyDirs that reads the
kind of the document at address `obj`: extractKind of filter.go. -/
def extractKind (h : Heap) (obj : Nat) : GoString :=
  match cellString (heapLookup h obj (lit "kind")) with
  | some kind => kind
  | none => []

/-- Whether a map has the key persistentVolumeClaim. -/
def hasClaim (m : HMap) : Bool :=
  (mapLookup m (lit "persistentVolumeClaim")).isSome

/-- The map `m` after the first statements of findAndReplacePVC, the new empty
map being at address `f`. -/
def claimReplaced (m : HMap) (f : Nat) : HMap :=
  mapSet (mapDelete m (lit "persistentVolumeClaim")) (lit "emptyDir") (.ref f)

/-- The first statements of findAndReplacePVC on the map `m` at address `obj`,
which has the key persistentVolumeClaim: the key is deleted and emptyDir is
bound to a new map, which is empty and gets the next address. -/
def replaceClaim (h : Heap) (obj : Nat) (m : HMap) : Heap :=
  (h.set obj (claimReplaced m h.length)) ++ [[]]

/-- The inner loop of findPVC over the items of a slice, `recur` being
findAndReplacePVC. -/
def findPVCItems (recur : Heap → Nat → Option Heap) : Heap → List Cell → Option Heap
  | h, [] => some h
  | h, item :: rest =>
    match item with
    | .ref a =>
      match recur h a with
      | none => none
      | some h1 => findPVCItems recur h1 rest
    | _ => findPVCItems recur h rest

/-- The loop of findPVC of filter.go over the keys of the map at address
`obj`, from the first key of `keys` on, `recur` being findAndReplacePVC; the
value of a key is read when the loop reaches the key. -/
def findPVC (recur : Heap → Nat → Option Heap) : Heap → Nat → List GoString → Option Heap
  | h, _, [] => some h
  | h, obj, key :: rest =>
    match (h[obj]?).bind (fun m => mapLookup m key) with
    | some (.ref typedVal) =>
      match recur h typedVal with
      | none => none
      | some h1 => findPVC recur h1 obj rest
    | some (.seq typedVal) =>
      match findPVCItems recur h typedVal with
      | none => none
      | some h1 => findPVC recur h1 obj rest
    | _ => findPVC recur h obj rest

/-- The order in which a range loop goes through the keys of the map at an
address of a heap, which Go leaves open. -/
abbrev KeyOrder := Heap → Nat → List GoString

/-- The keys of a map in the order of its entries. -/
def listOrder : KeyOrder := fun h a =>
  match h[a]? with
  | some m => m.map Prod.fst
  | none => []

/-- An order of the keys that leaves out no key of a map. -/
def KeyOrder.complete (order : KeyOrder) : Prop :=
  ∀ (h : Heap) (a : Nat) (m : HMap) (key : GoString), h[a]? = some m →
    (mapLookup m key).isSome = true → key ∈ order h a

/-- findAndReplacePVC of filter.go on the map at address `obj`, with a bound
`fuel` on the depth of the calls: the heap after the call, `none` when the
bound is reached.  The range loop of findPVC takes the keys in the order
`order`. -/
def findAndReplacePVC (order : KeyOrder) : Nat → Heap → Nat → Option Heap
  | 0, _, _ => none
  | fuel + 1, h, obj =>
    match h[obj]? with
    | none => some h
    | some m =>
      if hasClaim m then some (replaceClaim h obj m)
      else findPVC (findAndReplacePVC order fuel) h obj (order h obj)

/-- The call findAndReplacePVC(obj) of the filter, run with more depth than the
heap has maps, which is enough for it to return on a heap in which no map is
reached from itself. -/
def findAndReplacePVCRun (order : KeyOrder) (h : Heap) (obj : Nat) : Heap :=
  match findAndReplacePVC order (h.length + 1) h obj with
  | some h1 => h1
  | none => h

/-- The map `m` holds the map at address `c`, as the value of a key or as an
item of the slice that is the value of a key: the maps that the loops of
findPVC go to from `m`. -/
def holds (m : HMap) (c : Nat) : Prop :=
  ∃ key, mapLookup m key = some (.ref c) ∨
    ∃ items, mapLookup m key = some (.seq items) ∧ Cell.ref c ∈ items

/-- The map at address `b` is reached from the map at address `a` by going from
a map to a map it holds, through maps that have no key persistentVolumeClaim,
the last one apart. -/
inductive Reach (h : Heap) : Nat → Nat → Prop where
  | here (a : Nat) : Reach h a a
  | next (a c b : Nat) (m : HMap) : h[a]? = some m → hasClaim m = false → holds m c →
      Reach h c b → Reach h a b

/-- What the heap `h1` can be after calls of findAndReplacePVC on the heap
`h`: a map of `h` is as it was, or it had the key persistentVolumeClaim and
has lost it for the key emptyDir, bound to a new map that is empty; the maps
of `h1` that are not in `h` are new and empty. -/
def Evolves (h h1 : Heap) : Prop :=
  h.length ≤ h1.length ∧
  (∀ (a : Nat) (m : HMap), h[a]? = some m →
    h1[a]? = some m ∨
    (hasClaim m = true ∧ ∃ f : Nat, h.length ≤ f ∧ h1[a]? = some (claimReplaced m f) ∧
      h1[f]? = some [])) ∧
  (∀ f : Nat, h.length ≤ f → f < h1.length → h1[f]? = some [])

/-- No map of the heap `h1` that is reached from the address `a` in the heap
`h0`, through maps of `h0` without the key persistentVolumeClaim, has that
key. -/
def Cleared (h0 h1 : Heap) (a : Nat) : Prop :=
  ∀ b : Nat, Reach h0 a b → ∀ mb : HMap, h1[b]? = some mb → hasClaim mb = false

/-- Whether every map of the heap holds only maps of lower rank, so that no
map is reached from itself. -/
def ranked (rank : Nat → Nat) (h : Heap) : Bool :=
  (List.range h.length).all fun a =>
    match h[a]? with
    | some m => (childRefs m).all fun c => decide (rank c < rank a)
    | none => true

/-- The document filter.exampleNestedClaim, in which every map is held once:
the map under `volume` has the key persistentVolumeClaim and, under `extra`, a
map that has it too. -/
def exampleNestedClaim : Heap :=
  [[(lit "volume", .ref 1)],
   [(lit "name", .str (lit "data")), (lit "persistentVolumeClaim", .ref 2),
     (lit "extra", .ref 3)],
   [(lit "claimName", .str (lit "c"))],
   [(lit "persistentVolumeClaim", .ref 4)],
   []]

/-- A document in which the keys `a` and `b` hold the same map, which has the
key persistentVolumeClaim and, under `sub`, a map that has it too. -/
def exampleSharedClaim : Heap :=
  [[(lit "a", .ref 1), (lit "b", .ref 1)],
   [(lit "persistentVolumeClaim", .ref 2), (lit "sub", .ref 3)],
   [],
   [(lit "persistentVolumeClaim", .ref 4)],
   []]

/-- A Certificate of issuer letsencrypt-prod. -/
def exampleCertificate : Heap :=
  [[(lit "kind", .str (lit "Certificate")), (lit "metadata", .ref 1), (lit "spec", .ref 2)],
   [(lit "name", .str (lit "c"))],
   [(lit "secretName", .str (lit "tls")), (lit "issuerRef", .ref 3)],
   [(lit "kind", .str (lit "ClusterIssuer")), (lit "name", .str (lit "letsencrypt-prod"))]]

/-- A Certificate in which the keys `issuerRef` and `other` of `spec` hold the
same map. -/
def exampleSharedIssuer : Heap :=
  [[(lit "kind", .str (lit "Certificate")), (lit "metadata", .ref 1), (lit "spec", .ref 2)],
   [(lit "name", .str (lit "c"))],
   [(lit "issuerRef", .ref 3), (lit "other", .ref 3)],
   [(lit "name", .str (lit "letsencrypt-prod"))]]

end heap

/-! ## Lemmas on the commit-message codec -/

namespace commitmsg

theorem splitLines_ne_nil (s : GoString) : splitLines s ≠ [] := by
  cases s with
  | nil => simp [splitLines]
  | cons c s =>
    unfold splitLines
    split
    · simp
    · split <;> simp

theorem splitLines_append_newline (a b : GoString) :
    splitLines (a ++ NL :: b) = splitLines a ++ splitLines b := by
  induction a with
  | nil => simp [splitLines]
  | cons c a ih =>
    by_cases hc : c = NL
    · simp [splitLines, hc, ih]
    · have hne := splitLines_ne_nil a
      have hstep : ∀ x : GoString, splitLines (c :: x)
          = match splitLines x with
            | [] => [[c]]
            | l :: ls => (c :: l) :: ls := by
        intro x
        rw [splitLines]
        simp [hc]
      rw [List.cons_append, hstep, hstep, ih]
      cases h : splitLines a with
      | nil => exact absurd h hne
      | cons l ls => rfl

theorem splitLines_of_no_newline (t : GoString) (h : NL ∉ t) : splitLines t = [t] := by
  induction t with
  | nil => simp [splitLines]
  | cons c t ih =>
    have hc : c ≠ NL := fun e => h (by simp [e])
    have ht : NL ∉ t := fun e => h (by simp [e])
    simp [splitLines, hc, ih ht]

theorem targetBlock_append (T : List GoString) (a b : GoString) :
    targetBlock T a ++ b = targetBlock T (a ++ b) := by
  induction T with
  | nil => rfl
  | cons t T ih => simp [targetBlock, ih]

theorem foldl_write_targets (T : List GoString) (sb : GoString) :
    T.foldl (fun sb t => (sb ++ t) ++ [NL]) sb = sb ++ targetBlock T [] := by
  induction T generalizing sb with
  | nil => simp [targetBlock]
  | cons t T ih =>
    rw [List.foldl_cons, ih]
    simp [targetBlock]

/-- The writes of Generate as one concatenation. -/
theorem generate_eq (T : List GoString) :
    Generate T = NL :: (begin ++ NL :: targetBlock T (end_ ++ [NL])) := by
  unfold Generate
  simp only [foldl_write_targets]
  simp [targetBlock_append]

theorem begin_no_newline : NL ∉ begin := by decide

theorem end_no_newline : NL ∉ end_ := by decide

theorem begin_ne_end : begin ≠ end_ := by decide

/-- The lines of a block of targets followed by more text. -/
theorem splitLines_targets (T : List GoString) (hnl : ∀ t ∈ T, NL ∉ t) (rest : GoString) :
    splitLines (targetBlock T rest) = T ++ splitLines rest := by
  induction T with
  | nil => rfl
  | cons t T ih =>
    have ht : NL ∉ t := hnl t (by simp)
    have hT : ∀ u ∈ T, NL ∉ u := fun u hu => hnl u (by simp [hu])
    rw [targetBlock, splitLines_append_newline, splitLines_of_no_newline t ht, ih hT]
    rfl

/-- The lines of a message made of a prefix, a generated block and a suffix. -/
theorem splitLines_wrapped (T : List GoString) (hnl : ∀ t ∈ T, NL ∉ t) (P S : GoString) :
    splitLines (P ++ Generate T ++ S)
      = splitLines P ++ ([begin] ++ (T ++ ([end_] ++ splitLines S))) := by
  have h1 : P ++ Generate T ++ S
      = P ++ NL :: (begin ++ NL :: targetBlock T (end_ ++ NL :: S)) := by
    rw [generate_eq]
    simp [targetBlock_append]
  rw [h1, splitLines_append_newline, splitLines_append_newline,
    splitLines_of_no_newline _ begin_no_newline, splitLines_targets T hnl,
    splitLines_append_newline, splitLines_of_no_newline _ end_no_newline]

/-- Outside a region, lines other than the begin marker leave the state as it
is. -/
theorem scanLines_outside (lines : List GoString) (h : begin ∉ lines)
    (tg : List GoString) :
    scanLines { targets := tg, betweenMarkers := false } lines
      = { targets := tg, betweenMarkers := false } := by
  induction lines with
  | nil => rfl
  | cons l ls ih =>
    have hl : l ≠ begin := fun e => h (by simp [e])
    have hls : begin ∉ ls := fun e => h (by simp [e])
    have hstep : scanLine { targets := tg, betweenMarkers := false } l
        = { targets := tg, betweenMarkers := false } := by
      unfold scanLine
      by_cases he : l = end_
      · simp [hl]
      · simp [hl, he]
    simp only [scanLines, List.foldl_cons, hstep]
    exact ih hls

/-- Inside a region, lines that are no marker are appended in order. -/
theorem scanLines_inside (T : List GoString) (h : ∀ t ∈ T, t ≠ begin ∧ t ≠ end_)
    (tg : List GoString) :
    scanLines { targets := tg, betweenMarkers := true } T
      = { targets := tg ++ T, betweenMarkers := true } := by
  induction T generalizing tg with
  | nil => simp [scanLines]
  | cons t T ih =>
    have ht := h t (by simp)
    have hT : ∀ u ∈ T, u ≠ begin ∧ u ≠ end_ := fun u hu => h u (by simp [hu])
    have hstep : scanLine { targets := tg, betweenMarkers := true } t
        = { targets := tg ++ [t], betweenMarkers := true } := by
      simp [scanLine, ht.1, ht.2]
    simp only [scanLines, List.foldl_cons, hstep]
    have := ih hT (tg ++ [t])
    simpa [scanLines] using this

theorem scanLines_append (st : ScanState) (a b : List GoString) :
    scanLines st (a ++ b) = scanLines (scanLines st a) b := by
  simp [scanLines, List.foldl_append]

/-- Once a region is open, it stays open as long as no end marker comes. -/
theorem scanLines_open (lines : List GoString) (h : end_ ∉ lines) (st : ScanState)
    (hst : st.betweenMarkers = true) : (scanLines st lines).betweenMarkers = true := by
  induction lines generalizing st with
  | nil => simpa [scanLines] using hst
  | cons l ls ih =>
    have hl : l ≠ end_ := fun e => h (by simp [e])
    have hls : end_ ∉ ls := fun e => h (by simp [e])
    have hstep : (scanLine st l).betweenMarkers = true := by
      unfold scanLine
      by_cases hb : l = begin <;> simp [hb, hl, hst]
    simpa [scanLines] using ih hls (scanLine st l) hstep

theorem scanLine_begin (st : ScanState) :
    scanLine st begin = { st with betweenMarkers := true } := by
  simp [scanLine]

theorem scanLine_end (st : ScanState) :
    scanLine st end_ = { st with betweenMarkers := false } := by
  have : end_ ≠ begin := fun e => begin_ne_end e.symm
  simp [scanLine, this]

/-- ExtractTargets on a message whose lines are a prefix without begin marker,
a marker pair around targets, and a suffix without begin marker. -/
theorem extract_wrapped (T : List GoString) (hnl : ∀ t ∈ T, NL ∉ t)
    (hm : ∀ t ∈ T, t ≠ begin ∧ t ≠ end_) (P S : GoString)
    (hP : begin ∉ splitLines P) (hS : begin ∉ splitLines S) :
    ExtractTargets (P ++ Generate T ++ S) = T := by
  unfold ExtractTargets
  rw [splitLines_wrapped T hnl, scanLines_append, scanLines_outside _ hP,
    scanLines_append, scanLines_append, scanLines_append]
  have h1 : scanLines { targets := [], betweenMarkers := false } [begin]
      = { targets := [], betweenMarkers := true } := by
    simp [scanLines, scanLine_begin]
  rw [h1, scanLines_inside T hm]
  have h2 : scanLines { targets := [] ++ T, betweenMarkers := true } [end_]
      = { targets := T, betweenMarkers := false } := by
    simp [scanLines, scanLine_end]
  rw [h2, scanLines_outside _ hS]
  simp

end commitmsg

/-! ## Lemmas on the order of strings and on sort.Strings -/

theorem strLess_irrefl (a : GoString) : strLess a a = false := by
  induction a with
  | nil => rfl
  | cons x a ih => simp [strLess, ih]

theorem strLe_total (a b : GoString) : strLe a b ∨ strLe b a := by
  unfold strLe
  induction a generalizing b with
  | nil => cases b <;> simp [strLess]
  | cons x a ih =>
    cases b with
    | nil => simp [strLess]
    | cons y b =>
      rcases Nat.lt_trichotomy x y with h | h | h
      · have h2 : ¬ y < x := by omega
        simp [strLess, h, h2]
      · subst h
        simpa [strLess] using ih b
      · have h2 : ¬ x < y := by omega
        simp [strLess, h, h2]

theorem strLe_trans (a b c : GoString) (hab : strLe a b) (hbc : strLe b c) : strLe a c := by
  unfold strLe at *
  induction a generalizing b c with
  | nil => cases c <;> simp [strLess]
  | cons x a ih =>
    cases b with
    | nil => simp [strLess] at hab
    | cons y b =>
      cases c with
      | nil => simp [strLess] at hbc
      | cons z c =>
        simp only [strLess] at hab hbc ⊢
        by_cases hyx : y < x
        · simp [hyx] at hab
        · by_cases hzy : z < y
          · simp [hzy] at hbc
          · by_cases hxy : x < y
            · have h1 : ¬ z < x := by omega
              have h2 : x < z := by omega
              simp [h1, h2]
            · have hxy' : x = y := by omega
              subst hxy'
              by_cases hxz : x < z
              · simp [hzy, hxz]
              · have hxz' : x = z := by omega
                subst hxz'
                simp only [Nat.lt_irrefl, if_false] at hab hbc ⊢
                exact ih b c hab hbc

theorem strLe_antisymm (a b : GoString) (hab : strLe a b) (hba : strLe b a) : a = b := by
  unfold strLe at *
  induction a generalizing b with
  | nil => cases b <;> simp [strLess] at *
  | cons x a ih =>
    cases b with
    | nil => simp [strLess] at hab
    | cons y b =>
      simp only [strLess] at hab hba
      by_cases hyx : y < x
      · simp [hyx] at hab
      · by_cases hxy : x < y
        · simp [hxy] at hba
        · have hxy' : x = y := by omega
          subst hxy'
          simp only [Nat.lt_irrefl, if_false] at hab hba
          rw [ih b hab hba]

instance strLe.isTotal : IsTotal GoString strLe := ⟨strLe_total⟩

instance strLe.isTrans : IsTrans GoString strLe := ⟨strLe_trans⟩

instance strLe.isAntisymm : IsAntisymm GoString strLe := ⟨strLe_antisymm⟩

theorem strLess_of_strLe_of_ne (a b : GoString) (h : strLe a b) (hne : a ≠ b) :
    strLess a b = true := by
  by_contra hlt
  have hlt' : strLess a b = false := by simpa using hlt
  exact hne (strLe_antisymm a b h hlt')

theorem sortStrings_perm (l : List GoString) : (sortStrings l).Perm l :=
  List.perm_insertionSort strLe l

theorem sortStrings_sorted (l : List GoString) : List.Pairwise strLe (sortStrings l) :=
  List.sorted_insertionSort strLe l

theorem mem_sortStrings (l : List GoString) (t : GoString) : t ∈ sortStrings l ↔ t ∈ l :=
  (sortStrings_perm l).mem_iff

theorem chainB_of_pairwise (r : GoString → GoString → Bool) (l : List GoString)
    (h : List.Pairwise (fun a b => r a b = true) l) : chainB r l = true := by
  induction l with
  | nil => rfl
  | cons a l ih =>
    cases l with
    | nil => rfl
    | cons b rest =>
      rw [List.pairwise_cons] at h
      simp only [chainB, Bool.and_eq_true]
      exact ⟨h.1 b (by simp), ih h.2⟩

theorem sortStrings_weaklySorted (l : List GoString) : weaklySorted (sortStrings l) := by
  apply chainB_of_pairwise
  exact (sortStrings_sorted l).imp (fun h => by simpa [strLe] using h)

theorem sortStrings_pairwise_strict (l : List GoString) (h : l.Nodup) :
    List.Pairwise (fun a b => strLess a b = true) (sortStrings l) := by
  have hnd : (sortStrings l).Nodup := (sortStrings_perm l).nodup_iff.mpr h
  have := List.Pairwise.and (sortStrings_sorted l) hnd
  exact this.imp (fun hab => strLess_of_strLe_of_ne _ _ hab.1 hab.2)

theorem sortStrings_strictlySorted (l : List GoString) (h : l.Nodup) :
    strictlySorted (sortStrings l) :=
  chainB_of_pairwise strLess _ (sortStrings_pairwise_strict l h)

/-- The result of sort.Strings depends only on which strings the list holds,
when it holds none twice. -/
theorem sortStrings_eq_of_mem_iff (l₁ l₂ : List GoString) (h₁ : l₁.Nodup) (h₂ : l₂.Nodup)
    (h : ∀ t, t ∈ l₁ ↔ t ∈ l₂) : sortStrings l₁ = sortStrings l₂ := by
  have hp : l₁.Perm l₂ := (List.perm_ext_iff_of_nodup h₁ h₂).mpr h
  have hp' : (sortStrings l₁).Perm (sortStrings l₂) :=
    ((sortStrings_perm l₁).trans hp).trans (sortStrings_perm l₂).symm
  exact List.eq_of_perm_of_sorted hp' (sortStrings_sorted l₁) (sortStrings_sorted l₂)

/-! ## Lemmas on Go maps -/

theorem mapLookup_mapSet {α : Type} (m : GoMap α) (k k' : GoString) (v : α) :
    mapLookup (mapSet m k v) k' = if k = k' then some v else mapLookup m k' := by
  induction m with
  | nil => simp [mapSet, mapLookup]
  | cons kv m ih =>
    obtain ⟨k0, v0⟩ := kv
    by_cases h0 : k0 = k
    · subst h0
      by_cases h1 : k0 = k' <;> simp [mapSet, mapLookup, h1]
    · by_cases h1 : k0 = k'
      · subst h1
        have : ¬ k = k0 := fun e => h0 e.symm
        simp [mapSet, mapLookup, h0, this]
      · simp [mapSet, mapLookup, h0, h1, ih]

theorem mapGet_mapSet {α : Type} (m : GoMap (List α)) (k k' : GoString) (v : List α) :
    mapGet (mapSet m k v) k' = if k = k' then v else mapGet m k' := by
  unfold mapGet
  rw [mapLookup_mapSet]
  split <;> rfl

theorem mapLookup_map_sort (m : GoMap (List GoString)) (k : GoString) :
    mapLookup (m.map (fun kv => (kv.1, sortStrings kv.2))) k
      = (mapLookup m k).map sortStrings := by
  induction m with
  | nil => rfl
  | cons kv m ih =>
    obtain ⟨k0, v0⟩ := kv
    by_cases h0 : k0 = k
    · simp [mapLookup, h0]
    · simp [mapLookup, h0, ih]

/-! ## Lemmas on groupByTrain -/

namespace prer

theorem attr_names_ne : lit "deployment_branch" ≠ lit "release_branch_prefix" := by decide

theorem foldl_attrStep_fst_of_no_dep (rb : GoString) (attrs : List queryAttribute)
    (st : GoString × Bool) (h : ∀ a ∈ attrs, a.Name ≠ lit "deployment_branch") :
    (attrs.foldl (attrStep rb) st).1 = st.1 := by
  induction attrs generalizing st with
  | nil => rfl
  | cons a attrs ih =>
    have ha : a.Name ≠ lit "deployment_branch" := h a (by simp)
    have hrest : ∀ b ∈ attrs, b.Name ≠ lit "deployment_branch" :=
      fun b hb => h b (by simp [hb])
    rw [List.foldl_cons, ih _ hrest]
    unfold attrStep
    simp only [ha, if_false]
    split
    · split <;> rfl
    · rfl

theorem foldl_attrStep_fst_of_mem (rb : GoString) (attrs : List queryAttribute)
    (st : GoString × Bool) (v : GoString)
    (hnd : (attrs.map (fun a => a.Name)).Nodup)
    (hm : ({ Name := lit "deployment_branch", StringValue := v } : queryAttribute) ∈ attrs) :
    (attrs.foldl (attrStep rb) st).1 = v := by
  induction attrs generalizing st with
  | nil => simp at hm
  | cons a attrs ih =>
    rw [List.map_cons, List.nodup_cons] at hnd
    rw [List.foldl_cons]
    rcases List.mem_cons.mp hm with h | h
    · have hno : ∀ b ∈ attrs, b.Name ≠ lit "deployment_branch" := by
        intro b hb hbn
        apply hnd.1
        rw [← h]
        exact List.mem_map.mpr ⟨b, hb, hbn⟩
      rw [foldl_attrStep_fst_of_no_dep rb attrs _ hno, ← h]
      simp [attrStep]
    · exact ih _ hnd.2 h

theorem foldl_attrStep_snd (rb : GoString) (attrs : List queryAttribute)
    (st : GoString × Bool) :
    (attrs.foldl (attrStep rb) st).2 = true ↔
      st.2 = true ∨
        ({ Name := lit "release_branch_prefix", StringValue := rb } : queryAttribute) ∈ attrs := by
  induction attrs generalizing st with
  | nil => simp
  | cons a attrs ih =>
    rw [List.foldl_cons, ih, List.mem_cons]
    obtain ⟨n, v⟩ := a
    unfold attrStep
    by_cases h1 : n = lit "deployment_branch"
    · have h2 : ¬ lit "release_branch_prefix" = lit "deployment_branch" :=
        fun e => attr_names_ne e.symm
      subst h1
      simp [h2]
    · by_cases h2 : n = lit "release_branch_prefix"
      · subst h2
        by_cases h3 : v = rb
        · subst h3
          simp [h1]
        · have h3' : ¬ rb = v := fun e => h3 e.symm
          simp [h1, h3, h3']
      · have h2' : ¬ lit "release_branch_prefix" = n := fun e => h2 e.symm
        simp [h1, h2, h2']

/-- What the attribute loop leaves in depBranch and matchesBranch, when no two
attributes of the rule have the same name. -/
theorem filedUnder_iff (rb d : GoString) (r : configuredTarget)
    (hnd : (r.Target.Rule.Attribute.map (fun a => a.Name)).Nodup) :
    filedUnder rb d r = true ↔
      d ≠ [] ∧
      ({ Name := lit "deployment_branch", StringValue := d } : queryAttribute)
        ∈ r.Target.Rule.Attribute ∧
      ({ Name := lit "release_branch_prefix", StringValue := rb } : queryAttribute)
        ∈ r.Target.Rule.Attribute := by
  have hsnd := foldl_attrStep_snd rb r.Target.Rule.Attribute ([], false)
  simp only [Bool.false_eq_true, false_or] at hsnd
  unfold filedUnder scanAttrs
  simp only [Bool.not_or, Bool.not_not, Bool.and_eq_true, hsnd, decide_eq_true_eq,
    Bool.not_eq_true', decide_eq_false_iff_not]
  constructor
  · rintro ⟨⟨hrel, hne⟩, hd⟩
    refine ⟨fun e => hne (hd.trans e), ?_, hrel⟩
    by_cases hex : ∃ a ∈ r.Target.Rule.Attribute, a.Name = lit "deployment_branch"
    · obtain ⟨a, ha, han⟩ := hex
      obtain ⟨n, v⟩ := a
      simp only at han
      subst han
      have := foldl_attrStep_fst_of_mem rb _ ([], false) v hnd ha
      rw [this] at hd
      rw [← hd]
      exact ha
    · have hno : ∀ a ∈ r.Target.Rule.Attribute, a.Name ≠ lit "deployment_branch" :=
        fun a ha han => hex ⟨a, ha, han⟩
      have := foldl_attrStep_fst_of_no_dep rb _ ([], false) hno
      exact absurd this hne
  · rintro ⟨hne, hdep, hrel⟩
    have := foldl_attrStep_fst_of_mem rb _ ([], false) d hnd hdep
    exact ⟨⟨hrel, by rw [this]; exact hne⟩, this⟩

theorem mapGet_trainStep (rb d : GoString) (m : GoMap (List GoString))
    (r : configuredTarget) :
    mapGet (trainStep rb m r) d
      = mapGet m d ++ (if filedUnder rb d r = true then [r.Target.Rule.Name] else []) := by
  unfold trainStep filedUnder
  simp only
  by_cases hskip : (!(scanAttrs rb r.Target.Rule.Attribute).2
      || decide ((scanAttrs rb r.Target.Rule.Attribute).1 = [])) = true
  · simp [hskip]
  · by_cases hd : (scanAttrs rb r.Target.Rule.Attribute).1 = d
    · subst hd
      simp only [hskip, if_false, mapGet_mapSet, if_true]
      simp at hskip
      simp [hskip, mapGet_mapSet]
    · simp only [hskip, if_false, mapGet_mapSet, hd]
      simp [mapGet_mapSet, hd]

theorem mapGet_foldl_trainStep (rb d : GoString) (rs : List configuredTarget)
    (m : GoMap (List GoString)) :
    mapGet (rs.foldl (trainStep rb) m) d
      = mapGet m d ++ (rs.filter (filedUnder rb d)).map (fun r => r.Target.Rule.Name) := by
  induction rs generalizing m with
  | nil => simp
  | cons r rs ih =>
    rw [List.foldl_cons, ih, mapGet_trainStep]
    by_cases h : filedUnder rb d r = true
    · simp [h, List.filter_cons]
    · simp [h, List.filter_cons]

theorem trainStep_values_nonempty (rb : GoString) (m : GoMap (List GoString))
    (r : configuredTarget) (h : ∀ d l, mapLookup m d = some l → l ≠ []) :
    ∀ d l, mapLookup (trainStep rb m r) d = some l → l ≠ [] := by
  intro d l
  unfold trainStep
  simp only
  split
  · exact h d l
  · rw [mapLookup_mapSet]
    split
    · intro hl
      simp only [Option.some.injEq] at hl
      rw [← hl]
      simp
    · exact h d l

theorem foldl_trainStep_values_nonempty (rb : GoString) (rs : List configuredTarget)
    (m : GoMap (List GoString)) (h : ∀ d l, mapLookup m d = some l → l ≠ []) :
    ∀ d l, mapLookup (rs.foldl (trainStep rb) m) d = some l → l ≠ [] := by
  induction rs generalizing m with
  | nil => exact h
  | cons r rs ih =>
    rw [List.foldl_cons]
    exact ih _ (trainStep_values_nonempty rb m r h)

theorem sortStrings_nil : sortStrings [] = [] := rfl

theorem mapGet_groupByTrain (qr : cqueryResult) (rb d : GoString) :
    mapGet (groupByTrain qr rb) d
      = sortStrings ((qr.Results.filter (filedUnder rb d)).map
          (fun r => r.Target.Rule.Name)) := by
  have h := mapGet_foldl_trainStep rb d qr.Results []
  unfold mapGet at h ⊢
  unfold groupByTrain
  simp only [mapLookup_map_sort]
  cases hl : mapLookup (qr.Results.foldl (trainStep rb) []) d with
  | none =>
    rw [hl] at h
    simp only [Option.getD_none, mapLookup, List.nil_append] at h
    simp [← h, sortStrings_nil]
  | some l =>
    rw [hl] at h
    simp only [Option.getD_some, mapLookup, Option.getD_none, List.nil_append] at h
    simp [← h]

theorem mapLookup_groupByTrain (qr : cqueryResult) (rb d : GoString) (l : List GoString)
    (h : mapLookup (groupByTrain qr rb) d = some l) :
    l ≠ [] ∧ l = sortStrings ((qr.Results.filter (filedUnder rb d)).map
          (fun r => r.Target.Rule.Name)) := by
  have hget := mapGet_groupByTrain qr rb d
  unfold mapGet at hget
  rw [h] at hget
  simp only [Option.getD_some] at hget
  refine ⟨?_, hget⟩
  unfold groupByTrain at h
  simp only [mapLookup_map_sort] at h
  cases hl : mapLookup (qr.Results.foldl (trainStep rb) []) d with
  | none => rw [hl] at h; simp at h
  | some l0 =>
    rw [hl] at h
    simp only [Option.map_some', Option.some.injEq] at h
    have hne := foldl_trainStep_values_nonempty rb qr.Results []
      (by intro d l hd; simp [mapLookup] at hd) d l0 hl
    intro hnil
    rw [hnil] at h
    have hp := (sortStrings_perm l0).length_eq
    rw [h] at hp
    cases l0 with
    | nil => exact hne rfl
    | cons x xs => simp at hp

end prer

/-! ## Lemmas on collectAllTargets and hasDeletedTargets -/

namespace prer

theorem collectStep_inv (st : GoMap Unit × List GoString) (t : GoString)
    (h : collectInv st) :
    collectInv (collectStep st t) ∧ ∀ u, u ∈ (collectStep st t).2 ↔ u ∈ st.2 ∨ u = t := by
  obtain ⟨hnd, hseen⟩ := h
  unfold collectStep
  by_cases hnone : (mapLookup st.1 t).isNone = true
  · have htnot : t ∉ st.2 := by
      intro hmem
      have := (hseen t).mpr hmem
      rw [Option.isNone_iff_eq_none] at hnone
      rw [hnone] at this
      simp at this
    simp only [hnone, if_true]
    refine ⟨⟨?_, ?_⟩, ?_⟩
    · rw [List.nodup_append]
      refine ⟨hnd, by simp, ?_⟩
      intro a ha hb
      simp only [List.mem_singleton] at hb
      exact htnot (hb ▸ ha)
    · intro u
      simp only [mapLookup_mapSet, List.mem_append, List.mem_singleton]
      by_cases hu : t = u
      · simp [hu]
      · have hu' : ¬ u = t := fun e => hu e.symm
        simp [hu, hu', hseen u]
    · intro u
      simp
  · have hmem : t ∈ st.2 := by
      apply (hseen t).mp
      cases hl : mapLookup st.1 t with
      | none => simp [hl] at hnone
      | some v => rfl
    simp only [hnone, if_false]
    refine ⟨⟨hnd, hseen⟩, ?_⟩
    intro u
    constructor
    · exact fun h => Or.inl h
    · rintro (h | h)
      · exact h
      · exact h ▸ hmem

theorem foldl_collectStep_inv (ts : List GoString) (st : GoMap Unit × List GoString)
    (h : collectInv st) :
    collectInv (ts.foldl collectStep st) ∧
      ∀ u, u ∈ (ts.foldl collectStep st).2 ↔ u ∈ st.2 ∨ u ∈ ts := by
  induction ts generalizing st with
  | nil => exact ⟨h, by simp⟩
  | cons t ts ih =>
    rw [List.foldl_cons]
    obtain ⟨hinv, hmem⟩ := collectStep_inv st t h
    obtain ⟨hinv', hmem'⟩ := ih _ hinv
    refine ⟨hinv', ?_⟩
    intro u
    rw [hmem', hmem, List.mem_cons]
    tauto

theorem foldl_trains_inv (trains : GoMap (List GoString))
    (st : GoMap Unit × List GoString) (h : collectInv st) :
    collectInv (trains.foldl (fun st kv => kv.2.foldl collectStep st) st) ∧
      ∀ u, u ∈ (trains.foldl (fun st kv => kv.2.foldl collectStep st) st).2
        ↔ u ∈ st.2 ∨ ∃ kv ∈ trains, u ∈ kv.2 := by
  induction trains generalizing st with
  | nil => exact ⟨h, by simp⟩
  | cons kv trains ih =>
    rw [List.foldl_cons]
    obtain ⟨hinv, hmem⟩ := foldl_collectStep_inv kv.2 st h
    obtain ⟨hinv', hmem'⟩ := ih _ hinv
    refine ⟨hinv', ?_⟩
    intro u
    rw [hmem', hmem]
    constructor
    · rintro ((h1 | h1) | ⟨kv', hkv', hu⟩)
      · exact Or.inl h1
      · exact Or.inr ⟨kv, by simp, h1⟩
      · exact Or.inr ⟨kv', by simp [hkv'], hu⟩
    · rintro (h1 | ⟨kv', hkv', hu⟩)
      · exact Or.inl (Or.inl h1)
      · rcases List.mem_cons.mp hkv' with e | e
        · exact Or.inl (Or.inr (e ▸ hu))
        · exact Or.inr ⟨kv', e, hu⟩

theorem collectInv_empty : collectInv (([] : GoMap Unit), ([] : List GoString)) := by
  refine ⟨List.nodup_nil, ?_⟩
  intro t
  simp [mapLookup]

/-- The slice `all` of collectAllTargets before the sort: no string twice, and
the strings of all value lists. -/
theorem collected_spec (trains : GoMap (List GoString)) :
    (trains.foldl (fun st kv => kv.2.foldl collectStep st)
        (([] : GoMap Unit), ([] : List GoString))).2.Nodup ∧
      ∀ u, u ∈ (trains.foldl (fun st kv => kv.2.foldl collectStep st)
        (([] : GoMap Unit), ([] : List GoString))).2 ↔ ∃ kv ∈ trains, u ∈ kv.2 := by
  obtain ⟨hinv, hmem⟩ := foldl_trains_inv trains _ collectInv_empty
  refine ⟨hinv.1, ?_⟩
  intro u
  rw [hmem]
  simp

theorem mapLookup_foldl_mapSet (ts : List GoString) (m : GoMap Unit) (k : GoString) :
    (mapLookup (ts.foldl (fun cur t => mapSet cur t ()) m) k).isSome = true
      ↔ (mapLookup m k).isSome = true ∨ k ∈ ts := by
  induction ts generalizing m with
  | nil => simp
  | cons t ts ih =>
    rw [List.foldl_cons, ih, mapLookup_mapSet, List.mem_cons]
    by_cases h : t = k
    · simp [h]
    · have h' : ¬ k = t := fun e => h e.symm
      simp [h, h']

theorem anyMissing_iff (cur : GoMap Unit) (prev : List GoString) :
    anyMissing cur prev = true ↔ ∃ t ∈ prev, mapLookup cur t = none := by
  induction prev with
  | nil => simp [anyMissing]
  | cons t prev ih =>
    unfold anyMissing
    cases hl : mapLookup cur t with
    | none =>
      simp only [Option.isNone_none, if_true, true_iff]
      exact ⟨t, by simp, hl⟩
    | some v =>
      simp only [Option.isNone_some, Bool.false_eq_true, if_false, ih]
      constructor
      · rintro ⟨u, hu, hn⟩
        exact ⟨u, List.mem_cons_of_mem _ hu, hn⟩
      · rintro ⟨u, hu, hn⟩
        rcases List.mem_cons.mp hu with e | e
        · rw [e, hl] at hn
          cases hn
        · exact ⟨u, e, hn⟩

theorem hasDeletedTargets_iff (prev current : List GoString) :
    hasDeletedTargets prev current = true ↔ ∃ t ∈ prev, t ∉ current := by
  unfold hasDeletedTargets
  simp only [anyMissing_iff]
  constructor
  · rintro ⟨t, ht, hl⟩
    refine ⟨t, ht, fun hmem => ?_⟩
    have := (mapLookup_foldl_mapSet current [] t).mpr (Or.inr hmem)
    rw [hl] at this
    simp at this
  · rintro ⟨t, ht, hnot⟩
    refine ⟨t, ht, ?_⟩
    cases hl : mapLookup (current.foldl (fun cur t => mapSet cur t ()) []) t with
    | none => rfl
    | some v =>
      have hsome : (mapLookup (current.foldl (fun cur t => mapSet cur t ()) []) t).isSome
          = true := by rw [hl]; rfl
      rcases (mapLookup_foldl_mapSet current [] t).mp hsome with h | h
      · simp [mapLookup] at h
      · exact absurd h hnot

end prer

/-! ## Lemmas on TargetToExecutable and buildKindQuery -/

theorem hasPrefix_append (p s : GoString) : hasPrefix (p ++ s) p = true := by
  induction p with
  | nil => cases s <;> rfl
  | cons c p ih => simp [hasPrefix, ih]

theorem hasPrefix_colon (c : Nat) (t : GoString) :
    hasPrefix (c :: t) (lit ":") = decide (c = COLON) := by
  have : lit ":" = [COLON] := rfl
  rw [this]
  by_cases h : c = COLON <;> simp [hasPrefix, h]

theorem stringsReplace1_colon_absent (s new : GoString) (h : COLON ∉ s) :
    stringsReplace1 s (lit ":") new = s := by
  induction s with
  | nil =>
    have : lit ":" ≠ [] := by decide
    simp [stringsReplace1, this]
  | cons c t ih =>
    have hc : c ≠ COLON := fun e => h (by simp [e])
    have ht : COLON ∉ t := fun e => h (by simp [e])
    rw [stringsReplace1, hasPrefix_colon]
    simp [hc, ih ht]

theorem stringsReplace1_colon_first (a b new : GoString) (h : COLON ∉ a) :
    stringsReplace1 (a ++ COLON :: b) (lit ":") new = a ++ new ++ b := by
  induction a with
  | nil =>
    have hlen : (lit ":").length = 1 := rfl
    rw [List.nil_append, stringsReplace1, hasPrefix_colon, hlen]
    simp
  | cons c t ih =>
    have hc : c ≠ COLON := fun e => h (by simp [e])
    have ht : COLON ∉ t := fun e => h (by simp [e])
    rw [List.cons_append, stringsReplace1, hasPrefix_colon]
    simp [hc, ih ht]

theorem stringsJoin_eq_intercalate (parts : List GoString) (sep : GoString) :
    stringsJoin parts sep = sep.intercalate parts := by
  induction parts with
  | nil => rfl
  | cons a rest ih =>
    cases rest with
    | nil => simp [stringsJoin, List.intercalate]
    | cons b rest =>
      rw [stringsJoin, ih]
      simp [List.intercalate, List.intersperse]

theorem escapedASCII_plain (c : Nat) (h : plainByte c) : escapedASCII c = [c] := by
  obtain ⟨h1, h2, h3, h4⟩ := h
  unfold escapedASCII isPrintASCII
  have h34 : ¬ (c = 34 ∨ c = 92) := by
    rintro (e | e)
    · exact h3 e
    · exact h4 e
  simp [h34, h1, h2]

theorem quotedBody_plain (nonASCII : GoString → GoString) (k : GoString)
    (h : ∀ c ∈ k, plainByte c) : quotedBody nonASCII k = k := by
  induction k with
  | nil => rfl
  | cons c k ih =>
    have hc : plainByte c := h c (by simp)
    have hk : ∀ d ∈ k, plainByte d := fun d hd => h d (by simp [hd])
    have hlt : c < 0x80 := by
      have := hc.2.1
      omega
    rw [quotedBody]
    simp [hlt, escapedASCII_plain c hc, ih hk]

theorem strconvQuote_plain (nonASCII : GoString → GoString) (k : GoString)
    (h : ∀ c ∈ k, plainByte c) :
    strconvQuote nonASCII k = lit "\"" ++ k ++ lit "\"" := by
  unfold strconvQuote
  rw [quotedBody_plain nonASCII k h]
  rfl

namespace prer

theorem foldl_parts (f : GoString → GoString) (kinds : List GoString)
    (parts : List GoString) :
    kinds.foldl (fun parts kind => parts ++ [f kind]) parts = parts ++ kinds.map f := by
  induction kinds generalizing parts with
  | nil => simp
  | cons k kinds ih => simp [ih]

theorem buildKindQuery_eq (nonASCII : GoString → GoString) (cfg : Config)
    (h : cfg.GitopsKinds ≠ []) :
    buildKindQuery nonASCII cfg
      = (lit " + ").intercalate
          (cfg.GitopsKinds.map (fun k => sprintfKind nonASCII k cfg.Target)) := by
  unfold buildKindQuery
  have hlen : ¬ cfg.GitopsKinds.length = 0 := by
    intro e
    exact h (List.length_eq_zero.mp e)
  simp only [hlen, if_false]
  rw [foldl_parts (fun k => sprintfKind nonASCII k cfg.Target), List.nil_append,
    stringsJoin_eq_intercalate]

end prer

/-! ## Theorems on the commit-message codec -/

/-- C1: round trip of the commit-message codec.  For every list T of strings
none of which contains a newline or equals the begin or the end marker,
ExtractTargets (Generate T) is T, the empty list when T is empty. -/
theorem C1_extract_generate_roundtrip (T : List GoString)
    (hnl : ∀ t ∈ T, NL ∉ t)
    (hm : ∀ t ∈ T, t ≠ commitmsg.begin ∧ t ≠ commitmsg.end_) :
    commitmsg.ExtractTargets (commitmsg.Generate T) = T := by
  have h := commitmsg.extract_wrapped T hnl hm [] [] (by decide) (by decide)
  simpa using h

/-- Witness of C1 on the targets of TestExtractTargets_roundtrip. -/
theorem C1_extract_generate_roundtrip_witness :
    commitmsg.ExtractTargets (commitmsg.Generate [lit "target1", lit "target2"])
      = [lit "target1", lit "target2"] :=
  C1_extract_generate_roundtrip [lit "target1", lit "target2"] (by decide) (by decide)

/-- C2: ExtractTargets tolerates surrounding text.  For a target list T as in
the round trip and strings P and S none of whose lines is the begin marker,
ExtractTargets (P ++ Generate T ++ S) is T: only the lines strictly between the
marker pair are returned. -/
theorem C2_extract_ignores_surrounding_text (T : List GoString) (P S : GoString)
    (hnl : ∀ t ∈ T, NL ∉ t)
    (hm : ∀ t ∈ T, t ≠ commitmsg.begin ∧ t ≠ commitmsg.end_)
    (hP : commitmsg.begin ∉ commitmsg.splitLines P)
    (hS : commitmsg.begin ∉ commitmsg.splitLines S) :
    commitmsg.ExtractTargets (P ++ commitmsg.Generate T ++ S) = T :=
  commitmsg.extract_wrapped T hnl hm P S hP hS

/-- Witness of C2: a subject line above and a trailer below the block. -/
theorem C2_extract_ignores_surrounding_text_witness :
    commitmsg.ExtractTargets
      (lit "deploy\n\nsummary" ++ commitmsg.Generate [lit "//app:d", lit "//svc:d"]
        ++ lit "Signed-off-by: x\n")
      = [lit "//app:d", lit "//svc:d"] :=
  C2_extract_ignores_surrounding_text [lit "//app:d", lit "//svc:d"]
    (lit "deploy\n\nsummary") (lit "Signed-off-by: x\n")
    (by decide) (by decide) (by decide) (by decide)

/-- C3: unclosed region.  When the lines of a message contain a begin marker
with no end marker on any later line, ExtractTargets returns the empty list,
whatever comes before that begin marker, closed regions included. -/
theorem C3_extract_unclosed_region_empty (msg : GoString) (pre post : List GoString)
    (hsplit : commitmsg.splitLines msg = pre ++ commitmsg.begin :: post)
    (hpost : commitmsg.end_ ∉ post) :
    commitmsg.ExtractTargets msg = [] := by
  unfold commitmsg.ExtractTargets
  have hopen : (commitmsg.scanLines { targets := [], betweenMarkers := false }
      (commitmsg.splitLines msg)).betweenMarkers = true := by
    rw [hsplit, commitmsg.scanLines_append]
    have hcons : commitmsg.begin :: post = [commitmsg.begin] ++ post := rfl
    rw [hcons, commitmsg.scanLines_append]
    apply commitmsg.scanLines_open _ hpost
    simp [commitmsg.scanLines, commitmsg.scanLine_begin]
  simp [hopen]

/-- Witness of C3: a closed region with a target, then a region left open. -/
theorem C3_extract_unclosed_region_empty_witness :
    commitmsg.ExtractTargets
      (commitmsg.Generate [lit "//a:d"] ++ lit "--- gitops targets begin ---\ntarget1\n") = [] :=
  C3_extract_unclosed_region_empty
    (commitmsg.Generate [lit "//a:d"] ++ lit "--- gitops targets begin ---\ntarget1\n")
    [[], commitmsg.begin, lit "//a:d", commitmsg.end_] [lit "target1", []]
    (by decide) (by decide)

/-- C4: exact encoding.  Generate returns a newline, the begin marker, a
newline, every target followed by a newline in input order, the end marker and
a newline. -/
theorem C4_generate_exact_encoding (T : List GoString) :
    commitmsg.Generate T
      = lit "\n" ++ lit "--- gitops targets begin ---" ++ lit "\n"
        ++ T.foldr (fun t rest => t ++ lit "\n" ++ rest)
            (lit "--- gitops targets end ---" ++ lit "\n") := by
  rw [commitmsg.generate_eq]
  have key : ∀ (T : List GoString) (rest : GoString),
      commitmsg.targetBlock T rest = T.foldr (fun t rest => t ++ lit "\n" ++ rest) rest := by
    intro T rest
    induction T with
    | nil => rfl
    | cons t T ih => simp [commitmsg.targetBlock, ih]; rfl
  rw [key]
  rfl

/-! ## Theorems on train grouping -/

/-- C5: groupByTrain membership.  When no rule of the query result has two
attributes of the same name, a rule name n is in groupByTrain(qr, rb)[d] if and
only if qr has a result of rule name n whose deployment_branch attribute is the
non-empty string d and whose release_branch_prefix attribute is rb; and no key
of the returned map has an empty list. -/
theorem C5_groupByTrain_membership (qr : prer.cqueryResult) (rb : GoString)
    (huniq : ∀ r ∈ qr.Results, (r.Target.Rule.Attribute.map (fun a => a.Name)).Nodup) :
    (∀ d n, n ∈ mapGet (prer.groupByTrain qr rb) d ↔
      ∃ r ∈ qr.Results, r.Target.Rule.Name = n ∧ d ≠ [] ∧
        ({ Name := lit "deployment_branch", StringValue := d } : prer.queryAttribute)
          ∈ r.Target.Rule.Attribute ∧
        ({ Name := lit "release_branch_prefix", StringValue := rb } : prer.queryAttribute)
          ∈ r.Target.Rule.Attribute) ∧
    (∀ d l, mapLookup (prer.groupByTrain qr rb) d = some l → l ≠ []) := by
  refine ⟨?_, fun d l h => (prer.mapLookup_groupByTrain qr rb d l h).1⟩
  intro d n
  rw [prer.mapGet_groupByTrain, mem_sortStrings, List.mem_map]
  constructor
  · rintro ⟨r, hr, hn⟩
    rw [List.mem_filter] at hr
    exact ⟨r, hr.1, hn, (prer.filedUnder_iff rb d r (huniq r hr.1)).mp hr.2⟩
  · rintro ⟨r, hr, hn, hrest⟩
    exact ⟨r, List.mem_filter.mpr ⟨hr, (prer.filedUnder_iff rb d r (huniq r hr)).mpr hrest⟩, hn⟩

/-- Witness of C5 on the first case of TestGroupByTrain. -/
theorem C5_groupByTrain_membership_witness :
    (∀ d n, n ∈ mapGet (prer.groupByTrain
        ⟨[prer.makeTarget (lit "//a:deploy") (lit "prod") (lit "release/v1"),
          prer.makeTarget (lit "//b:deploy") (lit "prod") (lit "release/v2")]⟩
        (lit "release/v1")) d ↔
      ∃ r ∈ [prer.makeTarget (lit "//a:deploy") (lit "prod") (lit "release/v1"),
          prer.makeTarget (lit "//b:deploy") (lit "prod") (lit "release/v2")],
        r.Target.Rule.Name = n ∧ d ≠ [] ∧
        ({ Name := lit "deployment_branch", StringValue := d } : prer.queryAttribute)
          ∈ r.Target.Rule.Attribute ∧
        ({ Name := lit "release_branch_prefix", StringValue := lit "release/v1" } :
          prer.queryAttribute) ∈ r.Target.Rule.Attribute) ∧
    (∀ d l, mapLookup (prer.groupByTrain
        ⟨[prer.makeTarget (lit "//a:deploy") (lit "prod") (lit "release/v1"),
          prer.makeTarget (lit "//b:deploy") (lit "prod") (lit "release/v2")]⟩
        (lit "release/v1")) d = some l → l ≠ []) :=
  C5_groupByTrain_membership
    ⟨[prer.makeTarget (lit "//a:deploy") (lit "prod") (lit "release/v1"),
      prer.makeTarget (lit "//b:deploy") (lit "prod") (lit "release/v2")]⟩
    (lit "release/v1") (by decide)

/-- C6, counterexample: a query result with the rule //a:deploy twice under the
train prod gives the value list [//a:deploy, //a:deploy], in which the first
element is not strictly less than its successor. -/
theorem C6_groupByTrain_repeated_label :
    mapLookup (prer.groupByTrain
        ⟨[prer.makeTarget (lit "//a:deploy") (lit "prod") (lit "release/v1"),
          prer.makeTarget (lit "//a:deploy") (lit "prod") (lit "release/v1")]⟩
        (lit "release/v1")) (lit "prod") = some [lit "//a:deploy", lit "//a:deploy"]
      ∧ ¬ strictlySorted [lit "//a:deploy", lit "//a:deploy"] := by
  decide

/-- C6, amended: every value list of groupByTrain is sorted in non-decreasing
byte-wise lexicographic order, and it is strictly sorted, with no repeated
label, when no two results of the query have the same rule name. -/
theorem C6_groupByTrain_sorted (qr : prer.cqueryResult) (rb d : GoString)
    (l : List GoString) (h : mapLookup (prer.groupByTrain qr rb) d = some l) :
    weaklySorted l ∧
      ((qr.Results.map (fun r => r.Target.Rule.Name)).Nodup → strictlySorted l ∧ l.Nodup) := by
  have hl := (prer.mapLookup_groupByTrain qr rb d l h).2
  rw [hl]
  refine ⟨sortStrings_weaklySorted _, fun hnd => ?_⟩
  have hsub : ((qr.Results.filter (prer.filedUnder rb d)).map
      (fun r => r.Target.Rule.Name)).Nodup :=
    List.Nodup.sublist (List.Sublist.map _ (List.filter_sublist _)) hnd
  exact ⟨sortStrings_strictlySorted _ hsub, (sortStrings_perm _).nodup_iff.mpr hsub⟩

/-- Witness of C6 on the first case of TestGroupByTrain, given out of order. -/
theorem C6_groupByTrain_sorted_witness :
    weaklySorted [lit "//a:deploy", lit "//b:deploy"] ∧
      (([prer.makeTarget (lit "//b:deploy") (lit "prod") (lit "release/v1"),
          prer.makeTarget (lit "//a:deploy") (lit "prod") (lit "release/v1"),
          prer.makeTarget (lit "//c:deploy") (lit "staging") (lit "release/v1")].map
            (fun r => r.Target.Rule.Name)).Nodup →
        strictlySorted [lit "//a:deploy", lit "//b:deploy"]
          ∧ [lit "//a:deploy", lit "//b:deploy"].Nodup) :=
  C6_groupByTrain_sorted
    ⟨[prer.makeTarget (lit "//b:deploy") (lit "prod") (lit "release/v1"),
      prer.makeTarget (lit "//a:deploy") (lit "prod") (lit "release/v1"),
      prer.makeTarget (lit "//c:deploy") (lit "staging") (lit "release/v1")]⟩
    (lit "release/v1") (lit "prod") [lit "//a:deploy", lit "//b:deploy"] (by decide)

/-- C7: collectAllTargets.  For every map of trains, lists unsorted or with
shared and repeated targets included, the result is strictly sorted, its
elements are those of the value lists, and it is the same in whatever order the
entries of the map are visited. -/
theorem C7_collectAllTargets_sorted_union (trains : GoMap (List GoString)) :
    strictlySorted (prer.collectAllTargets trains) ∧
      (∀ t, t ∈ prer.collectAllTargets trains ↔ ∃ kv ∈ trains, t ∈ kv.2) ∧
      (∀ visited : GoMap (List GoString), visited.Perm trains →
        prer.collectAllTargets visited = prer.collectAllTargets trains) := by
  obtain ⟨hnd, hmem⟩ := prer.collected_spec trains
  refine ⟨sortStrings_strictlySorted _ hnd, ?_, ?_⟩
  · intro t
    unfold prer.collectAllTargets
    simp only [mem_sortStrings]
    exact hmem t
  · intro visited hperm
    obtain ⟨hnd', hmem'⟩ := prer.collected_spec visited
    unfold prer.collectAllTargets
    apply sortStrings_eq_of_mem_iff _ _ hnd' hnd
    intro t
    rw [hmem' t, hmem t]
    constructor
    · rintro ⟨kv, hkv, ht⟩
      exact ⟨kv, hperm.mem_iff.mp hkv, ht⟩
    · rintro ⟨kv, hkv, ht⟩
      exact ⟨kv, hperm.mem_iff.mpr hkv, ht⟩

/-- Witness of C7 on the map of TestCollectAllTargets, visited in one order and
in the other. -/
theorem C7_collectAllTargets_sorted_union_witness :
    prer.collectAllTargets [(lit "staging", [lit "//a:deploy", lit "//c:deploy"]),
        (lit "prod", [lit "//b:deploy", lit "//a:deploy"])]
      = prer.collectAllTargets [(lit "prod", [lit "//b:deploy", lit "//a:deploy"]),
        (lit "staging", [lit "//a:deploy", lit "//c:deploy"])] :=
  (C7_collectAllTargets_sorted_union [(lit "prod", [lit "//b:deploy", lit "//a:deploy"]),
      (lit "staging", [lit "//a:deploy", lit "//c:deploy"])]).2.2
    [(lit "staging", [lit "//a:deploy", lit "//c:deploy"]),
      (lit "prod", [lit "//b:deploy", lit "//a:deploy"])]
    (List.Perm.swap _ _ [])

/-- C8: deletion detection.  hasDeletedTargets(prev, current) is true if and
only if some element of prev is not in current; it is false when prev is empty,
as it is for the empty list ExtractTargets returns, and false when every
element of prev is in current. -/
theorem C8_hasDeletedTargets_iff (prev current : List GoString) :
    (prer.hasDeletedTargets prev current = true ↔ ∃ t ∈ prev, t ∉ current) ∧
      prer.hasDeletedTargets [] current = false ∧
      (∀ msg, commitmsg.ExtractTargets msg = [] →
        prer.hasDeletedTargets (commitmsg.ExtractTargets msg) current = false) ∧
      ((∀ t ∈ prev, t ∈ current) → prer.hasDeletedTargets prev current = false) := by
  refine ⟨prer.hasDeletedTargets_iff prev current, rfl, ?_, ?_⟩
  · intro msg hmsg
    rw [hmsg]
    rfl
  · intro hsub
    by_contra hne
    have htrue : prer.hasDeletedTargets prev current = true := by simpa using hne
    obtain ⟨t, ht, hnot⟩ := (prer.hasDeletedTargets_iff prev current).mp htrue
    exact hnot (hsub t ht)

/-- Witness of C8: current holds every target of prev and one more. -/
theorem C8_hasDeletedTargets_iff_witness :
    prer.hasDeletedTargets [lit "//a:d"] [lit "//a:d", lit "//b:d"] = false :=
  (C8_hasDeletedTargets_iff [lit "//a:d"] [lit "//a:d", lit "//b:d"]).2.2.2 (by decide)

/-! ## Theorems on the target-name mapping and on the kind query -/

/-- C9: target-name mapping.  A string that does not start with // is returned
unchanged; for a without colon, //a:b is mapped to bazel-bin/a/b, only that
first colon being replaced; and //a is mapped to bazel-bin/a. -/
theorem C9_targetToExecutable_mapping (s a b : GoString)
    (hs : hasPrefix s (lit "//") = false) (ha : COLON ∉ a) :
    bazel.TargetToExecutable s = s ∧
      bazel.TargetToExecutable (lit "//" ++ a ++ lit ":" ++ b)
        = lit "bazel-bin/" ++ a ++ lit "/" ++ b ∧
      bazel.TargetToExecutable (lit "//" ++ a) = lit "bazel-bin/" ++ a := by
  have hbin : COLON ∉ lit "bazel-bin/" := by decide
  have hdrop : ∀ x : GoString, (lit "//" ++ x).drop 2 = x := fun x => rfl
  refine ⟨?_, ?_, ?_⟩
  · unfold bazel.TargetToExecutable
    simp [hs]
  · have hp : hasPrefix (lit "//" ++ (a ++ lit ":" ++ b)) (lit "//") = true :=
      hasPrefix_append _ _
    have hcol : lit ":" = [COLON] := rfl
    unfold bazel.TargetToExecutable
    rw [List.append_assoc, List.append_assoc]
    rw [List.append_assoc] at hp
    simp only [hp, Bool.not_true, Bool.false_eq_true, if_false, hdrop]
    have hno : COLON ∉ lit "bazel-bin/" ++ a := by
      simp only [List.mem_append, not_or]
      exact ⟨hbin, ha⟩
    have := stringsReplace1_colon_first (lit "bazel-bin/" ++ a) b (lit "/") hno
    rw [hcol] at this ⊢
    simpa [List.append_assoc] using this
  · have hp : hasPrefix (lit "//" ++ a) (lit "//") = true := hasPrefix_append _ _
    unfold bazel.TargetToExecutable
    simp only [hp, Bool.not_true, Bool.false_eq_true, if_false, hdrop]
    have hno : COLON ∉ lit "bazel-bin/" ++ a := by
      simp only [List.mem_append, not_or]
      exact ⟨hbin, ha⟩
    exact stringsReplace1_colon_absent _ _ hno

/-- Witness of C9: a path without //, a label whose name has a colon of its
own, and a label without colon. -/
theorem C9_targetToExecutable_mapping_witness :
    bazel.TargetToExecutable (lit "some/path") = lit "some/path" ∧
      bazel.TargetToExecutable (lit "//" ++ lit "app/deploy" ++ lit ":" ++ lit "x:y.gitops")
        = lit "bazel-bin/" ++ lit "app/deploy" ++ lit "/" ++ lit "x:y.gitops" ∧
      bazel.TargetToExecutable (lit "//" ++ lit "app/deploy")
        = lit "bazel-bin/" ++ lit "app/deploy" :=
  C9_targetToExecutable_mapping (lit "some/path") (lit "app/deploy") (lit "x:y.gitops")
    (by decide) (by decide)

/-- C10, counterexample: for the kind a"b and the pattern //..., buildKindQuery
returns kind("a\"b", //...), the double quote of the kind escaped by %q, and not
kind("a"b", //...) with the kind as it is.  The kind is ASCII, the parameter for
other bytes is not consulted. -/
theorem C10_buildKindQuery_escapes_quote :
    prer.buildKindQuery id
        { Target := lit "//...", ReleaseBranch := [], GitopsKinds := [lit "a\"b"],
          GitopsRuleNames := [] }
      = lit "kind(\"a\\\"b\", //...)" ∧
    prer.buildKindQuery id
        { Target := lit "//...", ReleaseBranch := [], GitopsKinds := [lit "a\"b"],
          GitopsRuleNames := [] }
      ≠ lit "kind(\"" ++ lit "a\"b" ++ lit "\", " ++ lit "//..." ++ lit ")" := by
  decide

/-- C10, amended: with no kinds buildKindQuery returns the target pattern P
unchanged; with kinds K1..Kn it returns the strings kind(Q(Ki), P), in
configuration order, joined with " + ", where Q(K) is K quoted by the verb %q;
and when every byte of every kind is printable ASCII other than the double
quote and the backslash, Q(K) is K between double quotes, so that the result is
the join of the strings kind("Ki", P). -/
theorem C10_buildKindQuery_quoted (nonASCII : GoString → GoString) (cfg : prer.Config) :
    (cfg.GitopsKinds = [] → prer.buildKindQuery nonASCII cfg = cfg.Target) ∧
    (cfg.GitopsKinds ≠ [] →
      prer.buildKindQuery nonASCII cfg
        = (lit " + ").intercalate (cfg.GitopsKinds.map (fun k =>
            lit "kind(" ++ strconvQuote nonASCII k ++ lit ", " ++ cfg.Target ++ lit ")"))) ∧
    (cfg.GitopsKinds ≠ [] → (∀ k ∈ cfg.GitopsKinds, ∀ c ∈ k, plainByte c) →
      prer.buildKindQuery nonASCII cfg
        = (lit " + ").intercalate (cfg.GitopsKinds.map (fun k =>
            lit "kind(\"" ++ k ++ lit "\", " ++ cfg.Target ++ lit ")"))) := by
  refine ⟨?_, ?_, ?_⟩
  · intro h
    unfold prer.buildKindQuery
    simp [h]
  · intro h
    rw [prer.buildKindQuery_eq nonASCII cfg h]
    rfl
  · intro h hplain
    rw [prer.buildKindQuery_eq nonASCII cfg h]
    congr 1
    apply List.map_congr_left
    intro k hk
    unfold prer.sprintfKind
    rw [strconvQuote_plain nonASCII k (hplain k hk)]
    have h1 : lit "kind(\"" = lit "kind(" ++ lit "\"" := rfl
    have h2 : lit "\", " = lit "\"" ++ lit ", " := rfl
    rw [h1, h2]
    simp [List.append_assoc]

/-- Witness of C10 on the kinds gitops and k8s_deploy. -/
theorem C10_buildKindQuery_quoted_witness :
    prer.buildKindQuery id
        { Target := lit "//...", ReleaseBranch := [],
          GitopsKinds := [lit "gitops", lit "k8s_deploy"], GitopsRuleNames := [] }
      = (lit " + ").intercalate
          ([lit "gitops", lit "k8s_deploy"].map (fun k =>
            lit "kind(\"" ++ k ++ lit "\", " ++ lit "//..." ++ lit ")")) :=
  (C10_buildKindQuery_quoted id
    { Target := lit "//...", ReleaseBranch := [],
      GitopsKinds := [lit "gitops", lit "k8s_deploy"], GitopsRuleNames := [] }).2.2
    (by decide) (by decide)

/-! ## Theorems on the deps query -/

namespace prer

theorem foldl_deps_parts (f : GoString → GoString → GoString) (rules targets : List GoString)
    (parts : List GoString) :
    targets.foldl (fun parts target => rules.foldl
        (fun parts ruleName => parts ++ [f ruleName target]) parts) parts
      = parts ++ (targets.map (fun t => rules.map (fun r => f r t))).flatten := by
  induction targets generalizing parts with
  | nil => simp
  | cons t targets ih =>
    rw [List.foldl_cons, ih, foldl_parts (fun r => f r t)]
    simp

theorem buildDepsQuery_eq (nonASCII : GoString → GoString) (targets : List GoString)
    (cfg : Config) :
    buildDepsQuery nonASCII targets cfg
      = (lit " + ").intercalate ((targets.map (fun t => cfg.GitopsRuleNames.map
          (fun r => sprintfKindDeps nonASCII r t))).flatten) := by
  unfold buildDepsQuery
  by_cases hr : cfg.GitopsRuleNames.length = 0
  · have hr' : cfg.GitopsRuleNames = [] := List.length_eq_zero.mp hr
    simp only [hr, if_true, hr', List.map_nil]
    have : ∀ ts : List GoString, (ts.map (fun _ => ([] : List GoString))).flatten = [] := by
      intro ts
      induction ts with
      | nil => rfl
      | cons t ts ih => simp [ih]
    rw [this]
    rfl
  · simp only [hr, if_false]
    rw [foldl_deps_parts (fun r t => sprintfKindDeps nonASCII r t), List.nil_append]
    split
    · rename_i h0
      rw [List.length_eq_zero.mp h0]
      rfl
    · exact stringsJoin_eq_intercalate _ _

end prer

/-- C11, counterexample: for the target //a:d and the rule name a"b,
buildDepsQuery returns kind("a\"b", deps(//a:d)), the double quote of the rule
name escaped by %q, and not kind("a"b", deps(//a:d)). -/
theorem C11_buildDepsQuery_escapes_quote :
    prer.buildDepsQuery id [lit "//a:d"]
        { Target := [], ReleaseBranch := [], GitopsKinds := [],
          GitopsRuleNames := [lit "a\"b"] }
      = lit "kind(\"a\\\"b\", deps(//a:d))" ∧
    prer.buildDepsQuery id [lit "//a:d"]
        { Target := [], ReleaseBranch := [], GitopsKinds := [],
          GitopsRuleNames := [lit "a\"b"] }
      ≠ lit "kind(\"" ++ lit "a\"b" ++ lit "\", deps(" ++ lit "//a:d" ++ lit "))" := by
  decide

/-- C11, amended: buildDepsQuery returns the empty string when the rule-name
list or the target list is empty; otherwise it returns the strings
kind(Q(Rj), deps(Ti)) joined with " + ", target-major (for each target in
order, each rule name in order), where Q(R) is R quoted by the verb %q; and
when every byte of every rule name is printable ASCII other than the double
quote and the backslash, Q(R) is R between double quotes, so that the result is
the join of the strings kind("Rj", deps(Ti)). -/
theorem C11_buildDepsQuery_quoted (nonASCII : GoString → GoString)
    (targets : List GoString) (cfg : prer.Config) :
    (cfg.GitopsRuleNames = [] ∨ targets = [] →
      prer.buildDepsQuery nonASCII targets cfg = []) ∧
    (cfg.GitopsRuleNames ≠ [] → targets ≠ [] →
      prer.buildDepsQuery nonASCII targets cfg
        = (lit " + ").intercalate ((targets.map (fun t => cfg.GitopsRuleNames.map (fun r =>
            lit "kind(" ++ strconvQuote nonASCII r ++ lit ", deps(" ++ t ++ lit "))"))).flatten)) ∧
    (cfg.GitopsRuleNames ≠ [] → targets ≠ [] →
      (∀ r ∈ cfg.GitopsRuleNames, ∀ c ∈ r, plainByte c) →
      prer.buildDepsQuery nonASCII targets cfg
        = (lit " + ").intercalate ((targets.map (fun t => cfg.GitopsRuleNames.map (fun r =>
            lit "kind(\"" ++ r ++ lit "\", deps(" ++ t ++ lit "))"))).flatten)) := by
  refine ⟨?_, ?_, ?_⟩
  · rintro (h | h)
    · unfold prer.buildDepsQuery
      simp [h]
    · rw [prer.buildDepsQuery_eq, h]
      rfl
  · intro _ _
    rw [prer.buildDepsQuery_eq]
    rfl
  · intro _ _ hplain
    rw [prer.buildDepsQuery_eq]
    congr 2
    apply List.map_congr_left
    intro t _
    apply List.map_congr_left
    intro r hr
    unfold prer.sprintfKindDeps
    rw [strconvQuote_plain nonASCII r (hplain r hr)]
    have h1 : lit "kind(\"" = lit "kind(" ++ lit "\"" := rfl
    have h2 : lit "\", deps(" = lit "\"" ++ lit ", deps(" := rfl
    rw [h1, h2]
    simp [List.append_assoc]

/-- Witness of C11 on two targets and two rule names. -/
theorem C11_buildDepsQuery_quoted_witness :
    prer.buildDepsQuery id [lit "//a:deploy", lit "//b:deploy"]
        { Target := [], ReleaseBranch := [], GitopsKinds := [],
          GitopsRuleNames := [lit "push", lit "upload"] }
      = (lit " + ").intercalate (([lit "//a:deploy", lit "//b:deploy"].map (fun t =>
          [lit "push", lit "upload"].map (fun r =>
            lit "kind(\"" ++ r ++ lit "\", deps(" ++ t ++ lit "))"))).flatten) :=
  (C11_buildDepsQuery_quoted id [lit "//a:deploy", lit "//b:deploy"]
    { Target := [], ReleaseBranch := [], GitopsKinds := [],
      GitopsRuleNames := [lit "push", lit "upload"] }).2.2
    (by decide) (by decide) (by decide)

/-! ## Lemmas on YAML values and maps -/

mutual
theorem Value.eq_of_beq : ∀ (a b : Value), Value.beq a b = true → a = b
  | .null, b, h => by cases b <;> simp_all [Value.beq]
  | .bool x, b, h => by cases b <;> simp_all [Value.beq]
  | .int x, b, h => by cases b <;> simp_all [Value.beq]
  | .float x, b, h => by cases b <;> simp_all [Value.beq]
  | .str x, b, h => by cases b <;> simp_all [Value.beq]
  | .seq x, b, h => by
    cases b <;> simp [Value.beq] at h
    rw [Value.eq_of_beqList _ _ h]
  | .map x, b, h => by
    cases b <;> simp [Value.beq] at h
    rw [Value.eq_of_beqEntries _ _ h]
theorem Value.eq_of_beqList : ∀ (a b : List Value), Value.beqList a b = true → a = b
  | [], b, h => by cases b <;> simp_all [Value.beqList]
  | x :: xs, b, h => by
    cases b with
    | nil => simp [Value.beqList] at h
    | cons y ys =>
      simp only [Value.beqList, Bool.and_eq_true] at h
      rw [Value.eq_of_beq x y h.1, Value.eq_of_beqList xs ys h.2]
theorem Value.eq_of_beqEntries : ∀ (a b : List (GoString × Value)),
    Value.beqEntries a b = true → a = b
  | [], b, h => by cases b <;> simp_all [Value.beqEntries]
  | (k, x) :: xs, b, h => by
    cases b with
    | nil => simp [Value.beqEntries] at h
    | cons y ys =>
      obtain ⟨l, y⟩ := y
      simp only [Value.beqEntries, Bool.and_eq_true, decide_eq_true_eq] at h
      rw [h.1, Value.eq_of_beq x y h.2.1, Value.eq_of_beqEntries xs ys h.2.2]
end

mutual
theorem Value.beq_self : ∀ (a : Value), Value.beq a a = true
  | .null => by simp [Value.beq]
  | .bool x => by simp [Value.beq]
  | .int x => by simp [Value.beq]
  | .float x => by simp [Value.beq]
  | .str x => by simp [Value.beq]
  | .seq x => by simp [Value.beq, Value.beqList_self x]
  | .map x => by simp [Value.beq, Value.beqEntries_self x]
theorem Value.beqList_self : ∀ (a : List Value), Value.beqList a a = true
  | [] => by simp [Value.beqList]
  | x :: xs => by simp [Value.beqList, Value.beq_self x, Value.beqList_self xs]
theorem Value.beqEntries_self : ∀ (a : List (GoString × Value)),
    Value.beqEntries a a = true
  | [] => by simp [Value.beqEntries]
  | (k, x) :: xs => by simp [Value.beqEntries, Value.beq_self x, Value.beqEntries_self xs]
end

instance Value.instDecidableEq : DecidableEq Value := fun a b =>
  decidable_of_iff (Value.beq a b = true)
    ⟨Value.eq_of_beq a b, fun h => h ▸ Value.beq_self a⟩

instance Decoded.instDecidableEq : DecidableEq Decoded := fun a b =>
  match a, b with
  | .obj x, .obj y =>
    decidable_of_iff (x = y) ⟨fun h => by rw [h], fun h => by cases h; rfl⟩
  | .null, .null => isTrue rfl
  | .err x, .err y =>
    decidable_of_iff (x = y) ⟨fun h => by rw [h], fun h => by cases h; rfl⟩
  | .obj _, .null => isFalse (fun h => by cases h)
  | .obj _, .err _ => isFalse (fun h => by cases h)
  | .null, .obj _ => isFalse (fun h => by cases h)
  | .null, .err _ => isFalse (fun h => by cases h)
  | .err _, .obj _ => isFalse (fun h => by cases h)
  | .err _, .null => isFalse (fun h => by cases h)

theorem mapSet_same {α : Type} (m : GoMap α) (k : GoString) (v : α)
    (h : mapLookup m k = some v) : mapSet m k v = m := by
  induction m with
  | nil => simp [mapLookup] at h
  | cons kv m ih =>
    obtain ⟨k0, v0⟩ := kv
    by_cases h0 : k0 = k
    · subst h0
      simp only [mapLookup, if_true, Option.some.injEq] at h
      simp [mapSet, h]
    · simp only [mapLookup, h0, if_false] at h
      simp [mapSet, h0, ih h]

theorem mapLookup_mapDelete {α : Type} (m : GoMap α) (k k' : GoString) :
    mapLookup (mapDelete m k) k' = if k = k' then none else mapLookup m k' := by
  induction m with
  | nil => simp [mapDelete, mapLookup]
  | cons kv m ih =>
    obtain ⟨k0, v0⟩ := kv
    by_cases h0 : k0 = k
    · subst h0
      by_cases h1 : k0 = k'
      · subst h1
        simpa [mapDelete] using ih
      · simp [mapDelete, mapLookup, h1, ih]
    · by_cases h1 : k0 = k'
      · subst h1
        have h2 : ¬ k = k0 := fun e => h0 e.symm
        simp [mapDelete, mapLookup, h0, h2]
      · simp [mapDelete, mapLookup, h0, h1, ih]

theorem mapLookup_mem {α : Type} (m : GoMap α) (k : GoString) (v : α)
    (h : mapLookup m k = some v) : (k, v) ∈ m := by
  induction m with
  | nil => simp [mapLookup] at h
  | cons kv m ih =>
    obtain ⟨k0, v0⟩ := kv
    by_cases h0 : k0 = k
    · subst h0
      simp only [mapLookup, if_true, Option.some.injEq] at h
      simp [h]
    · simp only [mapLookup, h0, if_false] at h
      exact List.mem_cons_of_mem _ (ih h)

/-! ## Lemmas on the image resolver -/

namespace resolver

/-- One iteration of the loop of updateContainers. -/
theorem updateContainersLoop_cons (images : GoMap GoString) (item : Value)
    (rest : List Value) :
    updateContainersLoop images (item :: rest)
      = match unresolvedImage images item with
        | some S => .error (lit "unresolved image found: " ++ S)
        | none =>
          match updateContainersLoop images rest with
          | .error e => .error e
          | .ok rest' => .ok (resolvedItem images item :: rest') := by
  cases item with
  | map container =>
    rw [updateContainersLoop]
    simp only [unresolvedImage, resolvedItem]
    cases himg : mapLookup container (lit "image") with
    | none => rfl
    | some img =>
      cases img with
      | str imageName =>
        simp only
        cases hm : mapLookup images imageName with
        | some newName => rfl
        | none =>
          cases hpp : hasPrefix imageName (lit "//") with
          | false =>
            simp only [Option.isNone_none, Bool.and_false, Bool.false_eq_true, if_false]
          | true => simp
      | null => rfl
      | bool b => rfl
      | int i => rfl
      | float f => rfl
      | seq l => rfl
      | map l => rfl
  | null =>
    simp only [updateContainersLoop, unresolvedImage, resolvedItem]
  | bool b =>
    simp only [updateContainersLoop, unresolvedImage, resolvedItem]
  | int i =>
    simp only [updateContainersLoop, unresolvedImage, resolvedItem]
  | float f =>
    simp only [updateContainersLoop, unresolvedImage, resolvedItem]
  | str s =>
    simp only [updateContainersLoop, unresolvedImage, resolvedItem]
  | seq l =>
    simp only [updateContainersLoop, unresolvedImage, resolvedItem]

/-- The loop of updateContainers on a list without unresolved image. -/
theorem updateContainersLoop_ok (images : GoMap GoString) (items : List Value)
    (h : ∀ x ∈ items, unresolvedImage images x = none) :
    updateContainersLoop images items = .ok (items.map (resolvedItem images)) := by
  induction items with
  | nil => rfl
  | cons item rest ih =>
    have hrest := ih (fun x hx => h x (List.mem_cons_of_mem _ hx))
    have hitem := h item (List.mem_cons_self _ _)
    rw [updateContainersLoop_cons, hitem, hrest]
    rfl

/-- The loop of updateContainers stops at the first unresolved image. -/
theorem updateContainersLoop_error (images : GoMap GoString) (pre : List Value)
    (item : Value) (post : List Value) (S : GoString)
    (hpre : ∀ x ∈ pre, unresolvedImage images x = none)
    (hitem : unresolvedImage images item = some S) :
    updateContainersLoop images (pre ++ item :: post)
      = .error (lit "unresolved image found: " ++ S) := by
  induction pre with
  | nil => rw [List.nil_append, updateContainersLoop_cons, hitem]
  | cons x pre ih =>
    have hrest := ih (fun y hy => hpre y (List.mem_cons_of_mem _ hy))
    have hx := hpre x (List.mem_cons_self _ _)
    rw [List.cons_append, updateContainersLoop_cons, hx, hrest]

end resolver

namespace resolver

theorem unresolvedImage_of_untouched (images : GoMap GoString) (v : Value)
    (h : imageUntouched images v = true) : unresolvedImage images v = none := by
  cases v with
  | map container =>
    simp only [imageUntouched] at h
    simp only [unresolvedImage]
    cases himg : mapLookup container (lit "image") with
    | none => rfl
    | some img =>
      cases img with
      | str imageName =>
        simp only [himg, Bool.and_eq_true, Bool.not_eq_true'] at h
        simp [h.1, h.2]
      | null => rfl
      | bool b => rfl
      | int i => rfl
      | float f => rfl
      | seq l => rfl
      | map l => rfl
  | null => rfl
  | bool b => rfl
  | int i => rfl
  | float f => rfl
  | str s => rfl
  | seq l => rfl

theorem resolvedItem_of_untouched (images : GoMap GoString) (v : Value)
    (h : imageUntouched images v = true) : resolvedItem images v = v := by
  cases v with
  | map container =>
    simp only [imageUntouched] at h
    simp only [resolvedItem]
    cases himg : mapLookup container (lit "image") with
    | none => rfl
    | some img =>
      cases img with
      | str imageName =>
        simp only [himg, Bool.and_eq_true, Bool.not_eq_true'] at h
        have hn : mapLookup images imageName = none := by
          cases hm : mapLookup images imageName with
          | none => rfl
          | some n => rw [hm] at h; simp at h
        simp [hn]
      | null => rfl
      | bool b => rfl
      | int i => rfl
      | float f => rfl
      | seq l => rfl
      | map l => rfl
  | null => rfl
  | bool b => rfl
  | int i => rfl
  | float f => rfl
  | str s => rfl
  | seq l => rfl

theorem updateContainers_untouched (images : GoMap GoString) (obj : YMap) (pa : GoString)
    (h : ∀ items, mapLookup obj pa = some (.seq items) →
      items.all (imageUntouched images) = true) :
    updateContainers images obj pa = .ok obj := by
  unfold updateContainers
  cases hl : mapLookup obj pa with
  | none => rfl
  | some v =>
    cases v with
    | seq items =>
      have hall := h items hl
      rw [List.all_eq_true] at hall
      have hloop := updateContainersLoop_ok images items
        (fun x hx => unresolvedImage_of_untouched images x (hall x hx))
      have hmap : items.map (resolvedItem images) = items := by
        conv_rhs => rw [← List.map_id items]
        apply List.map_congr_left
        intro x hx
        exact resolvedItem_of_untouched images x (hall x hx)
      simp only [hloop, hmap]
      rw [mapSet_same obj pa _ hl]
    | null => rfl
    | bool b => rfl
    | int i => rfl
    | float f => rfl
    | str s => rfl
    | map l => rfl

theorem updateContainer_untouched (images : GoMap GoString) (obj : YMap) (pa : GoString)
    (h : ∀ v, mapLookup obj pa = some v → imageUntouched images v = true) :
    updateContainer images obj pa = .ok obj := by
  unfold updateContainer
  cases hl : mapLookup obj pa with
  | none => rfl
  | some v =>
    cases v with
    | map container =>
      have hu := h _ hl
      simp only [imageUntouched] at hu
      simp only []
      cases himg : mapLookup container (lit "image") with
      | none => rfl
      | some img =>
        cases img with
        | str imageName =>
          simp only [himg, Bool.and_eq_true, Bool.not_eq_true'] at hu
          have hn : mapLookup images imageName = none := by
            cases hm : mapLookup images imageName with
            | none => rfl
            | some n => rw [hm] at hu; simp at hu
          simp [hu.2, hn]
        | null => rfl
        | bool b => rfl
        | int i => rfl
        | float f => rfl
        | seq l => rfl
        | map l => rfl
    | null => rfl
    | bool b => rfl
    | int i => rfl
    | float f => rfl
    | str s => rfl
    | seq l => rfl

/-- On a clean level the two loops over paths leave the map as it is, and
`found` tells whether it has the key initContainers. -/
theorem pathLoops_clean (images : GoMap GoString) (obj : YMap)
    (h : levelClean images obj = true) :
    pathLoop (updateContainer images) [lit "container", lit "spec"] (obj, false)
        = .ok (obj, (mapLookup obj (lit "spec")).isSome) ∧
    ∀ b, pathLoop (updateContainers images) [lit "containers", lit "initContainers"] (obj, b)
        = .ok (obj, (mapLookup obj (lit "initContainers")).isSome) := by
  unfold levelClean at h
  simp only [List.all_cons, List.all_nil, Bool.and_true, Bool.and_eq_true] at h
  obtain ⟨⟨h1, h2⟩, h3, h4⟩ := h
  have u1 : updateContainer images obj (lit "container") = .ok obj := by
    apply updateContainer_untouched
    intro v hv
    simpa [hv] using h1
  have u2 : updateContainer images obj (lit "spec") = .ok obj := by
    apply updateContainer_untouched
    intro v hv
    simpa [hv] using h2
  have u3 : updateContainers images obj (lit "containers") = .ok obj := by
    apply updateContainers_untouched
    intro items hv
    simpa [hv] using h3
  have u4 : updateContainers images obj (lit "initContainers") = .ok obj := by
    apply updateContainers_untouched
    intro items hv
    simpa [hv] using h4
  constructor
  · simp only [pathLoop, u1, u2]
    cases (mapLookup obj (lit "container")).isSome <;>
      cases (mapLookup obj (lit "spec")).isSome <;> rfl
  · intro b
    simp only [pathLoop, u3, u4]
    cases (mapLookup obj (lit "containers")).isSome <;>
      cases (mapLookup obj (lit "initContainers")).isSome <;> rfl

theorem findContainersItems_id (recur : YMap → Run YMap) (items : List Value)
    (h : ∀ c, Value.map c ∈ items → recur c = some (.ok c)) :
    findContainersItems recur items = some (.ok items) := by
  induction items with
  | nil => rfl
  | cons item rest ih =>
    have hrest := ih (fun c hc => h c (List.mem_cons_of_mem _ hc))
    cases item with
    | map m =>
      have hm := h m (List.mem_cons_self _ _)
      simp [findContainersItems, hm, hrest, Run.andThen]
    | null => simp [findContainersItems, hrest, Run.andThen]
    | bool b => simp [findContainersItems, hrest, Run.andThen]
    | int i => simp [findContainersItems, hrest, Run.andThen]
    | float f => simp [findContainersItems, hrest, Run.andThen]
    | str s => simp [findContainersItems, hrest, Run.andThen]
    | seq l => simp [findContainersItems, hrest, Run.andThen]

theorem findContainersEntries_id (recur : YMap → Run YMap) (entries : YMap)
    (hmap : ∀ k c, (k, Value.map c) ∈ entries → recur c = some (.ok c))
    (hseq : ∀ k items c, (k, Value.seq items) ∈ entries → Value.map c ∈ items →
      recur c = some (.ok c)) :
    findContainersEntries recur entries = some (.ok entries) := by
  induction entries with
  | nil => rfl
  | cons kv rest ih =>
    obtain ⟨key, v⟩ := kv
    have hrest := ih (fun k c hc => hmap k c (List.mem_cons_of_mem _ hc))
      (fun k items c hc hi => hseq k items c (List.mem_cons_of_mem _ hc) hi)
    cases v with
    | map m =>
      have hm := hmap key m (List.mem_cons_self _ _)
      simp [findContainersEntries, hm, hrest, Run.andThen]
    | seq items =>
      have hi := findContainersItems_id recur items
        (fun c hc => hseq key items c (List.mem_cons_self _ _) hc)
      simp [findContainersEntries, hi, hrest, Run.andThen]
    | null => simp [findContainersEntries, hrest, Run.andThen]
    | bool b => simp [findContainersEntries, hrest, Run.andThen]
    | int i => simp [findContainersEntries, hrest, Run.andThen]
    | float f => simp [findContainersEntries, hrest, Run.andThen]
    | str s => simp [findContainersEntries, hrest, Run.andThen]

end resolver

theorem Value.depth_le_depthList (items : List Value) (v : Value) (h : v ∈ items) :
    Value.depth v ≤ Value.depthList items := by
  induction items with
  | nil => simp at h
  | cons x rest ih =>
    simp only [Value.depthList]
    rcases List.mem_cons.mp h with e | e
    · subst e
      exact Nat.le_max_left _ _
    · exact Nat.le_trans (ih e) (Nat.le_max_right _ _)

theorem Value.depth_le_depthEntries (entries : List (GoString × Value)) (k : GoString)
    (v : Value) (h : (k, v) ∈ entries) : Value.depth v ≤ Value.depthEntries entries := by
  induction entries with
  | nil => simp at h
  | cons x rest ih =>
    obtain ⟨k0, v0⟩ := x
    simp only [Value.depthEntries]
    rcases List.mem_cons.mp h with e | e
    · cases e
      exact Nat.le_max_left _ _
    · exact Nat.le_trans (ih e) (Nat.le_max_right _ _)

theorem Value.maps_subset_mapsList (items : List Value) (v : Value) (h : v ∈ items) :
    ∀ m ∈ Value.maps v, m ∈ Value.mapsList items := by
  induction items with
  | nil => simp at h
  | cons x rest ih =>
    intro m hm
    simp only [Value.mapsList, List.mem_append]
    rcases List.mem_cons.mp h with e | e
    · subst e
      exact Or.inl hm
    · exact Or.inr (ih e m hm)

theorem Value.maps_subset_mapsEntries (entries : List (GoString × Value)) (k : GoString)
    (v : Value) (h : (k, v) ∈ entries) :
    ∀ m ∈ Value.maps v, m ∈ Value.mapsEntries entries := by
  induction entries with
  | nil => simp at h
  | cons x rest ih =>
    obtain ⟨k0, v0⟩ := x
    intro m hm
    simp only [Value.mapsEntries, List.mem_append]
    rcases List.mem_cons.mp h with e | e
    · cases e
      exact Or.inl hm
    · exact Or.inr (ih e m hm)

namespace resolver

/-- On a document without image to rewrite or to flag, findAndReplaceTag
returns without error and leaves the document as it is, for every fuel above
the depth of the document. -/
theorem findAndReplaceTag_clean (images : GoMap GoString) (fuel : Nat) (obj : YMap)
    (hclean : ∀ m ∈ Value.maps (.map obj), levelClean images m = true)
    (hfuel : Value.depthEntries obj < fuel) :
    findAndReplaceTag images fuel obj = some (.ok obj) := by
  induction fuel generalizing obj with
  | zero => omega
  | succ fuel ih =>
    have hlevel : levelClean images obj = true := hclean obj (by simp [Value.maps])
    obtain ⟨hp1, hp2⟩ := pathLoops_clean images obj hlevel
    rw [findAndReplaceTag, hp1]
    simp only [hp2]
    cases hfound : (mapLookup obj (lit "initContainers")).isSome with
    | true => simp
    | false =>
      simp only [Bool.not_false, if_true]
      apply findContainersEntries_id
      · intro k c hc
        apply ih
        · intro m hm
          apply hclean
          simp only [Value.maps, List.mem_cons]
          exact Or.inr (Value.maps_subset_mapsEntries obj k _ hc m hm)
        · have := Value.depth_le_depthEntries obj k _ hc
          simp only [Value.depth] at this
          omega
      · intro k items c hc hi
        apply ih
        · intro m hm
          apply hclean
          simp only [Value.maps, List.mem_cons]
          refine Or.inr (Value.maps_subset_mapsEntries obj k _ hc m ?_)
          simp only [Value.maps]
          exact Value.maps_subset_mapsList items _ hi m hm
        · have h1 := Value.depth_le_depthEntries obj k _ hc
          have h2 := Value.depth_le_depthList items _ hi
          simp only [Value.depth] at h1 h2
          omega

end resolver

/-! ## Lemmas on the document loop -/

theorem resolver.resolveLoop_eq (fmtV : YMap → GoString)
    (marshal : YMap → Except GoString GoString) (images : GoMap GoString)
    (firstObj : Bool) (out : GoString) (input : List Decoded) :
    resolver.resolveLoop fmtV marshal images firstObj out input
      = streamLoop (fun e => lit "resolving images" ++ lit ": decoding yaml: " ++ e)
          (resolver.resolveAction fmtV marshal images) firstObj out input := by
  induction input generalizing firstObj out with
  | nil => rfl
  | cons d rest ih =>
    cases d with
    | err e => rfl
    | null => simp only [resolver.resolveLoop, streamLoop, ih]
    | obj o =>
      simp only [resolver.resolveLoop, streamLoop, resolver.resolveAction]
      by_cases hn : extractName o = []
      · simp [hn]
      · by_cases hk : extractKind o = []
        · simp [hn, hk]
        · simp only [hn, hk, if_false]
          cases resolver.findAndReplaceTagRun images o with
          | error e => rfl
          | ok o' =>
            simp only
            cases marshal o' with
            | error e => rfl
            | ok buf => simp only [ih]

theorem filter.replaceLoop_eq (fmtV : YMap → GoString)
    (marshal : YMap → Except GoString GoString)
    (firstObj : Bool) (out : GoString) (input : List Decoded) :
    filter.replaceLoop fmtV marshal firstObj out input
      = streamLoop (fun e => lit "replacing PD with empty dirs" ++ lit ": decoding yaml: " ++ e)
          (filter.replaceAction fmtV marshal) firstObj out input := by
  induction input generalizing firstObj out with
  | nil => rfl
  | cons d rest ih =>
    cases d with
    | err e => rfl
    | null => simp only [filter.replaceLoop, streamLoop, ih]
    | obj o =>
      simp only [filter.replaceLoop, streamLoop, filter.replaceAction]
      by_cases hn : extractName o = []
      · simp [hn]
      · by_cases hk : extractKind o = []
        · simp [hn, hk]
        · have hp0 : ¬ lit "PersistentVolumeClaim" = [] := by decide
          have hi0 : ¬ lit "Ingress" = [] := by decide
          have hpi : ¬ lit "Ingress" = lit "PersistentVolumeClaim" := by decide
          by_cases hp : extractKind o = lit "PersistentVolumeClaim"
          · simp [hn, hp, hp0, ih]
          · by_cases hi : extractKind o = lit "Ingress"
            · simp [hn, hi, hi0, hpi, ih]
            · simp only [hn, hk, hp, hi, if_false]
              cases marshal (filter.transformDoc (extractKind o) o) with
              | error e => rfl
              | ok buf => simp only [ih]

theorem sepJoin_true (bufs : List GoString) : sepJoin true bufs = SEP.intercalate bufs := by
  have key : ∀ bufs : List GoString,
      sepJoin false bufs = (bufs.map (fun b => SEP ++ b)).flatten := by
    intro bufs
    induction bufs with
    | nil => rfl
    | cons b rest ih => simp [sepJoin, ih]
  cases bufs with
  | nil => rfl
  | cons b rest =>
    simp only [sepJoin, if_true, key]
    induction rest generalizing b with
    | nil => simp [List.intercalate]
    | cons c rest ih =>
      have := ih c
      simp only [List.intercalate, List.intersperse, List.flatten_cons, List.map_cons,
        List.append_assoc] at this ⊢
      rw [this]

/-- The loop on a prefix of the input that it gets through without error. -/
theorem streamLoop_append (decodeMsg : GoString → GoString) (act : YMap → DocAction)
    (firstObj : Bool) (out : GoString) (pre rest : List Decoded)
    (h : (streamLoop decodeMsg act firstObj out pre).2 = none) :
    ∃ firstObj' out', streamLoop decodeMsg act firstObj out (pre ++ rest)
      = streamLoop decodeMsg act firstObj' out' rest := by
  induction pre generalizing firstObj out with
  | nil => exact ⟨firstObj, out, rfl⟩
  | cons d pre ih =>
    cases d with
    | err e => simp [streamLoop] at h
    | null =>
      simp only [streamLoop] at h
      simpa [streamLoop] using ih firstObj out h
    | obj o =>
      simp only [streamLoop, List.cons_append] at h ⊢
      cases ha : act o with
      | fail msg => simp [ha] at h
      | drop =>
        simp only [ha] at h ⊢
        exact ih firstObj out h
      | emit buf =>
        simp only [ha] at h ⊢
        exact ih _ _ h

/-- The loop fails at the first document that `act` refuses. -/
theorem streamLoop_fail (decodeMsg : GoString → GoString) (act : YMap → DocAction)
    (firstObj : Bool) (out : GoString) (pre rest : List Decoded) (bad : YMap)
    (msg : GoString)
    (h : (streamLoop decodeMsg act firstObj out pre).2 = none)
    (hbad : act bad = .fail msg) :
    (streamLoop decodeMsg act firstObj out (pre ++ .obj bad :: rest)).2 = some msg := by
  obtain ⟨f', o', he⟩ := streamLoop_append decodeMsg act firstObj out pre (.obj bad :: rest) h
  rw [he]
  simp [streamLoop, hbad]

/-- The output of a run of the loop that returns no error. -/
theorem streamLoop_output (decodeMsg : GoString → GoString) (act : YMap → DocAction)
    (firstObj : Bool) (out : GoString) (input : List Decoded)
    (h : (streamLoop decodeMsg act firstObj out input).2 = none) :
    ∃ bufs, List.Forall₂ (fun o buf => act o = .emit buf)
        ((docsOf input).filter (fun o => !(act o).isDrop)) bufs ∧
      (streamLoop decodeMsg act firstObj out input).1 = out ++ sepJoin firstObj bufs := by
  induction input generalizing firstObj out with
  | nil => exact ⟨[], by simp [docsOf], by simp [streamLoop, sepJoin]⟩
  | cons d rest ih =>
    cases d with
    | err e => simp [streamLoop] at h
    | null =>
      simp only [streamLoop] at h ⊢
      exact ih firstObj out h
    | obj o =>
      simp only [streamLoop, docsOf] at h ⊢
      cases ha : act o with
      | fail msg => simp [ha] at h
      | drop =>
        simp only [ha] at h ⊢
        obtain ⟨bufs, hf, ho⟩ := ih firstObj out h
        exact ⟨bufs, by simpa [List.filter_cons, ha, DocAction.isDrop] using hf, ho⟩
      | emit buf =>
        simp only [ha] at h ⊢
        obtain ⟨bufs, hf, ho⟩ := ih _ _ h
        refine ⟨buf :: bufs, ?_, ?_⟩
        · simp only [List.filter_cons, ha, DocAction.isDrop, Bool.not_false, if_true]
          exact List.Forall₂.cons ha hf
        · rw [ho]
          cases firstObj <;> simp [sepJoin, List.append_assoc]

/-- The loop returns no error when there is no decoding error and `act`
refuses no document. -/
theorem streamLoop_no_error (decodeMsg : GoString → GoString) (act : YMap → DocAction)
    (firstObj : Bool) (out : GoString) (input : List Decoded)
    (hdec : ∀ msg, Decoded.err msg ∉ input)
    (hact : ∀ o, Decoded.obj o ∈ input → ∀ msg, act o ≠ .fail msg) :
    (streamLoop decodeMsg act firstObj out input).2 = none := by
  induction input generalizing firstObj out with
  | nil => rfl
  | cons d rest ih =>
    have hdec' : ∀ msg, Decoded.err msg ∉ rest :=
      fun msg hm => hdec msg (List.mem_cons_of_mem _ hm)
    have hact' : ∀ o, Decoded.obj o ∈ rest → ∀ msg, act o ≠ .fail msg :=
      fun o ho => hact o (List.mem_cons_of_mem _ ho)
    cases d with
    | err e => exact absurd (List.mem_cons_self _ _) (hdec e)
    | null =>
      simp only [streamLoop]
      exact ih firstObj out hdec' hact'
    | obj o =>
      simp only [streamLoop]
      cases ha : act o with
      | fail msg => exact absurd ha (hact o (List.mem_cons_self _ _) msg)
      | drop => exact ih _ _ hdec' hact'
      | emit buf => exact ih _ _ hdec' hact'

theorem mem_docsOf (input : List Decoded) (o : YMap) :
    o ∈ docsOf input ↔ Decoded.obj o ∈ input := by
  induction input with
  | nil => simp [docsOf]
  | cons d rest ih =>
    cases d with
    | err e => simp [docsOf, ih]
    | null => simp [docsOf, ih]
    | obj x => simp [docsOf, ih]

/-- A run of the loop that returns no error has met no decoding error and no
document that `act` refuses. -/
theorem streamLoop_none_inv (decodeMsg : GoString → GoString) (act : YMap → DocAction)
    (firstObj : Bool) (out : GoString) (input : List Decoded)
    (h : (streamLoop decodeMsg act firstObj out input).2 = none) :
    (∀ msg, Decoded.err msg ∉ input) ∧
      ∀ o, Decoded.obj o ∈ input → ∀ msg, act o ≠ .fail msg := by
  induction input generalizing firstObj out with
  | nil => simp
  | cons d rest ih =>
    cases d with
    | err e => simp [streamLoop] at h
    | null =>
      simp only [streamLoop] at h
      obtain ⟨h1, h2⟩ := ih firstObj out h
      refine ⟨fun msg hm => ?_, fun o ho => ?_⟩
      · rcases List.mem_cons.mp hm with e | e
        · cases e
        · exact h1 msg e
      · rcases List.mem_cons.mp ho with e | e
        · cases e
        · exact h2 o e
    | obj x =>
      simp only [streamLoop] at h
      cases ha : act x with
      | fail msg => simp [ha] at h
      | drop =>
        simp only [ha] at h
        obtain ⟨h1, h2⟩ := ih _ _ h
        refine ⟨fun msg hm => ?_, fun o ho => ?_⟩
        · rcases List.mem_cons.mp hm with e | e
          · cases e
          · exact h1 msg e
        · rcases List.mem_cons.mp ho with e | e
          · cases e
            intro msg hmsg
            rw [ha] at hmsg
            cases hmsg
          · exact h2 o e
      | emit buf =>
        simp only [ha] at h
        obtain ⟨h1, h2⟩ := ih _ _ h
        refine ⟨fun msg hm => ?_, fun o ho => ?_⟩
        · rcases List.mem_cons.mp hm with e | e
          · cases e
          · exact h1 msg e
        · rcases List.mem_cons.mp ho with e | e
          · cases e
            intro msg hmsg
            rw [ha] at hmsg
            cases hmsg
          · exact h2 o e

theorem resolver.resolveAction_emit (fmtV : YMap → GoString)
    (marshal : YMap → Except GoString GoString) (images : GoMap GoString) (o : YMap)
    (buf : GoString) (h : resolver.resolveAction fmtV marshal images o = .emit buf) :
    extractName o ≠ [] ∧ extractKind o ≠ [] ∧
      ∃ o', resolver.findAndReplaceTagRun images o = .ok o' ∧ marshal o' = .ok buf := by
  unfold resolver.resolveAction at h
  by_cases hn : extractName o = []
  · simp [hn] at h
  · by_cases hk : extractKind o = []
    · simp [hn, hk] at h
    · simp only [hn, hk, if_false] at h
      refine ⟨hn, hk, ?_⟩
      cases hr : resolver.findAndReplaceTagRun images o with
      | error e => simp [hr] at h
      | ok o' =>
        simp only [hr] at h
        cases hm : marshal o' with
        | error e => simp [hm] at h
        | ok b =>
          simp only [hm, DocAction.emit.injEq] at h
          exact ⟨o', rfl, by rw [hm, h]⟩

theorem resolver.resolveAction_not_drop (fmtV : YMap → GoString)
    (marshal : YMap → Except GoString GoString) (images : GoMap GoString) (o : YMap) :
    (resolver.resolveAction fmtV marshal images o).isDrop = false := by
  unfold resolver.resolveAction
  by_cases hn : extractName o = []
  · simp [hn, DocAction.isDrop]
  · by_cases hk : extractKind o = []
    · simp [hn, hk, DocAction.isDrop]
    · simp only [hn, hk, if_false]
      cases resolver.findAndReplaceTagRun images o with
      | error e => rfl
      | ok o' =>
        simp only
        cases marshal o' <;> rfl

/-- What the filter does with a document that it does not refuse. -/
theorem filter.replaceAction_cases (fmtV : YMap → GoString)
    (marshal : YMap → Except GoString GoString) (o : YMap)
    (h : ∀ msg, filter.replaceAction fmtV marshal o ≠ .fail msg) :
    extractName o ≠ [] ∧ extractKind o ≠ [] ∧
      (filter.kept o = false → filter.replaceAction fmtV marshal o = .drop) ∧
      (filter.kept o = true → ∃ buf,
        marshal (filter.transformDoc (extractKind o) o) = .ok buf ∧
        filter.replaceAction fmtV marshal o = .emit buf) := by
  unfold filter.replaceAction at h ⊢
  unfold filter.kept
  by_cases hn : extractName o = []
  · exact absurd (if_pos hn) (h _)
  · by_cases hk : extractKind o = []
    · exact absurd ((if_neg hn).trans (if_pos hk)) (h _)
    · refine ⟨hn, hk, ?_, ?_⟩
      · intro hkept
        by_cases hp : extractKind o = lit "PersistentVolumeClaim"
        · rw [if_neg hn, if_neg hk, if_pos hp]
        · by_cases hi : extractKind o = lit "Ingress"
          · rw [if_neg hn, if_neg hk, if_neg hp, if_pos hi]
          · simp [hp, hi] at hkept
      · intro hkept
        simp only [Bool.and_eq_true, decide_eq_true_eq] at hkept
        simp only [hn, hk, hkept.1, hkept.2, if_false] at h ⊢
        cases hm : marshal (filter.transformDoc (extractKind o) o) with
        | error e =>
          rw [hm] at h
          exact absurd rfl (h _)
        | ok buf => exact ⟨buf, rfl, rfl⟩

theorem filter.replaceAction_emit (fmtV : YMap → GoString)
    (marshal : YMap → Except GoString GoString) (o : YMap) (buf : GoString)
    (h : filter.replaceAction fmtV marshal o = .emit buf) :
    marshal (filter.transformDoc (extractKind o) o) = .ok buf := by
  unfold filter.replaceAction at h
  by_cases hn : extractName o = []
  · rw [if_pos hn] at h; cases h
  · by_cases hk : extractKind o = []
    · rw [if_neg hn, if_pos hk] at h; cases h
    · by_cases hp : extractKind o = lit "PersistentVolumeClaim"
      · rw [if_neg hn, if_neg hk, if_pos hp] at h; cases h
      · by_cases hi : extractKind o = lit "Ingress"
        · rw [if_neg hn, if_neg hk, if_neg hp, if_pos hi] at h; cases h
        · rw [if_neg hn, if_neg hk, if_neg hp, if_neg hi] at h
          cases hm : marshal (filter.transformDoc (extractKind o) o) with
          | error e => rw [hm] at h; cases h
          | ok b =>
            rw [hm] at h
            simp only [DocAction.emit.injEq] at h
            rw [h]

/-! ## Lemmas on the integration-test filter -/

namespace filter

theorem mapLookup_findPVC (m : YMap) (k : GoString) :
    mapLookup (findPVC m) k = (mapLookup m k).map findPVCValue := by
  induction m with
  | nil => simp [findPVC, mapLookup]
  | cons kv rest ih =>
    obtain ⟨k0, v0⟩ := kv
    by_cases h : k0 = k
    · simp [findPVC, mapLookup, h]
    · simp [findPVC, mapLookup, h, ih]

theorem findPVCValue_map (m : YMap) :
    findPVCValue (.map m) = .map (findAndReplacePVC m) := by
  simp [findPVCValue, findAndReplacePVC]

theorem findPVCValue_seq (items : List Value) :
    findPVCValue (.seq items) = .seq (findPVCItems items) := by
  simp [findPVCValue]

theorem findPVCItem_map (m : YMap) :
    findPVCItem (.map m) = .map (findAndReplacePVC m) := by
  simp [findPVCItem, findAndReplacePVC]

theorem asString_findPVCValue (v : Option Value) :
    asString (v.map findPVCValue) = asString v := by
  cases v with
  | none => rfl
  | some w => cases w <;> simp [asString, findPVCValue]

/-- The keys of a map that findAndReplacePVC does not write. -/
theorem mapLookup_findAndReplacePVC (m : YMap) (k : GoString)
    (h1 : k ≠ lit "persistentVolumeClaim") (h2 : k ≠ lit "emptyDir") :
    mapLookup (findAndReplacePVC m) k
      = if (mapLookup m (lit "persistentVolumeClaim")).isSome then mapLookup m k
        else (mapLookup m k).map findPVCValue := by
  unfold findAndReplacePVC replacePVCOr
  split
  · rw [mapLookup_mapSet, mapLookup_mapDelete]
    have h1' : ¬ lit "persistentVolumeClaim" = k := fun e => h1 e.symm
    have h2' : ¬ lit "emptyDir" = k := fun e => h2 e.symm
    simp [h1', h2']
  · exact mapLookup_findPVC m k

theorem asString_findAndReplacePVC (m : YMap) (k : GoString)
    (h1 : k ≠ lit "persistentVolumeClaim") (h2 : k ≠ lit "emptyDir") :
    asString (mapLookup (findAndReplacePVC m) k) = asString (mapLookup m k) := by
  rw [mapLookup_findAndReplacePVC m k h1 h2]
  split
  · rfl
  · exact asString_findPVCValue _

theorem extractKind_findAndReplacePVC (o : YMap) :
    extractKind (findAndReplacePVC o) = extractKind o := by
  unfold extractKind
  rw [asString_findAndReplacePVC o (lit "kind") (by decide) (by decide)]

theorem extractName_findAndReplacePVC (o : YMap) :
    extractName (findAndReplacePVC o) = extractName o := by
  unfold extractName
  rw [mapLookup_findAndReplacePVC o (lit "metadata") (by decide) (by decide)]
  by_cases hp : (mapLookup o (lit "persistentVolumeClaim")).isSome = true
  · rw [if_pos hp]
  · rw [if_neg hp]
    cases hm : mapLookup o (lit "metadata") with
    | none => rfl
    | some v =>
      cases v with
      | map md =>
        simp only [Option.map_some', findPVCValue_map, asMap]
        rw [asString_findAndReplacePVC md (lit "name") (by decide) (by decide)]
      | null => rfl
      | bool b => rfl
      | int i => rfl
      | float f => rfl
      | str s => rfl
      | seq l => simp [findPVCValue, asMap]

/-- The keys of a document that processStatefulSet does not write. -/
theorem mapLookup_processStatefulSet (o : YMap) (k : GoString)
    (h1 : k ≠ lit "spec") (h2 : k ≠ lit "status") :
    mapLookup (processStatefulSet o) k = mapLookup o k := by
  have h1' : ¬ lit "spec" = k := fun e => h1 e.symm
  have h2' : ¬ lit "status" = k := fun e => h2 e.symm
  unfold processStatefulSet
  split
  · rfl
  · split
    · rfl
    · split
      · rfl
      · split
        · rfl
        · split
          · rfl
          · simp only [mapLookup_mapDelete, mapLookup_mapSet, h1', h2', if_false]

/-- The keys of a document that findAndReplaceIssuerName does not write. -/
theorem mapLookup_findAndReplaceIssuerName (o : YMap) (k : GoString)
    (h1 : k ≠ lit "spec") :
    mapLookup (findAndReplaceIssuerName o) k = mapLookup o k := by
  have h1' : ¬ lit "spec" = k := fun e => h1 e.symm
  unfold findAndReplaceIssuerName
  split
  · rfl
  · split
    · rfl
    · split
      · simp only [mapLookup_mapSet, h1', if_false]
      · rfl

/-- The statements between the drop rules and yaml.Marshal leave the kind and
the name of the document as they are. -/
theorem transformDoc_kind_name (kind : GoString) (o : YMap) :
    extractKind (transformDoc kind o) = extractKind o ∧
      extractName (transformDoc kind o) = extractName o := by
  unfold transformDoc
  simp only [extractKind_findAndReplacePVC, extractName_findAndReplacePVC]
  have hk : ∀ x : YMap, mapLookup x (lit "kind") = mapLookup o (lit "kind") →
      mapLookup x (lit "metadata") = mapLookup o (lit "metadata") →
      extractKind x = extractKind o ∧ extractName x = extractName o := by
    intro x e1 e2
    simp [extractKind, extractName, e1, e2]
  apply hk
  · split <;> split <;>
      simp only [mapLookup_findAndReplaceIssuerName _ (lit "kind") (by decide),
        mapLookup_processStatefulSet _ (lit "kind") (by decide) (by decide)]
  · split <;> split <;>
      simp only [mapLookup_findAndReplaceIssuerName _ (lit "metadata") (by decide),
        mapLookup_processStatefulSet _ (lit "metadata") (by decide) (by decide)]

end filter

/-- The output of a run of ResolveImages that returns no error. -/
theorem resolver.ResolveImages_output (fmtV : YMap → GoString)
    (marshal : YMap → Except GoString GoString) (imgMap : GoMap GoString)
    (input : List Decoded)
    (h : (resolver.ResolveImages fmtV marshal input imgMap).2 = none) :
    ∃ bufs, List.Forall₂
        (fun o buf => ∃ o', resolver.findAndReplaceTagRun imgMap o = .ok o' ∧
          marshal o' = .ok buf)
        (docsOf input) bufs ∧
      (resolver.ResolveImages fmtV marshal input imgMap).1 = SEP.intercalate bufs := by
  unfold resolver.ResolveImages at h ⊢
  rw [resolver.resolveLoop_eq] at h ⊢
  obtain ⟨bufs, hf, ho⟩ := streamLoop_output _ _ _ _ _ h
  refine ⟨bufs, ?_, ?_⟩
  · have hfilter : (docsOf input).filter
        (fun o => !(resolver.resolveAction fmtV marshal imgMap o).isDrop) = docsOf input := by
      apply List.filter_eq_self.mpr
      intro o _
      simp [resolver.resolveAction_not_drop]
    rw [hfilter] at hf
    exact hf.imp (fun o buf hob => (resolver.resolveAction_emit _ _ _ o buf hob).2.2)
  · rw [ho, sepJoin_true]
    rfl

/-- The output of a run of the filter that returns no error. -/
theorem filter.ReplacePDWithEmptyDirs_output (fmtV : YMap → GoString)
    (marshal : YMap → Except GoString GoString) (input : List Decoded)
    (h : (filter.ReplacePDWithEmptyDirs fmtV marshal input).2 = none) :
    ∃ bufs, List.Forall₂
        (fun o buf => marshal (filter.transformDoc (extractKind o) o) = .ok buf)
        ((docsOf input).filter filter.kept) bufs ∧
      (filter.ReplacePDWithEmptyDirs fmtV marshal input).1 = SEP.intercalate bufs := by
  unfold filter.ReplacePDWithEmptyDirs at h ⊢
  rw [filter.replaceLoop_eq] at h ⊢
  obtain ⟨bufs, hf, ho⟩ := streamLoop_output _ _ _ _ _ h
  obtain ⟨_, hnofail⟩ := streamLoop_none_inv _ _ _ _ _ h
  refine ⟨bufs, ?_, ?_⟩
  · have hfilter : (docsOf input).filter
        (fun o => !(filter.replaceAction fmtV marshal o).isDrop)
        = (docsOf input).filter filter.kept := by
      apply List.filter_congr
      intro o ho
      have hc := filter.replaceAction_cases fmtV marshal o
        (hnofail o ((mem_docsOf input o).mp ho))
      cases hk : filter.kept o with
      | false => simp [hc.2.2.1 hk, DocAction.isDrop]
      | true =>
        obtain ⟨buf, _, he⟩ := hc.2.2.2 hk
        simp [he, DocAction.isDrop]
    rw [hfilter] at hf
    exact hf.imp (fun o buf hob => filter.replaceAction_emit fmtV marshal o buf hob)
  · rw [ho, sepJoin_true]
    rfl

/-- The filter returns no error on a stream without decoding error whose
documents have a name and a kind and can be serialised after the
transformation. -/
theorem filter.ReplacePDWithEmptyDirs_no_error (fmtV : YMap → GoString)
    (marshal : YMap → Except GoString GoString) (input : List Decoded)
    (hdec : ∀ msg, Decoded.err msg ∉ input)
    (hvalid : ∀ o, Decoded.obj o ∈ input → extractName o ≠ [] ∧ extractKind o ≠ [])
    (hmarshal : ∀ o, Decoded.obj o ∈ input → filter.kept o = true →
      ∃ buf, marshal (filter.transformDoc (extractKind o) o) = .ok buf) :
    (filter.ReplacePDWithEmptyDirs fmtV marshal input).2 = none := by
  unfold filter.ReplacePDWithEmptyDirs
  rw [filter.replaceLoop_eq]
  apply streamLoop_no_error _ _ _ _ _ hdec
  intro o ho msg
  obtain ⟨hn, hk⟩ := hvalid o ho
  unfold filter.replaceAction
  rw [if_neg hn, if_neg hk]
  by_cases hp : extractKind o = lit "PersistentVolumeClaim"
  · rw [if_pos hp]
    intro e
    cases e
  · by_cases hi : extractKind o = lit "Ingress"
    · rw [if_neg hp, if_pos hi]
      intro e
      cases e
    · rw [if_neg hp, if_neg hi]
      have hkept : filter.kept o = true := by simp [filter.kept, hp, hi]
      obtain ⟨buf, hb⟩ := hmarshal o ho hkept
      rw [hb]
      intro e
      cases e

/-! ## Lemmas on processStatefulSet -/

namespace filter

/-- One iteration of the loop that builds existingVolumes. -/
theorem indexVolumes_cons (v : Value) (rest : List Value) (idx : Nat) (acc : GoMap Nat) :
    indexVolumes (v :: rest) idx acc
      = indexVolumes rest (idx + 1)
          (match volName v with
            | some n => mapSet acc n idx
            | none => acc) := by
  cases v with
  | map m =>
    simp only [indexVolumes, volName]
    cases asString (mapLookup m (lit "name")) <;> rfl
  | null => rfl
  | bool b => rfl
  | int i => rfl
  | float f => rfl
  | str s => rfl
  | seq l => rfl

/-- An index recorded in existingVolumes is the index of a volume of that name,
or was there before the loop. -/
theorem indexVolumes_some (vols : List Value) (start : Nat) (acc : GoMap Nat)
    (n : GoString) (i : Nat) (h : mapLookup (indexVolumes vols start acc) n = some i) :
    mapLookup acc n = some i ∨
      ∃ j, i = start + j ∧ (vols[j]?).bind volName = some n := by
  induction vols generalizing start acc with
  | nil => exact Or.inl h
  | cons v rest ih =>
    rw [indexVolumes_cons] at h
    rcases ih _ _ h with h1 | ⟨j, hj, hv⟩
    · cases hn : volName v with
      | none =>
        rw [hn] at h1
        exact Or.inl h1
      | some n' =>
        rw [hn] at h1
        simp only [mapLookup_mapSet] at h1
        by_cases e : n' = n
        · subst e
          simp only [if_true, Option.some.injEq] at h1
          exact Or.inr ⟨0, by omega, by simp [hn]⟩
        · simp only [e, if_false] at h1
          exact Or.inl h1
    · exact Or.inr ⟨j + 1, by omega, by simpa using hv⟩

/-- A name has no index in existingVolumes exactly when it had none before the
loop and no volume has it. -/
theorem indexVolumes_none (vols : List Value) (start : Nat) (acc : GoMap Nat)
    (n : GoString) :
    mapLookup (indexVolumes vols start acc) n = none ↔
      mapLookup acc n = none ∧ hasVolumeNamed vols n = false := by
  induction vols generalizing start acc with
  | nil => simp [indexVolumes, hasVolumeNamed]
  | cons v rest ih =>
    rw [indexVolumes_cons, ih]
    simp only [hasVolumeNamed, List.any_cons, Bool.or_eq_false_iff, decide_eq_false_iff_not]
    cases hn : volName v with
    | none => simp
    | some n' =>
      simp only [mapLookup_mapSet, Option.some.injEq]
      by_cases e : n' = n
      · simp [e]
      · simp [e]

theorem vctStep_template (existing : GoMap Nat) (volumes : List Value) (t : Value)
    (ht : ∃ m, t = .map m ∧ extractName m ≠ []) :
    vctStep existing volumes t
      = match mapLookup existing (tplName t) with
        | some idx => volumes.set idx (tplVolume t)
        | none => volumes ++ [tplVolume t] := by
  obtain ⟨m, rfl, hne⟩ := ht
  simp only [vctStep, tplName, tplVolume, hne, if_false]

theorem vctStep_length_le (existing : GoMap Nat) (volumes : List Value) (t : Value) :
    volumes.length ≤ (vctStep existing volumes t).length := by
  cases t with
  | map m =>
    simp only [vctStep]
    split
    · exact Nat.le_refl _
    · split
      · simp
      · simp
  | null => simp [vctStep]
  | bool b => simp [vctStep]
  | int i => simp [vctStep]
  | float f => simp [vctStep]
  | str s => simp [vctStep]
  | seq l => simp [vctStep]

theorem foldl_vctStep_length_le (existing : GoMap Nat) (ts : List Value)
    (volumes : List Value) :
    volumes.length ≤ (ts.foldl (vctStep existing) volumes).length := by
  induction ts generalizing volumes with
  | nil => exact Nat.le_refl _
  | cons t ts ih =>
    exact Nat.le_trans (vctStep_length_le existing volumes t) (ih _)

/-- An index that no template is sent to keeps its volume through the loop. -/
theorem foldl_vctStep_untouched (existing : GoMap Nat) (ts : List Value)
    (volumes : List Value) (i : Nat) (hi : i < volumes.length)
    (hts : ∀ t ∈ ts, ∃ m, t = .map m ∧ extractName m ≠ [])
    (hno : ∀ t ∈ ts, mapLookup existing (tplName t) ≠ some i) :
    (ts.foldl (vctStep existing) volumes)[i]? = volumes[i]? := by
  induction ts generalizing volumes with
  | nil => rfl
  | cons t ts ih =>
    have ht := hts t (List.mem_cons_self _ _)
    have hts' : ∀ u ∈ ts, ∃ m, u = .map m ∧ extractName m ≠ [] :=
      fun u hu => hts u (List.mem_cons_of_mem _ hu)
    have hno' : ∀ u ∈ ts, mapLookup existing (tplName u) ≠ some i :=
      fun u hu => hno u (List.mem_cons_of_mem _ hu)
    have hnot := hno t (List.mem_cons_self _ _)
    rw [List.foldl_cons, ih _ (Nat.lt_of_lt_of_le hi (vctStep_length_le _ _ _)) hts' hno',
      vctStep_template existing volumes t ht]
    cases he : mapLookup existing (tplName t) with
    | none =>
      simp only
      rw [List.getElem?_append_left hi]
    | some idx =>
      simp only
      have hne : idx ≠ i := fun e => hnot (by rw [he, e])
      rw [List.getElem?_set_ne hne]

/-- The volume of a template that is sent to the index `i`, no other template
being sent there. -/
theorem foldl_vctStep_set (existing : GoMap Nat) (ts : List Value)
    (volumes : List Value) (i : Nat) (hi : i < volumes.length) (t0 : Value)
    (hts : ∀ t ∈ ts, ∃ m, t = .map m ∧ extractName m ≠ [])
    (hmem : t0 ∈ ts) (h0 : mapLookup existing (tplName t0) = some i)
    (honly : ∀ t ∈ ts, mapLookup existing (tplName t) = some i → t = t0) :
    (ts.foldl (vctStep existing) volumes)[i]? = some (tplVolume t0) := by
  induction ts generalizing volumes with
  | nil => simp at hmem
  | cons t ts ih =>
    have ht := hts t (List.mem_cons_self _ _)
    have hts' : ∀ u ∈ ts, ∃ m, u = .map m ∧ extractName m ≠ [] :=
      fun u hu => hts u (List.mem_cons_of_mem _ hu)
    have honly' : ∀ u ∈ ts, mapLookup existing (tplName u) = some i → u = t0 :=
      fun u hu => honly u (List.mem_cons_of_mem _ hu)
    rw [List.foldl_cons]
    by_cases hin : t0 ∈ ts
    · exact ih _ (Nat.lt_of_lt_of_le hi (vctStep_length_le _ _ _)) hts' hin honly'
    · have e : t0 = t := by
        rcases List.mem_cons.mp hmem with e | e
        · exact e
        · exact absurd e hin
      subst e
      have hno : ∀ u ∈ ts, mapLookup existing (tplName u) ≠ some i := by
        intro u hu hs
        exact hin (honly' u hu hs ▸ hu)
      rw [foldl_vctStep_untouched existing ts _ i
        (Nat.lt_of_lt_of_le hi (vctStep_length_le _ _ _)) hts' hno,
        vctStep_template existing volumes t0 ht, h0]
      simp only
      exact List.getElem?_set_self hi

/-- The volumes appended by the loop: those of the templates without index, in
order. -/
theorem foldl_vctStep_drop (existing : GoMap Nat) (ts : List Value)
    (volumes : List Value)
    (hts : ∀ t ∈ ts, ∃ m, t = .map m ∧ extractName m ≠ [])
    (hidx : ∀ t ∈ ts, ∀ i, mapLookup existing (tplName t) = some i → i < volumes.length) :
    (ts.foldl (vctStep existing) volumes).drop volumes.length
      = (ts.filter (fun t => (mapLookup existing (tplName t)).isNone)).map tplVolume := by
  induction ts generalizing volumes with
  | nil => simp
  | cons t ts ih =>
    have ht := hts t (List.mem_cons_self _ _)
    have hts' : ∀ u ∈ ts, ∃ m, u = .map m ∧ extractName m ≠ [] :=
      fun u hu => hts u (List.mem_cons_of_mem _ hu)
    have hidx' : ∀ u ∈ ts, ∀ i, mapLookup existing (tplName u) = some i →
        i < volumes.length := fun u hu => hidx u (List.mem_cons_of_mem _ hu)
    rw [List.foldl_cons, vctStep_template existing volumes t ht]
    cases he : mapLookup existing (tplName t) with
    | some idx =>
      simp only [List.filter_cons, he, Option.isNone_some, Bool.false_eq_true, if_false]
      have := ih (volumes.set idx (tplVolume t)) hts' (by simpa using hidx')
      simpa using this
    | none =>
      simp only [List.filter_cons, he, Option.isNone_none, if_true, List.map_cons]
      have hlen : (volumes ++ [tplVolume t]).length = volumes.length + 1 := by simp
      have hdrop := ih (volumes ++ [tplVolume t]) hts'
        (fun u hu i hs => by rw [hlen]; exact Nat.lt_succ_of_lt (hidx' u hu i hs))
      rw [hlen] at hdrop
      have hget : (ts.foldl (vctStep existing) (volumes ++ [tplVolume t]))[volumes.length]?
          = some (tplVolume t) := by
        rw [foldl_vctStep_untouched existing ts _ volumes.length (by simp) hts'
          (fun u hu hs => by
            have := hidx' u hu _ hs
            omega)]
        simp
      obtain ⟨hlt, hval⟩ := List.getElem?_eq_some.mp hget
      rw [List.drop_eq_getElem_cons hlt, hval, hdrop]

end filter

namespace filter

theorem asMap_eq_some (v : Option Value) (m : YMap) (h : asMap v = some m) :
    v = some (.map m) := by
  cases v with
  | none => simp [asMap] at h
  | some w =>
    cases w <;> simp [asMap] at h
    rw [h]

theorem navigateToTemplateSpec_some (spec tspec : YMap)
    (h : navigateToTemplateSpec spec = some tspec) :
    ∃ template, mapLookup spec (lit "template") = some (.map template) ∧
      mapLookup template (lit "spec") = some (.map tspec) := by
  unfold navigateToTemplateSpec at h
  cases h1 : asMap (mapLookup spec (lit "template")) with
  | none => simp [h1] at h
  | some template =>
    simp only [h1] at h
    cases h2 : asMap (mapLookup template (lit "spec")) with
    | none => simp [h2] at h
    | some t =>
      simp only [h2, Option.some.injEq] at h
      subst h
      exact ⟨template, asMap_eq_some _ _ h1, asMap_eq_some _ _ h2⟩

/-- processStatefulSet when none of its early returns is taken. -/
theorem processStatefulSet_eq (obj spec tspec : YMap) (vcts : List Value)
    (hspec : mapLookup obj (lit "spec") = some (.map spec))
    (hvct : mapLookup spec (lit "volumeClaimTemplates") = some (.seq vcts))
    (hne : vcts ≠ []) (htspec : navigateToTemplateSpec spec = some tspec) :
    processStatefulSet obj
      = mapDelete (mapSet obj (lit "spec")
          (.map (mapDelete (setTemplateSpecVolumes spec (newVolumes tspec vcts))
            (lit "volumeClaimTemplates")))) (lit "status") := by
  have hlen : ¬ vcts.length = 0 := fun e => hne (List.length_eq_zero.mp e)
  unfold processStatefulSet newVolumes
  simp only [hspec, asMap, hvct, asSlice, hlen, if_false, htspec]

theorem setTemplateSpecVolumes_navigate (spec tspec : YMap) (vols : List Value)
    (htspec : navigateToTemplateSpec spec = some tspec) :
    navigateToTemplateSpec
        (mapDelete (setTemplateSpecVolumes spec vols) (lit "volumeClaimTemplates"))
      = some (mapSet tspec (lit "volumes") (.seq vols)) := by
  obtain ⟨template, h1, h2⟩ := navigateToTemplateSpec_some spec tspec htspec
  have hne : ¬ lit "volumeClaimTemplates" = lit "template" := by decide
  unfold setTemplateSpecVolumes navigateToTemplateSpec
  simp only [h1, h2, asMap, mapLookup_mapDelete, mapLookup_mapSet, hne, if_false, if_true]

/-- The document after processStatefulSet, when none of its early returns is
taken: spec is a map without volumeClaimTemplates, the volumes are at
spec.template.spec.volumes, and there is no status. -/
theorem processStatefulSet_result (obj spec tspec : YMap) (vcts : List Value)
    (hspec : mapLookup obj (lit "spec") = some (.map spec))
    (hvct : mapLookup spec (lit "volumeClaimTemplates") = some (.seq vcts))
    (hne : vcts ≠ []) (htspec : navigateToTemplateSpec spec = some tspec) :
    ∃ spec' tspec',
      mapLookup (processStatefulSet obj) (lit "spec") = some (.map spec') ∧
      navigateToTemplateSpec spec' = some tspec' ∧
      mapLookup tspec' (lit "volumes") = some (.seq (newVolumes tspec vcts)) ∧
      mapLookup spec' (lit "volumeClaimTemplates") = none ∧
      mapLookup (processStatefulSet obj) (lit "status") = none := by
  rw [processStatefulSet_eq obj spec tspec vcts hspec hvct hne htspec]
  have hne1 : ¬ lit "status" = lit "spec" := by decide
  refine ⟨mapDelete (setTemplateSpecVolumes spec (newVolumes tspec vcts))
      (lit "volumeClaimTemplates"),
    mapSet tspec (lit "volumes") (.seq (newVolumes tspec vcts)), ?_,
    setTemplateSpecVolumes_navigate spec tspec _ htspec, ?_, ?_, ?_⟩
  · simp only [mapLookup_mapDelete, mapLookup_mapSet, hne1, if_false, if_true]
  · simp only [mapLookup_mapSet, if_true]
  · simp only [mapLookup_mapDelete, if_true]
  · simp only [mapLookup_mapDelete, if_true]

theorem hasVolumeNamed_true (vols : List Value) (n : GoString)
    (h : hasVolumeNamed vols n = true) : ∃ v ∈ vols, volName v = some n := by
  unfold hasVolumeNamed at h
  rw [List.any_eq_true] at h
  obtain ⟨v, hv, hd⟩ := h
  exact ⟨v, hv, by simpa using hd⟩

/-- The list of volumes after the loop of processStatefulSet over templates of
pairwise distinct non-empty names. -/
theorem newVolumes_spec (tspec : YMap) (vcts : List Value)
    (hts : ∀ t ∈ vcts, ∃ m, t = .map m ∧ extractName m ≠ [])
    (hdistinct : (vcts.map tplName).Nodup) :
    (∀ t ∈ vcts, hasVolumeNamed (extractVolumes tspec) (tplName t) = true →
      ∃ i : Nat, ((extractVolumes tspec)[i]?).bind volName = some (tplName t) ∧
        (newVolumes tspec vcts)[i]? = some (tplVolume t)) ∧
    (newVolumes tspec vcts).drop (extractVolumes tspec).length
      = (vcts.filter (fun t => !hasVolumeNamed (extractVolumes tspec) (tplName t))).map
          tplVolume ∧
    (∀ (i : Nat) (v : Value), (extractVolumes tspec)[i]? = some v →
      (∀ t ∈ vcts, volName v ≠ some (tplName t)) →
      (newVolumes tspec vcts)[i]? = some v) := by
  have hidx : ∀ n i, mapLookup (indexVolumes (extractVolumes tspec) 0 []) n = some i →
      ((extractVolumes tspec)[i]?).bind volName = some n := by
    intro n i h
    rcases indexVolumes_some _ _ _ _ _ h with h1 | ⟨j, hj, hv⟩
    · simp [mapLookup] at h1
    · have : i = j := by omega
      rw [this]
      exact hv
  have hlt : ∀ n i, mapLookup (indexVolumes (extractVolumes tspec) 0 []) n = some i →
      i < (extractVolumes tspec).length := by
    intro n i h
    have := hidx n i h
    by_contra hge
    rw [List.getElem?_eq_none (by omega)] at this
    simp at this
  have hnone : ∀ n, (mapLookup (indexVolumes (extractVolumes tspec) 0 []) n).isNone
      = !hasVolumeNamed (extractVolumes tspec) n := by
    intro n
    have := indexVolumes_none (extractVolumes tspec) 0 [] n
    cases hl : mapLookup (indexVolumes (extractVolumes tspec) 0 []) n with
    | none =>
      have h2 := (this.mp hl).2
      simp [h2]
    | some i =>
      cases hh : hasVolumeNamed (extractVolumes tspec) n with
      | true => rfl
      | false =>
        have := this.mpr ⟨by simp [mapLookup], hh⟩
        rw [hl] at this
        cases this
  refine ⟨?_, ?_, ?_⟩
  · intro t ht hhas
    cases hl : mapLookup (indexVolumes (extractVolumes tspec) 0 []) (tplName t) with
    | none =>
      have := hnone (tplName t)
      rw [hl, hhas] at this
      simp at this
    | some i =>
      refine ⟨i, hidx _ _ hl, ?_⟩
      apply foldl_vctStep_set _ vcts _ i (hlt _ _ hl) t hts ht hl
      intro u hu hs
      have h1 := hidx _ _ hs
      have h2 := hidx _ _ hl
      rw [h1] at h2
      simp only [Option.some.injEq] at h2
      exact (List.inj_on_of_nodup_map hdistinct) hu ht h2
  · unfold newVolumes
    rw [foldl_vctStep_drop _ vcts _ hts (fun t _ i hs => hlt _ i hs)]
    congr 1
    apply List.filter_congr
    intro t _
    exact hnone (tplName t)
  · intro i v hv hno
    unfold newVolumes
    have hi : i < (extractVolumes tspec).length := by
      by_contra hge
      rw [List.getElem?_eq_none (by omega)] at hv
      cases hv
    rw [foldl_vctStep_untouched _ vcts _ i hi hts, hv]
    intro t ht hs
    have := hidx _ _ hs
    rw [hv] at this
    exact hno t ht (by simpa using this)

end filter

/-! ## Lemmas on findAndReplacePVC -/

namespace filter

theorem findPVCItems_getElem? (items : List Value) (i : Nat) :
    (findPVCItems items)[i]? = (items[i]?).map findPVCItem := by
  induction items generalizing i with
  | nil => simp [findPVCItems]
  | cons v rest ih =>
    cases i with
    | zero => simp [findPVCItems]
    | succ j => simp [findPVCItems, ih]

theorem asMap_findPVCValue (v : Option Value) :
    asMap (v.map findPVCValue) = (asMap v).map findAndReplacePVC := by
  cases v with
  | none => rfl
  | some w => cases w <;> simp [asMap, findPVCValue, findAndReplacePVC]

theorem asMap_findPVCItem (v : Option Value) :
    asMap (v.map findPVCItem) = (asMap v).map findAndReplacePVC := by
  cases v with
  | none => rfl
  | some w => cases w <;> simp [asMap, findPVCItem, findAndReplacePVC]

/-- One hop below a map that findPVC has gone through leads to the map that
findAndReplacePVC makes of the map that was there. -/
theorem descend_findPVC (m : YMap) (h : Hop) :
    descend (findPVC m) h = (descend m h).map findAndReplacePVC := by
  obtain ⟨k, oi⟩ := h
  cases oi with
  | none =>
    simp only [descend, mapLookup_findPVC]
    exact asMap_findPVCValue _
  | some i =>
    simp only [descend, mapLookup_findPVC]
    cases hl : mapLookup m k with
    | none => rfl
    | some v =>
      cases v with
      | seq items =>
        simp only [Option.map_some', findPVCValue_seq, findPVCItems_getElem?]
        exact asMap_findPVCItem _
      | map c => simp [findPVCValue]
      | null => rfl
      | bool b => rfl
      | int n => rfl
      | float f => rfl
      | str s => rfl

theorem findAndReplacePVC_of_none (m : YMap)
    (h : mapLookup m (lit "persistentVolumeClaim") = none) :
    findAndReplacePVC m = findPVC m := by
  simp [findAndReplacePVC, replacePVCOr, h]

theorem findAndReplacePVC_of_some (m : YMap)
    (h : mapLookup m (lit "persistentVolumeClaim") ≠ none) :
    findAndReplacePVC m
      = mapSet (mapDelete m (lit "persistentVolumeClaim")) (lit "emptyDir") (.map []) := by
  have : (mapLookup m (lit "persistentVolumeClaim")).isSome = true := by
    cases hl : mapLookup m (lit "persistentVolumeClaim") with
    | none => exact absurd hl h
    | some v => rfl
  simp [findAndReplacePVC, replacePVCOr, this]

theorem findAndReplacePVC_no_claim (m : YMap) :
    mapLookup (findAndReplacePVC m) (lit "persistentVolumeClaim") = none := by
  by_cases h : mapLookup m (lit "persistentVolumeClaim") = none
  · rw [findAndReplacePVC_of_none m h, mapLookup_findPVC, h]
    rfl
  · rw [findAndReplacePVC_of_some m h, mapLookup_mapSet, mapLookup_mapDelete]
    have : ¬ lit "emptyDir" = lit "persistentVolumeClaim" := by decide
    simp [this]

/-- The map at the end of a walk that goes through no map with the key
persistentVolumeClaim before its end. -/
theorem walk_findAndReplacePVC (root : YMap) (hops : List Hop) (m : YMap)
    (hwalk : walk root hops = some m)
    (hclear : ∀ n, n < hops.length → ∀ mp, walk root (hops.take n) = some mp →
      mapLookup mp (lit "persistentVolumeClaim") = none) :
    walk (findAndReplacePVC root) hops = some (findAndReplacePVC m) := by
  induction hops generalizing root with
  | nil =>
    simp only [walk, Option.some.injEq] at hwalk
    rw [hwalk]
    rfl
  | cons h rest ih =>
    have hroot : mapLookup root (lit "persistentVolumeClaim") = none :=
      hclear 0 (by simp) root rfl
    rw [findAndReplacePVC_of_none root hroot]
    simp only [walk, descend_findPVC] at hwalk ⊢
    cases hd : descend root h with
    | none => simp [hd] at hwalk
    | some c =>
      simp only [hd, Option.map_some'] at hwalk ⊢
      apply ih c hwalk
      intro n hn mp hmp
      apply hclear (n + 1) (by simp; omega) mp
      simp only [List.take_succ_cons, walk, hd]
      exact hmp

end filter

/-! ## The fuel of findAndReplaceTag -/

theorem Value.depthEntries_mapSet_le (m : List (GoString × Value)) (k : GoString)
    (v : Value) :
    Value.depthEntries (mapSet m k v) ≤ max (Value.depthEntries m) (Value.depth v) := by
  induction m with
  | nil => simp [mapSet, Value.depthEntries]
  | cons kv rest ih =>
    obtain ⟨k0, v0⟩ := kv
    by_cases h : k0 = k
    · simp only [mapSet, h, if_true, Value.depthEntries]
      omega
    · simp only [mapSet, h, if_false, Value.depthEntries]
      omega

namespace resolver

theorem resolvedItem_depth_le (images : GoMap GoString) (v : Value) :
    Value.depth (resolvedItem images v) ≤ Value.depth v := by
  cases v with
  | map container =>
    simp only [resolvedItem]
    cases mapLookup container (lit "image") with
    | none => exact Nat.le_refl _
    | some img =>
      cases img with
      | str imageName =>
        simp only
        cases mapLookup images imageName with
        | none => exact Nat.le_refl _
        | some newName =>
          simp only [Value.depth]
          have := Value.depthEntries_mapSet_le container (lit "image") (.str newName)
          simp only [Value.depth] at this
          omega
      | null => exact Nat.le_refl _
      | bool b => exact Nat.le_refl _
      | int i => exact Nat.le_refl _
      | float f => exact Nat.le_refl _
      | seq l => exact Nat.le_refl _
      | map l => exact Nat.le_refl _
  | null => exact Nat.le_refl _
  | bool b => exact Nat.le_refl _
  | int i => exact Nat.le_refl _
  | float f => exact Nat.le_refl _
  | str s => exact Nat.le_refl _
  | seq l => exact Nat.le_refl _

theorem updateContainersLoop_depth_le (images : GoMap GoString) (items items' : List Value)
    (h : updateContainersLoop images items = .ok items') :
    Value.depthList items' ≤ Value.depthList items := by
  induction items generalizing items' with
  | nil =>
    simp only [updateContainersLoop, Except.ok.injEq] at h
    rw [← h]
  | cons item rest ih =>
    rw [updateContainersLoop_cons] at h
    cases hu : unresolvedImage images item with
    | some S => simp [hu] at h
    | none =>
      simp only [hu] at h
      cases hr : updateContainersLoop images rest with
      | error e => simp [hr] at h
      | ok rest' =>
        simp only [hr, Except.ok.injEq] at h
        rw [← h]
        simp only [Value.depthList]
        have h1 := resolvedItem_depth_le images item
        have h2 := ih rest' hr
        omega

theorem updateContainers_depth_le (images : GoMap GoString) (obj obj' : YMap)
    (pa : GoString) (h : updateContainers images obj pa = .ok obj') :
    Value.depthEntries obj' ≤ Value.depthEntries obj := by
  unfold updateContainers at h
  cases hl : mapLookup obj pa with
  | none =>
    simp only [hl, Except.ok.injEq] at h
    rw [← h]
  | some v =>
    cases v with
    | seq items =>
      simp only [hl] at h
      cases hr : updateContainersLoop images items with
      | error e => simp [hr] at h
      | ok items' =>
        simp only [hr, Except.ok.injEq] at h
        rw [← h]
        have h1 := Value.depthEntries_mapSet_le obj pa (.seq items')
        have h2 := updateContainersLoop_depth_le images items items' hr
        have h3 := Value.depth_le_depthEntries obj pa _ (mapLookup_mem obj pa _ hl)
        simp only [Value.depth] at h1 h3
        omega
    | null => simp only [hl, Except.ok.injEq] at h; rw [← h]
    | bool b => simp only [hl, Except.ok.injEq] at h; rw [← h]
    | int i => simp only [hl, Except.ok.injEq] at h; rw [← h]
    | float f => simp only [hl, Except.ok.injEq] at h; rw [← h]
    | str s => simp only [hl, Except.ok.injEq] at h; rw [← h]
    | map l => simp only [hl, Except.ok.injEq] at h; rw [← h]

theorem updateContainer_depth_le (images : GoMap GoString) (obj obj' : YMap)
    (pa : GoString) (h : updateContainer images obj pa = .ok obj') :
    Value.depthEntries obj' ≤ Value.depthEntries obj := by
  unfold updateContainer at h
  cases hl : mapLookup obj pa with
  | none =>
    simp only [hl, Except.ok.injEq] at h
    rw [← h]
  | some v =>
    cases v with
    | map container =>
      simp only [hl] at h
      cases himg : mapLookup container (lit "image") with
      | none => simp only [himg, Except.ok.injEq] at h; rw [← h]
      | some img =>
        cases img with
        | str imageName =>
          simp only [himg] at h
          by_cases hp : hasPrefix imageName (lit "//") = true
          · simp [hp] at h
          · rw [if_neg hp] at h
            cases hm : mapLookup images imageName with
            | none => simp only [hm, Except.ok.injEq] at h; rw [← h]
            | some newName =>
              simp only [hm, Except.ok.injEq] at h
              rw [← h]
              have h1 := Value.depthEntries_mapSet_le obj pa
                (.map (mapSet container (lit "image") (.str newName)))
              have h2 := Value.depthEntries_mapSet_le container (lit "image") (.str newName)
              have h3 := Value.depth_le_depthEntries obj pa _ (mapLookup_mem obj pa _ hl)
              simp only [Value.depth] at h1 h2 h3
              omega
        | null => simp only [himg, Except.ok.injEq] at h; rw [← h]
        | bool b => simp only [himg, Except.ok.injEq] at h; rw [← h]
        | int i => simp only [himg, Except.ok.injEq] at h; rw [← h]
        | float f => simp only [himg, Except.ok.injEq] at h; rw [← h]
        | seq l => simp only [himg, Except.ok.injEq] at h; rw [← h]
        | map l => simp only [himg, Except.ok.injEq] at h; rw [← h]
    | null => simp only [hl, Except.ok.injEq] at h; rw [← h]
    | bool b => simp only [hl, Except.ok.injEq] at h; rw [← h]
    | int i => simp only [hl, Except.ok.injEq] at h; rw [← h]
    | float f => simp only [hl, Except.ok.injEq] at h; rw [← h]
    | str s => simp only [hl, Except.ok.injEq] at h; rw [← h]
    | seq l => simp only [hl, Except.ok.injEq] at h; rw [← h]

theorem pathLoop_depth_le (update : YMap → GoString → Except GoString YMap)
    (hupdate : ∀ obj obj' pa, update obj pa = .ok obj' →
      Value.depthEntries obj' ≤ Value.depthEntries obj)
    (paths : List GoString) (st st' : YMap × Bool)
    (h : pathLoop update paths st = .ok st') :
    Value.depthEntries st'.1 ≤ Value.depthEntries st.1 := by
  induction paths generalizing st with
  | nil =>
    simp only [pathLoop, Except.ok.injEq] at h
    rw [← h]
  | cons pa rest ih =>
    simp only [pathLoop] at h
    by_cases hf : (mapLookup st.1 pa).isSome = true
    · rw [if_pos hf] at h
      cases hu : update st.1 pa with
      | error e => simp [hu] at h
      | ok obj =>
        simp only [hu] at h
        exact Nat.le_trans (ih (obj, (mapLookup st.1 pa).isSome) h) (hupdate _ _ _ hu)
    · rw [if_neg hf] at h
      exact ih (st.1, (mapLookup st.1 pa).isSome) h

theorem findContainersItems_isSome (recur : YMap → Run YMap) (items : List Value)
    (h : ∀ c, Value.map c ∈ items → (recur c).isSome = true) :
    (findContainersItems recur items).isSome = true := by
  induction items with
  | nil => rfl
  | cons item rest ih =>
    have hrest := ih (fun c hc => h c (List.mem_cons_of_mem _ hc))
    cases hr : findContainersItems recur rest with
    | none => simp [hr] at hrest
    | some r =>
      cases item with
      | map m =>
        have hm := h m (List.mem_cons_self _ _)
        cases hc : recur m with
        | none => simp [hc] at hm
        | some rc =>
          cases rc <;> cases r <;> simp [findContainersItems, hc, hr, Run.andThen]
      | null => cases r <;> simp [findContainersItems, hr, Run.andThen]
      | bool b => cases r <;> simp [findContainersItems, hr, Run.andThen]
      | int i => cases r <;> simp [findContainersItems, hr, Run.andThen]
      | float f => cases r <;> simp [findContainersItems, hr, Run.andThen]
      | str s => cases r <;> simp [findContainersItems, hr, Run.andThen]
      | seq l => cases r <;> simp [findContainersItems, hr, Run.andThen]

theorem findContainersEntries_isSome (recur : YMap → Run YMap) (entries : YMap)
    (hmap : ∀ k c, (k, Value.map c) ∈ entries → (recur c).isSome = true)
    (hseq : ∀ k items c, (k, Value.seq items) ∈ entries → Value.map c ∈ items →
      (recur c).isSome = true) :
    (findContainersEntries recur entries).isSome = true := by
  induction entries with
  | nil => rfl
  | cons kv rest ih =>
    obtain ⟨key, v⟩ := kv
    have hrest := ih (fun k c hc => hmap k c (List.mem_cons_of_mem _ hc))
      (fun k items c hc hi => hseq k items c (List.mem_cons_of_mem _ hc) hi)
    cases hr : findContainersEntries recur rest with
    | none => simp [hr] at hrest
    | some r =>
      cases v with
      | map m =>
        have hm := hmap key m (List.mem_cons_self _ _)
        cases hc : recur m with
        | none => simp [hc] at hm
        | some rc =>
          cases rc <;> cases r <;> simp [findContainersEntries, hc, hr, Run.andThen]
      | seq items =>
        have hi := findContainersItems_isSome recur items
          (fun c hc => hseq key items c (List.mem_cons_self _ _) hc)
        cases hc : findContainersItems recur items with
        | none => simp [hc] at hi
        | some rc =>
          cases rc <;> cases r <;> simp [findContainersEntries, hc, hr, Run.andThen]
      | null => cases r <;> simp [findContainersEntries, hr, Run.andThen]
      | bool b => cases r <;> simp [findContainersEntries, hr, Run.andThen]
      | int i => cases r <;> simp [findContainersEntries, hr, Run.andThen]
      | float f => cases r <;> simp [findContainersEntries, hr, Run.andThen]
      | str s => cases r <;> simp [findContainersEntries, hr, Run.andThen]

/-- With fuel above the depth of the map, findAndReplaceTag returns. -/
theorem findAndReplaceTag_returns (images : GoMap GoString) (fuel : Nat) (obj : YMap)
    (hfuel : Value.depthEntries obj < fuel) :
    (findAndReplaceTag images fuel obj).isSome = true := by
  induction fuel generalizing obj with
  | zero => omega
  | succ fuel ih =>
    rw [findAndReplaceTag]
    cases h1 : pathLoop (updateContainer images) [lit "container", lit "spec"] (obj, false) with
    | error e => rfl
    | ok st1 =>
      simp only
      cases h2 : pathLoop (updateContainers images)
          [lit "containers", lit "initContainers"] st1 with
      | error e => rfl
      | ok st2 =>
        simp only
        have d1 := pathLoop_depth_le _ (updateContainer_depth_le images) _ _ _ h1
        have d2 := pathLoop_depth_le _ (updateContainers_depth_le images) _ _ _ h2
        simp only at d1
        cases st2.2 with
        | true => rfl
        | false =>
          simp only [Bool.not_false, if_true]
          apply findContainersEntries_isSome
          · intro k c hc
            apply ih
            have := Value.depth_le_depthEntries st2.1 k _ hc
            simp only [Value.depth] at this
            omega
          · intro k items c hc hi
            apply ih
            have h3 := Value.depth_le_depthEntries st2.1 k _ hc
            have h4 := Value.depth_le_depthList items _ hi
            simp only [Value.depth] at h3 h4
            omega

theorem findContainersItems_mono (recur recur' : YMap → Run YMap)
    (h : ∀ c r, recur c = some r → recur' c = some r) (items : List Value)
    (r : Except GoString (List Value)) (hr : findContainersItems recur items = some r) :
    findContainersItems recur' items = some r := by
  induction items generalizing r with
  | nil => exact hr
  | cons item rest ih =>
    cases item with
    | map m =>
      simp only [findContainersItems] at hr ⊢
      cases hc : recur m with
      | none => simp [hc, Run.andThen] at hr
      | some rc =>
        rw [h m rc hc]
        rw [hc] at hr
        cases rc with
        | error e => exact hr
        | ok m' =>
          simp only [Run.andThen] at hr ⊢
          cases hrest : findContainersItems recur rest with
          | none => simp [hrest] at hr
          | some rr =>
            rw [ih rr hrest]
            rw [hrest] at hr
            exact hr
    | null | bool _ | int _ | float _ | str _ | seq _ =>
      simp only [findContainersItems] at hr ⊢
      cases hrest : findContainersItems recur rest with
      | none => simp [hrest, Run.andThen] at hr
      | some rr =>
        rw [ih rr hrest]
        rw [hrest] at hr
        exact hr

theorem findContainersEntries_mono (recur recur' : YMap → Run YMap)
    (h : ∀ c r, recur c = some r → recur' c = some r) (entries : YMap)
    (r : Except GoString YMap) (hr : findContainersEntries recur entries = some r) :
    findContainersEntries recur' entries = some r := by
  induction entries generalizing r with
  | nil => exact hr
  | cons kv rest ih =>
    obtain ⟨key, v⟩ := kv
    cases v with
    | map m =>
      simp only [findContainersEntries] at hr ⊢
      cases hc : recur m with
      | none => simp [hc, Run.andThen] at hr
      | some rc =>
        rw [h m rc hc]
        rw [hc] at hr
        cases rc with
        | error e => exact hr
        | ok m' =>
          simp only [Run.andThen] at hr ⊢
          cases hrest : findContainersEntries recur rest with
          | none => simp [hrest] at hr
          | some rr =>
            rw [ih rr hrest]
            rw [hrest] at hr
            exact hr
    | seq items =>
      simp only [findContainersEntries] at hr ⊢
      cases hc : findContainersItems recur items with
      | none => simp [hc, Run.andThen] at hr
      | some rc =>
        rw [findContainersItems_mono recur recur' h items rc hc]
        rw [hc] at hr
        cases rc with
        | error e => exact hr
        | ok m' =>
          simp only [Run.andThen] at hr ⊢
          cases hrest : findContainersEntries recur rest with
          | none => simp [hrest] at hr
          | some rr =>
            rw [ih rr hrest]
            rw [hrest] at hr
            exact hr
    | null | bool _ | int _ | float _ | str _ =>
      simp only [findContainersEntries] at hr ⊢
      cases hrest : findContainersEntries recur rest with
      | none => simp [hrest, Run.andThen] at hr
      | some rr =>
        rw [ih rr hrest]
        rw [hrest] at hr
        exact hr

/-- More fuel does not change what findAndReplaceTag returns. -/
theorem findAndReplaceTag_fuel_succ (images : GoMap GoString) (fuel : Nat) (obj : YMap)
    (r : Except GoString YMap) (h : findAndReplaceTag images fuel obj = some r) :
    findAndReplaceTag images (fuel + 1) obj = some r := by
  induction fuel generalizing obj r with
  | zero => simp [findAndReplaceTag] at h
  | succ fuel ih =>
    rw [findAndReplaceTag] at h ⊢
    cases h1 : pathLoop (updateContainer images) [lit "container", lit "spec"] (obj, false) with
    | error e => rw [h1] at h; exact h
    | ok st1 =>
      rw [h1] at h
      simp only at h ⊢
      cases h2 : pathLoop (updateContainers images)
          [lit "containers", lit "initContainers"] st1 with
      | error e => rw [h2] at h; exact h
      | ok st2 =>
        rw [h2] at h
        simp only at h ⊢
        cases hb : st2.2 with
        | true => rw [hb] at h; exact h
        | false =>
          rw [hb] at h
          simp only [Bool.not_false, if_true] at h ⊢
          exact findContainersEntries_mono _ _ (fun c r hc => ih c r hc) _ _ h

theorem findAndReplaceTag_fuel_add (images : GoMap GoString) (fuel k : Nat) (obj : YMap)
    (r : Except GoString YMap) (h : findAndReplaceTag images fuel obj = some r) :
    findAndReplaceTag images (fuel + k) obj = some r := by
  induction k with
  | zero => exact h
  | succ k ih => exact findAndReplaceTag_fuel_succ images (fuel + k) obj r ih

/-- The result of findAndReplaceTagRun is what findAndReplaceTag returns with
any fuel on which it returns. -/
theorem findAndReplaceTagRun_eq (images : GoMap GoString) (fuel : Nat) (obj : YMap)
    (r : Except GoString YMap) (h : findAndReplaceTag images fuel obj = some r) :
    findAndReplaceTagRun images obj = r := by
  have hret := findAndReplaceTag_returns images (Value.depthEntries obj + 1) obj
    (Nat.lt_succ_self _)
  unfold findAndReplaceTagRun
  cases h0 : findAndReplaceTag images (Value.depthEntries obj + 1) obj with
  | none => simp [h0] at hret
  | some r0 =>
    simp only
    have e1 := findAndReplaceTag_fuel_add images fuel (Value.depthEntries obj + 1) obj r h
    have e2 := findAndReplaceTag_fuel_add images (Value.depthEntries obj + 1) fuel obj r0 h0
    rw [Nat.add_comm] at e2
    rw [e1] at e2
    simp only [Option.some.injEq] at e2
    exact e2.symm

end resolver

/-! ## Theorems on the image resolver -/

/-- C14: resolver identity.  On a document in which no map under a key
`container` or `spec`, and no item of a list under a key `containers` or
`initContainers`, has a string image that is a key of the image map or starts
with //, findAndReplaceTag returns without error and leaves the document equal
to its input, for every fuel above the depth of the document. -/
theorem C14_findAndReplaceTag_identity (images : GoMap GoString) (obj : YMap)
    (hclean : ∀ m ∈ Value.maps (.map obj), resolver.levelClean images m = true) :
    (∀ fuel, Value.depthEntries obj < fuel →
      resolver.findAndReplaceTag images fuel obj = some (.ok obj)) ∧
    resolver.findAndReplaceTagRun images obj = .ok obj := by
  have h := fun fuel hf => resolver.findAndReplaceTag_clean images fuel obj hclean hf
  refine ⟨h, ?_⟩
  unfold resolver.findAndReplaceTagRun
  rw [h _ (Nat.lt_succ_self _)]

/-- Witness of C14 on a Deployment whose only image is nginx:1.0, which the
image map does not have. -/
theorem C14_findAndReplaceTag_identity_witness :
    (∀ fuel, Value.depthEntries
        [(lit "kind", .str (lit "Deployment")),
          (lit "spec", .map [(lit "template", .map [(lit "spec", .map
            [(lit "containers", .seq [.map [(lit "image", .str (lit "nginx:1.0"))]])])])])]
        < fuel →
      resolver.findAndReplaceTag [(lit "//app:image", lit "registry/app@sha256:1")] fuel
        [(lit "kind", .str (lit "Deployment")),
          (lit "spec", .map [(lit "template", .map [(lit "spec", .map
            [(lit "containers", .seq [.map [(lit "image", .str (lit "nginx:1.0"))]])])])])]
        = some (.ok [(lit "kind", .str (lit "Deployment")),
          (lit "spec", .map [(lit "template", .map [(lit "spec", .map
            [(lit "containers", .seq [.map [(lit "image", .str (lit "nginx:1.0"))]])])])])])) ∧
    resolver.findAndReplaceTagRun [(lit "//app:image", lit "registry/app@sha256:1")]
        [(lit "kind", .str (lit "Deployment")),
          (lit "spec", .map [(lit "template", .map [(lit "spec", .map
            [(lit "containers", .seq [.map [(lit "image", .str (lit "nginx:1.0"))]])])])])]
      = .ok [(lit "kind", .str (lit "Deployment")),
          (lit "spec", .map [(lit "template", .map [(lit "spec", .map
            [(lit "containers", .seq [.map [(lit "image", .str (lit "nginx:1.0"))]])])])])] :=
  C14_findAndReplaceTag_identity [(lit "//app:image", lit "registry/app@sha256:1")]
    [(lit "kind", .str (lit "Deployment")),
      (lit "spec", .map [(lit "template", .map [(lit "spec", .map
        [(lit "containers", .seq [.map [(lit "image", .str (lit "nginx:1.0"))]])])])])]
    (by decide)

theorem lacksName_iff (obj : YMap) : lacksName obj ↔ extractName obj = [] := by
  unfold lacksName extractName
  cases hm : mapLookup obj (lit "metadata") with
  | none => simp [asMap]
  | some v =>
    cases v with
    | map md =>
      simp only [asMap, Option.some.injEq, Value.map.injEq]
      have other : ∀ w : Value, (∀ n, w ≠ .str n) → mapLookup md (lit "name") = some w →
          ((∀ (md' : List (GoString × Value)) (n : GoString), md = md' →
            mapLookup md' (lit "name") = some (.str n) → n = []) ↔
          (match asString (some w) with
            | none => ([] : GoString)
            | some name => name) = []) := by
        intro w hw hn
        have hs : asString (some w) = none := by
          cases w <;> first | rfl | exact absurd rfl (hw _)
        rw [hs]
        simp only [iff_true]
        intro md' n e1 e2
        subst e1
        rw [hn] at e2
        simp only [Option.some.injEq] at e2
        exact absurd e2 (hw n)
      cases hn : mapLookup md (lit "name") with
      | none =>
        simp only [asString, iff_true]
        intro md' n e1 e2
        subst e1
        rw [hn] at e2
        cases e2
      | some w =>
        cases w with
        | str n =>
          simp only [asString]
          constructor
          · intro h
            exact h md n rfl hn
          · intro h md' n' e1 e2
            subst e1
            rw [hn] at e2
            simp only [Option.some.injEq, Value.str.injEq] at e2
            rw [← e2]
            exact h
        | null => exact other _ (fun n => by simp) hn
        | bool b => exact other _ (fun n => by simp) hn
        | int i => exact other _ (fun n => by simp) hn
        | float f => exact other _ (fun n => by simp) hn
        | seq l => exact other _ (fun n => by simp) hn
        | map l => exact other _ (fun n => by simp) hn
    | null => simp [asMap]
    | bool b => simp [asMap]
    | int i => simp [asMap]
    | float f => simp [asMap]
    | str s => simp [asMap]
    | seq l => simp [asMap]

theorem lacksKind_iff (obj : YMap) : lacksKind obj ↔ extractKind obj = [] := by
  unfold lacksKind extractKind
  cases hk : mapLookup obj (lit "kind") with
  | none => simp [asString]
  | some v =>
    cases v with
    | str k => simp [asString]
    | null => simp [asString]
    | bool b => simp [asString]
    | int i => simp [asString]
    | float f => simp [asString]
    | seq l => simp [asString]
    | map l => simp [asString]

instance lacksName.decidable (obj : YMap) : Decidable (lacksName obj) :=
  decidable_of_iff (extractName obj = []) (lacksName_iff obj).symm

instance lacksKind.decidable (obj : YMap) : Decidable (lacksKind obj) :=
  decidable_of_iff (extractKind obj = []) (lacksKind_iff obj).symm

/-! ## Theorems on the two transformers -/

/-- C15: document validation in both transformers.  When the input gets to a
document that is a mapping without usable metadata.name or without usable kind,
the documents before it having been processed without error, ResolveImages and
ReplacePDWithEmptyDirs return an error: its message is the context, then
"missing metadata.name in object" and the document when the name is lacking,
and the context, then "missing kind in object" and the document when only the
kind is lacking.  The document may be of any kind, one that the filter drops
included. -/
theorem C15_validation_errors (fmtV : YMap → GoString)
    (marshal : YMap → Except GoString GoString) (imgMap : GoMap GoString)
    (pre rest : List Decoded) (bad : YMap) (hbad : lacksName bad ∨ lacksKind bad) :
    ((resolver.ResolveImages fmtV marshal pre imgMap).2 = none →
      ∃ msg, (resolver.ResolveImages fmtV marshal (pre ++ .obj bad :: rest) imgMap).2
          = some msg ∧
        (lacksName bad →
          msg = lit "resolving images: missing metadata.name in object " ++ fmtV bad ∧
          lit "missing metadata.name" <:+: msg) ∧
        (¬ lacksName bad →
          msg = lit "resolving images: missing kind in object " ++ fmtV bad ∧
          lit "missing kind" <:+: msg)) ∧
    ((filter.ReplacePDWithEmptyDirs fmtV marshal pre).2 = none →
      ∃ msg, (filter.ReplacePDWithEmptyDirs fmtV marshal (pre ++ .obj bad :: rest)).2
          = some msg ∧
        (lacksName bad →
          msg = lit "replacing PD with empty dirs: missing metadata.name in object "
            ++ fmtV bad ∧
          lit "missing metadata.name" <:+: msg) ∧
        (¬ lacksName bad →
          msg = lit "replacing PD with empty dirs: missing kind in object " ++ fmtV bad ∧
          lit "missing kind" <:+: msg)) := by
  have hkind : ¬ lacksName bad → extractKind bad = [] := by
    intro hn
    rcases hbad with h | h
    · exact absurd h hn
    · exact (lacksKind_iff bad).mp h
  constructor
  · intro hpre
    unfold resolver.ResolveImages at hpre ⊢
    rw [resolver.resolveLoop_eq] at hpre ⊢
    by_cases hn : lacksName bad
    · have hact : resolver.resolveAction fmtV marshal imgMap bad
          = .fail (lit "resolving images" ++ lit ": missing metadata.name in object "
              ++ fmtV bad) := by
        simp [resolver.resolveAction, (lacksName_iff bad).mp hn]
      refine ⟨_, streamLoop_fail _ _ _ _ pre rest bad _ hpre hact, ?_, fun h => absurd hn h⟩
      intro _
      refine ⟨rfl, lit "resolving images: ", lit " in object " ++ fmtV bad, ?_⟩
      simp only [List.append_assoc]
      rfl
    · have hne : ¬ extractName bad = [] := fun e => hn ((lacksName_iff bad).mpr e)
      have hact : resolver.resolveAction fmtV marshal imgMap bad
          = .fail (lit "resolving images" ++ lit ": missing kind in object " ++ fmtV bad) := by
        simp [resolver.resolveAction, hne, hkind hn]
      refine ⟨_, streamLoop_fail _ _ _ _ pre rest bad _ hpre hact, fun h => absurd h hn, ?_⟩
      intro _
      refine ⟨rfl, lit "resolving images: ", lit " in object " ++ fmtV bad, ?_⟩
      simp only [List.append_assoc]
      rfl
  · intro hpre
    unfold filter.ReplacePDWithEmptyDirs at hpre ⊢
    rw [filter.replaceLoop_eq] at hpre ⊢
    by_cases hn : lacksName bad
    · have hact : filter.replaceAction fmtV marshal bad
          = .fail (lit "replacing PD with empty dirs"
              ++ lit ": missing metadata.name in object " ++ fmtV bad) := by
        simp [filter.replaceAction, (lacksName_iff bad).mp hn]
      refine ⟨_, streamLoop_fail _ _ _ _ pre rest bad _ hpre hact, ?_, fun h => absurd hn h⟩
      intro _
      refine ⟨rfl, lit "replacing PD with empty dirs: ", lit " in object " ++ fmtV bad, ?_⟩
      simp only [List.append_assoc]
      rfl
    · have hne : ¬ extractName bad = [] := fun e => hn ((lacksName_iff bad).mpr e)
      have hact : filter.replaceAction fmtV marshal bad
          = .fail (lit "replacing PD with empty dirs" ++ lit ": missing kind in object "
              ++ fmtV bad) := by
        simp [filter.replaceAction, hne, hkind hn]
      refine ⟨_, streamLoop_fail _ _ _ _ pre rest bad _ hpre hact, fun h => absurd h hn, ?_⟩
      intro _
      refine ⟨rfl, lit "replacing PD with empty dirs: ", lit " in object " ++ fmtV bad, ?_⟩
      simp only [List.append_assoc]
      rfl

/-- Witness of C15: a PersistentVolumeClaim without metadata, which the filter
would drop, makes the filter fail. -/
theorem C15_validation_errors_witness :
    ∃ msg, (filter.ReplacePDWithEmptyDirs (fun _ => lit "map[]") (fun _ => .ok [])
        ([] ++ .obj [(lit "kind", .str (lit "PersistentVolumeClaim"))] :: [])).2 = some msg ∧
      (lacksName [(lit "kind", .str (lit "PersistentVolumeClaim"))] →
        msg = lit "replacing PD with empty dirs: missing metadata.name in object "
          ++ (fun _ => lit "map[]") [(lit "kind", Value.str (lit "PersistentVolumeClaim"))] ∧
        lit "missing metadata.name" <:+: msg) ∧
      (¬ lacksName [(lit "kind", .str (lit "PersistentVolumeClaim"))] →
        msg = lit "replacing PD with empty dirs: missing kind in object "
          ++ (fun _ => lit "map[]") [(lit "kind", Value.str (lit "PersistentVolumeClaim"))] ∧
        lit "missing kind" <:+: msg) :=
  (C15_validation_errors (fun _ => lit "map[]") (fun _ => .ok []) [] [] []
    [(lit "kind", .str (lit "PersistentVolumeClaim"))]
    (Or.inl ((lacksName_iff _).mpr (by decide)))).2 (by decide)

theorem SEP_eq : SEP = lit "---\n" := rfl

theorem length_intercalate (sep : GoString) (bufs : List GoString) :
    (sep.intercalate bufs).length
      = (bufs.map List.length).sum + sep.length * (bufs.length - 1) := by
  cases bufs with
  | nil => simp [List.intercalate]
  | cons b rest =>
    induction rest generalizing b with
    | nil => simp [List.intercalate]
    | cons c rest ih =>
      have e : sep.intercalate (b :: c :: rest) = b ++ sep ++ sep.intercalate (c :: rest) := by
        simp [List.intercalate, List.intersperse]
      rw [e]
      simp only [List.length_append, ih c, List.map_cons, List.sum_cons, List.length_cons,
        Nat.add_sub_cancel]
      rw [Nat.mul_add, Nat.mul_one]
      omega

/-- C16: separator placement.  When a transformer returns no error, its output
is the serialised documents it emitted, in order, joined by the line `---` and
a newline: that line stands between two consecutive documents, not before the
first one and not after the last one, so that k documents come with k - 1
separators of 4 bytes each, and none for k = 0.  ResolveImages emits one
document for each document of the input that is a mapping, the filter one for
each such document that the drop rule keeps; null documents and dropped
documents leave no separator.  On the empty input both write nothing and
return no error. -/
theorem C16_separator_placement (fmtV : YMap → GoString)
    (marshal : YMap → Except GoString GoString) (imgMap : GoMap GoString)
    (input : List Decoded) :
    ((resolver.ResolveImages fmtV marshal input imgMap).2 = none →
      ∃ bufs, List.Forall₂
          (fun o buf => ∃ o', resolver.findAndReplaceTagRun imgMap o = .ok o' ∧
            marshal o' = .ok buf)
          (docsOf input) bufs ∧
        (resolver.ResolveImages fmtV marshal input imgMap).1
          = (lit "---\n").intercalate bufs ∧
        ((resolver.ResolveImages fmtV marshal input imgMap).1).length
          = (bufs.map List.length).sum + 4 * (bufs.length - 1)) ∧
    ((filter.ReplacePDWithEmptyDirs fmtV marshal input).2 = none →
      ∃ bufs, List.Forall₂
          (fun o buf => marshal (filter.transformDoc (extractKind o) o) = .ok buf)
          ((docsOf input).filter filter.kept) bufs ∧
        (filter.ReplacePDWithEmptyDirs fmtV marshal input).1
          = (lit "---\n").intercalate bufs ∧
        ((filter.ReplacePDWithEmptyDirs fmtV marshal input).1).length
          = (bufs.map List.length).sum + 4 * (bufs.length - 1)) ∧
    (∀ b1 b2 b3 : GoString,
      (lit "---\n").intercalate [b1] = b1 ∧
      (lit "---\n").intercalate [b1, b2] = b1 ++ lit "---\n" ++ b2 ∧
      (lit "---\n").intercalate [b1, b2, b3]
        = b1 ++ lit "---\n" ++ b2 ++ lit "---\n" ++ b3) ∧
    resolver.ResolveImages fmtV marshal [] imgMap = ([], none) ∧
    filter.ReplacePDWithEmptyDirs fmtV marshal [] = ([], none) := by
  refine ⟨?_, ?_, ?_, rfl, rfl⟩
  · intro h
    obtain ⟨bufs, hf, ho⟩ := resolver.ResolveImages_output fmtV marshal imgMap input h
    rw [SEP_eq] at ho
    refine ⟨bufs, hf, ho, ?_⟩
    rw [ho, length_intercalate]
    rfl
  · intro h
    obtain ⟨bufs, hf, ho⟩ := filter.ReplacePDWithEmptyDirs_output fmtV marshal input h
    rw [SEP_eq] at ho
    refine ⟨bufs, hf, ho, ?_⟩
    rw [ho, length_intercalate]
    rfl
  · intro b1 b2 b3
    simp [List.intercalate, List.intersperse]

/-- Witness of C16: a null document, a dropped Ingress, then two documents that
are emitted with one separator between them and none in front. -/
theorem C16_separator_placement_witness :
    ∃ bufs, List.Forall₂
        (fun o buf => (Except.ok (extractName (filter.transformDoc (extractKind o) o)) :
          Except GoString GoString) = .ok buf)
        ((docsOf [.null,
          .obj [(lit "kind", .str (lit "Ingress")),
            (lit "metadata", .map [(lit "name", .str (lit "i"))])],
          .obj [(lit "kind", .str (lit "Service")),
            (lit "metadata", .map [(lit "name", .str (lit "a"))])],
          .obj [(lit "kind", .str (lit "ConfigMap")),
            (lit "metadata", .map [(lit "name", .str (lit "b"))])]]).filter filter.kept) bufs ∧
      (filter.ReplacePDWithEmptyDirs (fun _ => [])
        (fun o => (.ok (extractName o) : Except GoString GoString))
        [.null,
          .obj [(lit "kind", .str (lit "Ingress")),
            (lit "metadata", .map [(lit "name", .str (lit "i"))])],
          .obj [(lit "kind", .str (lit "Service")),
            (lit "metadata", .map [(lit "name", .str (lit "a"))])],
          .obj [(lit "kind", .str (lit "ConfigMap")),
            (lit "metadata", .map [(lit "name", .str (lit "b"))])]]).1
        = (lit "---\n").intercalate bufs ∧
      ((filter.ReplacePDWithEmptyDirs (fun _ => [])
        (fun o => (.ok (extractName o) : Except GoString GoString))
        [.null,
          .obj [(lit "kind", .str (lit "Ingress")),
            (lit "metadata", .map [(lit "name", .str (lit "i"))])],
          .obj [(lit "kind", .str (lit "Service")),
            (lit "metadata", .map [(lit "name", .str (lit "a"))])],
          .obj [(lit "kind", .str (lit "ConfigMap")),
            (lit "metadata", .map [(lit "name", .str (lit "b"))])]]).1).length
        = (bufs.map List.length).sum + 4 * (bufs.length - 1) :=
  (C16_separator_placement (fun _ => [])
    (fun o => (.ok (extractName o) : Except GoString GoString)) []
    [.null,
      .obj [(lit "kind", .str (lit "Ingress")),
        (lit "metadata", .map [(lit "name", .str (lit "i"))])],
      .obj [(lit "kind", .str (lit "Service")),
        (lit "metadata", .map [(lit "name", .str (lit "a"))])],
      .obj [(lit "kind", .str (lit "ConfigMap")),
        (lit "metadata", .map [(lit "name", .str (lit "b"))])]]).2.1 (by decide)

/-- C17: drop rule of the integration-test filter.  On a stream without
decoding error whose documents all have a name and a kind (and can be
serialised), the filter returns no error and writes, in input order and
separated, one serialised document for each document that is a mapping and
whose kind is neither PersistentVolumeClaim nor Ingress, namely that document
after the transformations; the documents of those two kinds are left out, and
the transformations leave the kind and the name of a document as they are. -/
theorem C17_filter_drop_rule (fmtV : YMap → GoString)
    (marshal : YMap → Except GoString GoString) (input : List Decoded)
    (hdec : ∀ d ∈ input, d.isErr = false)
    (hvalid : ∀ o ∈ docsOf input, ¬ lacksName o ∧ ¬ lacksKind o)
    (hmarshal : ∀ o ∈ docsOf input, filter.kept o = true →
      ∃ buf, marshal (filter.transformDoc (extractKind o) o) = .ok buf) :
    (∃ bufs, List.Forall₂
        (fun o buf => marshal (filter.transformDoc (extractKind o) o) = .ok buf)
        ((docsOf input).filter filter.kept) bufs ∧
      filter.ReplacePDWithEmptyDirs fmtV marshal input = (SEP.intercalate bufs, none)) ∧
    (∀ o : YMap, filter.kept o = false ↔
      extractKind o = lit "PersistentVolumeClaim" ∨ extractKind o = lit "Ingress") ∧
    (∀ o : YMap, extractKind (filter.transformDoc (extractKind o) o) = extractKind o ∧
      extractName (filter.transformDoc (extractKind o) o) = extractName o) := by
  have hvalid' : ∀ o, Decoded.obj o ∈ input → extractName o ≠ [] ∧ extractKind o ≠ [] := by
    intro o ho
    obtain ⟨h1, h2⟩ := hvalid o ((mem_docsOf input o).mpr ho)
    exact ⟨fun e => h1 ((lacksName_iff o).mpr e), fun e => h2 ((lacksKind_iff o).mpr e)⟩
  have hdec' : ∀ msg, Decoded.err msg ∉ input := by
    intro msg hm
    have := hdec _ hm
    simp [Decoded.isErr] at this
  have hnone := filter.ReplacePDWithEmptyDirs_no_error fmtV marshal input hdec' hvalid'
    (fun o ho => hmarshal o ((mem_docsOf input o).mpr ho))
  refine ⟨?_, ?_, fun o => filter.transformDoc_kind_name _ o⟩
  · obtain ⟨bufs, hf, ho⟩ := filter.ReplacePDWithEmptyDirs_output fmtV marshal input hnone
    refine ⟨bufs, hf, ?_⟩
    rw [← ho, ← hnone]
  · intro o
    unfold filter.kept
    by_cases hp : extractKind o = lit "PersistentVolumeClaim"
    · simp [hp]
    · by_cases hi : extractKind o = lit "Ingress"
      · simp [hi]
      · simp [hp, hi]

/-- Witness of C17: a PersistentVolumeClaim between two documents that are
kept. -/
theorem C17_filter_drop_rule_witness :
    (∃ bufs, List.Forall₂
        (fun o buf => (Except.ok (extractName (filter.transformDoc (extractKind o) o)) :
          Except GoString GoString) = .ok buf)
        ((docsOf [
          .obj [(lit "kind", .str (lit "Service")),
            (lit "metadata", .map [(lit "name", .str (lit "a"))])],
          .obj [(lit "kind", .str (lit "PersistentVolumeClaim")),
            (lit "metadata", .map [(lit "name", .str (lit "p"))])],
          .obj [(lit "kind", .str (lit "ConfigMap")),
            (lit "metadata", .map [(lit "name", .str (lit "b"))])]]).filter filter.kept) bufs ∧
      filter.ReplacePDWithEmptyDirs (fun _ => [])
        (fun o => (.ok (extractName o) : Except GoString GoString))
        [.obj [(lit "kind", .str (lit "Service")),
            (lit "metadata", .map [(lit "name", .str (lit "a"))])],
          .obj [(lit "kind", .str (lit "PersistentVolumeClaim")),
            (lit "metadata", .map [(lit "name", .str (lit "p"))])],
          .obj [(lit "kind", .str (lit "ConfigMap")),
            (lit "metadata", .map [(lit "name", .str (lit "b"))])]]
        = (SEP.intercalate bufs, none)) :=
  (C17_filter_drop_rule (fun _ => [])
    (fun o => (.ok (extractName o) : Except GoString GoString))
    [.obj [(lit "kind", .str (lit "Service")),
        (lit "metadata", .map [(lit "name", .str (lit "a"))])],
      .obj [(lit "kind", .str (lit "PersistentVolumeClaim")),
        (lit "metadata", .map [(lit "name", .str (lit "p"))])],
      .obj [(lit "kind", .str (lit "ConfigMap")),
        (lit "metadata", .map [(lit "name", .str (lit "b"))])]]
    (by decide) (by decide) (fun o _ _ => ⟨_, rfl⟩)).1

/-! ## Theorems on the integration-test filter -/

/-- extractVolumes returns the list under the key `volumes`, and the empty list
when the key holds no list. -/
theorem filter.extractVolumes_eq (tspec : YMap) (vols : List Value)
    (hvols : mapLookup tspec (lit "volumes") = some (.seq vols) ∨
      (vols = [] ∧ ∀ l, mapLookup tspec (lit "volumes") ≠ some (.seq l))) :
    filter.extractVolumes tspec = vols := by
  unfold filter.extractVolumes
  rcases hvols with h | ⟨h1, h2⟩
  · rw [h]
    rfl
  · rw [h1]
    cases hl : mapLookup tspec (lit "volumes") with
    | none => rfl
    | some v =>
      cases v with
      | seq l => exact absurd hl (h2 l)
      | null => rfl
      | bool b => rfl
      | int i => rfl
      | float f => rfl
      | str s => rfl
      | map m => rfl

/-- C18: StatefulSet ephemeralisation.  On a document with a map at
spec.template.spec and a non-empty list spec.volumeClaimTemplates whose items
have pairwise distinct non-empty names, `vols` being the list that the
document has at spec.template.spec.volumes (the empty list when it has none),
processStatefulSet leaves at spec.template.spec.volumes a list in which the
volume of each template, name n and emptyDir with the storage request as
sizeLimit (an empty emptyDir when the template has no storage request), is at
the index of a volume of `vols` of name n if there is one, and is otherwise
appended after the volumes of `vols` in template order; a volume of `vols`
whose name is that of no template keeps its index and its value. -/
theorem C18_statefulset_volumes (obj spec tspec : YMap) (vcts vols : List Value)
    (hspec : mapLookup obj (lit "spec") = some (.map spec))
    (hvct : mapLookup spec (lit "volumeClaimTemplates") = some (.seq vcts))
    (hne : vcts ≠ [])
    (htspec : filter.navigateToTemplateSpec spec = some tspec)
    (hvols : mapLookup tspec (lit "volumes") = some (.seq vols) ∨
      (vols = [] ∧ ∀ l, mapLookup tspec (lit "volumes") ≠ some (.seq l)))
    (hnames : ∀ t ∈ vcts, filter.tplName t ≠ [])
    (hdistinct : (vcts.map filter.tplName).Nodup) :
    (∃ spec' tspec' vols',
      mapLookup (filter.processStatefulSet obj) (lit "spec") = some (.map spec') ∧
      filter.navigateToTemplateSpec spec' = some tspec' ∧
      mapLookup tspec' (lit "volumes") = some (.seq vols') ∧
      (∀ t ∈ vcts, filter.hasVolumeNamed vols (filter.tplName t) = true →
        ∃ i : Nat, (vols[i]?).bind filter.volName = some (filter.tplName t) ∧
          vols'[i]? = some (filter.tplVolume t)) ∧
      vols'.drop vols.length
        = (vcts.filter (fun t => !filter.hasVolumeNamed vols (filter.tplName t))).map
            filter.tplVolume ∧
      vols'.length
        = vols.length
          + (vcts.filter (fun t => !filter.hasVolumeNamed vols (filter.tplName t))).length ∧
      (∀ (i : Nat) (v : Value), vols[i]? = some v →
        (∀ t ∈ vcts, filter.volName v ≠ some (filter.tplName t)) →
        vols'[i]? = some v)) ∧
    (∀ m : YMap,
      (filter.extractStorageRequest m ≠ [] →
        filter.tplVolume (.map m) = .map [(lit "name", .str (extractName m)),
          (lit "emptyDir", .map [(lit "sizeLimit", .str (filter.extractStorageRequest m))])]) ∧
      (filter.extractStorageRequest m = [] →
        filter.tplVolume (.map m) = .map [(lit "name", .str (extractName m)),
          (lit "emptyDir", .map [])])) ∧
    (∀ (m sp rs rq : YMap) (s : GoString), mapLookup m (lit "spec") = some (.map sp) →
      mapLookup sp (lit "resources") = some (.map rs) →
      mapLookup rs (lit "requests") = some (.map rq) →
      mapLookup rq (lit "storage") = some (.str s) → filter.extractStorageRequest m = s) := by
  have hts : ∀ t ∈ vcts, ∃ m, t = .map m ∧ extractName m ≠ [] := by
    intro t ht
    have := hnames t ht
    cases t with
    | map m => exact ⟨m, rfl, this⟩
    | null => exact absurd rfl this
    | bool b => exact absurd rfl this
    | int i => exact absurd rfl this
    | float f => exact absurd rfl this
    | str s => exact absurd rfl this
    | seq l => exact absurd rfl this
  have hev := filter.extractVolumes_eq tspec vols hvols
  obtain ⟨spec', tspec', h1, h2, h3, _, _⟩ :=
    filter.processStatefulSet_result obj spec tspec vcts hspec hvct hne htspec
  obtain ⟨p1, p2, p3⟩ := filter.newVolumes_spec tspec vcts hts hdistinct
  rw [hev] at p1 p2 p3
  have hle : vols.length ≤ (filter.newVolumes tspec vcts).length := by
    have := filter.foldl_vctStep_length_le
      (filter.indexVolumes (filter.extractVolumes tspec) 0 []) vcts (filter.extractVolumes tspec)
    rw [hev] at this
    unfold filter.newVolumes
    rw [hev]
    exact this
  have hlen : (filter.newVolumes tspec vcts).length
      = vols.length
        + (vcts.filter (fun t => !filter.hasVolumeNamed vols (filter.tplName t))).length := by
    have := congrArg List.length p2
    rw [List.length_drop, List.length_map] at this
    omega
  refine ⟨⟨spec', tspec', _, h1, h2, h3, p1, p2, hlen, p3⟩, ?_, ?_⟩
  · intro m
    constructor
    · intro hs
      simp [filter.tplVolume, filter.emptyDirVolume, hs, mapSet]
    · intro hs
      simp [filter.tplVolume, filter.emptyDirVolume, hs]
  · intro m sp rs rq s e1 e2 e3 e4
    simp [filter.extractStorageRequest, asMap, asString, e1, e2, e3, e4]


/-- Witness of C18 on exampleStatefulSet, whose volumes are `cfg` and `data`:
the volume of the template `data` takes the place of the volume `data`, that
of `logs` is appended, and `cfg` keeps its place. -/
theorem C18_statefulset_volumes_witness :
    ∃ spec' tspec' vols',
      mapLookup (filter.processStatefulSet filter.exampleStatefulSet) (lit "spec")
        = some (.map spec') ∧
      filter.navigateToTemplateSpec spec' = some tspec' ∧
      mapLookup tspec' (lit "volumes") = some (.seq vols') ∧
      (∀ t ∈ [filter.exampleTemplateData, filter.exampleTemplateLogs],
        filter.hasVolumeNamed
          [.map [(lit "name", .str (lit "cfg")), (lit "configMap", .map [])],
            .map [(lit "name", .str (lit "data")), (lit "hostPath", .map [])]]
          (filter.tplName t) = true →
        ∃ i : Nat,
          (([.map [(lit "name", .str (lit "cfg")), (lit "configMap", .map [])],
            .map [(lit "name", .str (lit "data")), (lit "hostPath", .map [])]] :
              List Value)[i]?).bind filter.volName = some (filter.tplName t) ∧
          vols'[i]? = some (filter.tplVolume t)) ∧
      vols'.drop
          ([.map [(lit "name", .str (lit "cfg")), (lit "configMap", .map [])],
            .map [(lit "name", .str (lit "data")), (lit "hostPath", .map [])]] :
              List Value).length
        = ([filter.exampleTemplateData, filter.exampleTemplateLogs].filter (fun t =>
            !filter.hasVolumeNamed
              [.map [(lit "name", .str (lit "cfg")), (lit "configMap", .map [])],
                .map [(lit "name", .str (lit "data")), (lit "hostPath", .map [])]]
              (filter.tplName t))).map filter.tplVolume ∧
      vols'.length
        = ([.map [(lit "name", .str (lit "cfg")), (lit "configMap", .map [])],
            .map [(lit "name", .str (lit "data")), (lit "hostPath", .map [])]] :
              List Value).length
          + ([filter.exampleTemplateData, filter.exampleTemplateLogs].filter (fun t =>
            !filter.hasVolumeNamed
              [.map [(lit "name", .str (lit "cfg")), (lit "configMap", .map [])],
                .map [(lit "name", .str (lit "data")), (lit "hostPath", .map [])]]
              (filter.tplName t))).length ∧
      (∀ (i : Nat) (v : Value),
        ([.map [(lit "name", .str (lit "cfg")), (lit "configMap", .map [])],
          .map [(lit "name", .str (lit "data")), (lit "hostPath", .map [])]] :
            List Value)[i]? = some v →
        (∀ t ∈ [filter.exampleTemplateData, filter.exampleTemplateLogs],
          filter.volName v ≠ some (filter.tplName t)) →
        vols'[i]? = some v) :=
  (C18_statefulset_volumes filter.exampleStatefulSet filter.exampleSpec
    filter.exampleTemplateSpec [filter.exampleTemplateData, filter.exampleTemplateLogs]
    [.map [(lit "name", .str (lit "cfg")), (lit "configMap", .map [])],
      .map [(lit "name", .str (lit "data")), (lit "hostPath", .map [])]]
    (by decide) (by decide) (by decide) (by decide) (Or.inl (by decide)) (by decide)
    (by decide)).1

/-- C19, counterexample: on exampleEmptyTemplates, a StatefulSet of apiVersion
apps/v1 whose spec has the key volumeClaimTemplates with an empty list, the
filter emits the document as it is, with that key and with its status. -/
theorem C19_empty_templates_kept :
    filter.kept filter.exampleEmptyTemplates = true ∧
    extractKind filter.exampleEmptyTemplates = lit "StatefulSet" ∧
    filter.extractAPIVersion filter.exampleEmptyTemplates = lit "apps/v1" ∧
    filter.transformDoc (extractKind filter.exampleEmptyTemplates)
        filter.exampleEmptyTemplates = filter.exampleEmptyTemplates ∧
    mapLookup filter.exampleEmptyTemplates (lit "status")
      = some (.map [(lit "replicas", .int 1)]) ∧
    (asMap (mapLookup filter.exampleEmptyTemplates (lit "spec"))).bind
        (fun spec => mapLookup spec (lit "volumeClaimTemplates")) = some (.seq []) := by
  decide

/-- C19, amended: for a document of kind StatefulSet and apiVersion apps/v1
with a non-empty list at spec.volumeClaimTemplates and a map at
spec.template.spec, the document emitted by the filter has a map at spec
without the key volumeClaimTemplates, and no top-level key status. -/
theorem C19_statefulset_cleanup (obj spec tspec : YMap) (vcts : List Value)
    (hkind : extractKind obj = lit "StatefulSet")
    (hapi : filter.extractAPIVersion obj = lit "apps/v1")
    (hspec : mapLookup obj (lit "spec") = some (.map spec))
    (hvct : mapLookup spec (lit "volumeClaimTemplates") = some (.seq vcts))
    (hne : vcts ≠ [])
    (htspec : filter.navigateToTemplateSpec spec = some tspec) :
    mapLookup (filter.transformDoc (extractKind obj) obj) (lit "status") = none ∧
    ∃ spec', mapLookup (filter.transformDoc (extractKind obj) obj) (lit "spec")
        = some (.map spec') ∧
      mapLookup spec' (lit "volumeClaimTemplates") = none := by
  obtain ⟨spec', tspec', h1, _, _, h4, h5⟩ :=
    filter.processStatefulSet_result obj spec tspec vcts hspec hvct hne htspec
  have hcert : ¬ lit "StatefulSet" = lit "Certificate" := by decide
  unfold filter.transformDoc
  simp only [hkind, hapi, and_self, if_true, hcert, if_false]
  constructor
  · rw [filter.mapLookup_findAndReplacePVC _ _ (by decide) (by decide), h5]
    split <;> rfl
  · rw [filter.mapLookup_findAndReplacePVC _ (lit "spec") (by decide) (by decide), h1]
    by_cases hp : (mapLookup (filter.processStatefulSet obj)
        (lit "persistentVolumeClaim")).isSome = true
    · rw [if_pos hp]
      exact ⟨spec', rfl, h4⟩
    · rw [if_neg hp]
      refine ⟨filter.findAndReplacePVC spec', by simp [filter.findPVCValue_map], ?_⟩
      rw [filter.mapLookup_findAndReplacePVC _ _ (by decide) (by decide), h4]
      split <;> rfl

/-- Witness of C19 on exampleStatefulSet. -/
theorem C19_statefulset_cleanup_witness :
    mapLookup (filter.transformDoc (extractKind filter.exampleStatefulSet)
        filter.exampleStatefulSet) (lit "status") = none ∧
    ∃ spec', mapLookup (filter.transformDoc (extractKind filter.exampleStatefulSet)
        filter.exampleStatefulSet) (lit "spec") = some (.map spec') ∧
      mapLookup spec' (lit "volumeClaimTemplates") = none :=
  C19_statefulset_cleanup filter.exampleStatefulSet filter.exampleSpec
    filter.exampleTemplateSpec [filter.exampleTemplateData, filter.exampleTemplateLogs]
    (by decide) (by decide) (by decide) (by decide) (by decide) (by decide)

/-! ## Lemmas on the documents that the filter leaves as they are -/

namespace filter

mutual
theorem findPVCValue_id : ∀ v : Value,
    (∀ m ∈ Value.maps v, mapLookup m (lit "persistentVolumeClaim") = none) →
    findPVCValue v = v
  | .map typedVal, h => by
    have h0 : mapLookup typedVal (lit "persistentVolumeClaim") = none :=
      h typedVal (by simp [Value.maps])
    have h1 : findPVC typedVal = typedVal :=
      findPVC_id typedVal (fun m hm => h m (by simp [Value.maps, hm]))
    simp [findPVCValue, replacePVCOr, h0, h1]
  | .seq items, h => by
    have h1 : findPVCItems items = items :=
      findPVCItems_id items (fun m hm => h m (by simpa [Value.maps] using hm))
    simp [findPVCValue, h1]
  | .null, _ => rfl
  | .bool _, _ => rfl
  | .int _, _ => rfl
  | .float _, _ => rfl
  | .str _, _ => rfl
theorem findPVC_id : ∀ m : YMap,
    (∀ x ∈ Value.mapsEntries m, mapLookup x (lit "persistentVolumeClaim") = none) →
    findPVC m = m
  | [], _ => rfl
  | (key, v) :: rest, h => by
    have h1 : findPVCValue v = v :=
      findPVCValue_id v (fun m hm => h m (by simp [Value.mapsEntries, hm]))
    have h2 : findPVC rest = rest :=
      findPVC_id rest (fun m hm => h m (by simp [Value.mapsEntries, hm]))
    simp [findPVC, h1, h2]
theorem findPVCItems_id : ∀ items : List Value,
    (∀ x ∈ Value.mapsList items, mapLookup x (lit "persistentVolumeClaim") = none) →
    findPVCItems items = items
  | [], _ => rfl
  | item :: rest, h => by
    have h1 : findPVCItem item = item :=
      findPVCItem_id item (fun m hm => h m (by simp [Value.mapsList, hm]))
    have h2 : findPVCItems rest = rest :=
      findPVCItems_id rest (fun m hm => h m (by simp [Value.mapsList, hm]))
    simp [findPVCItems, h1, h2]
theorem findPVCItem_id : ∀ v : Value,
    (∀ m ∈ Value.maps v, mapLookup m (lit "persistentVolumeClaim") = none) →
    findPVCItem v = v
  | .map item, h => by
    have h0 : mapLookup item (lit "persistentVolumeClaim") = none :=
      h item (by simp [Value.maps])
    have h1 : findPVC item = item :=
      findPVC_id item (fun m hm => h m (by simp [Value.maps, hm]))
    simp [findPVCItem, replacePVCOr, h0, h1]
  | .seq _, _ => rfl
  | .null, _ => rfl
  | .bool _, _ => rfl
  | .int _, _ => rfl
  | .float _, _ => rfl
  | .str _, _ => rfl
end

theorem findAndReplacePVC_id (obj : YMap) (h : noClaimKey obj = true) :
    findAndReplacePVC obj = obj := by
  have h' : ∀ m ∈ Value.maps (.map obj),
      mapLookup m (lit "persistentVolumeClaim") = none := by
    intro m hm
    have := (List.all_eq_true.mp h) m hm
    simpa using this
  have := findPVCValue_id (.map obj) h'
  simpa [findPVCValue, findAndReplacePVC] using this

theorem processStatefulSet_id (obj : YMap) (h : carriesTemplates obj = false) :
    processStatefulSet obj = obj := by
  unfold carriesTemplates at h
  unfold processStatefulSet
  cases hs : asMap (mapLookup obj (lit "spec")) with
  | none => rfl
  | some spec =>
    simp only [hs] at h ⊢
    cases hv : mapLookup spec (lit "volumeClaimTemplates") with
    | none => rfl
    | some v => simp [hv] at h

theorem findAndReplaceIssuerName_id (obj : YMap)
    (h : issuerName obj ≠ some (lit "letsencrypt-prod")) :
    findAndReplaceIssuerName obj = obj := by
  unfold issuerName at h
  unfold findAndReplaceIssuerName
  cases hs : asMap (mapLookup obj (lit "spec")) with
  | none => rfl
  | some spec =>
    simp only [hs] at h ⊢
    cases hi : asMap (mapLookup spec (lit "issuerRef")) with
    | none => rfl
    | some issuerRef =>
      simp only [hi] at h ⊢
      simp [h]

theorem transformDoc_id (obj : YMap) (h : plainDoc obj = true) :
    transformDoc (extractKind obj) obj = obj := by
  unfold plainDoc at h
  simp only [Bool.and_eq_true, Bool.not_eq_true', Bool.and_eq_false_iff,
    decide_eq_true_eq, decide_eq_false_iff_not] at h
  obtain ⟨⟨⟨h1, h2⟩, h3⟩, _⟩ := h
  unfold transformDoc
  have e1 : (if extractKind obj = lit "StatefulSet" ∧ extractAPIVersion obj = lit "apps/v1"
      then processStatefulSet obj else obj) = obj := by
    split
    · rename_i hk
      rcases h2 with h2 | h2
      · exact absurd hk.1 h2
      · exact processStatefulSet_id obj h2
    · rfl
  have e2 : (if extractKind obj = lit "Certificate" then findAndReplaceIssuerName obj
      else obj) = obj := by
    split
    · rename_i hk
      rcases h3 with h3 | h3
      · exact absurd hk h3
      · exact findAndReplaceIssuerName_id obj h3
    · rfl
  simp only [e1, e2]
  exact findAndReplacePVC_id obj h1

end filter

theorem forall₂_imp_mem {α β : Type} {R S : α → β → Prop} :
    ∀ (l : List α) (bs : List β), List.Forall₂ R l bs →
      (∀ a ∈ l, ∀ b, R a b → S a b) → List.Forall₂ S l bs
  | [], _, h, _ => by cases h; exact List.Forall₂.nil
  | a :: l, _, h, himp => by
    cases h with
    | cons hab hrest =>
      exact List.Forall₂.cons (himp a (List.mem_cons_self _ _) _ hab)
        (forall₂_imp_mem l _ hrest (fun x hx => himp x (List.mem_cons_of_mem _ hx)))

theorem filter.plainDoc_kept (o : YMap) (h : filter.plainDoc o = true) :
    filter.kept o = true := by
  unfold filter.plainDoc at h
  simp only [Bool.and_eq_true] at h
  exact h.2

/-- C21: filter identity.  On a document with no key persistentVolumeClaim at
any depth, that is not a StatefulSet with spec.volumeClaimTemplates nor a
Certificate of issuer letsencrypt-prod, and whose kind is neither
PersistentVolumeClaim nor Ingress, the transformations of the loop body of
ReplacePDWithEmptyDirs return the document itself; and on a stream of such
documents without decoding error, all with a name and a kind and all
serialisable, the filter returns no error and writes the serialised input
documents themselves, in input order, separated. -/
theorem C21_filter_identity (fmtV : YMap → GoString)
    (marshal : YMap → Except GoString GoString) (input : List Decoded)
    (hdec : ∀ d ∈ input, d.isErr = false)
    (hvalid : ∀ o ∈ docsOf input, ¬ lacksName o ∧ ¬ lacksKind o)
    (hplain : ∀ o ∈ docsOf input, filter.plainDoc o = true)
    (hmarshal : ∀ o ∈ docsOf input, ∃ buf, marshal o = .ok buf) :
    (∀ obj : YMap, filter.plainDoc obj = true →
      filter.transformDoc (extractKind obj) obj = obj) ∧
    (∃ bufs, List.Forall₂ (fun o buf => marshal o = .ok buf) (docsOf input) bufs ∧
      filter.ReplacePDWithEmptyDirs fmtV marshal input = (SEP.intercalate bufs, none)) := by
  have hid : ∀ o ∈ docsOf input, filter.transformDoc (extractKind o) o = o :=
    fun o ho => filter.transformDoc_id o (hplain o ho)
  refine ⟨fun obj h => filter.transformDoc_id obj h, ?_⟩
  have hvalid' : ∀ o, Decoded.obj o ∈ input → extractName o ≠ [] ∧ extractKind o ≠ [] := by
    intro o ho
    obtain ⟨h1, h2⟩ := hvalid o ((mem_docsOf input o).mpr ho)
    exact ⟨fun e => h1 ((lacksName_iff o).mpr e), fun e => h2 ((lacksKind_iff o).mpr e)⟩
  have hdec' : ∀ msg, Decoded.err msg ∉ input := by
    intro msg hm
    have := hdec _ hm
    simp [Decoded.isErr] at this
  have hnone := filter.ReplacePDWithEmptyDirs_no_error fmtV marshal input hdec' hvalid'
    (fun o ho _ => by
      have hm := (mem_docsOf input o).mpr ho
      rw [hid o hm]
      exact hmarshal o hm)
  obtain ⟨bufs, hf, ho⟩ := filter.ReplacePDWithEmptyDirs_output fmtV marshal input hnone
  have hfilter : (docsOf input).filter filter.kept = docsOf input :=
    List.filter_eq_self.mpr (fun o ho => filter.plainDoc_kept o (hplain o ho))
  rw [hfilter] at hf
  refine ⟨bufs, forall₂_imp_mem _ _ hf (fun o hm b hb => ?_), ?_⟩
  · rw [hid o hm] at hb
    exact hb
  · rw [← ho, ← hnone]

/-- Witness of C21: a Deployment with an emptyDir volume, a StatefulSet without
claim templates and a Certificate of another issuer go through unchanged. -/
theorem C21_filter_identity_witness :
    ∃ bufs, List.Forall₂
        (fun o buf => (Except.ok (extractName o) : Except GoString GoString) = .ok buf)
        (docsOf [
          .obj [(lit "kind", .str (lit "Deployment")),
            (lit "metadata", .map [(lit "name", .str (lit "a"))]),
            (lit "spec", .map [(lit "volumes",
              .seq [.map [(lit "name", .str (lit "v")), (lit "emptyDir", .map [])]])])],
          .null,
          .obj [(lit "kind", .str (lit "StatefulSet")), (lit "apiVersion", .str (lit "apps/v1")),
            (lit "metadata", .map [(lit "name", .str (lit "s"))]),
            (lit "spec", .map [(lit "replicas", .int 1)])],
          .obj [(lit "kind", .str (lit "Certificate")),
            (lit "metadata", .map [(lit "name", .str (lit "c"))]),
            (lit "spec", .map [(lit "issuerRef",
              .map [(lit "name", .str (lit "selfsigned"))])])]]) bufs ∧
      filter.ReplacePDWithEmptyDirs (fun _ => [])
        (fun o => (.ok (extractName o) : Except GoString GoString))
        [.obj [(lit "kind", .str (lit "Deployment")),
            (lit "metadata", .map [(lit "name", .str (lit "a"))]),
            (lit "spec", .map [(lit "volumes",
              .seq [.map [(lit "name", .str (lit "v")), (lit "emptyDir", .map [])]])])],
          .null,
          .obj [(lit "kind", .str (lit "StatefulSet")), (lit "apiVersion", .str (lit "apps/v1")),
            (lit "metadata", .map [(lit "name", .str (lit "s"))]),
            (lit "spec", .map [(lit "replicas", .int 1)])],
          .obj [(lit "kind", .str (lit "Certificate")),
            (lit "metadata", .map [(lit "name", .str (lit "c"))]),
            (lit "spec", .map [(lit "issuerRef",
              .map [(lit "name", .str (lit "selfsigned"))])])]]
        = (SEP.intercalate bufs, none) :=
  (C21_filter_identity (fun _ => [])
    (fun o => (.ok (extractName o) : Except GoString GoString))
    [.obj [(lit "kind", .str (lit "Deployment")),
        (lit "metadata", .map [(lit "name", .str (lit "a"))]),
        (lit "spec", .map [(lit "volumes",
          .seq [.map [(lit "name", .str (lit "v")), (lit "emptyDir", .map [])]])])],
      .null,
      .obj [(lit "kind", .str (lit "StatefulSet")), (lit "apiVersion", .str (lit "apps/v1")),
        (lit "metadata", .map [(lit "name", .str (lit "s"))]),
        (lit "spec", .map [(lit "replicas", .int 1)])],
      .obj [(lit "kind", .str (lit "Certificate")),
        (lit "metadata", .map [(lit "name", .str (lit "c"))]),
        (lit "spec", .map [(lit "issuerRef",
          .map [(lit "name", .str (lit "selfsigned"))])])]]
    (by decide) (by decide) (by decide) (fun o _ => ⟨_, rfl⟩)).2

/-! ## Lemmas on the issuer of a Certificate -/

namespace filter

theorem mapLookup_setTemplateSpecVolumes (spec : YMap) (vols : List Value) (k : GoString)
    (h : k ≠ lit "template") :
    mapLookup (setTemplateSpecVolumes spec vols) k = mapLookup spec k := by
  have h' : ¬ lit "template" = k := fun e => h e.symm
  unfold setTemplateSpecVolumes
  split
  · rfl
  · split
    · rfl
    · simp only [mapLookup_mapSet, h', if_false]

/-- The value at spec.issuerRef, if `spec` is a mapping. -/
theorem issuerRef_processStatefulSet (obj : YMap) :
    (asMap (mapLookup (processStatefulSet obj) (lit "spec"))).bind
        (fun s => mapLookup s (lit "issuerRef"))
      = (asMap (mapLookup obj (lit "spec"))).bind (fun s => mapLookup s (lit "issuerRef")) := by
  unfold processStatefulSet
  cases hs : asMap (mapLookup obj (lit "spec")) with
  | none => simp [hs]
  | some spec =>
    simp only [hs]
    split
    · simp [hs]
    · split
      · simp [hs]
      · split
        · simp [hs]
        · split
          · simp [hs]
          · have hne1 : ¬ lit "status" = lit "spec" := by decide
            have hne2 : ¬ lit "volumeClaimTemplates" = lit "issuerRef" := by decide
            simp only [mapLookup_mapDelete, mapLookup_mapSet, hne1, hne2, if_false, if_true,
              asMap, Option.some_bind]
            exact mapLookup_setTemplateSpecVolumes _ _ _ (by decide)

theorem issuerName_eq_bind (obj : YMap) :
    issuerName obj
      = (((asMap (mapLookup obj (lit "spec"))).bind
          (fun s => mapLookup s (lit "issuerRef"))).bind
          (fun v => asMap (some v))).bind (fun r => asString (mapLookup r (lit "name"))) := by
  unfold issuerName
  cases hs : asMap (mapLookup obj (lit "spec")) with
  | none => rfl
  | some spec =>
    simp only [Option.some_bind]
    cases hi : mapLookup spec (lit "issuerRef") with
    | none => rfl
    | some v =>
      simp only [Option.some_bind]
      cases hv : asMap (some v) <;> rfl

theorem issuerName_processStatefulSet (obj : YMap) :
    issuerName (processStatefulSet obj) = issuerName obj := by
  rw [issuerName_eq_bind, issuerName_eq_bind, issuerRef_processStatefulSet]

/-- The map under a key that findAndReplacePVC does not write is the one that
was there, or what findAndReplacePVC makes of it. -/
theorem asMap_findAndReplacePVC (m : YMap) (k : GoString)
    (h1 : k ≠ lit "persistentVolumeClaim") (h2 : k ≠ lit "emptyDir") :
    asMap (mapLookup (findAndReplacePVC m) k) = asMap (mapLookup m k) ∨
      asMap (mapLookup (findAndReplacePVC m) k)
        = (asMap (mapLookup m k)).map findAndReplacePVC := by
  rw [mapLookup_findAndReplacePVC m k h1 h2]
  split
  · exact Or.inl rfl
  · exact Or.inr (asMap_findPVCValue _)

theorem issuerName_findAndReplacePVC (obj : YMap) :
    issuerName (findAndReplacePVC obj) = issuerName obj := by
  have hname : ∀ r : YMap, asString (mapLookup (findAndReplacePVC r) (lit "name"))
      = asString (mapLookup r (lit "name")) :=
    fun r => asString_findAndReplacePVC r _ (by decide) (by decide)
  have hspec : ∀ s : YMap,
      (match asMap (mapLookup (findAndReplacePVC s) (lit "issuerRef")) with
        | none => none
        | some issuerRef => asString (mapLookup issuerRef (lit "name")))
      = (match asMap (mapLookup s (lit "issuerRef")) with
        | none => none
        | some issuerRef => asString (mapLookup issuerRef (lit "name"))) := by
    intro s
    rcases asMap_findAndReplacePVC s (lit "issuerRef") (by decide) (by decide) with h | h
    · rw [h]
    · rw [h]
      cases asMap (mapLookup s (lit "issuerRef")) with
      | none => rfl
      | some r => exact hname r
  unfold issuerName
  rcases asMap_findAndReplacePVC obj (lit "spec") (by decide) (by decide) with h | h
  · rw [h]
  · rw [h]
    cases asMap (mapLookup obj (lit "spec")) with
    | none => rfl
    | some s => exact hspec s

theorem issuerName_findAndReplaceIssuerName (obj : YMap) :
    issuerName (findAndReplaceIssuerName obj)
      = if issuerName obj = some (lit "letsencrypt-prod") then
          some (lit "letsencrypt-staging")
        else issuerName obj := by
  by_cases h : issuerName obj = some (lit "letsencrypt-prod")
  · rw [if_pos h]
    unfold issuerName at h
    unfold findAndReplaceIssuerName
    cases hs : asMap (mapLookup obj (lit "spec")) with
    | none => simp [hs] at h
    | some spec =>
      simp only [hs] at h ⊢
      cases hi : asMap (mapLookup spec (lit "issuerRef")) with
      | none => simp [hi] at h
      | some issuerRef =>
        simp only [hi] at h ⊢
        rw [if_pos h]
        simp [issuerName, mapLookup_mapSet, asMap, asString]
  · rw [if_neg h, findAndReplaceIssuerName_id obj h]

/-- The issuer name of the document that leaves the loop body of the filter. -/
theorem issuerName_transformDoc (kind : GoString) (obj : YMap) :
    issuerName (transformDoc kind obj)
      = if kind = lit "Certificate" ∧ issuerName obj = some (lit "letsencrypt-prod") then
          some (lit "letsencrypt-staging")
        else issuerName obj := by
  unfold transformDoc
  simp only [issuerName_findAndReplacePVC]
  have h1 : issuerName (if kind = lit "StatefulSet" ∧ extractAPIVersion obj = lit "apps/v1"
      then processStatefulSet obj else obj) = issuerName obj := by
    split
    · exact issuerName_processStatefulSet obj
    · rfl
  by_cases hk : kind = lit "Certificate"
  · rw [if_pos hk, issuerName_findAndReplaceIssuerName, h1]
    simp [hk]
  · rw [if_neg hk, h1]
    simp [hk]

/-- What findAndReplaceIssuerName writes when it writes: the maps on the path
keep every key but the next one of the path. -/
theorem findAndReplaceIssuerName_frame (obj spec issuerRef : YMap)
    (hs : asMap (mapLookup obj (lit "spec")) = some spec)
    (hi : asMap (mapLookup spec (lit "issuerRef")) = some issuerRef)
    (hn : asString (mapLookup issuerRef (lit "name")) = some (lit "letsencrypt-prod")) :
    ∃ spec' issuerRef',
      mapLookup (findAndReplaceIssuerName obj) (lit "spec") = some (.map spec') ∧
      mapLookup spec' (lit "issuerRef") = some (.map issuerRef') ∧
      mapLookup issuerRef' (lit "name") = some (.str (lit "letsencrypt-staging")) ∧
      (∀ k, k ≠ lit "spec" → mapLookup (findAndReplaceIssuerName obj) k = mapLookup obj k) ∧
      (∀ k, k ≠ lit "issuerRef" → mapLookup spec' k = mapLookup spec k) ∧
      (∀ k, k ≠ lit "name" → mapLookup issuerRef' k = mapLookup issuerRef k) := by
  refine ⟨mapSet spec (lit "issuerRef")
      (.map (mapSet issuerRef (lit "name") (.str (lit "letsencrypt-staging")))),
    mapSet issuerRef (lit "name") (.str (lit "letsencrypt-staging")), ?_, ?_, ?_, ?_, ?_, ?_⟩
  · unfold findAndReplaceIssuerName
    simp only [hs, hi, hn, if_true, mapLookup_mapSet]
  · simp only [mapLookup_mapSet, if_true]
  · simp only [mapLookup_mapSet, if_true]
  · intro k hk
    exact mapLookup_findAndReplaceIssuerName obj k hk
  · intro k hk
    have : ¬ lit "issuerRef" = k := fun e => hk e.symm
    simp only [mapLookup_mapSet, this, if_false]
  · intro k hk
    have : ¬ lit "name" = k := fun e => hk e.symm
    simp only [mapLookup_mapSet, this, if_false]

end filter

namespace filter

theorem issuerRefOf_eq_bind (obj : YMap) :
    issuerRefOf obj
      = ((asMap (mapLookup obj (lit "spec"))).bind
          (fun s => mapLookup s (lit "issuerRef"))).bind (fun v => asMap (some v)) := by
  unfold issuerRefOf
  cases hs : asMap (mapLookup obj (lit "spec")) with
  | none => rfl
  | some spec =>
    simp only [Option.some_bind]
    cases hi : mapLookup spec (lit "issuerRef") with
    | none => rfl
    | some v => rfl

theorem issuerRefOf_processStatefulSet (obj : YMap) :
    issuerRefOf (processStatefulSet obj) = issuerRefOf obj := by
  rw [issuerRefOf_eq_bind, issuerRefOf_eq_bind, issuerRef_processStatefulSet]

/-- The last pass of the filter leaves the map at spec.issuerRef as it is when
no map of it, at any depth, has the key persistentVolumeClaim. -/
theorem issuerRefOf_findAndReplacePVC (obj issuerRef : YMap)
    (h : issuerRefOf obj = some issuerRef) (hclean : noClaimKey issuerRef = true) :
    issuerRefOf (findAndReplacePVC obj) = some issuerRef := by
  have hid := findAndReplacePVC_id issuerRef hclean
  have hspec : ∀ s : YMap, asMap (mapLookup s (lit "issuerRef")) = some issuerRef →
      asMap (mapLookup (findAndReplacePVC s) (lit "issuerRef")) = some issuerRef := by
    intro s hs
    rcases asMap_findAndReplacePVC s (lit "issuerRef") (by decide) (by decide) with e | e
    · rw [e, hs]
    · rw [e, hs, Option.map_some', hid]
  unfold issuerRefOf at h ⊢
  cases hs : asMap (mapLookup obj (lit "spec")) with
  | none => simp [hs] at h
  | some spec =>
    simp only [hs] at h
    rcases asMap_findAndReplacePVC obj (lit "spec") (by decide) (by decide) with e | e
    · rw [e, hs]
      exact h
    · rw [e, hs, Option.map_some']
      exact hspec spec h

/-- The filter leaves the map at spec.issuerRef as it is on a document that is
not a Certificate of issuer letsencrypt-prod, when no map of it, at any depth,
has the key persistentVolumeClaim. -/
theorem issuerRefOf_transformDoc (kind : GoString) (obj issuerRef : YMap)
    (h : issuerRefOf obj = some issuerRef) (hclean : noClaimKey issuerRef = true)
    (hother : ¬ (kind = lit "Certificate" ∧ issuerName obj = some (lit "letsencrypt-prod"))) :
    issuerRefOf (transformDoc kind obj) = some issuerRef := by
  unfold transformDoc
  apply issuerRefOf_findAndReplacePVC _ _ _ hclean
  have h1 : issuerRefOf (if kind = lit "StatefulSet" ∧ extractAPIVersion obj = lit "apps/v1"
      then processStatefulSet obj else obj) = some issuerRef := by
    split
    · rw [issuerRefOf_processStatefulSet]
      exact h
    · exact h
  have h2 : issuerName (if kind = lit "StatefulSet" ∧ extractAPIVersion obj = lit "apps/v1"
      then processStatefulSet obj else obj) = issuerName obj := by
    split
    · exact issuerName_processStatefulSet obj
    · rfl
  by_cases hk : kind = lit "Certificate"
  · rw [if_pos hk, findAndReplaceIssuerName_id]
    · exact h1
    · rw [h2]
      exact fun e => hother ⟨hk, e⟩
  · rw [if_neg hk]
    exact h1

end filter

/-! ## Lemmas on the recursion gate of findAndReplaceTag -/

namespace resolver

theorem isSome_mapLookup_mapSet (m : YMap) (pa k : GoString) (v : Value)
    (h : (mapLookup m pa).isSome = true) :
    (mapLookup (mapSet m pa v) k).isSome = (mapLookup m k).isSome := by
  rw [mapLookup_mapSet]
  by_cases hk : pa = k
  · subst hk
    simp [h]
  · simp [hk]

theorem updateContainer_keys (images : GoMap GoString) (obj obj' : YMap) (pa k : GoString)
    (h : updateContainer images obj pa = .ok obj') :
    (mapLookup obj' k).isSome = (mapLookup obj k).isSome := by
  unfold updateContainer at h
  cases hl : mapLookup obj pa with
  | none =>
    simp only [hl, Except.ok.injEq] at h
    rw [← h]
  | some v =>
    have hp : (mapLookup obj pa).isSome = true := by rw [hl]; rfl
    cases v with
    | map container =>
      simp only [hl] at h
      cases himg : mapLookup container (lit "image") with
      | none =>
        simp only [himg, Except.ok.injEq] at h
        rw [← h]
      | some img =>
        cases img with
        | str imageName =>
          simp only [himg] at h
          by_cases hpre : hasPrefix imageName (lit "//") = true
          · simp [hpre] at h
          · have hpre' : hasPrefix imageName (lit "//") = false := by
              simpa using hpre
            rw [hpre'] at h
            cases hm : mapLookup images imageName with
            | none =>
              simp only [hm, Bool.false_eq_true, if_false, Except.ok.injEq] at h
              rw [← h]
            | some newName =>
              simp only [hm, Bool.false_eq_true, if_false, Except.ok.injEq] at h
              rw [← h]
              exact isSome_mapLookup_mapSet obj pa k _ hp
        | null => simp only [himg, Except.ok.injEq] at h; rw [← h]
        | bool b => simp only [himg, Except.ok.injEq] at h; rw [← h]
        | int i => simp only [himg, Except.ok.injEq] at h; rw [← h]
        | float f => simp only [himg, Except.ok.injEq] at h; rw [← h]
        | seq l => simp only [himg, Except.ok.injEq] at h; rw [← h]
        | map l => simp only [himg, Except.ok.injEq] at h; rw [← h]
    | null => simp only [hl, Except.ok.injEq] at h; rw [← h]
    | bool b => simp only [hl, Except.ok.injEq] at h; rw [← h]
    | int i => simp only [hl, Except.ok.injEq] at h; rw [← h]
    | float f => simp only [hl, Except.ok.injEq] at h; rw [← h]
    | str s => simp only [hl, Except.ok.injEq] at h; rw [← h]
    | seq l => simp only [hl, Except.ok.injEq] at h; rw [← h]

theorem updateContainers_keys (images : GoMap GoString) (obj obj' : YMap) (pa k : GoString)
    (h : updateContainers images obj pa = .ok obj') :
    (mapLookup obj' k).isSome = (mapLookup obj k).isSome := by
  unfold updateContainers at h
  cases hl : mapLookup obj pa with
  | none =>
    simp only [hl, Except.ok.injEq] at h
    rw [← h]
  | some v =>
    have hp : (mapLookup obj pa).isSome = true := by rw [hl]; rfl
    cases v with
    | seq containers =>
      simp only [hl] at h
      cases hloop : updateContainersLoop images containers with
      | error e => simp [hloop] at h
      | ok containers' =>
        simp only [hloop, Except.ok.injEq] at h
        rw [← h]
        exact isSome_mapLookup_mapSet obj pa k _ hp
    | null => simp only [hl, Except.ok.injEq] at h; rw [← h]
    | bool b => simp only [hl, Except.ok.injEq] at h; rw [← h]
    | int i => simp only [hl, Except.ok.injEq] at h; rw [← h]
    | float f => simp only [hl, Except.ok.injEq] at h; rw [← h]
    | str s => simp only [hl, Except.ok.injEq] at h; rw [← h]
    | map l => simp only [hl, Except.ok.injEq] at h; rw [← h]

/-- The loops over paths do not add or remove a key. -/
theorem pathLoop_keys (update : YMap → GoString → Except GoString YMap)
    (hupdate : ∀ obj obj' pa k, update obj pa = .ok obj' →
      (mapLookup obj' k).isSome = (mapLookup obj k).isSome)
    (paths : List GoString) (st st' : YMap × Bool) (k : GoString)
    (h : pathLoop update paths st = .ok st') :
    (mapLookup st'.1 k).isSome = (mapLookup st.1 k).isSome := by
  induction paths generalizing st with
  | nil =>
    simp only [pathLoop, Except.ok.injEq] at h
    rw [← h]
  | cons pa rest ih =>
    simp only [pathLoop] at h
    by_cases hf : (mapLookup st.1 pa).isSome = true
    · rw [if_pos hf] at h
      cases hu : update st.1 pa with
      | error e => simp [hu] at h
      | ok obj =>
        simp only [hu] at h
        have := ih (obj, (mapLookup st.1 pa).isSome) h
        rw [this]
        exact hupdate _ _ _ _ hu
    · rw [if_neg hf] at h
      exact ih (st.1, (mapLookup st.1 pa).isSome) h

/-- After a loop over paths, `found` tells whether the key of the last path is
in the map. -/
theorem pathLoop_found (update : YMap → GoString → Except GoString YMap)
    (hupdate : ∀ obj obj' pa k, update obj pa = .ok obj' →
      (mapLookup obj' k).isSome = (mapLookup obj k).isSome)
    (paths : List GoString) (last : GoString) (st st' : YMap × Bool)
    (h : pathLoop update (paths ++ [last]) st = .ok st') :
    st'.2 = (mapLookup st.1 last).isSome := by
  induction paths generalizing st with
  | nil =>
    simp only [List.nil_append, pathLoop] at h
    by_cases hf : (mapLookup st.1 last).isSome = true
    · rw [if_pos hf] at h
      cases hu : update st.1 last with
      | error e => simp [hu] at h
      | ok obj =>
        simp only [hu, Except.ok.injEq] at h
        rw [← h]
    · rw [if_neg hf] at h
      simp only [Except.ok.injEq] at h
      rw [← h]
  | cons pa rest ih =>
    simp only [List.cons_append, pathLoop] at h
    by_cases hf : (mapLookup st.1 pa).isSome = true
    · rw [if_pos hf] at h
      cases hu : update st.1 pa with
      | error e => simp [hu] at h
      | ok obj =>
        simp only [hu] at h
        rw [ih (obj, (mapLookup st.1 pa).isSome) h]
        exact hupdate _ _ _ _ hu
    · rw [if_neg hf] at h
      exact ih (st.1, (mapLookup st.1 pa).isSome) h

/-- The variable `found` after the two loops over paths. -/
theorem rewriteLevel_found (images : GoMap GoString) (obj : YMap) (st : YMap × Bool)
    (h : rewriteLevel images obj = .ok st) :
    st.2 = (mapLookup obj (lit "initContainers")).isSome := by
  unfold rewriteLevel at h
  cases h1 : pathLoop (updateContainer images) [lit "container", lit "spec"] (obj, false) with
  | error e => simp [h1] at h
  | ok st1 =>
    simp only [h1] at h
    have hk := pathLoop_keys (updateContainer images)
      (fun o o' pa k => updateContainer_keys images o o' pa k)
      _ _ _ (lit "initContainers") h1
    have hf := pathLoop_found (updateContainers images)
      (fun o o' pa k => updateContainers_keys images o o' pa k)
      [lit "containers"] (lit "initContainers") st1 st h
    rw [hf, hk]

theorem findAndReplaceTag_succ (images : GoMap GoString) (fuel : Nat) (obj : YMap) :
    findAndReplaceTag images (fuel + 1) obj
      = match rewriteLevel images obj with
        | .error e => some (.error e)
        | .ok st => if !st.2 then findContainers images fuel st.1 else some (.ok st.1) := by
  rw [findAndReplaceTag]
  unfold rewriteLevel findContainers
  cases pathLoop (updateContainer images) [lit "container", lit "spec"] (obj, false) with
  | error e => rfl
  | ok st1 => rfl

end resolver

namespace resolver

theorem findContainersItems_visits (recur : YMap → Run YMap) (items items' : List Value)
    (h : findContainersItems recur items = some (.ok items')) (c : YMap)
    (hc : Value.map c ∈ items) : ∃ c', recur c = some (.ok c') := by
  induction items generalizing items' with
  | nil => simp at hc
  | cons item rest ih =>
    have hrest : ∀ r, findContainersItems recur rest = some (.ok r) → Value.map c ∈ rest →
        ∃ c', recur c = some (.ok c') := fun r hr hm => ih r hr hm
    cases item with
    | map m =>
      simp only [findContainersItems, Run.andThen] at h
      cases hm : recur m with
      | none => simp [hm] at h
      | some r =>
        cases r with
        | error e => simp [hm] at h
        | ok m' =>
          simp only [hm] at h
          cases hr : findContainersItems recur rest with
          | none => simp [hr] at h
          | some r2 =>
            cases r2 with
            | error e => simp [hr] at h
            | ok rest' =>
              rcases List.mem_cons.mp hc with e | e
              · simp only [Value.map.injEq] at e
                exact ⟨m', e ▸ hm⟩
              · exact hrest rest' hr e
    | null | bool _ | int _ | float _ | str _ | seq _ =>
      simp only [findContainersItems, Run.andThen] at h
      cases hr : findContainersItems recur rest with
      | none => simp [hr] at h
      | some r2 =>
        cases r2 with
        | error e => simp [hr] at h
        | ok rest' =>
          rcases List.mem_cons.mp hc with e | e
          · cases e
          · exact hrest rest' hr e

/-- A call of findContainers that returns no error has called findAndReplaceTag
on every value of the map that is a map and on every item that is a map of
every value that is a slice, and none of these calls returned an error. -/
theorem findContainersEntries_visits (recur : YMap → Run YMap) (m m' : YMap)
    (h : findContainersEntries recur m = some (.ok m')) :
    (∀ k c, (k, Value.map c) ∈ m → ∃ c', recur c = some (.ok c')) ∧
    (∀ k items c, (k, Value.seq items) ∈ m → Value.map c ∈ items →
      ∃ c', recur c = some (.ok c')) := by
  induction m generalizing m' with
  | nil => simp
  | cons kv rest ih =>
    obtain ⟨key, v⟩ := kv
    cases v with
    | map typedVal =>
      simp only [findContainersEntries, Run.andThen] at h
      cases hm : recur typedVal with
      | none => simp [hm] at h
      | some r =>
        cases r with
        | error e => simp [hm] at h
        | ok t' =>
          simp only [hm] at h
          cases hr : findContainersEntries recur rest with
          | none => simp [hr] at h
          | some r2 =>
            cases r2 with
            | error e => simp [hr] at h
            | ok rest' =>
              obtain ⟨i1, i2⟩ := ih rest' hr
              refine ⟨fun k c hc => ?_, fun k items c hc hi => ?_⟩
              · rcases List.mem_cons.mp hc with e | e
                · simp only [Prod.mk.injEq, Value.map.injEq] at e
                  exact ⟨t', e.2 ▸ hm⟩
                · exact i1 k c e
              · rcases List.mem_cons.mp hc with e | e
                · simp at e
                · exact i2 k items c e hi
    | seq typedVal =>
      simp only [findContainersEntries, Run.andThen] at h
      cases hm : findContainersItems recur typedVal with
      | none => simp [hm] at h
      | some r =>
        cases r with
        | error e => simp [hm] at h
        | ok t' =>
          simp only [hm] at h
          cases hr : findContainersEntries recur rest with
          | none => simp [hr] at h
          | some r2 =>
            cases r2 with
            | error e => simp [hr] at h
            | ok rest' =>
              obtain ⟨i1, i2⟩ := ih rest' hr
              refine ⟨fun k c hc => ?_, fun k items c hc hi => ?_⟩
              · rcases List.mem_cons.mp hc with e | e
                · simp at e
                · exact i1 k c e
              · rcases List.mem_cons.mp hc with e | e
                · simp only [Prod.mk.injEq, Value.seq.injEq] at e
                  exact findContainersItems_visits recur typedVal t' hm c (e.2 ▸ hi)
                · exact i2 k items c e hi
    | null | bool _ | int _ | float _ | str _ =>
      simp only [findContainersEntries, Run.andThen] at h
      cases hr : findContainersEntries recur rest with
      | none => simp [hr] at h
      | some r2 =>
        cases r2 with
        | error e => simp [hr] at h
        | ok rest' =>
          obtain ⟨i1, i2⟩ := ih rest' hr
          refine ⟨fun k c hc => ?_, fun k items c hc hi => ?_⟩
          · rcases List.mem_cons.mp hc with e | e
            · simp at e
            · exact i1 k c e
          · rcases List.mem_cons.mp hc with e | e
            · simp at e
            · exact i2 k items c e hi

end resolver

/-- C28: recursion gate of the image resolver.  On a map on which the rewrites
of the four container-shaped keys at that level return no error, the variable
`found` ends as the presence of the key initContainers, whatever the presence
of container, spec and containers.  Without the key initContainers,
findAndReplaceTag returns what findContainers returns on the rewritten map,
and a return of findContainers without error means that findAndReplaceTag was
called, and returned no error, on every value that is a map and on every item
that is a map of every value that is a slice.  With the key initContainers,
findAndReplaceTag returns the rewritten map with no call on its children.  With
fuel above the depth of the map the call returns. -/
theorem C28_recursion_gate (images : GoMap GoString) (fuel : Nat) (obj : YMap)
    (st : YMap × Bool) (h : resolver.rewriteLevel images obj = .ok st) :
    st.2 = (mapLookup obj (lit "initContainers")).isSome ∧
    (mapLookup obj (lit "initContainers") = none →
      resolver.findAndReplaceTag images (fuel + 1) obj
        = resolver.findContainers images fuel st.1) ∧
    (∀ m', resolver.findContainers images fuel st.1 = some (.ok m') →
      (∀ k c, (k, Value.map c) ∈ st.1 →
        ∃ c', resolver.findAndReplaceTag images fuel c = some (.ok c')) ∧
      (∀ k items c, (k, Value.seq items) ∈ st.1 → Value.map c ∈ items →
        ∃ c', resolver.findAndReplaceTag images fuel c = some (.ok c'))) ∧
    (mapLookup obj (lit "initContainers") ≠ none →
      resolver.findAndReplaceTag images (fuel + 1) obj = some (.ok st.1)) ∧
    (Value.depthEntries obj ≤ fuel →
      (resolver.findAndReplaceTag images (fuel + 1) obj).isSome = true) := by
  have hf := resolver.rewriteLevel_found images obj st h
  have hs := resolver.findAndReplaceTag_succ images fuel obj
  rw [h] at hs
  simp only at hs
  refine ⟨hf, ?_, ?_, ?_, ?_⟩
  · intro hn
    rw [hn] at hf
    rw [hs, hf]
    rfl
  · intro m' hm
    exact resolver.findContainersEntries_visits _ st.1 m' hm
  · intro hn
    have : (mapLookup obj (lit "initContainers")).isSome = true := by
      cases hl : mapLookup obj (lit "initContainers") with
      | none => exact absurd hl hn
      | some v => rfl
    rw [this] at hf
    rw [hs, hf]
    rfl
  · intro hd
    exact resolver.findAndReplaceTag_returns images (fuel + 1) obj (Nat.lt_succ_of_le hd)

/-- Witness of C28: a map with the keys `spec` and `containers` and without the
key initContainers; findAndReplaceTag goes on to findContainers. -/
theorem C28_recursion_gate_witness :
    resolver.findAndReplaceTag [] (2 + 1)
        [(lit "containers", .seq []),
          (lit "spec", .map [(lit "containers", .seq [.map [(lit "image", .str (lit "//x"))]])])]
      = resolver.findContainers [] 2
        [(lit "containers", .seq []),
          (lit "spec", .map [(lit "containers", .seq [.map [(lit "image", .str (lit "//x"))]])])] :=
  (C28_recursion_gate [] 2
    [(lit "containers", .seq []),
      (lit "spec", .map [(lit "containers", .seq [.map [(lit "image", .str (lit "//x"))]])])]
    ([(lit "containers", .seq []),
      (lit "spec", .map [(lit "containers", .seq [.map [(lit "image", .str (lit "//x"))]])])],
      false)
    rfl).2.1 (by decide)

/-! ## Lemmas on the cut of a string and on fasttemplate -/

theorem hasPrefix_eq_append (s p : GoString) (h : hasPrefix s p = true) :
    s = p ++ s.drop p.length := by
  induction p generalizing s with
  | nil => simp
  | cons c p ih =>
    cases s with
    | nil => simp [hasPrefix] at h
    | cons d s =>
      simp only [hasPrefix] at h
      by_cases hd : d = c
      · subst hd
        simp only [if_true] at h
        simp only [List.length_cons, List.drop_succ_cons, List.cons_append, List.cons.injEq,
          true_and]
        exact ih s h
      · simp [hd] at h

/-- The two parts of a cut and the separator make up the string. -/
theorem stringsCut_eq (sep s before after : GoString)
    (h : stringsCut sep s = some (before, after)) : s = before ++ sep ++ after := by
  induction s generalizing before after with
  | nil =>
    simp only [stringsCut] at h
    by_cases hs : sep = []
    · subst hs
      simp only [if_true, Option.some.injEq, Prod.mk.injEq] at h
      simp [← h.1, ← h.2]
    · simp [hs] at h
  | cons c rest ih =>
    simp only [stringsCut] at h
    by_cases hp : hasPrefix (c :: rest) sep = true
    · simp only [hp, if_true, Option.some.injEq, Prod.mk.injEq] at h
      rw [← h.1, ← h.2]
      simpa using hasPrefix_eq_append _ _ hp
    · simp only [hp] at h
      cases hc : stringsCut sep rest with
      | none => simp [hc] at h
      | some p =>
        obtain ⟨b, a⟩ := p
        simp only [hc, Bool.false_eq_true, if_false, Option.some.injEq, Prod.mk.injEq] at h
        rw [← h.1, ← h.2, List.cons_append, List.cons_append, ← ih b a hc]

theorem stringsCut_length (sep s before after : GoString)
    (h : stringsCut sep s = some (before, after)) :
    before.length + sep.length + after.length = s.length := by
  have := stringsCut_eq sep s before after h
  rw [this]
  simp only [List.length_append]

/-- The cut at a one-byte separator: the part before has no occurrence of the
byte. -/
theorem stringsCut_single_iff (c : Nat) (s k v : GoString) :
    stringsCut [c] s = some (k, v) ↔ s = k ++ c :: v ∧ c ∉ k := by
  induction s generalizing k v with
  | nil => simp [stringsCut]
  | cons d rest ih =>
    simp only [stringsCut]
    by_cases hd : d = c
    · subst hd
      have hp : hasPrefix (d :: rest) [d] = true := by
        cases rest <;> simp [hasPrefix]
      simp only [hp, if_true, Option.some.injEq, Prod.mk.injEq, List.length_singleton,
        List.drop_succ_cons, List.drop_zero]
      constructor
      · rintro ⟨h1, h2⟩
        subst h1 h2
        simp
      · rintro ⟨h1, h2⟩
        cases k with
        | nil =>
          simp only [List.nil_append, List.cons.injEq, true_and] at h1
          exact ⟨rfl, h1⟩
        | cons e k =>
          simp only [List.cons_append, List.cons.injEq] at h1
          exact absurd (h1.1 ▸ List.mem_cons_self _ _) h2
    · have hp : hasPrefix (d :: rest) [c] = false := by
        cases rest <;> simp [hasPrefix, hd]
      simp only [hp, Bool.false_eq_true, if_false]
      have back : ∀ k v, d :: rest = k ++ c :: v → c ∉ k →
          ∃ k', k = d :: k' ∧ stringsCut [c] rest = some (k', v) := by
        intro k v h1 h2
        cases k with
        | nil =>
          simp only [List.nil_append, List.cons.injEq] at h1
          exact absurd h1.1 hd
        | cons e k =>
          simp only [List.cons_append, List.cons.injEq] at h1
          exact ⟨k, by rw [h1.1],
            (ih k v).mpr ⟨h1.2, fun hm => h2 (List.mem_cons_of_mem _ hm)⟩⟩
      cases hc : stringsCut [c] rest with
      | none =>
        constructor
        · intro h
          cases h
        · rintro ⟨h1, h2⟩
          obtain ⟨k', _, hk⟩ := back k v h1 h2
          rw [hc] at hk
          cases hk
      | some p =>
        obtain ⟨b, a⟩ := p
        simp only [Option.some.injEq, Prod.mk.injEq]
        have hba := (ih b a).mp hc
        constructor
        · rintro ⟨h1, h2⟩
          subst h1 h2
          refine ⟨by rw [hba.1]; simp, ?_⟩
          intro hm
          rcases List.mem_cons.mp hm with e | e
          · exact hd e.symm
          · exact hba.2 e
        · rintro ⟨h1, h2⟩
          obtain ⟨k', hk1, hk⟩ := back k v h1 h2
          rw [hc] at hk
          simp only [Option.some.injEq, Prod.mk.injEq] at hk
          exact ⟨by rw [hk1, hk.1], hk.2⟩

theorem stringsCut_single_none (c : Nat) (s : GoString) :
    stringsCut [c] s = none ↔ c ∉ s := by
  induction s with
  | nil => simp [stringsCut]
  | cons d rest ih =>
    simp only [stringsCut]
    by_cases hd : d = c
    · subst hd
      have hp : hasPrefix (d :: rest) [d] = true := by
        cases rest <;> simp [hasPrefix]
      simp [hp]
    · have hp : hasPrefix (d :: rest) [c] = false := by
        cases rest <;> simp [hasPrefix, hd]
      have hd' : ¬ c = d := fun e => hd e.symm
      simp only [hp, Bool.false_eq_true, if_false, List.mem_cons, hd', false_or]
      cases hc : stringsCut [c] rest with
      | none => simpa using ih.mp hc
      | some p =>
        constructor
        · intro h
          cases h
        · intro hn
          have := ih.mpr hn
          rw [hc] at this
          cases this

theorem stringsCut_single (c : Nat) (k v : GoString) (h : c ∉ k) :
    stringsCut [c] (k ++ c :: v) = some (k, v) :=
  (stringsCut_single_iff c _ k v).mpr ⟨rfl, h⟩

namespace fasttemplate

/-- With a start tag that is not empty the loop of ExecuteFunc ends within as
many iterations as the template has bytes, plus one. -/
theorem executeFuncLoop_eq (a b : GoString) (f : GoString → GoString) (ha : a ≠ []) :
    ∀ (n m : Nat) (s : GoString), s.length < n → s.length < m →
      executeFuncLoop a b f n s = executeFuncLoop a b f m s := by
  intro n
  induction n with
  | zero => intro m s hn; omega
  | succ n ih =>
    intro m s hn hm
    cases m with
    | zero => omega
    | succ m =>
      simp only [executeFuncLoop]
      cases h1 : stringsCut a s with
      | none => rfl
      | some p =>
        obtain ⟨text, s1⟩ := p
        simp only
        cases h2 : stringsCut b s1 with
        | none => rfl
        | some q =>
          obtain ⟨tag, s2⟩ := q
          simp only
          have l1 := stringsCut_length a s text s1 h1
          have l2 := stringsCut_length b s1 tag s2 h2
          have la : 0 < a.length := List.length_pos.mpr ha
          rw [ih m s2 (by omega) (by omega)]

theorem executeFuncLoop_returns (a b : GoString) (f : GoString → GoString) (ha : a ≠ []) :
    ∀ (n : Nat) (s : GoString), s.length < n → (executeFuncLoop a b f n s).isSome = true := by
  intro n
  induction n with
  | zero => intro s hn; omega
  | succ n ih =>
    intro s hn
    simp only [executeFuncLoop]
    cases h1 : stringsCut a s with
    | none => rfl
    | some p =>
      obtain ⟨text, s1⟩ := p
      simp only
      cases h2 : stringsCut b s1 with
      | none => rfl
      | some q =>
        obtain ⟨tag, s2⟩ := q
        simp only
        have l1 := stringsCut_length a s text s1 h1
        have l2 := stringsCut_length b s1 tag s2 h2
        have la : 0 < a.length := List.length_pos.mpr ha
        have := ih s2 (by omega)
        cases h3 : executeFuncLoop a b f n s2 with
        | none => simp [h3] at this
        | some out => rfl

/-- ExecuteFuncString is what the loop writes, with any bound above the length
of the template. -/
theorem ExecuteFuncString_eq_loop (a b : GoString) (f : GoString → GoString) (ha : a ≠ [])
    (n : Nat) (s : GoString) (hn : s.length < n) :
    executeFuncLoop a b f n s = some (ExecuteFuncString s a b f) := by
  unfold ExecuteFuncString
  cases h1 : stringsCut a s with
  | none =>
    cases n with
    | zero => omega
    | succ n => simp [executeFuncLoop, h1]
  | some p =>
    simp only [Option.isNone_some, Bool.false_eq_true, if_false]
    rw [executeFuncLoop_eq a b f ha n (s.length + 1) s hn (Nat.lt_succ_self _)]
    have := executeFuncLoop_returns a b f ha (s.length + 1) s (Nat.lt_succ_self _)
    cases h3 : executeFuncLoop a b f (s.length + 1) s with
    | none => simp [h3] at this
    | some out => rfl

/-- A template without start tag is written as it is. -/
theorem ExecuteFuncString_plain (a b : GoString) (f : GoString → GoString) (s : GoString)
    (h : stringsCut a s = none) : ExecuteFuncString s a b f = s := by
  simp [ExecuteFuncString, h]

/-- A start tag with no end tag after it is written as it is, with the rest. -/
theorem ExecuteFuncString_unclosed (a b : GoString) (f : GoString → GoString)
    (s text s1 : GoString) (h1 : stringsCut a s = some (text, s1))
    (h2 : stringsCut b s1 = none) : ExecuteFuncString s a b f = s := by
  simp only [ExecuteFuncString, h1, Option.isNone_some, Bool.false_eq_true, if_false,
    executeFuncLoop, h2]
  exact (stringsCut_eq a s text s1 h1).symm

/-- The first placeholder of a template is replaced by what the tag function
writes, and the rest of the template is treated in the same way. -/
theorem ExecuteFuncString_tag (a b : GoString) (f : GoString → GoString) (ha : a ≠ [])
    (s text s1 tag s2 : GoString) (h1 : stringsCut a s = some (text, s1))
    (h2 : stringsCut b s1 = some (tag, s2)) :
    ExecuteFuncString s a b f = text ++ f tag ++ ExecuteFuncString s2 a b f := by
  have l1 := stringsCut_length a s text s1 h1
  have l2 := stringsCut_length b s1 tag s2 h2
  have la : 0 < a.length := List.length_pos.mpr ha
  have e := ExecuteFuncString_eq_loop a b f ha (s.length + 1) s (Nat.lt_succ_self _)
  simp only [executeFuncLoop, h1, h2] at e
  rw [ExecuteFuncString_eq_loop a b f ha s.length s2 (by omega)] at e
  simp only [Option.some.injEq] at e
  exact e.symm

end fasttemplate

/-! ## Lemmas on the loops that bind keys -/

/-- The binding of a key after a loop whose body, on each item, binds the key to
what the item writes to it, `w item key`, or leaves it: the value written by the
last item that writes to the key, or the binding before the loop. -/
theorem mapLookup_foldl_writes {X α : Type} (step : GoMap α → X → GoMap α)
    (w : X → GoString → Option α)
    (hstep : ∀ m x K, mapLookup (step m x) K = (w x K).or (mapLookup m K))
    (xs : List X) (m : GoMap α) (K : GoString) (V : α) :
    mapLookup (xs.foldl step m) K = some V ↔
      (∃ before x after, xs = before ++ x :: after ∧ w x K = some V ∧
        ∀ y ∈ after, w y K = none) ∨
      (mapLookup m K = some V ∧ ∀ y ∈ xs, w y K = none) := by
  induction xs generalizing m with
  | nil => simp
  | cons x xs ih =>
    rw [List.foldl_cons, ih (step m x), hstep]
    constructor
    · rintro (⟨before, y, after, h1, h2, h3⟩ | ⟨h1, h2⟩)
      · exact Or.inl ⟨x :: before, y, after, by rw [h1]; rfl, h2, h3⟩
      · cases hw : w x K with
        | none =>
          rw [hw, Option.none_or] at h1
          refine Or.inr ⟨h1, ?_⟩
          intro y hy
          rcases List.mem_cons.mp hy with e | e
          · rw [e]; exact hw
          · exact h2 y e
        | some v =>
          rw [hw, Option.or_some] at h1
          simp only [Option.some.injEq] at h1
          exact Or.inl ⟨[], x, xs, rfl, by rw [hw, h1], h2⟩
    · rintro (⟨before, y, after, h1, h2, h3⟩ | ⟨h1, h2⟩)
      · cases before with
        | nil =>
          simp only [List.nil_append, List.cons.injEq] at h1
          obtain ⟨e1, e2⟩ := h1
          subst e1 e2
          right
          rw [h2, Option.or_some]
          exact ⟨rfl, h3⟩
        | cons b before =>
          simp only [List.cons_append, List.cons.injEq] at h1
          exact Or.inl ⟨before, y, after, h1.2, h2, h3⟩
      · right
        rw [h2 x (List.mem_cons_self _ _), Option.none_or]
        exact ⟨h1, fun y hy => h2 y (List.mem_cons_of_mem _ hy)⟩

theorem lit_space : lit " " = [32] := rfl

theorem lit_equals : lit "=" = [61] := rfl

/-- An item writes to a key when it is `k`, the byte `c` and `v`, with no `c`
in `k`, and the key is one of the keys of `k`. -/
theorem cutWrite_some (c : Nat) (keys : GoString → List GoString) (g : GoString → GoString)
    (x K V : GoString) :
    cutWrite c keys g x K = some V ↔
      ∃ k v, x = k ++ c :: v ∧ c ∉ k ∧ K ∈ keys k ∧ V = g v := by
  unfold cutWrite
  cases hc : stringsCut [c] x with
  | none =>
    constructor
    · intro h
      cases h
    · rintro ⟨k, v, h1, h2, _⟩
      have := (stringsCut_single_iff c x k v).mpr ⟨h1, h2⟩
      rw [hc] at this
      cases this
  | some p =>
    obtain ⟨k, v⟩ := p
    have hkv := (stringsCut_single_iff c x k v).mp hc
    simp only
    constructor
    · intro h
      by_cases hk : K ∈ keys k
      · rw [if_pos hk] at h
        simp only [Option.some.injEq] at h
        exact ⟨k, v, hkv.1, hkv.2, hk, h.symm⟩
      · rw [if_neg hk] at h
        cases h
    · rintro ⟨k', v', h1, h2, h3, h4⟩
      have := (stringsCut_single_iff c x k' v').mpr ⟨h1, h2⟩
      rw [hc] at this
      simp only [Option.some.injEq, Prod.mk.injEq] at this
      rw [this.1, this.2, if_pos h3, h4]

theorem cutWrite_none (c : Nat) (keys : GoString → List GoString) (g : GoString → GoString)
    (x K : GoString) :
    cutWrite c keys g x K = none ↔ ∀ k v, x = k ++ c :: v → c ∉ k → K ∉ keys k := by
  constructor
  · intro h k v hx hk hK
    have := (cutWrite_some c keys g x K (g v)).mpr ⟨k, v, hx, hk, hK, rfl⟩
    rw [h] at this
    cases this
  · intro h
    cases hw : cutWrite c keys g x K with
    | none => rfl
    | some V =>
      obtain ⟨k, v, h1, h2, h3, _⟩ := (cutWrite_some c keys g x K V).mp hw
      exact absurd h3 (h k v h1 h2)

namespace stamper

/-- What a line of a stamp info file writes to a key. -/
theorem mapLookup_lineStep (stamps : GoMap GoString) (line K : GoString) :
    mapLookup (lineStep stamps line) K
      = (cutWrite 32 (fun k => [k]) (fun v => v) line K).or (mapLookup stamps K) := by
  unfold lineStep splitN2 cutWrite
  rw [lit_space]
  cases hc : stringsCut [32] line with
  | none => rfl
  | some p =>
    obtain ⟨k, v⟩ := p
    simp only [mapLookup_mapSet, List.mem_singleton]
    by_cases hk : k = K
    · have : K = k := hk.symm
      simp [hk]
    · have : ¬ K = k := fun e => hk e.symm
      simp [hk, this]

/-- The map after the loop over the files: the lines of the files, all in one
list, have gone through the loop body. -/
theorem loadLoop_eq (readFile : ReadFile) (infoFiles : List GoString)
    (contents : List GoString)
    (hread : List.Forall₂ (fun sf content => readFile sf = .ok content) infoFiles contents)
    (stamps : GoMap GoString) :
    loadLoop readFile infoFiles stamps
      = .ok (((contents.map commitmsg.splitLines).flatten).foldl lineStep stamps) := by
  induction hread generalizing stamps with
  | nil => rfl
  | cons h _ ih =>
    simp only [loadLoop, h, List.map_cons, List.flatten_cons, List.foldl_append]
    exact ih _

/-- The loop over the files fails at the first file that cannot be read. -/
theorem loadLoop_error (readFile : ReadFile) (before : List GoString) (sf : GoString)
    (after : List GoString) (contents : List GoString) (err : GoString)
    (hread : List.Forall₂ (fun sf content => readFile sf = .ok content) before contents)
    (herr : readFile sf = .error err) (stamps : GoMap GoString) :
    loadLoop readFile (before ++ sf :: after) stamps
      = .error (lit "loading stamps" ++ lit ": " ++ err) := by
  induction hread generalizing stamps with
  | nil => simp [loadLoop, herr]
  | cons h _ ih =>
    simp only [List.cons_append, loadLoop, h]
    exact ih _

end stamper

/-- C24: stamp-info parsing.  When every file of the list can be read,
LoadStamps returns a map, and the map binds a key K to a value V exactly when
some line of the files, taken in list order and in file order, is K, a space
and V, with no space in K (so that the line is cut at its first space, and V
may have more spaces), and no line after it is K, a space and another value:
the last occurrence of a key gives its value, and a line without a space binds
nothing. -/
theorem C24_loadStamps_parsing (readFile : ReadFile) (infoFiles contents : List GoString)
    (hread : List.Forall₂ (fun sf content => readFile sf = .ok content) infoFiles contents) :
    ∃ stamps, stamper.LoadStamps readFile infoFiles = .ok stamps ∧
      ∀ K V, mapLookup stamps K = some V ↔
        ∃ before after,
          (contents.map commitmsg.splitLines).flatten = before ++ (K ++ 32 :: V) :: after ∧
          32 ∉ K ∧ ∀ line ∈ after, ∀ V', line ≠ K ++ 32 :: V' := by
  refine ⟨_, stamper.loadLoop_eq readFile infoFiles contents hread [], ?_⟩
  intro K V
  rw [mapLookup_foldl_writes stamper.lineStep _ stamper.mapLookup_lineStep]
  constructor
  · rintro (⟨before, x, after, h1, h2, h3⟩ | ⟨h1, _⟩)
    · obtain ⟨k, v, e1, e2, e3, e4⟩ := (cutWrite_some 32 _ _ x K V).mp h2
      simp only [List.mem_singleton] at e3
      subst e3 e4
      refine ⟨before, after, by rw [h1, e1], e2, ?_⟩
      intro line hl V' hline
      exact (cutWrite_none 32 _ _ line K).mp (h3 line hl) K V' hline e2
        (List.mem_singleton.mpr rfl)
    · simp [mapLookup] at h1
  · rintro ⟨before, after, h1, h2, h3⟩
    refine Or.inl ⟨before, K ++ 32 :: V, after, h1,
      (cutWrite_some 32 _ _ _ K V).mpr ⟨K, V, rfl, h2, List.mem_singleton.mpr rfl, rfl⟩, ?_⟩
    intro y hy
    refine (cutWrite_none 32 _ _ y K).mpr (fun k v hx _ hK => ?_)
    rw [List.mem_singleton] at hK
    subst hK
    exact h3 y hy v hx

/-- Witness of C24: two files that bind the same key; the value of the second
file is the one of the map, and a value keeps its spaces. -/
theorem C24_loadStamps_parsing_witness :
    ∃ stamps,
      stamper.LoadStamps
        (fun sf => if sf = lit "s1.txt" then .ok (lit "VER 1.0\nMSG hello world\nnospace\n")
          else .ok (lit "VER 2.0\n"))
        [lit "s1.txt", lit "s2.txt"] = .ok stamps ∧
      ∀ K V, mapLookup stamps K = some V ↔
        ∃ before after,
          ([lit "VER 1.0\nMSG hello world\nnospace\n", lit "VER 2.0\n"].map
            commitmsg.splitLines).flatten = before ++ (K ++ 32 :: V) :: after ∧
          32 ∉ K ∧ ∀ line ∈ after, ∀ V', line ≠ K ++ 32 :: V' :=
  C24_loadStamps_parsing
    (fun sf => if sf = lit "s1.txt" then .ok (lit "VER 1.0\nMSG hello world\nnospace\n")
      else .ok (lit "VER 2.0\n"))
    [lit "s1.txt", lit "s2.txt"]
    [lit "VER 1.0\nMSG hello world\nnospace\n", lit "VER 2.0\n"]
    (.cons rfl (.cons rfl .nil))

theorem templating.Engine.loadFiles_eq (readFile : ReadFile) (files : List GoString)
    (stamps : GoMap GoString) :
    templating.Engine.loadFiles readFile files stamps = stamper.loadLoop readFile files stamps := by
  induction files generalizing stamps with
  | nil => rfl
  | cons sf rest ih =>
    simp only [templating.Engine.loadFiles, stamper.loadLoop]
    cases readFile sf with
    | error err => rfl
    | ok content =>
      simp only
      have : templating.Engine.loadLine = stamper.lineStep := by
        funext s l
        rfl
      rw [this]
      exact ih _

/-- The loop over the files returns an error exactly when a file of the list
cannot be read. -/
theorem stamper.loadLoop_fails_iff (readFile : ReadFile) (files : List GoString)
    (stamps : GoMap GoString) :
    (∃ msg, stamper.loadLoop readFile files stamps = .error msg) ↔
      ∃ sf ∈ files, ∃ err, readFile sf = .error err := by
  induction files generalizing stamps with
  | nil => simp [stamper.loadLoop]
  | cons sf rest ih =>
    simp only [stamper.loadLoop]
    cases h : readFile sf with
    | error err =>
      simp only [Except.error.injEq, exists_eq', true_iff]
      exact ⟨sf, List.mem_cons_self _ _, err, h⟩
    | ok content =>
      simp only
      rw [ih]
      constructor
      · rintro ⟨f, hf, e, he⟩
        exact ⟨f, List.mem_cons_of_mem _ hf, e, he⟩
      · rintro ⟨f, hf, e, he⟩
        rcases List.mem_cons.mp hf with e1 | e1
        · rw [e1, h] at he
          cases he
        · exact ⟨f, e1, e, he⟩

/-- C30: the two stamp-info loaders agree.  On the same files, the method
loadStamps of an Engine whose StampInfoFiles is a given list returns what
LoadStamps of the stamper returns on that list, the same map or the same
error; and both return an error exactly when a file of the list cannot be
read. -/
theorem C30_loaders_agree (readFile : ReadFile) (en : templating.Engine) :
    en.loadStamps readFile = stamper.LoadStamps readFile en.StampInfoFiles ∧
    ((∃ msg, en.loadStamps readFile = .error msg) ↔
      ∃ sf ∈ en.StampInfoFiles, ∃ err, readFile sf = .error err) ∧
    ((∃ msg, stamper.LoadStamps readFile en.StampInfoFiles = .error msg) ↔
      ∃ sf ∈ en.StampInfoFiles, ∃ err, readFile sf = .error err) := by
  have h : en.loadStamps readFile = stamper.LoadStamps readFile en.StampInfoFiles :=
    templating.Engine.loadFiles_eq readFile en.StampInfoFiles []
  refine ⟨h, ?_, stamper.loadLoop_fails_iff readFile en.StampInfoFiles []⟩
  rw [h]
  exact stamper.loadLoop_fails_iff readFile en.StampInfoFiles []

namespace templating

theorem splitN2_single (c : Nat) (x : GoString) :
    splitN2 x [c] = match stringsCut [c] x with
      | some (k, v) => [k, v]
      | none => [x] := by
  unfold splitN2
  cases stringsCut [c] x with
  | none => rfl
  | some p => rfl

/-- The loop of resolveVars on variables that all have a `=`. -/
theorem Engine.resolveVars_ok (vars : List GoString) (stamps ctx : GoMap GoString)
    (h : ∀ vr ∈ vars, 61 ∈ vr) :
    Engine.resolveVars vars stamps ctx = .ok (vars.foldl (Engine.bindVar stamps) ctx) := by
  induction vars generalizing ctx with
  | nil => rfl
  | cons vr rest ih =>
    have hvr : 61 ∈ vr := h vr (List.mem_cons_self _ _)
    have hrest : ∀ x ∈ rest, 61 ∈ x := fun x hx => h x (List.mem_cons_of_mem _ hx)
    cases hc : stringsCut [61] vr with
    | none => exact absurd hvr ((stringsCut_single_none 61 vr).mp hc)
    | some p =>
      obtain ⟨name, value⟩ := p
      simp only [Engine.resolveVars, List.foldl_cons, Engine.bindVar, splitN2, lit_equals, hc]
      exact ih _ hrest

/-- The loop of resolveVars returns at the first variable without `=`. -/
theorem Engine.resolveVars_error (before : List GoString) (bad : GoString)
    (after : List GoString) (stamps ctx : GoMap GoString)
    (hbefore : ∀ vr ∈ before, 61 ∈ vr) (hbad : 61 ∉ bad) :
    Engine.resolveVars (before ++ bad :: after) stamps ctx
      = .error (lit "resolving variables" ++ lit ": variable must be VAR=value, got " ++ bad) := by
  induction before generalizing ctx with
  | nil =>
    have hc := (stringsCut_single_none 61 bad).mpr hbad
    simp only [List.nil_append, Engine.resolveVars, splitN2, lit_equals, hc]
  | cons vr rest ih =>
    have hvr : 61 ∈ vr := hbefore vr (List.mem_cons_self _ _)
    have hrest : ∀ x ∈ rest, 61 ∈ x := fun x hx => hbefore x (List.mem_cons_of_mem _ hx)
    cases hc : stringsCut [61] vr with
    | none => exact absurd hvr ((stringsCut_single_none 61 vr).mp hc)
    | some p =>
      obtain ⟨name, value⟩ := p
      simp only [List.cons_append, Engine.resolveVars, splitN2, lit_equals, hc]
      exact ih _ hrest

/-- What a variable writes to a key. -/
theorem Engine.mapLookup_bindVar (stamps ctx : GoMap GoString) (vr K : GoString) :
    mapLookup (Engine.bindVar stamps ctx vr) K
      = (cutWrite 61 (fun name => [name, lit "variables." ++ name])
          (fun value => fasttemplate.ExecuteStringStd value (lit "\x7b") (lit "\x7d") stamps)
          vr K).or (mapLookup ctx K) := by
  unfold Engine.bindVar splitN2 cutWrite
  rw [lit_equals]
  cases hc : stringsCut [61] vr with
  | none => rfl
  | some p =>
    obtain ⟨name, value⟩ := p
    simp only [mapLookup_mapSet, List.mem_cons, List.mem_singleton, List.not_mem_nil, or_false]
    by_cases h1 : lit "variables." ++ name = K
    · have : K = lit "variables." ++ name := h1.symm
      simp [h1]
    · by_cases h2 : name = K
      · simp [h2]
      · have h1' : ¬ K = lit "variables." ++ name := fun e => h1 e.symm
        have h2' : ¬ K = name := fun e => h2 e.symm
        simp [h1, h2, h1', h2']

end templating

namespace fasttemplate

theorem lit_brace_open : lit "\x7b" = [123] := rfl

theorem lit_brace_close : lit "\x7d" = [125] := rfl

/-- A value without an opening brace is its own expansion. -/
theorem ExecuteStringStd_plain (value : GoString) (m : GoMap GoString) (h : 123 ∉ value) :
    ExecuteStringStd value (lit "\x7b") (lit "\x7d") m = value := by
  unfold ExecuteStringStd
  apply ExecuteFuncString_plain
  rw [lit_brace_open]
  exact (stringsCut_single_none 123 value).mpr h

/-- The first placeholder of a value, between single braces: its value in the
map, or the placeholder itself when it is no key of the map. -/
theorem ExecuteStringStd_tag (pre X post : GoString) (m : GoMap GoString)
    (hpre : 123 ∉ pre) (hX : 125 ∉ X) :
    ExecuteStringStd (pre ++ 123 :: (X ++ 125 :: post)) (lit "\x7b") (lit "\x7d") m
      = pre ++ (match mapLookup m X with
          | some v => v
          | none => 123 :: (X ++ [125]))
        ++ ExecuteStringStd post (lit "\x7b") (lit "\x7d") m := by
  unfold ExecuteStringStd
  rw [ExecuteFuncString_tag (lit "\x7b") (lit "\x7d") _ (by decide) _ pre (X ++ 125 :: post) X post
    (by rw [lit_brace_open]; exact stringsCut_single 123 pre _ hpre)
    (by rw [lit_brace_close]; exact stringsCut_single 125 X post hX)]
  unfold keepUnknownTagFunc
  cases mapLookup m X with
  | none => simp [lit_brace_open, lit_brace_close]
  | some v => rfl

/-- An opening brace with no closing brace after it is kept, with what
follows. -/
theorem ExecuteStringStd_unclosed (pre rest : GoString) (m : GoMap GoString)
    (hpre : 123 ∉ pre) (hrest : 125 ∉ rest) :
    ExecuteStringStd (pre ++ 123 :: rest) (lit "\x7b") (lit "\x7d") m = pre ++ 123 :: rest := by
  unfold ExecuteStringStd
  apply ExecuteFuncString_unclosed (lit "\x7b") (lit "\x7d") _ _ pre rest
  · rw [lit_brace_open]; exact stringsCut_single 123 pre _ hpre
  · rw [lit_brace_close]; exact (stringsCut_single_none 125 rest).mpr hrest

end fasttemplate

theorem templating.expand_vars_message (bad : GoString) :
    lit "expanding template" ++ lit ": "
        ++ (lit "resolving variables" ++ lit ": variable must be VAR=value, got " ++ bad)
      = lit "expanding template: resolving variables: variable must be VAR=value, got "
        ++ bad := by
  have e : lit "expanding template" ++ lit ": "
      ++ (lit "resolving variables" ++ lit ": variable must be VAR=value, got ")
      = lit "expanding template: resolving variables: variable must be VAR=value, got " := by
    decide
  rw [← e]
  simp only [List.append_assoc]

theorem templating.expand_vars_message_infix (bad : GoString) :
    lit "VAR=value"
      <:+: lit "expanding template: resolving variables: variable must be VAR=value, got "
        ++ bad := by
  refine ⟨lit "expanding template: resolving variables: variable must be ",
    lit ", got " ++ bad, ?_⟩
  have e : lit "expanding template: resolving variables: variable must be " ++ lit "VAR=value"
      ++ lit ", got "
      = lit "expanding template: resolving variables: variable must be VAR=value, got " := by
    decide
  rw [← e]
  simp only [List.append_assoc]

/-- C25: variable resolution in Expand.  With the stamps loaded, and on
variables that all have a `=`, resolveVars returns a context that binds a key K
to a value V exactly when either some variable is NAME, `=` and VALUE, with no
`=` in NAME (the cut is at the first `=`), K is NAME or variables.NAME, V is
VALUE expanded against the stamps with single braces, and no variable after it
in the list writes to K, or no variable writes to K and the stamps bind K to V:
a variable overrides a stamp and a later variable an earlier one.  The
expansion leaves a value without `{` as it is, and replaces a first placeholder
{X} by the stamp of X, or keeps it as it is when X is no stamp.  When some
variable has no `=`, Expand returns an error for the first such variable, whose
message has the text VAR=value. -/
theorem C25_variable_resolution (readFile : ReadFile) (stdin : Except GoString GoString)
    (openFile : GoString → Nat → Option GoString) (en : templating.Engine)
    (tplPath outPath : GoString) (vars imports : List GoString) (executable : Bool)
    (stamps : GoMap GoString) (hstamps : en.loadStamps readFile = .ok stamps) :
    ((∀ vr ∈ vars, 61 ∈ vr) →
      ∃ ctx, templating.Engine.resolveVars vars stamps stamps = .ok ctx ∧
        ∀ K V, mapLookup ctx K = some V ↔
          (∃ before name value after,
            vars = before ++ (name ++ 61 :: value) :: after ∧ 61 ∉ name ∧
            (K = name ∨ K = lit "variables." ++ name) ∧
            V = fasttemplate.ExecuteStringStd value (lit "\x7b") (lit "\x7d") stamps ∧
            ∀ vr ∈ after, ∀ name' value', vr = name' ++ 61 :: value' → 61 ∉ name' →
              K ≠ name' ∧ K ≠ lit "variables." ++ name') ∨
          (mapLookup stamps K = some V ∧
            ∀ vr ∈ vars, ∀ name' value', vr = name' ++ 61 :: value' → 61 ∉ name' →
              K ≠ name' ∧ K ≠ lit "variables." ++ name')) ∧
    (∀ value, 123 ∉ value →
      fasttemplate.ExecuteStringStd value (lit "\x7b") (lit "\x7d") stamps = value) ∧
    (∀ pre X post, 123 ∉ pre → 125 ∉ X →
      fasttemplate.ExecuteStringStd (pre ++ 123 :: (X ++ 125 :: post)) (lit "\x7b") (lit "\x7d") stamps
        = pre ++ (match mapLookup stamps X with
            | some v => v
            | none => 123 :: (X ++ [125]))
          ++ fasttemplate.ExecuteStringStd post (lit "\x7b") (lit "\x7d") stamps) ∧
    (∀ before bad after, vars = before ++ bad :: after → (∀ vr ∈ before, 61 ∈ vr) →
      61 ∉ bad →
      en.Expand readFile stdin openFile tplPath outPath vars imports executable
          = .error (lit "expanding template: resolving variables: variable must be VAR=value, got "
            ++ bad) ∧
        lit "VAR=value"
          <:+: lit "expanding template: resolving variables: variable must be VAR=value, got "
            ++ bad) := by
  refine ⟨?_, fun value h => fasttemplate.ExecuteStringStd_plain value stamps h,
    fun pre X post h1 h2 => fasttemplate.ExecuteStringStd_tag pre X post stamps h1 h2, ?_⟩
  · intro hvars
    refine ⟨_, templating.Engine.resolveVars_ok vars stamps stamps hvars, ?_⟩
    intro K V
    rw [mapLookup_foldl_writes (templating.Engine.bindVar stamps) _
      (templating.Engine.mapLookup_bindVar stamps)]
    have hnone : ∀ y, cutWrite 61 (fun name => [name, lit "variables." ++ name])
          (fun value => fasttemplate.ExecuteStringStd value (lit "\x7b") (lit "\x7d") stamps) y K = none ↔
        ∀ name' value', y = name' ++ 61 :: value' → 61 ∉ name' →
          K ≠ name' ∧ K ≠ lit "variables." ++ name' := by
      intro y
      rw [cutWrite_none]
      constructor
      · intro h k v hx hk
        have := h k v hx hk
        simp only [List.mem_cons, List.mem_singleton, List.not_mem_nil, or_false,
          not_or] at this
        exact this
      · intro h k v hx hk
        simp only [List.mem_cons, List.mem_singleton, List.not_mem_nil, or_false, not_or]
        exact h k v hx hk
    constructor
    · rintro (⟨before, x, after, h1, h2, h3⟩ | ⟨h1, h2⟩)
      · obtain ⟨k, v, e1, e2, e3, e4⟩ := (cutWrite_some 61 _ _ x K V).mp h2
        simp only [List.mem_cons, List.mem_singleton, List.not_mem_nil, or_false] at e3
        exact Or.inl ⟨before, k, v, after, by rw [h1, e1], e2, e3, e4,
          fun vr hvr => (hnone vr).mp (h3 vr hvr)⟩
      · exact Or.inr ⟨h1, fun vr hvr => (hnone vr).mp (h2 vr hvr)⟩
    · rintro (⟨before, name, value, after, h1, h2, h3, h4, h5⟩ | ⟨h1, h2⟩)
      · refine Or.inl ⟨before, name ++ 61 :: value, after, h1,
          (cutWrite_some 61 _ _ _ K V).mpr ⟨name, value, rfl, h2, ?_, h4⟩,
          fun vr hvr => (hnone vr).mpr (h5 vr hvr)⟩
        simp only [List.mem_cons, List.mem_singleton, List.not_mem_nil, or_false]
        exact h3
      · exact Or.inr ⟨h1, fun vr hvr => (hnone vr).mpr (h2 vr hvr)⟩
  · intro before bad after hv hbefore hbad
    refine ⟨?_, templating.expand_vars_message_infix bad⟩
    unfold templating.Engine.Expand
    rw [hstamps]
    simp only
    rw [hv, templating.Engine.resolveVars_error before bad after stamps stamps hbefore hbad]
    simp only
    rw [templating.expand_vars_message]

/-- Witness of C25: a stamp VERSION, and the variables VERSION=2.0.0 and
AUTHOR=x={BUILD_USER}={NOBODY}; the context after resolveVars. -/
theorem C25_variable_resolution_witness :
    ∃ ctx, templating.Engine.resolveVars
        [lit "VERSION=2.0.0", lit "AUTHOR=x=\x7bBUILD_USER\x7d=\x7bNOBODY\x7d"]
        [(lit "VERSION", lit "1.0.0"), (lit "BUILD_USER", lit "alice")]
        [(lit "VERSION", lit "1.0.0"), (lit "BUILD_USER", lit "alice")] = .ok ctx ∧
      mapLookup ctx (lit "variables.AUTHOR") = some (lit "x=alice=\x7bNOBODY\x7d") := by
  obtain ⟨ctx, h1, h2⟩ := (C25_variable_resolution
    (fun _ => .ok (lit "VERSION 1.0.0\nBUILD_USER alice\n")) (.ok []) (fun _ _ => none)
    ⟨[], [], [lit "stamp.txt"]⟩ (lit "tpl.txt") (lit "out.txt")
    [lit "VERSION=2.0.0", lit "AUTHOR=x=\x7bBUILD_USER\x7d=\x7bNOBODY\x7d"] [] false
    [(lit "VERSION", lit "1.0.0"), (lit "BUILD_USER", lit "alice")] rfl).1 (by decide)
  refine ⟨ctx, h1, (h2 _ _).mpr (Or.inl ⟨[lit "VERSION=2.0.0"], lit "AUTHOR",
    lit "x=\x7bBUILD_USER\x7d=\x7bNOBODY\x7d", [], by decide, by decide, Or.inr (by decide), by decide,
    by simp⟩)⟩

namespace fasttemplate

/-- With a start tag that is not empty the loop of Reset ends within as many
iterations as the template has bytes, plus one. -/
theorem resetLoop_returns (a b : GoString) (ha : a ≠ []) :
    ∀ (n : Nat) (s : GoString), s.length < n → (resetLoop a b n s).isSome = true := by
  intro n
  induction n with
  | zero => intro s hn; omega
  | succ n ih =>
    intro s hn
    simp only [resetLoop]
    cases h1 : stringsCut a s with
    | none => rfl
    | some p =>
      obtain ⟨text, s1⟩ := p
      simp only
      cases h2 : stringsCut b s1 with
      | none => rfl
      | some q =>
        obtain ⟨tag, s2⟩ := q
        simp only
        have l1 := stringsCut_length a s text s1 h1
        have l2 := stringsCut_length b s1 tag s2 h2
        have la : 0 < a.length := List.length_pos.mpr ha
        have := ih s2 (by omega)
        cases h3 : resetLoop a b n s2 with
        | none => simp [h3] at this
        | some r =>
          cases r with
          | none => rfl
          | some tt => rfl

/-- The texts and tags of a parsed template, written with a tag function in
between, are what ExecuteFunc writes on the template itself. -/
theorem resetLoop_writeParts (a b : GoString) (f : GoString → GoString) :
    ∀ (n : Nat) (s : GoString) (texts tags : List GoString),
      resetLoop a b n s = some (some (texts, tags)) →
      texts ≠ [] ∧ executeFuncLoop a b f n s = some (writeParts f texts tags) := by
  intro n
  induction n with
  | zero => intro s texts tags h; simp [resetLoop] at h
  | succ n ih =>
    intro s texts tags h
    simp only [resetLoop] at h
    simp only [executeFuncLoop]
    cases h1 : stringsCut a s with
    | none =>
      simp only [h1, Option.some.injEq, Prod.mk.injEq] at h
      rw [← h.1, ← h.2]
      exact ⟨by simp, rfl⟩
    | some p =>
      obtain ⟨text, s1⟩ := p
      simp only [h1] at h ⊢
      cases h2 : stringsCut b s1 with
      | none => simp [h2] at h
      | some q =>
        obtain ⟨tag, s2⟩ := q
        simp only [h2] at h ⊢
        cases h3 : resetLoop a b n s2 with
        | none => simp [h3] at h
        | some r =>
          cases r with
          | none => simp [h3] at h
          | some tt =>
            obtain ⟨texts', tags'⟩ := tt
            simp only [h3, Option.some.injEq, Prod.mk.injEq] at h
            obtain ⟨hne, hloop⟩ := ih s2 texts' tags' h3
            rw [hloop, ← h.1, ← h.2]
            refine ⟨by simp, ?_⟩
            cases texts' with
            | nil => exact absurd rfl hne
            | cons t ts => rfl

/-- A template that New parses is executed by Template.ExecuteString as by
ExecuteFuncString with the tag function stdTagFunc. -/
theorem New_ExecuteString (template a b : GoString) (ha : a ≠ []) (t : Template)
    (m : GoMap GoString) (h : New template a b = some t) :
    t.ExecuteString m = ExecuteFuncString template a b (stdTagFunc m) := by
  unfold New at h
  cases h1 : stringsCut a template with
  | none =>
    simp only [h1, Option.isNone_none, if_true, Option.some.injEq] at h
    rw [← h, ExecuteFuncString_plain a b _ template h1]
    rfl
  | some p =>
    simp only [h1, Option.isNone_some, Bool.false_eq_true, if_false] at h
    cases h2 : resetLoop a b (template.length + 1) template with
    | none => simp [h2] at h
    | some r =>
      cases r with
      | none => simp [h2] at h
      | some tt =>
        obtain ⟨texts, tags⟩ := tt
        simp only [h2, Option.some.injEq] at h
        obtain ⟨hne, hloop⟩ := resetLoop_writeParts a b (stdTagFunc m) _ template texts tags h2
        have e := ExecuteFuncString_eq_loop a b (stdTagFunc m) ha (template.length + 1)
          template (Nat.lt_succ_self _)
        rw [hloop] at e
        simp only [Option.some.injEq] at e
        rw [← e, ← h]
        unfold Template.ExecuteString
        have : texts.length ≠ 0 := fun e0 => hne (List.length_eq_zero.mp e0)
        simp [this]

end fasttemplate

/-- What stampFile writes when it writes: the content of the file, executed
with the tag function stdTagFunc, which writes nothing for a placeholder that
is no key of the context. -/
theorem prer.stampFile_written (readFile : ReadFile)
    (writeFile : GoString → GoString → Nat → Option GoString) (path : GoString)
    (ctx : GoMap GoString) (content : GoString)
    (h : prer.stampFile readFile writeFile path ctx = .written content) :
    ∃ data, readFile path = .ok data ∧
      content = fasttemplate.ExecuteFuncString data (lit "\x7b\x7b") (lit "\x7d\x7d")
        (fasttemplate.stdTagFunc ctx) := by
  unfold prer.stampFile at h
  cases h1 : readFile path with
  | error err => simp [h1] at h
  | ok data =>
    refine ⟨data, rfl, ?_⟩
    simp only [h1] at h
    cases h2 : fasttemplate.New data (lit "\x7b\x7b") (lit "\x7d\x7d") with
    | none => simp [h2] at h
    | some tpl =>
      simp only [h2] at h
      cases h3 : writeFile path (tpl.ExecuteString ctx) 0o644 with
      | some err => simp [h3] at h
      | none =>
        simp only [h3, prer.StampResult.written.injEq] at h
        rw [← h]
        exact fasttemplate.New_ExecuteString data _ _ (by decide) tpl ctx h2

/-- C23: stamp in place on a file with a placeholder that is no key of the
context.  stampFile replaces the placeholder of the key STABLE_GIT_COMMIT by
its value and writes nothing for the placeholder OTHER, which is not kept as
it is: the content written differs from the one that keeps it.  On the same
content and context the expansion of the stamper and of the templating engine,
ExecuteStringStd, does keep it.  A content without placeholder is written back
as it is. -/
theorem C23_stampFile_unknown_placeholder :
    prer.stampFile
        (fun _ => .ok (lit "image: app:\x7b\x7bSTABLE_GIT_COMMIT\x7d\x7d\nnote: \x7b\x7bOTHER\x7d\x7d\n"))
        (fun _ _ _ => none) (lit "manifest.yaml")
        (prer.getStampContext (lit "deadbeef") (lit "main"))
      = .written (lit "image: app:deadbeef\nnote: \n") ∧
    prer.stampFile
        (fun _ => .ok (lit "image: app:\x7b\x7bSTABLE_GIT_COMMIT\x7d\x7d\nnote: \x7b\x7bOTHER\x7d\x7d\n"))
        (fun _ _ _ => none) (lit "manifest.yaml")
        (prer.getStampContext (lit "deadbeef") (lit "main"))
      ≠ .written (lit "image: app:deadbeef\nnote: \x7b\x7bOTHER\x7d\x7d\n") ∧
    fasttemplate.ExecuteStringStd (lit "image: app:\x7b\x7bSTABLE_GIT_COMMIT\x7d\x7d\nnote: \x7b\x7bOTHER\x7d\x7d\n")
        (lit "\x7b\x7b") (lit "\x7d\x7d") (prer.getStampContext (lit "deadbeef") (lit "main"))
      = lit "image: app:deadbeef\nnote: \x7b\x7bOTHER\x7d\x7d\n" ∧
    prer.stampFile (fun _ => .ok (lit "no placeholders here\n")) (fun _ _ _ => none)
        (lit "plain.txt") [(lit "STABLE_GIT_COMMIT", lit "abc")]
      = .written (lit "no placeholders here\n") := by
  refine ⟨by decide, by decide, by decide, by decide⟩

theorem bitbucket.status_message_infix (code : GoString) :
    lit "unexpected status"
      <:+: lit "creating bitbucket pull request" ++ lit ": unexpected status " ++ code := by
  refine ⟨lit "creating bitbucket pull request: ", lit " " ++ code, ?_⟩
  have e : lit "creating bitbucket pull request: " ++ lit "unexpected status" ++ lit " "
      = lit "creating bitbucket pull request" ++ lit ": unexpected status " := by decide
  rw [← e]
  simp only [List.append_assoc]

/-- C26: Bitbucket status mapping.  When CreatePR gets a response, it returns
no error if and only if the status code is 201 or 409; on any other status
code, 200 for one, it returns the error whose message is its context, the
words `unexpected status` and the status code in decimal. -/
theorem C26_bitbucket_status_mapping (statusCode : Int) :
    (bitbucket.CreatePR none none (.ok statusCode) = none ↔
      statusCode = 201 ∨ statusCode = 409) ∧
    (¬ (statusCode = 201 ∨ statusCode = 409) →
      bitbucket.CreatePR none none (.ok statusCode)
          = some (lit "creating bitbucket pull request" ++ lit ": unexpected status "
            ++ fmtD statusCode) ∧
        lit "unexpected status"
          <:+: lit "creating bitbucket pull request" ++ lit ": unexpected status "
            ++ fmtD statusCode ∧
        fmtD statusCode
          <:+: lit "creating bitbucket pull request" ++ lit ": unexpected status "
            ++ fmtD statusCode) ∧
    bitbucket.CreatePR none none (.ok 200)
      = some (lit "creating bitbucket pull request: unexpected status 200") := by
  refine ⟨?_, ?_, by decide⟩
  · unfold bitbucket.CreatePR
    by_cases h1 : statusCode = 201
    · simp [h1]
    · by_cases h2 : statusCode = 409
      · simp [h2]
      · simp [h1, h2]
  · intro h
    have h1 : ¬ statusCode = 201 := fun e => h (Or.inl e)
    have h2 : ¬ statusCode = 409 := fun e => h (Or.inr e)
    refine ⟨?_, bitbucket.status_message_infix _, List.suffix_append _ _ |>.isInfix⟩
    unfold bitbucket.CreatePR
    simp only [h1, h2, if_false]

/-- Witness of C26: the status 500 of the test of an unexpected status. -/
theorem C26_bitbucket_status_mapping_witness :
    bitbucket.CreatePR none none (.ok 500)
      = some (lit "creating bitbucket pull request" ++ lit ": unexpected status " ++ fmtD 500) :=
  ((C26_bitbucket_status_mapping 500).2.1 (by decide)).1

/-- C27: function adapter.  The method CreatePR of a GitProviderFunc f returns
what f returns on the same context, source branch, target branch and title,
and on the title as body when the given body is the empty string, on the given
body otherwise. -/
theorem C27_function_adapter {Ctx Err : Type} (f : git.GitProviderFunc Ctx Err) (ctx : Ctx)
    (from_ to_ title body : GoString) :
    git.GitProviderFunc.CreatePR f ctx from_ to_ title body
        = f ctx from_ to_ title (if body = [] then title else body) ∧
    git.GitProviderFunc.CreatePR f ctx from_ to_ title [] = f ctx from_ to_ title title ∧
    (body ≠ [] →
      git.GitProviderFunc.CreatePR f ctx from_ to_ title body = f ctx from_ to_ title body) := by
  refine ⟨rfl, rfl, ?_⟩
  intro h
  unfold git.GitProviderFunc.CreatePR
  simp only [h, if_false]

/-- Witness of C27: a function that returns the body it gets; with a body it
gets that body. -/
theorem C27_function_adapter_witness :
    git.GitProviderFunc.CreatePR (fun (_ : Unit) _ _ _ body => body) ()
        (lit "feature/x") (lit "main") (lit "my title") (lit "my body")
      = lit "my body" :=
  (C27_function_adapter (fun (_ : Unit) _ _ _ body => body) ()
    (lit "feature/x") (lit "main") (lit "my title") (lit "my body")).2.2 (by decide)

namespace prer

/-- The commits of the deployment branch after a run of processTrain: none
when the branch is created or recreated, the ones it had otherwise, and one
more on top when the run commits. -/
theorem processTrain_commits (primaryMsg depBranch : GoString) (repo : git.Repo)
    (run : TrainRun) :
    mapGet (processTrain primaryMsg repo depBranch run).1 depBranch
      = (if run.stampErr.isNone && !run.clean then [commitmsg.Generate run.targets] else [])
        ++ (if mapLookup repo depBranch = none ∨
              hasDeletedTargets (commitmsg.ExtractTargets
                (git.Repo.GetLastCommitMessage repo primaryMsg depBranch)) run.targets = true
            then [] else mapGet repo depBranch) := by
  unfold processTrain git.Repo.SwitchToBranch
  cases hl : mapLookup repo depBranch with
  | none =>
    cases hs : run.stampErr with
    | some err => simp [mapGet, mapLookup_mapSet]
    | none =>
      cases hc : run.clean <;>
        simp [git.Repo.Commit, mapGet, mapLookup_mapSet]
  | some cs =>
    simp only [Bool.not_false, if_true, reduceCtorEq, false_or]
    by_cases hd : hasDeletedTargets (commitmsg.ExtractTargets
        (git.Repo.GetLastCommitMessage repo primaryMsg depBranch)) run.targets = true
    · simp only [hd, if_true]
      cases hs : run.stampErr with
      | some err => simp [git.Repo.RecreateBranch, mapGet, mapLookup_mapSet]
      | none =>
        cases hc : run.clean <;>
          simp [git.Repo.Commit, git.Repo.RecreateBranch, mapGet, mapLookup_mapSet]
    · simp only [hd, Bool.false_eq_true, if_false]
      cases hs : run.stampErr with
      | some err => simp [mapGet, hl]
      | none =>
        cases hc : run.clean <;>
          simp [git.Repo.Commit, mapGet, mapLookup_mapSet, hl]

/-- A run of processTrain leaves the other branches as they are. -/
theorem processTrain_other (primaryMsg depBranch : GoString) (repo : git.Repo)
    (run : TrainRun) (b : GoString) (hb : b ≠ depBranch) :
    mapLookup (processTrain primaryMsg repo depBranch run).1 b = mapLookup repo b := by
  have hb' : ¬ depBranch = b := fun e => hb e.symm
  unfold processTrain git.Repo.SwitchToBranch
  cases hl : mapLookup repo depBranch with
  | none =>
    cases hs : run.stampErr with
    | some err => simp [mapLookup_mapSet, hb']
    | none =>
      cases hc : run.clean <;>
        simp [git.Repo.Commit, mapLookup_mapSet, hb']
  | some cs =>
    simp only [Bool.not_false, if_true]
    by_cases hd : hasDeletedTargets (commitmsg.ExtractTargets
        (git.Repo.GetLastCommitMessage repo primaryMsg depBranch)) run.targets = true
    · simp only [hd, if_true]
      cases hs : run.stampErr with
      | some err => simp [git.Repo.RecreateBranch, mapLookup_mapSet, hb']
      | none =>
        cases hc : run.clean <;>
          simp [git.Repo.Commit, git.Repo.RecreateBranch, mapLookup_mapSet, hb']
    · simp only [hd, Bool.false_eq_true, if_false]
      cases hs : run.stampErr with
      | some err => simp
      | none =>
        cases hc : run.clean <;>
          simp [git.Repo.Commit, mapLookup_mapSet, hb']

theorem processTrain_length_le (primaryMsg depBranch : GoString) (repo : git.Repo)
    (run : TrainRun) :
    (mapGet (processTrain primaryMsg repo depBranch run).1 depBranch).length
      ≤ (mapGet repo depBranch).length + 1 := by
  rw [processTrain_commits]
  simp only [List.length_append]
  have h1 : (if run.stampErr.isNone && !run.clean then [commitmsg.Generate run.targets]
      else []).length ≤ 1 := by
    split <;> simp
  have h2 : (if mapLookup repo depBranch = none ∨
      hasDeletedTargets (commitmsg.ExtractTargets
        (git.Repo.GetLastCommitMessage repo primaryMsg depBranch)) run.targets = true
      then [] else mapGet repo depBranch).length ≤ (mapGet repo depBranch).length := by
    split <;> simp
  omega

theorem processTrains_length_le (primaryMsg depBranch : GoString) (repo : git.Repo)
    (runs : List TrainRun) :
    (mapGet (processTrains primaryMsg depBranch repo runs) depBranch).length
      ≤ (mapGet repo depBranch).length + runs.length := by
  induction runs generalizing repo with
  | nil => simp [processTrains]
  | cons run rest ih =>
    have h1 := ih (processTrain primaryMsg repo depBranch run).1
    have h2 := processTrain_length_le primaryMsg depBranch repo run
    simp only [processTrains, List.length_cons]
    omega

end prer

/-- Counterexample of C29: two runs of processTrain on the same deployment
branch, with the same targets and each with changes to commit; the branch is
created by the first run and reused by the second, and holds two commits above
the primary branch after it. -/
theorem C29_single_commit_counterexample :
    mapGet (prer.processTrains (lit "initial commit") (lit "deploy/prod") []
        [⟨[lit "//app:deploy"], none, false⟩, ⟨[lit "//app:deploy"], none, false⟩])
        (lit "deploy/prod")
      = [commitmsg.Generate [lit "//app:deploy"], commitmsg.Generate [lit "//app:deploy"]] ∧
    ¬ (mapGet (prer.processTrains (lit "initial commit") (lit "deploy/prod") []
        [⟨[lit "//app:deploy"], none, false⟩, ⟨[lit "//app:deploy"], none, false⟩])
        (lit "deploy/prod")).length ≤ 1 := by
  refine ⟨by decide, by decide⟩

/-- C29, amended: commits of a deployment branch over the runs of processTrain.
After a run the deployment branch holds at most one commit more than before
it, and the other branches are as before.  After a run that creates the
branch, or that recreates it because a target of its last commit message is
not among the targets of the run, the branch holds at most one commit above
the primary branch.  After a run that reuses the branch and commits, the branch
holds its former commits and the new one on top.  Over a sequence of runs the
branch holds at most as many commits more as there are runs. -/
theorem C29_commits_per_run (primaryMsg depBranch : GoString) (repo : git.Repo)
    (run : prer.TrainRun) :
    (mapGet (prer.processTrain primaryMsg repo depBranch run).1 depBranch).length
        ≤ (mapGet repo depBranch).length + 1 ∧
    (∀ b, b ≠ depBranch →
      mapLookup (prer.processTrain primaryMsg repo depBranch run).1 b = mapLookup repo b) ∧
    ((mapLookup repo depBranch = none ∨
        prer.hasDeletedTargets (commitmsg.ExtractTargets
          (git.Repo.GetLastCommitMessage repo primaryMsg depBranch)) run.targets = true) →
      (mapGet (prer.processTrain primaryMsg repo depBranch run).1 depBranch).length ≤ 1) ∧
    (mapLookup repo depBranch ≠ none →
      prer.hasDeletedTargets (commitmsg.ExtractTargets
        (git.Repo.GetLastCommitMessage repo primaryMsg depBranch)) run.targets = false →
      run.stampErr = none → run.clean = false →
      mapGet (prer.processTrain primaryMsg repo depBranch run).1 depBranch
        = commitmsg.Generate run.targets :: mapGet repo depBranch) ∧
    (∀ runs : List prer.TrainRun,
      (mapGet (prer.processTrains primaryMsg depBranch repo runs) depBranch).length
        ≤ (mapGet repo depBranch).length + runs.length) := by
  refine ⟨prer.processTrain_length_le primaryMsg depBranch repo run,
    fun b hb => prer.processTrain_other primaryMsg depBranch repo run b hb, ?_, ?_,
    fun runs => prer.processTrains_length_le primaryMsg depBranch repo runs⟩
  · intro h
    rw [prer.processTrain_commits, if_pos h]
    split <;> simp
  · intro h1 h2 h3 h4
    rw [prer.processTrain_commits]
    have : ¬ (mapLookup repo depBranch = none ∨
        prer.hasDeletedTargets (commitmsg.ExtractTargets
          (git.Repo.GetLastCommitMessage repo primaryMsg depBranch)) run.targets = true) := by
      rintro (e | e)
      · exact h1 e
      · rw [h2] at e
        cases e
    rw [if_neg this, h3, h4]
    rfl

/-- Witness of C29, amended: a run on a branch whose last commit deployed a
target that the run no longer has; the branch is recreated and holds the one
commit of the run. -/
theorem C29_commits_per_run_witness :
    (mapGet (prer.processTrain (lit "initial commit")
        [(lit "deploy/prod", [commitmsg.Generate [lit "//app:deploy", lit "//old:deploy"],
          commitmsg.Generate [lit "//old:deploy"]])]
        (lit "deploy/prod") ⟨[lit "//app:deploy"], none, false⟩).1 (lit "deploy/prod")).length
      ≤ 1 :=
  (C29_commits_per_run (lit "initial commit") (lit "deploy/prod")
    [(lit "deploy/prod", [commitmsg.Generate [lit "//app:deploy", lit "//old:deploy"],
      commitmsg.Generate [lit "//old:deploy"]])]
    ⟨[lit "//app:deploy"], none, false⟩).2.2.1 (Or.inr (by decide))

/-! ## Lemmas on documents with maps taken by address -/

namespace heap

theorem updateContainersLoop_append (images : GoMap GoString) (pre post : List Cell)
    (h : Heap) :
    updateContainersLoop images (pre ++ post) h
      = match updateContainersLoop images pre h with
        | .error e => .error e
        | .ok h1 => updateContainersLoop images post h1 := by
  induction pre generalizing h with
  | nil => rfl
  | cons item rest ih =>
    cases item with
    | ref c =>
      simp only [List.cons_append, updateContainersLoop]
      cases hc : h[c]? with
      | none => exact ih h
      | some container =>
        simp only
        cases himg : mapLookup container (lit "image") with
        | none => exact ih h
        | some v =>
          cases v with
          | str imageName =>
            simp only
            cases hm : mapLookup images imageName with
            | some newName => exact ih _
            | none =>
              simp only
              by_cases hp : hasPrefix imageName (lit "//") = true
              · simp [hp]
              · simp only [hp, Bool.false_eq_true, if_false]
                exact ih h
          | null => exact ih h
          | bool b => exact ih h
          | int i => exact ih h
          | float f => exact ih h
          | seq l => exact ih h
          | ref a => exact ih h
    | null => exact ih h
    | bool b => exact ih h
    | int i => exact ih h
    | float f => exact ih h
    | str s => exact ih h
    | seq l => exact ih h

/-- The loop on one item that is a map with a string image. -/
theorem updateContainersLoop_item (images : GoMap GoString) (c : Nat) (post : List Cell)
    (h : Heap) (container : HMap) (S : GoString) (hc : h[c]? = some container)
    (himg : mapLookup container (lit "image") = some (.str S)) :
    (∀ n, mapLookup images S = some n →
      updateContainersLoop images (.ref c :: post) h
        = updateContainersLoop images post
            (h.set c (mapSet container (lit "image") (.str n)))) ∧
    (mapLookup images S = none → hasPrefix S (lit "//") = true →
      updateContainersLoop images (.ref c :: post) h
        = .error (lit "unresolved image found: " ++ S)) ∧
    (mapLookup images S = none → hasPrefix S (lit "//") = false →
      updateContainersLoop images (.ref c :: post) h = updateContainersLoop images post h) := by
  refine ⟨?_, ?_, ?_⟩
  · intro n hn
    simp only [updateContainersLoop, hc, himg, hn]
  · intro hn hp
    simp only [updateContainersLoop, hc, himg, hn, hp, if_true]
  · intro hn hp
    simp only [updateContainersLoop, hc, himg, hn, hp, Bool.false_eq_true, if_false]

theorem mem_itemRefs (items : List Cell) (a : Nat) : a ∈ itemRefs items ↔ Cell.ref a ∈ items := by
  induction items with
  | nil => simp [itemRefs]
  | cons x rest ih =>
    cases x <;> simp [itemRefs, ih]

theorem itemRefs_append (xs ys : List Cell) :
    itemRefs (xs ++ ys) = itemRefs xs ++ itemRefs ys := by
  induction xs with
  | nil => rfl
  | cons x rest ih =>
    cases x <;> simp [itemRefs, ih]

theorem resolvedMap_of_image (images : GoMap GoString) (container : HMap) (S n : GoString)
    (himg : mapLookup container (lit "image") = some (.str S))
    (hn : mapLookup images S = some n) :
    resolvedMap images container = mapSet container (lit "image") (.str n) := by
  simp [resolvedMap, himg, hn]

/-- The loop on a list in which no map stands twice and no map has an
unresolved image: every map of the list is rewritten once, from the image it
has before the loop, and no other map is written. -/
theorem updateContainersLoop_distinct_ok (images : GoMap GoString) (items : List Cell) (h : Heap)
    (hnodup : (itemRefs items).Nodup)
    (hres : ∀ a ∈ itemRefs items, ∀ x, h[a]? = some x → unresolvedImage images x = none) :
    ∃ h1, updateContainersLoop images items h = .ok h1 ∧ h1.length = h.length ∧
      ∀ a, h1[a]? = if a ∈ itemRefs items then (h[a]?).map (resolvedMap images) else h[a]? := by
  induction items generalizing h with
  | nil => exact ⟨h, rfl, rfl, fun a => by simp [itemRefs]⟩
  | cons item rest ih =>
    have skip : ∀ (hrefs : itemRefs (item :: rest) = itemRefs rest),
        updateContainersLoop images (item :: rest) h = updateContainersLoop images rest h →
        ∃ h1, updateContainersLoop images (item :: rest) h = .ok h1 ∧ h1.length = h.length ∧
          ∀ a, h1[a]? = if a ∈ itemRefs (item :: rest) then (h[a]?).map (resolvedMap images)
            else h[a]? := by
      intro hrefs hloop
      rw [hrefs] at hnodup hres ⊢
      rw [hloop]
      exact ih h hnodup hres
    cases item with
    | ref c =>
      have hcn : c ∉ itemRefs rest := (List.nodup_cons.mp hnodup).1
      have hnd : (itemRefs rest).Nodup := (List.nodup_cons.mp hnodup).2
      have hres' : ∀ a ∈ itemRefs rest, ∀ x, h[a]? = some x → unresolvedImage images x = none :=
        fun a ha => hres a (List.mem_cons_of_mem _ ha)
      -- the case where the heap is left as it is at this item
      have same : (∀ x, h[c]? = some x → resolvedMap images x = x) →
          updateContainersLoop images (.ref c :: rest) h = updateContainersLoop images rest h →
          ∃ h1, updateContainersLoop images (.ref c :: rest) h = .ok h1 ∧ h1.length = h.length ∧
            ∀ a, h1[a]? = if a ∈ itemRefs (.ref c :: rest) then (h[a]?).map (resolvedMap images)
              else h[a]? := by
        intro hsame hloop
        obtain ⟨h1, e1, e2, e3⟩ := ih h hnd hres'
        refine ⟨h1, by rw [hloop, e1], e2, ?_⟩
        intro a
        rw [e3 a]
        by_cases hac : a = c
        · subst hac
          simp only [hcn, if_false, itemRefs, List.mem_cons, true_or, if_true]
          cases hx : h[a]? with
          | none => rfl
          | some x => simp [hsame x hx]
        · simp [itemRefs, hac]
      cases hc : h[c]? with
      | none =>
        apply same
        · intro x hx
          rw [hc] at hx
          cases hx
        · simp only [updateContainersLoop, hc]
      | some container =>
        cases himg : mapLookup container (lit "image") with
        | none =>
          apply same
          · intro x hx
            rw [hc] at hx
            cases hx
            simp [resolvedMap, himg]
          · simp only [updateContainersLoop, hc, himg]
        | some v =>
          cases v with
          | str S =>
            obtain ⟨i1, i2, i3⟩ := updateContainersLoop_item images c rest h container S hc himg
            cases hn : mapLookup images S with
            | some n =>
              have hlt : c < h.length := by
                by_contra hge
                rw [List.getElem?_eq_none (by omega)] at hc
                cases hc
              have hres1 : ∀ a ∈ itemRefs rest, ∀ x,
                  (h.set c (mapSet container (lit "image") (.str n)))[a]? = some x →
                  unresolvedImage images x = none := by
                intro a ha x hx
                have hac : c ≠ a := fun e => hcn (e ▸ ha)
                rw [List.getElem?_set_ne hac] at hx
                exact hres' a ha x hx
              obtain ⟨h1, e1, e2, e3⟩ := ih _ hnd hres1
              refine ⟨h1, by rw [i1 n hn, e1], by rw [e2, List.length_set], ?_⟩
              intro a
              rw [e3 a]
              by_cases hac : a = c
              · subst hac
                simp only [hcn, if_false, itemRefs, List.mem_cons, true_or, if_true, hc,
                  Option.map_some', List.getElem?_set_self hlt,
                  resolvedMap_of_image images container S n himg hn]
              · have hca : c ≠ a := fun e => hac e.symm
                simp only [itemRefs, List.mem_cons, hac, false_or, List.getElem?_set_ne hca]
            | none =>
              have hu := hres c (by simp [itemRefs]) container hc
              have hp : hasPrefix S (lit "//") = false := by
                simp only [unresolvedImage, himg, hn, Option.isNone_none, Bool.true_and] at hu
                by_contra hne
                simp only [Bool.not_eq_false] at hne
                simp [hne] at hu
              apply same
              · intro x hx
                rw [hc] at hx
                cases hx
                simp [resolvedMap, himg, hn]
              · exact i3 hn hp
          | null | bool _ | int _ | float _ | seq _ | ref _ =>
            apply same
            · intro x hx
              rw [hc] at hx
              cases hx
              simp [resolvedMap, himg]
            · simp only [updateContainersLoop, hc, himg]
    | null | bool _ | int _ | float _ | str _ | seq _ =>
      exact skip rfl (by simp only [updateContainersLoop])

/-- The loop fails at the first map of the list with an unresolved image, when
no map stands twice up to that one. -/
theorem updateContainersLoop_distinct_error (images : GoMap GoString) (pre : List Cell) (c : Nat)
    (post : List Cell) (h : Heap) (container : HMap) (S : GoString)
    (hnodup : (itemRefs (pre ++ [.ref c])).Nodup)
    (hres : ∀ a ∈ itemRefs pre, ∀ x, h[a]? = some x → unresolvedImage images x = none)
    (hc : h[c]? = some container) (hS : unresolvedImage images container = some S) :
    updateContainersLoop images (pre ++ .ref c :: post) h
      = .error (lit "unresolved image found: " ++ S) := by
  rw [itemRefs_append] at hnodup
  have hnd : (itemRefs pre).Nodup := (List.nodup_append.mp hnodup).1
  have hcn : c ∉ itemRefs pre := by
    intro hm
    exact (List.nodup_append.mp hnodup).2.2 hm (by simp [itemRefs])
  obtain ⟨h1, e1, _, e3⟩ := updateContainersLoop_distinct_ok images pre h hnd hres
  rw [updateContainersLoop_append, e1]
  simp only
  have hc1 : h1[c]? = some container := by
    rw [e3 c, if_neg hcn, hc]
  unfold unresolvedImage at hS
  cases himg : mapLookup container (lit "image") with
  | none => simp [himg] at hS
  | some v =>
    cases v with
    | str T =>
      simp only [himg] at hS
      by_cases hcond : ((mapLookup images T).isNone && hasPrefix T (lit "//")) = true
      · rw [if_pos hcond] at hS
        simp only [Option.some.injEq] at hS
        subst hS
        simp only [Bool.and_eq_true, Option.isNone_iff_eq_none] at hcond
        exact (updateContainersLoop_item images c post h1 container T hc1 himg).2.1
          hcond.1 hcond.2
      · rw [if_neg hcond] at hS
        cases hS
    | null | bool _ | int _ | float _ | seq _ | ref _ => simp [himg] at hS

end heap

theorem heapLookup_heapWrite (h : Heap) (r : Nat) (k : GoString) (v : Cell) (a : Nat)
    (k' : GoString) :
    heapLookup (heapWrite h r k v) a k'
      = if a = r ∧ k = k' ∧ r < h.length then some v else heapLookup h a k' := by
  unfold heapWrite
  cases hr : h[r]? with
  | none =>
    have hge : ¬ r < h.length := by
      intro hlt
      rw [List.getElem?_eq_getElem hlt] at hr
      cases hr
    simp [hge]
  | some m =>
    have hlt : r < h.length := by
      by_contra hge
      rw [List.getElem?_eq_none (by omega)] at hr
      cases hr
    by_cases har : a = r
    · subst har
      simp only [heapLookup, List.getElem?_set_self hlt, mapLookup_mapSet, hr, true_and, hlt,
        and_true]
    · have : r ≠ a := fun e => har e.symm
      simp only [heapLookup, List.getElem?_set_ne this, har, false_and, if_false]

theorem getElem?_heapWrite_ne (h : Heap) (r : Nat) (k : GoString) (v : Cell) (a : Nat)
    (ha : a ≠ r) : (heapWrite h r k v)[a]? = h[a]? := by
  unfold heapWrite
  cases h[r]? with
  | none => rfl
  | some m => exact List.getElem?_set_ne (fun e => ha e.symm)

namespace heap

theorem issuerRefAddr_heapWrite (h : Heap) (r : Nat) (v : Cell) (obj : Nat) :
    issuerRefAddr (heapWrite h r (lit "name") v) obj = issuerRefAddr h obj := by
  have h1 : ¬ lit "name" = lit "spec" := by decide
  have h2 : ¬ lit "name" = lit "issuerRef" := by decide
  unfold issuerRefAddr
  simp only [heapLookup_heapWrite, h1, h2, false_and, and_false, if_false]

/-- What findAndReplaceIssuerName does: one write, of the key `name` of the map
at spec.issuerRef, when the string there is letsencrypt-prod, and no write
otherwise. -/
theorem findAndReplaceIssuerName_eq (h : Heap) (obj : Nat) :
    findAndReplaceIssuerName h obj
      = if issuerName h obj = some (lit "letsencrypt-prod") then
          match issuerRefAddr h obj with
          | some r => heapWrite h r (lit "name") (.str (lit "letsencrypt-staging"))
          | none => h
        else h := by
  unfold findAndReplaceIssuerName issuerName issuerRefAddr
  cases heapLookup h obj (lit "spec") with
  | none => simp
  | some v =>
    cases v with
    | ref s =>
      simp only
      cases heapLookup h s (lit "issuerRef") with
      | none => simp
      | some w =>
        cases w with
        | ref r => simp only
        | null | bool _ | int _ | float _ | str _ | seq _ => simp
    | null | bool _ | int _ | float _ | str _ | seq _ => simp

theorem issuerName_prod_lt (h : Heap) (obj r : Nat) (hr : issuerRefAddr h obj = some r)
    (hn : issuerName h obj = some (lit "letsencrypt-prod")) : r < h.length := by
  unfold issuerName at hn
  rw [hr] at hn
  simp only at hn
  by_contra hge
  unfold heapLookup at hn
  rw [List.getElem?_eq_none (by omega)] at hn
  simp [cellString] at hn

theorem issuerName_written (h : Heap) (obj : Nat) :
    issuerName (findAndReplaceIssuerName h obj) obj
      = if issuerName h obj = some (lit "letsencrypt-prod") then
          some (lit "letsencrypt-staging")
        else issuerName h obj := by
  rw [findAndReplaceIssuerName_eq]
  by_cases hn : issuerName h obj = some (lit "letsencrypt-prod")
  · rw [if_pos hn, if_pos hn]
    cases hr : issuerRefAddr h obj with
    | none =>
      unfold issuerName at hn
      rw [hr] at hn
      cases hn
    | some r =>
      have hlt := issuerName_prod_lt h obj r hr hn
      simp only
      unfold issuerName
      rw [issuerRefAddr_heapWrite, hr]
      simp only [heapLookup_heapWrite, hlt, and_self, if_true, cellString]
  · rw [if_neg hn, if_neg hn]

end heap

namespace heap

theorem hasClaim_nil : hasClaim [] = false := rfl

theorem hasClaim_claimReplaced (m : HMap) (f : Nat) : hasClaim (claimReplaced m f) = false := by
  have h1 : ¬ lit "emptyDir" = lit "persistentVolumeClaim" := by decide
  unfold hasClaim claimReplaced
  rw [mapLookup_mapSet, if_neg h1, mapLookup_mapDelete, if_pos rfl]
  rfl

theorem mapLookup_claimReplaced (m : HMap) (f : Nat) (k : GoString) :
    mapLookup (claimReplaced m f) k
      = if k = lit "emptyDir" then some (.ref f)
        else if k = lit "persistentVolumeClaim" then none else mapLookup m k := by
  unfold claimReplaced
  rw [mapLookup_mapSet, mapLookup_mapDelete]
  by_cases h1 : k = lit "emptyDir"
  · rw [if_pos h1.symm, if_pos h1]
  · rw [if_neg (fun e => h1 e.symm), if_neg h1]
    by_cases h2 : k = lit "persistentVolumeClaim"
    · rw [if_pos h2.symm, if_pos h2]
    · rw [if_neg (fun e => h2 e.symm), if_neg h2]

theorem getElem?_lt_of_some {α : Type} (l : List α) (a : Nat) (x : α) (h : l[a]? = some x) :
    a < l.length := by
  by_contra hge
  rw [List.getElem?_eq_none (by omega)] at h
  cases h

theorem Evolves.refl (h : Heap) : Evolves h h :=
  ⟨le_refl _, fun _ _ hm => Or.inl hm, fun f h1 h2 => absurd h2 (by omega)⟩

/-- A map without the key stays as it is. -/
theorem Evolves.keep {h h1 : Heap} (he : Evolves h h1) (a : Nat) (m : HMap)
    (hm : h[a]? = some m) (hc : hasClaim m = false) : h1[a]? = some m := by
  rcases he.2.1 a m hm with h2 | ⟨h2, _⟩
  · exact h2
  · rw [hc] at h2
    cases h2

/-- No map gets the key. -/
theorem Evolves.claim_old {h h1 : Heap} (he : Evolves h h1) (a : Nat) (m1 : HMap)
    (hm : h1[a]? = some m1) (hc : hasClaim m1 = true) : h[a]? = some m1 := by
  by_cases hlt : a < h.length
  · have hm0 : h[a]? = some (h[a]) := List.getElem?_eq_getElem hlt
    rcases he.2.1 a _ hm0 with h2 | ⟨_, f, _, h2, _⟩
    · rw [hm] at h2
      rw [hm0, ← Option.some.inj h2]
    · rw [hm] at h2
      have := Option.some.inj h2
      rw [this, hasClaim_claimReplaced] at hc
      cases hc
  · have h2 := he.2.2 a (by omega) (getElem?_lt_of_some _ _ _ hm)
    rw [hm] at h2
    rw [Option.some.inj h2] at hc
    cases hc

theorem Evolves.trans {h h1 h2 : Heap} (h01 : Evolves h h1) (h12 : Evolves h1 h2) :
    Evolves h h2 := by
  have hnil : ∀ f : Nat, h1[f]? = some [] → h2[f]? = some [] :=
    fun f hf => h12.keep f [] hf hasClaim_nil
  refine ⟨le_trans h01.1 h12.1, ?_, ?_⟩
  · intro a m hm
    rcases h01.2.1 a m hm with h3 | ⟨hc, f, hf, h3, h4⟩
    · rcases h12.2.1 a m h3 with h5 | ⟨hc, f, hf, h5, h6⟩
      · exact Or.inl h5
      · exact Or.inr ⟨hc, f, le_trans h01.1 hf, h5, h6⟩
    · exact Or.inr ⟨hc, f, hf, h12.keep a _ h3 (hasClaim_claimReplaced m f), hnil f h4⟩
  · intro f hf hlt
    by_cases h3 : f < h1.length
    · exact hnil f (h01.2.2 f hf h3)
    · exact h12.2.2 f (by omega) hlt

theorem Evolves_replaceClaim (h : Heap) (obj : Nat) (m : HMap) (hm : h[obj]? = some m)
    (hc : hasClaim m = true) : Evolves h (replaceClaim h obj m) := by
  have hlt := getElem?_lt_of_some _ _ _ hm
  have hlen : (replaceClaim h obj m).length = h.length + 1 := by
    simp [replaceClaim]
  have hlast : (replaceClaim h obj m)[h.length]? = some [] := by
    unfold replaceClaim
    rw [List.getElem?_append_right (by simp)]
    simp
  refine ⟨by omega, ?_, ?_⟩
  · intro a ma hma
    have halt := getElem?_lt_of_some _ _ _ hma
    by_cases ha : a = obj
    · subst ha
      rw [hm] at hma
      cases hma
      refine Or.inr ⟨hc, h.length, le_refl _, ?_, hlast⟩
      unfold replaceClaim
      rw [List.getElem?_append_left (by simpa using halt)]
      simp [List.getElem?_set, halt]
    · refine Or.inl ?_
      unfold replaceClaim
      rw [List.getElem?_append_left (by simpa using halt),
        List.getElem?_set_ne (fun e => ha e.symm)]
      exact hma
  · intro f hf hlt2
    have : f = h.length := by omega
    rw [this]
    exact hlast

/-- A key that findAndReplacePVC does not write has the value it had. -/
theorem Evolves.lookup_eq {h h1 : Heap} (he : Evolves h h1) (a : Nat) (k : GoString)
    (h1k : k ≠ lit "persistentVolumeClaim") (h2k : k ≠ lit "emptyDir") :
    heapLookup h1 a k = heapLookup h a k := by
  unfold Gitops.heapLookup
  by_cases hlt : a < h.length
  · have hm0 : h[a]? = some (h[a]) := List.getElem?_eq_getElem hlt
    rcases he.2.1 a _ hm0 with h2 | ⟨_, f, _, h2, _⟩
    · rw [h2, hm0]
    · rw [h2, hm0]
      simp only [mapLookup_claimReplaced, if_neg h1k, if_neg h2k]
  · rw [List.getElem?_eq_none (Nat.le_of_not_lt hlt)]
    by_cases h3 : a < h1.length
    · rw [he.2.2 a (by omega) h3]
      rfl
    · rw [List.getElem?_eq_none (Nat.le_of_not_lt h3)]

theorem Cleared.mono {h0 h1 h2 : Heap} {a : Nat} (hc : Cleared h0 h1 a) (he : Evolves h1 h2) :
    Cleared h0 h2 a := by
  intro b hb mb hmb
  cases hcl : hasClaim mb with
  | false => rfl
  | true =>
    have := hc b hb mb (he.claim_old b mb hmb hcl)
    rw [hcl] at this
    cases this

theorem findPVCItems_spec (P : Heap → Nat → Prop)
    (hmono : ∀ h1 h2 a, P h1 a → Evolves h1 h2 → P h2 a)
    (h0 : Heap) (recur : Heap → Nat → Option Heap)
    (hrec : ∀ h a h1, Evolves h0 h → recur h a = some h1 → Evolves h h1 ∧ P h1 a)
    (items : List Cell) :
    ∀ h h1, Evolves h0 h → findPVCItems recur h items = some h1 →
      Evolves h h1 ∧ ∀ c, Cell.ref c ∈ items → P h1 c := by
  induction items with
  | nil =>
    intro h h1 _ hrun
    simp only [findPVCItems, Option.some.injEq] at hrun
    subst hrun
    exact ⟨Evolves.refl _, fun c hc => by cases hc⟩
  | cons item rest ih =>
    intro h h1 he hrun
    cases item with
    | ref a =>
      simp only [findPVCItems] at hrun
      cases hr : recur h a with
      | none =>
        rw [hr] at hrun
        cases hrun
      | some h2 =>
        rw [hr] at hrun
        simp only at hrun
        obtain ⟨he2, hc2⟩ := hrec h a h2 he hr
        obtain ⟨he3, hc3⟩ := ih h2 h1 (he.trans he2) hrun
        refine ⟨he2.trans he3, ?_⟩
        intro c hc
        rcases List.mem_cons.mp hc with e | hmem
        · cases e
          exact hmono _ _ _ hc2 he3
        · exact hc3 c hmem
    | null | bool _ | int _ | float _ | str _ | seq _ =>
      simp only [findPVCItems] at hrun
      obtain ⟨he3, hc3⟩ := ih h h1 he hrun
      refine ⟨he3, ?_⟩
      intro c hc
      rcases List.mem_cons.mp hc with e | hmem
      · cases e
      · exact hc3 c hmem

theorem findPVC_spec (P : Heap → Nat → Prop)
    (hmono : ∀ h1 h2 a, P h1 a → Evolves h1 h2 → P h2 a)
    (h0 : Heap) (recur : Heap → Nat → Option Heap)
    (hrec : ∀ h a h1, Evolves h0 h → recur h a = some h1 → Evolves h h1 ∧ P h1 a)
    (obj : Nat) (m : HMap) (hcl : hasClaim m = false) (keys : List GoString) :
    ∀ h h1, Evolves h0 h → h[obj]? = some m → findPVC recur h obj keys = some h1 →
      Evolves h h1 ∧ ∀ key ∈ keys, ∀ c,
        (mapLookup m key = some (.ref c) ∨
          ∃ items, mapLookup m key = some (.seq items) ∧ Cell.ref c ∈ items) →
        P h1 c := by
  induction keys with
  | nil =>
    intro h h1 _ _ hrun
    simp only [findPVC, Option.some.injEq] at hrun
    subst hrun
    exact ⟨Evolves.refl _, fun key hk => by cases hk⟩
  | cons key rest ih =>
    intro h h1 he hm hrun
    have hb : (h[obj]?).bind (fun m => mapLookup m key) = mapLookup m key := by
      rw [hm]
      rfl
    simp only [findPVC] at hrun
    rw [hb] at hrun
    cases hv : mapLookup m key with
    | none =>
      rw [hv] at hrun
      simp only at hrun
      obtain ⟨he3, hc3⟩ := ih h h1 he hm hrun
      refine ⟨he3, ?_⟩
      intro k hk c hc
      rcases List.mem_cons.mp hk with e | hmem
      · subst e
        rw [hv] at hc
        rcases hc with hc | ⟨_, hc, _⟩ <;> cases hc
      · exact hc3 k hmem c hc
    | some v =>
      rw [hv] at hrun
      cases v with
      | ref a =>
        simp only at hrun
        cases hr : recur h a with
        | none =>
          rw [hr] at hrun
          cases hrun
        | some h2 =>
          rw [hr] at hrun
          simp only at hrun
          obtain ⟨he2, hc2⟩ := hrec h a h2 he hr
          obtain ⟨he3, hc3⟩ := ih h2 h1 (he.trans he2) (he2.keep obj m hm hcl) hrun
          refine ⟨he2.trans he3, ?_⟩
          intro k hk c hc
          rcases List.mem_cons.mp hk with e | hmem
          · subst e
            rw [hv] at hc
            rcases hc with hc | ⟨_, hc, _⟩
            · cases hc
              exact hmono _ _ _ hc2 he3
            · cases hc
          · exact hc3 k hmem c hc
      | seq items =>
        simp only at hrun
        cases hr : findPVCItems recur h items with
        | none =>
          rw [hr] at hrun
          cases hrun
        | some h2 =>
          rw [hr] at hrun
          simp only at hrun
          obtain ⟨he2, hc2⟩ := findPVCItems_spec P hmono h0 recur hrec items h h2 he hr
          obtain ⟨he3, hc3⟩ := ih h2 h1 (he.trans he2) (he2.keep obj m hm hcl) hrun
          refine ⟨he2.trans he3, ?_⟩
          intro k hk c hc
          rcases List.mem_cons.mp hk with e | hmem
          · subst e
            rw [hv] at hc
            rcases hc with hc | ⟨its, hc, hmem⟩
            · cases hc
            · cases hc
              exact hmono _ _ _ (hc2 c hmem) he3
          · exact hc3 k hmem c hc
      | null | bool _ | int _ | float _ | str _ =>
        simp only at hrun
        obtain ⟨he3, hc3⟩ := ih h h1 he hm hrun
        refine ⟨he3, ?_⟩
        intro k hk c hc
        rcases List.mem_cons.mp hk with e | hmem
        · subst e
          rw [hv] at hc
          rcases hc with hc | ⟨_, hc, _⟩ <;> cases hc
        · exact hc3 k hmem c hc

/-- The heap after a call of findAndReplacePVC that returns, whatever the order
of the keys. -/
theorem findAndReplacePVC_evolves (order : KeyOrder) (fuel : Nat) :
    ∀ h obj h1, findAndReplacePVC order fuel h obj = some h1 → Evolves h h1 := by
  induction fuel with
  | zero =>
    intro h obj h1 hrun
    cases hrun
  | succ fuel ih =>
    intro h obj h1 hrun
    simp only [findAndReplacePVC] at hrun
    cases hm : h[obj]? with
    | none =>
      rw [hm] at hrun
      simp only [Option.some.injEq] at hrun
      subst hrun
      exact Evolves.refl _
    | some m =>
      rw [hm] at hrun
      simp only at hrun
      cases hcl : hasClaim m with
      | true =>
        rw [hcl] at hrun
        simp only [if_true, Option.some.injEq] at hrun
        subst hrun
        exact Evolves_replaceClaim h obj m hm hcl
      | false =>
        rw [hcl] at hrun
        simp only [Bool.false_eq_true, if_false] at hrun
        exact (findPVC_spec (fun _ _ => True) (fun _ _ _ _ _ => trivial) h
          (findAndReplacePVC order fuel) (fun h2 a h3 _ hr => ⟨ih h2 a h3 hr, trivial⟩)
          obj m hcl (order h obj) h h1 (Evolves.refl h) hm hrun).1

/-- What a call of findAndReplacePVC that returns has done. -/
theorem findAndReplacePVC_spec (order : KeyOrder) (horder : KeyOrder.complete order)
    (h0 : Heap) (fuel : Nat) :
    ∀ h obj h1, Evolves h0 h → findAndReplacePVC order fuel h obj = some h1 →
      Evolves h h1 ∧ Cleared h0 h1 obj := by
  induction fuel with
  | zero =>
    intro h obj h1 _ hrun
    cases hrun
  | succ fuel ih =>
    intro h obj h1 he hrun
    simp only [findAndReplacePVC] at hrun
    cases hm : h[obj]? with
    | none =>
      rw [hm] at hrun
      simp only [Option.some.injEq] at hrun
      subst hrun
      refine ⟨Evolves.refl _, ?_⟩
      intro b hb mb hmb
      cases hb with
      | here => rw [hm] at hmb; cases hmb
      | next _ c _ m0 hm0 hc0 _ _ =>
        have := he.keep obj m0 hm0 hc0
        rw [hm] at this
        cases this
    | some m =>
      rw [hm] at hrun
      simp only at hrun
      cases hcl : hasClaim m with
      | true =>
        rw [hcl] at hrun
        simp only [if_true, Option.some.injEq] at hrun
        subst hrun
        have hev := Evolves_replaceClaim h obj m hm hcl
        refine ⟨hev, ?_⟩
        intro b hb mb hmb
        cases hb with
        | here =>
          rcases hev.2.1 obj m hm with h2 | ⟨_, f, _, h2, _⟩
          · cases hc2 : hasClaim mb with
            | false => rfl
            | true =>
              have h3 := hev.claim_old obj mb hmb hc2
              unfold replaceClaim at hmb
              rw [List.getElem?_append_left
                (by simpa using getElem?_lt_of_some _ _ _ hm)] at hmb
              simp only [List.getElem?_set, getElem?_lt_of_some _ _ _ hm, if_true,
                Option.some.injEq] at hmb
              rw [← hmb, hasClaim_claimReplaced] at hc2
              cases hc2
          · rw [hmb] at h2
            rw [Option.some.inj h2]
            exact hasClaim_claimReplaced m f
        | next _ c _ m0 hm0 hc0 _ _ =>
          have := he.keep obj m0 hm0 hc0
          rw [hm] at this
          rw [Option.some.inj this, hc0] at hcl
          cases hcl
      | false =>
        rw [hcl] at hrun
        simp only [Bool.false_eq_true, if_false] at hrun
        obtain ⟨hev, hvis⟩ := findPVC_spec (Cleared h0) (fun _ _ _ hc he => hc.mono he) h0
          (findAndReplacePVC order fuel) ih obj m hcl (order h obj) h h1 he hm hrun
        refine ⟨hev, ?_⟩
        intro b hb mb hmb
        cases hb with
        | here =>
          have := hev.keep obj m hm hcl
          rw [hmb] at this
          rw [Option.some.inj this]
          exact hcl
        | next _ c _ m0 hm0 hc0 hholds hreach =>
          have h2 := he.keep obj m0 hm0 hc0
          rw [hm] at h2
          have hmm : m = m0 := Option.some.inj h2
          subst hmm
          obtain ⟨key, hkey⟩ := hholds
          have hin : key ∈ order h obj := by
            apply horder h obj m key hm
            rcases hkey with hk | ⟨_, hk, _⟩ <;> rw [hk] <;> rfl
          exact hvis key hin c hkey b hreach mb hmb

end heap

namespace heap

theorem mem_childRefs_of_mem (m : HMap) (k : GoString) (v : Cell) (c : Nat) (hkv : (k, v) ∈ m)
    (hv : v = .ref c ∨ ∃ items, v = .seq items ∧ Cell.ref c ∈ items) : c ∈ childRefs m := by
  induction m with
  | nil => cases hkv
  | cons kv rest ih =>
    obtain ⟨k0, v0⟩ := kv
    rcases List.mem_cons.mp hkv with e | hmem
    · cases e
      rcases hv with e | ⟨items, e, hi⟩
      · subst e
        simp [childRefs]
      · subst e
        simp only [childRefs, List.mem_append]
        exact Or.inl ((mem_itemRefs items c).mpr hi)
    · have := ih hmem
      cases v0 <;> simp [childRefs, this]

theorem mem_childRefs_of_holds (m : HMap) (c : Nat) (hh : holds m c) : c ∈ childRefs m := by
  obtain ⟨key, hk⟩ := hh
  rcases hk with hk | ⟨items, hk, hi⟩
  · exact mem_childRefs_of_mem m key _ c (mapLookup_mem m key _ hk) (Or.inl rfl)
  · exact mem_childRefs_of_mem m key _ c (mapLookup_mem m key _ hk) (Or.inr ⟨items, rfl, hi⟩)

theorem ranked_holds (rank : Nat → Nat) (h0 : Heap) (hord : ranked rank h0 = true) (a : Nat)
    (m : HMap) (hm : h0[a]? = some m) (c : Nat) (hh : holds m c) : rank c < rank a := by
  unfold ranked at hord
  rw [List.all_eq_true] at hord
  have h1 := hord a (List.mem_range.mpr (getElem?_lt_of_some _ _ _ hm))
  rw [hm] at h1
  simp only [List.all_eq_true, decide_eq_true_eq] at h1
  exact h1 c (mem_childRefs_of_holds m c hh)

theorem holds_claimReplaced (m : HMap) (f c : Nat) (hh : holds (claimReplaced m f) c) :
    c = f ∨ holds m c := by
  obtain ⟨key, hk⟩ := hh
  rw [mapLookup_claimReplaced] at hk
  by_cases h1 : key = lit "emptyDir"
  · rw [if_pos h1] at hk
    rcases hk with hk | ⟨items, hk, _⟩
    · cases hk
      exact Or.inl rfl
    · cases hk
  · rw [if_neg h1] at hk
    by_cases h2 : key = lit "persistentVolumeClaim"
    · rw [if_pos h2] at hk
      rcases hk with hk | ⟨items, hk, _⟩ <;> cases hk
    · rw [if_neg h2] at hk
      exact Or.inr ⟨key, hk⟩

theorem not_holds_nil (c : Nat) : ¬ holds [] c := by
  rintro ⟨key, hk | ⟨items, hk, _⟩⟩ <;> cases hk

/-- The maps that a map of a later heap holds have a smaller bound. -/
theorem Evolves.holds_bound {h0 h : Heap} (rank : Nat → Nat) (hord : ranked rank h0 = true)
    (he : Evolves h0 h) (obj : Nat) (m : HMap) (hm : h[obj]? = some m) (c : Nat)
    (hh : holds m c) :
    (if c < h0.length then rank c + 2 else 1) < (if obj < h0.length then rank obj + 2 else 1) := by
  by_cases hlt : obj < h0.length
  · have hm0 : h0[obj]? = some (h0[obj]) := List.getElem?_eq_getElem hlt
    rw [if_pos hlt]
    rcases he.2.1 obj _ hm0 with h2 | ⟨_, f, hf, h2, _⟩
    · rw [hm] at h2
      rw [Option.some.inj h2] at hh
      have := ranked_holds rank h0 hord obj _ hm0 c hh
      split <;> omega
    · rw [hm] at h2
      rw [Option.some.inj h2] at hh
      rcases holds_claimReplaced _ f c hh with e | hh2
      · subst e
        rw [if_neg (by omega)]
        omega
      · have := ranked_holds rank h0 hord obj _ hm0 c hh2
        split <;> omega
  · have h2 := he.2.2 obj (by omega) (getElem?_lt_of_some _ _ _ hm)
    rw [hm] at h2
    rw [Option.some.inj h2] at hh
    exact absurd hh (not_holds_nil c)

theorem findPVCItems_returns (h0 : Heap) (recur : Heap → Nat → Option Heap)
    (hrec : ∀ h a h1, Evolves h0 h → recur h a = some h1 → Evolves h h1)
    (items : List Cell) :
    ∀ h, Evolves h0 h → (∀ c, Cell.ref c ∈ items → ∀ h2, Evolves h0 h2 → (recur h2 c).isSome) →
      ∃ h1, findPVCItems recur h items = some h1 ∧ Evolves h h1 := by
  induction items with
  | nil =>
    intro h _ _
    exact ⟨h, rfl, Evolves.refl _⟩
  | cons item rest ih =>
    intro h he hret
    have hrest : ∀ c, Cell.ref c ∈ rest → ∀ h2, Evolves h0 h2 → (recur h2 c).isSome :=
      fun c hc => hret c (List.mem_cons_of_mem _ hc)
    cases item with
    | ref a =>
      simp only [findPVCItems]
      have h1 := hret a (List.mem_cons_self _ _) h he
      cases hr : recur h a with
      | none =>
        rw [hr] at h1
        cases h1
      | some h2 =>
        simp only
        have he2 := hrec h a h2 he hr
        obtain ⟨h3, hrun, he3⟩ := ih h2 (he.trans he2) hrest
        exact ⟨h3, hrun, he2.trans he3⟩
    | null | bool _ | int _ | float _ | str _ | seq _ =>
      simp only [findPVCItems]
      exact ih h he hrest

theorem findPVC_returns (h0 : Heap) (recur : Heap → Nat → Option Heap)
    (hrec : ∀ h a h1, Evolves h0 h → recur h a = some h1 → Evolves h h1)
    (obj : Nat) (m : HMap) (hcl : hasClaim m = false)
    (hret : ∀ c, holds m c → ∀ h2, Evolves h0 h2 → (recur h2 c).isSome)
    (keys : List GoString) :
    ∀ h, Evolves h0 h → h[obj]? = some m →
      ∃ h1, findPVC recur h obj keys = some h1 ∧ Evolves h h1 := by
  induction keys with
  | nil =>
    intro h _ _
    exact ⟨h, rfl, Evolves.refl _⟩
  | cons key rest ih =>
    intro h he hm
    have hb : (h[obj]?).bind (fun m => mapLookup m key) = mapLookup m key := by
      rw [hm]
      rfl
    simp only [findPVC]
    rw [hb]
    cases hv : mapLookup m key with
    | none =>
      simp only
      exact ih h he hm
    | some v =>
      cases v with
      | ref a =>
        simp only
        have h1 := hret a ⟨key, Or.inl hv⟩ h he
        cases hr : recur h a with
        | none =>
          rw [hr] at h1
          cases h1
        | some h2 =>
          simp only
          have he2 := hrec h a h2 he hr
          obtain ⟨h3, hrun, he3⟩ := ih h2 (he.trans he2) (he2.keep obj m hm hcl)
          exact ⟨h3, hrun, he2.trans he3⟩
      | seq items =>
        simp only
        obtain ⟨h2, hr, he2⟩ := findPVCItems_returns h0 recur hrec items h he
          (fun c hc => hret c ⟨key, Or.inr ⟨items, hv, hc⟩⟩)
        rw [hr]
        simp only
        obtain ⟨h3, hrun, he3⟩ := ih h2 (he.trans he2) (he2.keep obj m hm hcl)
        exact ⟨h3, hrun, he2.trans he3⟩
      | null | bool _ | int _ | float _ | str _ =>
        simp only
        exact ih h he hm

/-- A call of findAndReplacePVC returns on a heap in which a map holds only
maps of lower rank, when the bound on the depth is two more than the rank of
the map of the call. -/
theorem findAndReplacePVC_returns (order : KeyOrder) (rank : Nat → Nat) (h0 : Heap) (hord : ranked rank h0 = true) (fuel : Nat) :
    ∀ h obj, Evolves h0 h → (if obj < h0.length then rank obj + 2 else 1) ≤ fuel →
      (findAndReplacePVC order fuel h obj).isSome = true := by
  induction fuel with
  | zero =>
    intro h obj _ hf
    split at hf <;> omega
  | succ fuel ih =>
    intro h obj he hf
    simp only [findAndReplacePVC]
    cases hm : h[obj]? with
    | none => rfl
    | some m =>
      simp only
      cases hcl : hasClaim m with
      | true => rfl
      | false =>
        simp only [Bool.false_eq_true, if_false]
        obtain ⟨h1, hrun, _⟩ := findPVC_returns h0 (findAndReplacePVC order fuel)
          (fun h a h1 _ hr => findAndReplacePVC_evolves order fuel h a h1 hr)
          obj m hcl
          (fun c hc h2 he2 => ih h2 c he2 (by
            have := he.holds_bound rank hord obj m hm c hc
            omega))
          (order h obj) h he hm
        rw [hrun]
        rfl

theorem listOrder_complete : KeyOrder.complete listOrder := by
  intro h a m key hm hk
  unfold listOrder
  rw [hm]
  cases hv : mapLookup m key with
  | none =>
    rw [hv] at hk
    cases hk
  | some v =>
    exact List.mem_map.mpr ⟨(key, v), mapLookup_mem m key v hv, rfl⟩

end heap


/-! ## Theorems on documents with maps taken by address -/

/-- C12: image resolver, list form.  On a map whose key `path` holds a list,
updateContainers goes through the items in order and treats each item that is
a map with a string image S, S being the image of the map when the loop
reaches the item: if S is a key of the image map the image of the map becomes
M[S], also when S starts with //, and the loop goes on; otherwise if S starts
with // the call fails with the message "unresolved image found: S"; otherwise
the map is left as it is and the loop goes on.  When no map stands twice in
the list, each map is reached once, with the image it has before the call: the
call fails at the first map with an image that is no key of the image map and
starts with //, and without such a map it returns with every map of the list
rewritten from its image before the call and every other map as before. -/
theorem C12_updateContainers_list_form (images : GoMap GoString) (h : Heap) (obj : Nat)
    (path : GoString) (m : HMap) (items : List Cell)
    (hobj : h[obj]? = some m) (hlist : mapLookup m path = some (.seq items)) :
    (∀ pre c post h1 container S, items = pre ++ .ref c :: post →
      heap.updateContainersLoop images pre h = .ok h1 →
      h1[c]? = some container → mapLookup container (lit "image") = some (.str S) →
      (∀ n, mapLookup images S = some n →
        heap.updateContainers images h obj path
          = heap.updateContainersLoop images post
              (h1.set c (mapSet container (lit "image") (.str n)))) ∧
      (mapLookup images S = none → hasPrefix S (lit "//") = true →
        heap.updateContainers images h obj path
          = .error (lit "unresolved image found: " ++ S)) ∧
      (mapLookup images S = none → hasPrefix S (lit "//") = false →
        heap.updateContainers images h obj path
          = heap.updateContainersLoop images post h1)) ∧
    (∀ pre c post container S, items = pre ++ .ref c :: post →
      (itemRefs (pre ++ [.ref c])).Nodup →
      (∀ a ∈ itemRefs pre, ∀ x, h[a]? = some x → heap.unresolvedImage images x = none) →
      h[c]? = some container → heap.unresolvedImage images container = some S →
      heap.updateContainers images h obj path
        = .error (lit "unresolved image found: " ++ S)) ∧
    ((itemRefs items).Nodup →
      (∀ a ∈ itemRefs items, ∀ x, h[a]? = some x → heap.unresolvedImage images x = none) →
      ∃ h1, heap.updateContainers images h obj path = .ok h1 ∧ h1.length = h.length ∧
        ∀ a, h1[a]? = if a ∈ itemRefs items then (h[a]?).map (heap.resolvedMap images)
          else h[a]?) ∧
    (∀ (x : HMap) S n, mapLookup x (lit "image") = some (.str S) →
      mapLookup images S = some n →
      heap.unresolvedImage images x = none ∧
      heap.resolvedMap images x = mapSet x (lit "image") (.str n)) ∧
    (∀ (x : HMap) S, mapLookup x (lit "image") = some (.str S) → mapLookup images S = none →
      (hasPrefix S (lit "//") = true → heap.unresolvedImage images x = some S) ∧
      (hasPrefix S (lit "//") = false → heap.unresolvedImage images x = none) ∧
      heap.resolvedMap images x = x) := by
  have hcall : heap.updateContainers images h obj path
      = heap.updateContainersLoop images items h := by
    simp only [heap.updateContainers, hobj, hlist]
  refine ⟨?_, ?_, ?_, ?_, ?_⟩
  · intro pre c post h1 container S hitems hpre hc himg
    rw [hcall, hitems, heap.updateContainersLoop_append, hpre]
    exact heap.updateContainersLoop_item images c post h1 container S hc himg
  · intro pre c post container S hitems hnodup hres hc hS
    rw [hcall, hitems]
    exact heap.updateContainersLoop_distinct_error images pre c post h container S hnodup hres hc hS
  · intro hnodup hres
    rw [hcall]
    exact heap.updateContainersLoop_distinct_ok images items h hnodup hres
  · intro x S n himg hn
    simp [heap.unresolvedImage, heap.resolvedMap, himg, hn]
  · intro x S himg hn
    refine ⟨?_, ?_, ?_⟩
    · intro hp
      simp [heap.unresolvedImage, himg, hn, hp]
    · intro hp
      simp [heap.unresolvedImage, himg, hn, hp]
    · simp [heap.resolvedMap, himg, hn]

/-- Witness of C12: the mapped image //foo:bar of the first item is replaced
and not flagged, and the second item is left as it is. -/
theorem C12_updateContainers_list_form_witness :
    ∃ h1, heap.updateContainers [(lit "//foo:bar", lit "registry/foo@sha256:1")]
        [[(lit "containers", .seq [.ref 1, .ref 2])],
          [(lit "name", .str (lit "a")), (lit "image", .str (lit "//foo:bar"))],
          [(lit "image", .str (lit "nginx"))]] 0 (lit "containers") = .ok h1 ∧
      h1.length = ([[(lit "containers", .seq [.ref 1, .ref 2])],
          [(lit "name", .str (lit "a")), (lit "image", .str (lit "//foo:bar"))],
          [(lit "image", .str (lit "nginx"))]] : Heap).length ∧
      ∀ a, h1[a]? = if a ∈ itemRefs [.ref 1, .ref 2] then
          (([[(lit "containers", .seq [.ref 1, .ref 2])],
            [(lit "name", .str (lit "a")), (lit "image", .str (lit "//foo:bar"))],
            [(lit "image", .str (lit "nginx"))]] : Heap)[a]?).map
            (heap.resolvedMap [(lit "//foo:bar", lit "registry/foo@sha256:1")])
        else ([[(lit "containers", .seq [.ref 1, .ref 2])],
            [(lit "name", .str (lit "a")), (lit "image", .str (lit "//foo:bar"))],
            [(lit "image", .str (lit "nginx"))]] : Heap)[a]? :=
  (C12_updateContainers_list_form [(lit "//foo:bar", lit "registry/foo@sha256:1")]
    [[(lit "containers", .seq [.ref 1, .ref 2])],
      [(lit "name", .str (lit "a")), (lit "image", .str (lit "//foo:bar"))],
      [(lit "image", .str (lit "nginx"))]] 0 (lit "containers")
    [(lit "containers", .seq [.ref 1, .ref 2])] [.ref 1, .ref 2] rfl rfl).2.2.1
    (by decide)
    (by
      intro a ha x hx
      simp only [itemRefs, List.mem_cons, List.mem_singleton, List.not_mem_nil, or_false] at ha
      rcases ha with e | e
      · subst e
        simp only [List.getElem?_cons_succ, List.getElem?_cons_zero, Option.some.injEq] at hx
        subst hx
        rfl
      · subst e
        simp only [List.getElem?_cons_succ, List.getElem?_cons_zero, Option.some.injEq] at hx
        subst hx
        rfl)

/-- C13: image resolver, single-container form.  On a map whose key `path`
holds a map with a string image S, updateContainer fails with the message
"unresolved image found: S" when S starts with //, also when S is a key of the
image map; otherwise, when S is a key of the image map, it binds the image of
that map to M[S], which is the one write of the call: the other keys of the map
and every other map are as before, and whatever else holds the same map holds
the rewritten map; when S is no key of the image map nothing is written. -/
theorem C13_updateContainer_single_form (images : GoMap GoString) (h : Heap) (obj : Nat)
    (path : GoString) (m : HMap) (c : Nat) (container : HMap) (S : GoString)
    (hobj : h[obj]? = some m) (hmap : mapLookup m path = some (.ref c))
    (hc : h[c]? = some container)
    (himg : mapLookup container (lit "image") = some (.str S)) :
    (hasPrefix S (lit "//") = true →
      heap.updateContainer images h obj path
        = .error (lit "unresolved image found: " ++ S)) ∧
    (hasPrefix S (lit "//") = false → ∀ n, mapLookup images S = some n →
      heap.updateContainer images h obj path
          = .ok (h.set c (mapSet container (lit "image") (.str n))) ∧
        (h.set c (mapSet container (lit "image") (.str n)))[c]?
          = some (mapSet container (lit "image") (.str n)) ∧
        mapLookup (mapSet container (lit "image") (.str n)) (lit "image") = some (.str n) ∧
        (∀ k, k ≠ lit "image" →
          mapLookup (mapSet container (lit "image") (.str n)) k = mapLookup container k) ∧
        (∀ a, a ≠ c → (h.set c (mapSet container (lit "image") (.str n)))[a]? = h[a]?)) ∧
    (hasPrefix S (lit "//") = false → mapLookup images S = none →
      heap.updateContainer images h obj path = .ok h) := by
  have hlt : c < h.length := by
    by_contra hge
    rw [List.getElem?_eq_none (by omega)] at hc
    cases hc
  refine ⟨?_, ?_, ?_⟩
  · intro hp
    simp only [heap.updateContainer, hobj, hmap, hc, himg, hp, if_true]
  · intro hp n hn
    refine ⟨?_, List.getElem?_set_self hlt, ?_, ?_, ?_⟩
    · simp only [heap.updateContainer, hobj, hmap, hc, himg, hp, Bool.false_eq_true, if_false,
        hn]
    · simp only [mapLookup_mapSet, if_true]
    · intro k hk
      have : ¬ lit "image" = k := fun e => hk e.symm
      simp only [mapLookup_mapSet, this, if_false]
    · intro a ha
      exact List.getElem?_set_ne (fun e => ha e.symm)
  · intro hp hn
    simp only [heap.updateContainer, hobj, hmap, hc, himg, hp, Bool.false_eq_true, if_false,
      hn]

/-- Witness of C13: the image //foo:bar fails although the image map has it. -/
theorem C13_updateContainer_single_form_witness :
    heap.updateContainer [(lit "//foo:bar", lit "registry/foo@sha256:1")]
        [[(lit "spec", .ref 1)], [(lit "image", .str (lit "//foo:bar"))]] 0 (lit "spec")
      = .error (lit "unresolved image found: " ++ lit "//foo:bar") :=
  (C13_updateContainer_single_form [(lit "//foo:bar", lit "registry/foo@sha256:1")]
    [[(lit "spec", .ref 1)], [(lit "image", .str (lit "//foo:bar"))]] 0 (lit "spec")
    [(lit "spec", .ref 1)] 1 [(lit "image", .str (lit "//foo:bar"))] (lit "//foo:bar")
    rfl rfl rfl rfl).1 (by decide)

/-- C20, counterexample: exampleNestedClaim is the document
filter.exampleNestedClaim, in which every map is held once; the map under
`volume` has the key persistentVolumeClaim and, under `extra`, a map that has
it too.  The call findAndReplacePVC on the root returns, and after it the map
under volume.extra, reached from the root through map values, still has the
key and has no emptyDir. -/
theorem C20_claim_below_replaced_map :
    (heap.exampleNestedClaim.map childRefs).flatten = [1, 2, 3, 4] ∧
    document heap.exampleNestedClaim 0
      = some [(lit "volume", .map [(lit "name", .str (lit "data")),
          (lit "persistentVolumeClaim", .map [(lit "claimName", .str (lit "c"))]),
          (lit "extra", .map [(lit "persistentVolumeClaim", .map [])])])] ∧
    heap.findAndReplacePVC heap.listOrder 2 heap.exampleNestedClaim 0
      = some (heap.findAndReplacePVCRun heap.listOrder heap.exampleNestedClaim 0) ∧
    document (heap.findAndReplacePVCRun heap.listOrder heap.exampleNestedClaim 0) 0
      = some [(lit "volume", .map [(lit "name", .str (lit "data")),
          (lit "extra", .map [(lit "persistentVolumeClaim", .map [])]),
          (lit "emptyDir", .map [])])] ∧
    heapLookup (heap.findAndReplacePVCRun heap.listOrder heap.exampleNestedClaim 0) 0
      (lit "volume") = some (.ref 1) ∧
    heapLookup (heap.findAndReplacePVCRun heap.listOrder heap.exampleNestedClaim 0) 1
      (lit "extra") = some (.ref 3) ∧
    heapLookup (heap.findAndReplacePVCRun heap.listOrder heap.exampleNestedClaim 0) 3
      (lit "persistentVolumeClaim") = some (.ref 4) ∧
    heapLookup (heap.findAndReplacePVCRun heap.listOrder heap.exampleNestedClaim 0) 3
      (lit "emptyDir") = none :=
  ⟨by decide, rfl, rfl, rfl, rfl, rfl, rfl, rfl⟩

/-- C20, amended: maps being taken by address, so that a map held under two
keys is one map, and the keys of a map being gone through in any order that
leaves out none.  When the call findAndReplacePVC on the map at `root` returns
the heap `h1`: no map that is reached from the root through map values and
items of slices, by way of maps that did not have the key
persistentVolumeClaim, has that key; every map of the document is as it was
before the call, or it had the key and has now lost it and has emptyDir bound
to a new map, which is empty, its other keys bound to the values they had; so
a map reached in that way that had the key has been rewritten so, and a map
that did not have the key is as it was.  A map that is reached only through a
map that had the key is not promised to lose it.  The call returns when the
maps can be ranked so that a map holds only maps of lower rank, with a bound on
the depth of two more than the rank of the root, which the bound of
findAndReplacePVCRun is when the rank of the root is less than the number of
maps. -/
theorem C20_findAndReplacePVC_walk (order : heap.KeyOrder)
    (horder : heap.KeyOrder.complete order) (h : Heap) (root : Nat) :
    (∀ (fuel : Nat) (h1 : Heap), heap.findAndReplacePVC order fuel h root = some h1 →
      (∀ (b : Nat) (mb : HMap), heap.Reach h root b → h1[b]? = some mb →
        mapLookup mb (lit "persistentVolumeClaim") = none) ∧
      (∀ (a : Nat) (m : HMap), h[a]? = some m →
        h1[a]? = some m ∨
        ((mapLookup m (lit "persistentVolumeClaim")).isSome = true ∧
          ∃ (f : Nat) (m1 : HMap), h.length ≤ f ∧ h1[a]? = some m1 ∧ h1[f]? = some [] ∧
            mapLookup m1 (lit "persistentVolumeClaim") = none ∧
            mapLookup m1 (lit "emptyDir") = some (.ref f) ∧
            ∀ k, k ≠ lit "persistentVolumeClaim" → k ≠ lit "emptyDir" →
              mapLookup m1 k = mapLookup m k)) ∧
      (∀ (b : Nat) (m : HMap), heap.Reach h root b → h[b]? = some m →
        (mapLookup m (lit "persistentVolumeClaim")).isSome = true →
        ∃ (f : Nat) (m1 : HMap), h.length ≤ f ∧ h1[b]? = some m1 ∧ h1[f]? = some [] ∧
          mapLookup m1 (lit "persistentVolumeClaim") = none ∧
          mapLookup m1 (lit "emptyDir") = some (.ref f) ∧
          ∀ k, k ≠ lit "persistentVolumeClaim" → k ≠ lit "emptyDir" →
            mapLookup m1 k = mapLookup m k) ∧
      (∀ (a : Nat) (m : HMap), h[a]? = some m → mapLookup m (lit "persistentVolumeClaim") = none →
        h1[a]? = some m) ∧
      (∀ f : Nat, h.length ≤ f → f < h1.length → h1[f]? = some [])) ∧
    (∀ rank : Nat → Nat, heap.ranked rank h = true →
      (∀ fuel, rank root + 2 ≤ fuel →
        (heap.findAndReplacePVC order fuel h root).isSome = true) ∧
      (rank root < h.length →
        heap.findAndReplacePVC order (h.length + 1) h root
          = some (heap.findAndReplacePVCRun order h root))) := by
  have hform : ∀ (m : HMap) (f : Nat),
      mapLookup (heap.claimReplaced m f) (lit "persistentVolumeClaim") = none ∧
      mapLookup (heap.claimReplaced m f) (lit "emptyDir") = some (.ref f) ∧
      ∀ k, k ≠ lit "persistentVolumeClaim" → k ≠ lit "emptyDir" →
        mapLookup (heap.claimReplaced m f) k = mapLookup m k := by
    intro m f
    refine ⟨?_, ?_, ?_⟩
    · rw [heap.mapLookup_claimReplaced, if_neg (by decide), if_pos rfl]
    · rw [heap.mapLookup_claimReplaced, if_pos rfl]
    · intro k h1 h2
      rw [heap.mapLookup_claimReplaced, if_neg h2, if_neg h1]
  have hnone : ∀ m : HMap, mapLookup m (lit "persistentVolumeClaim") = none ↔
      heap.hasClaim m = false := by
    intro m
    unfold heap.hasClaim
    cases mapLookup m (lit "persistentVolumeClaim") <;> simp
  refine ⟨?_, ?_⟩
  · intro fuel h1 hrun
    obtain ⟨hev, hcl⟩ := heap.findAndReplacePVC_spec order horder h fuel h root h1
      (heap.Evolves.refl h) hrun
    have hall : ∀ (a : Nat) (m : HMap), h[a]? = some m →
        h1[a]? = some m ∨
        ((mapLookup m (lit "persistentVolumeClaim")).isSome = true ∧
          ∃ (f : Nat) (m1 : HMap), h.length ≤ f ∧ h1[a]? = some m1 ∧ h1[f]? = some [] ∧
            mapLookup m1 (lit "persistentVolumeClaim") = none ∧
            mapLookup m1 (lit "emptyDir") = some (.ref f) ∧
            ∀ k, k ≠ lit "persistentVolumeClaim" → k ≠ lit "emptyDir" →
              mapLookup m1 k = mapLookup m k) := by
      intro a m hm
      rcases hev.2.1 a m hm with h2 | ⟨hc, f, hf, h2, h3⟩
      · exact Or.inl h2
      · exact Or.inr ⟨hc, f, _, hf, h2, h3, hform m f⟩
    refine ⟨fun b mb hb hmb => (hnone mb).mpr (hcl b hb mb hmb), hall, ?_,
      fun a m hm hc => hev.keep a m hm ((hnone m).mp hc), hev.2.2⟩
    intro b m hb hm hc
    rcases hall b m hm with h2 | ⟨_, h2⟩
    · have := hcl b hb m h2
      unfold heap.hasClaim at this
      rw [this] at hc
      cases hc
    · exact h2
  · intro rank hrank
    have hret : ∀ fuel, rank root + 2 ≤ fuel →
        (heap.findAndReplacePVC order fuel h root).isSome = true := by
      intro fuel hfuel
      apply heap.findAndReplacePVC_returns order rank h hrank fuel h root
        (heap.Evolves.refl h)
      split <;> omega
    refine ⟨hret, ?_⟩
    intro hlt
    have := hret (h.length + 1) (by omega)
    unfold heap.findAndReplacePVCRun
    cases hr : heap.findAndReplacePVC order (h.length + 1) h root with
    | none =>
      rw [hr] at this
      cases this
    | some h1 => rfl

/-- Witness of C20.  On exampleNestedClaim the map under `volume`, which had
the key persistentVolumeClaim, has lost it and has emptyDir bound to a new map,
which is empty.  On exampleSharedClaim, where one map is held under two keys
and a map of address `a` has the rank 4 - a, the call returns within the bound
of findAndReplacePVCRun. -/
theorem C20_findAndReplacePVC_walk_witness :
    (∃ (f : Nat) (m1 : HMap), heap.exampleNestedClaim.length ≤ f ∧
      (heap.findAndReplacePVCRun heap.listOrder heap.exampleNestedClaim 0)[1]? = some m1 ∧
      (heap.findAndReplacePVCRun heap.listOrder heap.exampleNestedClaim 0)[f]? = some [] ∧
      mapLookup m1 (lit "persistentVolumeClaim") = none ∧
      mapLookup m1 (lit "emptyDir") = some (.ref f) ∧
      ∀ k, k ≠ lit "persistentVolumeClaim" → k ≠ lit "emptyDir" →
        mapLookup m1 k = mapLookup [(lit "name", Cell.str (lit "data")),
          (lit "persistentVolumeClaim", .ref 2), (lit "extra", .ref 3)] k) ∧
    heap.findAndReplacePVC heap.listOrder (heap.exampleSharedClaim.length + 1)
        heap.exampleSharedClaim 0
      = some (heap.findAndReplacePVCRun heap.listOrder heap.exampleSharedClaim 0) :=
  ⟨((C20_findAndReplacePVC_walk heap.listOrder heap.listOrder_complete heap.exampleNestedClaim
      0).1 2 (heap.findAndReplacePVCRun heap.listOrder heap.exampleNestedClaim 0) rfl).2.2.1 1
      [(lit "name", .str (lit "data")), (lit "persistentVolumeClaim", .ref 2),
        (lit "extra", .ref 3)]
      (heap.Reach.next 0 1 1 [(lit "volume", .ref 1)] rfl rfl ⟨lit "volume", Or.inl rfl⟩
        (heap.Reach.here 1))
      rfl rfl,
    ((C20_findAndReplacePVC_walk heap.listOrder heap.listOrder_complete heap.exampleSharedClaim
      0).2 (fun a => 4 - a) (by decide)).2 (by decide)⟩

namespace heap

/-- The final pass of the filter leaves the string at spec.issuerRef.name and
the address of the map at spec.issuerRef as they are. -/
theorem Evolves.issuer_eq {h h1 : Heap} (he : Evolves h h1) (obj : Nat) :
    issuerRefAddr h1 obj = issuerRefAddr h obj ∧ issuerName h1 obj = issuerName h obj := by
  have hspec : ∀ a, heapLookup h1 a (lit "spec") = heapLookup h a (lit "spec") :=
    fun a => he.lookup_eq a _ (by decide) (by decide)
  have hissuer : ∀ a, heapLookup h1 a (lit "issuerRef") = heapLookup h a (lit "issuerRef") :=
    fun a => he.lookup_eq a _ (by decide) (by decide)
  have hname : ∀ a, heapLookup h1 a (lit "name") = heapLookup h a (lit "name") :=
    fun a => he.lookup_eq a _ (by decide) (by decide)
  have haddr : issuerRefAddr h1 obj = issuerRefAddr h obj := by
    unfold issuerRefAddr
    simp only [hspec, hissuer]
  refine ⟨haddr, ?_⟩
  unfold heap.issuerName
  rw [haddr]
  simp only [hname]

theorem heapWrite_eq_set (h : Heap) (r : Nat) (m : HMap) (k : GoString) (v : Cell)
    (hm : h[r]? = some m) : heapWrite h r k v = h.set r (mapSet m k v) := by
  unfold heapWrite
  rw [hm]

end heap

/-- C22, counterexample: in exampleSharedIssuer, a Certificate, the keys
`issuerRef` and `other` of `spec` hold the same map, whose name is
letsencrypt-prod.  After the issuer step of the filter the string at
spec.other.name, which is another field of the Certificate than
spec.issuerRef.name, is letsencrypt-staging too. -/
theorem C22_shared_issuer_map :
    heap.extractKind heap.exampleSharedIssuer 0 = lit "Certificate" ∧
    heapLookup heap.exampleSharedIssuer 0 (lit "spec") = some (.ref 2) ∧
    heapLookup heap.exampleSharedIssuer 2 (lit "issuerRef") = some (.ref 3) ∧
    heapLookup heap.exampleSharedIssuer 2 (lit "other") = some (.ref 3) ∧
    document heap.exampleSharedIssuer 0
      = some [(lit "kind", .str (lit "Certificate")),
          (lit "metadata", .map [(lit "name", .str (lit "c"))]),
          (lit "spec", .map [
            (lit "issuerRef", .map [(lit "name", .str (lit "letsencrypt-prod"))]),
            (lit "other", .map [(lit "name", .str (lit "letsencrypt-prod"))])])] ∧
    document (heap.issuerStep (heap.extractKind heap.exampleSharedIssuer 0)
        heap.exampleSharedIssuer 0) 0
      = some [(lit "kind", .str (lit "Certificate")),
          (lit "metadata", .map [(lit "name", .str (lit "c"))]),
          (lit "spec", .map [
            (lit "issuerRef", .map [(lit "name", .str (lit "letsencrypt-staging"))]),
            (lit "other", .map [(lit "name", .str (lit "letsencrypt-staging"))])])] :=
  ⟨by decide, rfl, rfl, rfl, rfl, rfl⟩

/-- C22, amended: maps being taken by address, so that a map held under two
keys is one map.  After the issuer step of the filter the document at address
`obj` has letsencrypt-staging at spec.issuerRef.name, where it had another
value, if and only if its kind is Certificate and its spec.issuerRef.name is
the string letsencrypt-prod.  In every other case, of another issuer name or of
another kind, the step writes nothing: the heap is the one of before.  When the
step writes, it writes the one key `name` of the one map at spec.issuerRef:
every other map is as it was and every other key of that map has the value it
had, so that a field of the document changes only where it is that key of that
map, under spec.issuerRef or under another key that holds the same map.  The
final pass of the filter, findAndReplacePVC, whatever the order of the keys
and whatever it rewrites, leaves the string at spec.issuerRef.name as the
issuer step left it. -/
theorem C22_issuer_rewrite (h : Heap) (obj : Nat) :
    ((heap.issuerName (heap.issuerStep (heap.extractKind h obj) h obj) obj
          = some (lit "letsencrypt-staging") ∧
        heap.issuerName h obj ≠ some (lit "letsencrypt-staging")) ↔
      (heap.extractKind h obj = lit "Certificate" ∧
        heap.issuerName h obj = some (lit "letsencrypt-prod"))) ∧
    (¬ (heap.extractKind h obj = lit "Certificate" ∧
        heap.issuerName h obj = some (lit "letsencrypt-prod")) →
      heap.issuerStep (heap.extractKind h obj) h obj = h) ∧
    (heap.extractKind h obj = lit "Certificate" →
      heap.issuerName h obj = some (lit "letsencrypt-prod") →
      ∃ (r : Nat) (m : HMap), heap.issuerRefAddr h obj = some r ∧ h[r]? = some m ∧
        mapLookup m (lit "name") = some (.str (lit "letsencrypt-prod")) ∧
        heap.issuerStep (heap.extractKind h obj) h obj
          = h.set r (mapSet m (lit "name") (.str (lit "letsencrypt-staging"))) ∧
        (∀ a : Nat, a ≠ r →
          (heap.issuerStep (heap.extractKind h obj) h obj)[a]? = h[a]?) ∧
        (∀ (a : Nat) (k : GoString), ¬ (a = r ∧ k = lit "name") →
          heapLookup (heap.issuerStep (heap.extractKind h obj) h obj) a k = heapLookup h a k) ∧
        heapLookup (heap.issuerStep (heap.extractKind h obj) h obj) r (lit "name")
          = some (.str (lit "letsencrypt-staging")) ∧
        heap.issuerRefAddr (heap.issuerStep (heap.extractKind h obj) h obj) obj = some r) ∧
    (∀ (order : heap.KeyOrder) (fuel : Nat) (h2 : Heap),
      heap.findAndReplacePVC order fuel (heap.issuerStep (heap.extractKind h obj) h obj) obj
        = some h2 →
      heap.issuerName h2 obj
        = heap.issuerName (heap.issuerStep (heap.extractKind h obj) h obj) obj) := by
  have hneg : ¬ (heap.extractKind h obj = lit "Certificate" ∧
        heap.issuerName h obj = some (lit "letsencrypt-prod")) →
      heap.issuerStep (heap.extractKind h obj) h obj = h := by
    intro hc
    unfold heap.issuerStep
    by_cases hk : heap.extractKind h obj = lit "Certificate"
    · rw [if_pos hk, heap.findAndReplaceIssuerName_eq, if_neg (fun hn => hc ⟨hk, hn⟩)]
    · rw [if_neg hk]
  have hname : heap.issuerName (heap.issuerStep (heap.extractKind h obj) h obj) obj
      = if heap.extractKind h obj = lit "Certificate" ∧
            heap.issuerName h obj = some (lit "letsencrypt-prod") then
          some (lit "letsencrypt-staging")
        else heap.issuerName h obj := by
    unfold heap.issuerStep
    by_cases hk : heap.extractKind h obj = lit "Certificate"
    · rw [if_pos hk, heap.issuerName_written]
      by_cases hn : heap.issuerName h obj = some (lit "letsencrypt-prod")
      · rw [if_pos hn, if_pos ⟨hk, hn⟩]
      · rw [if_neg hn, if_neg (fun hc => hn hc.2)]
    · rw [if_neg hk, if_neg (fun hc => hk hc.1)]
  refine ⟨⟨?_, ?_⟩, ?_, ?_, ?_⟩
  · rintro ⟨h1, h2⟩
    by_contra hc
    rw [hname, if_neg hc] at h1
    exact h2 h1
  · intro hc
    rw [hname, if_pos hc]
    refine ⟨rfl, ?_⟩
    rw [hc.2]
    decide
  · exact hneg
  · intro hk hn
    cases hr : heap.issuerRefAddr h obj with
    | none =>
      unfold heap.issuerName at hn
      rw [hr] at hn
      cases hn
    | some r =>
      have hlt := heap.issuerName_prod_lt h obj r hr hn
      have hm : h[r]? = some (h[r]) := List.getElem?_eq_getElem hlt
      have hw : heap.issuerStep (heap.extractKind h obj) h obj
          = heapWrite h r (lit "name") (.str (lit "letsencrypt-staging")) := by
        unfold heap.issuerStep
        rw [if_pos hk, heap.findAndReplaceIssuerName_eq, if_pos hn, hr]
      have hprod : mapLookup (h[r]) (lit "name") = some (.str (lit "letsencrypt-prod")) := by
        unfold heap.issuerName at hn
        rw [hr] at hn
        simp only [heapLookup, hm] at hn
        cases hv : mapLookup (h[r]) (lit "name") with
        | none =>
          rw [hv] at hn
          simp [cellString] at hn
        | some v =>
          rw [hv] at hn
          cases v <;> simp [cellString] at hn
          rw [hn]
      refine ⟨r, h[r], rfl, hm, hprod, ?_, ?_, ?_, ?_, ?_⟩
      · rw [hw, heap.heapWrite_eq_set h r _ _ _ hm]
      · intro a ha
        rw [hw]
        exact getElem?_heapWrite_ne h r _ _ a ha
      · intro a k hak
        rw [hw, heapLookup_heapWrite]
        rw [if_neg]
        rintro ⟨h1, h2, _⟩
        exact hak ⟨h1, h2.symm⟩
      · rw [hw, heapLookup_heapWrite, if_pos ⟨rfl, rfl, hlt⟩]
      · rw [hw, heap.issuerRefAddr_heapWrite, hr]
  · intro order fuel h2 hrun
    exact ((heap.findAndReplacePVC_evolves order fuel _ obj h2 hrun).issuer_eq obj).2

/-- Witness of C22: the Certificate of issuer letsencrypt-prod has the issuer
letsencrypt-staging after the issuer step. -/
theorem C22_issuer_rewrite_witness :
    heap.issuerName (heap.issuerStep (heap.extractKind heap.exampleCertificate 0)
        heap.exampleCertificate 0) 0 = some (lit "letsencrypt-staging") :=
  ((C22_issuer_rewrite heap.exampleCertificate 0).1.mpr ⟨by decide, by decide⟩).1

/-! ## The embedding on the cases of the repository's tests -/

theorem test_ExtractTargets_roundtrip :
    commitmsg.ExtractTargets (commitmsg.Generate [lit "target1", lit "target2"])
      = [lit "target1", lit "target2"] := by decide

theorem test_ExtractTargets_no_markers :
    commitmsg.ExtractTargets (lit "just a regular commit message") = [] := by decide

theorem test_ExtractTargets_missing_end_marker :
    commitmsg.ExtractTargets (lit "--- gitops targets begin ---\ntarget1\n") = [] := by
  decide

theorem test_TargetToExecutable_full_target :
    bazel.TargetToExecutable (lit "//app/deploy:deploy-prod.gitops")
      = lit "bazel-bin/app/deploy/deploy-prod.gitops" := by decide

theorem test_TargetToExecutable_no_prefix_case :
    bazel.TargetToExecutable (lit "some/path") = lit "some/path" := by decide

theorem test_GroupByTrain_groups :
    prer.groupByTrain
        ⟨[prer.makeTarget (lit "//a:deploy") (lit "prod") (lit "release/v1"),
          prer.makeTarget (lit "//b:deploy") (lit "prod") (lit "release/v1"),
          prer.makeTarget (lit "//c:deploy") (lit "staging") (lit "release/v1")]⟩
        (lit "release/v1")
      = [(lit "prod", [lit "//a:deploy", lit "//b:deploy"]),
         (lit "staging", [lit "//c:deploy"])] := by
  decide

theorem test_GroupByTrain_filters :
    prer.groupByTrain
        ⟨[prer.makeTarget (lit "//a:deploy") (lit "prod") (lit "release/v1"),
          prer.makeTarget (lit "//b:deploy") (lit "prod") (lit "release/v2")]⟩
        (lit "release/v1")
      = [(lit "prod", [lit "//a:deploy"])] := by
  decide

theorem test_GroupByTrain_skips_without_dep_branch :
    prer.groupByTrain
        ⟨[{ Target := { Rule := { Name := lit "//a:deploy", Attribute :=
            [{ Name := lit "release_branch_prefix", StringValue := lit "release/v1" }] } } }]⟩
        (lit "release/v1")
      = [] := by
  decide

theorem test_CollectAllTargets :
    prer.collectAllTargets [(lit "prod", [lit "//b:deploy", lit "//a:deploy"]),
        (lit "staging", [lit "//a:deploy", lit "//c:deploy"])]
      = [lit "//a:deploy", lit "//b:deploy", lit "//c:deploy"] := by decide

theorem test_HasDeletedTargets_has_deletions :
    prer.hasDeletedTargets [lit "//a:t", lit "//b:t", lit "//c:t"] [lit "//a:t", lit "//b:t"]
      = true := by decide

theorem test_HasDeletedTargets_empty_current :
    prer.hasDeletedTargets [lit "//a:t"] [] = true := by decide

theorem test_HasDeletedTargets_no_deletions :
    prer.hasDeletedTargets [lit "//a:t", lit "//b:t"] [lit "//a:t", lit "//b:t"]
      = false := by decide

theorem test_ResolveImages_unresolved_image :
    (resolver.ResolveImages (fun _ => []) (fun _ => .ok [])
      [.obj [(lit "apiVersion", .str (lit "apps/v1")), (lit "kind", .str (lit "Deployment")),
        (lit "metadata", .map [(lit "name", .str (lit "test"))]),
        (lit "spec", .map [(lit "containers", .seq [.map [(lit "name", .str (lit "app")),
          (lit "image", .str (lit "//bazel/target:image"))]])])]] []).2
      = some (lit "resolving images: unresolved image found: //bazel/target:image") := by
  decide

theorem test_ResolveImages_unresolved_single_container :
    (resolver.ResolveImages (fun _ => []) (fun _ => .ok [])
      [.obj [(lit "apiVersion", .str (lit "apps/v1")), (lit "kind", .str (lit "CronWorkFlow")),
        (lit "metadata", .map [(lit "name", .str (lit "test"))]),
        (lit "spec", .map [(lit "workflowSpec", .map [(lit "templates",
          .map [(lit "container", .map [(lit "image", .str (lit "//bazel/target"))])])])])]]
      []).2
      = some (lit "resolving images: unresolved image found: //bazel/target") := by
  decide

theorem test_ResolveImages_missing_name :
    (resolver.ResolveImages (fun _ => lit "map[]") (fun _ => .ok [])
      [.obj [(lit "apiVersion", .str (lit "v1")), (lit "kind", .str (lit "ConfigMap")),
        (lit "metadata", .map [(lit "namespace", .str (lit "default"))]),
        (lit "data", .map [(lit "key", .str (lit "value"))])]] []).2
      = some (lit "resolving images: missing metadata.name in object map[]") := by
  decide

theorem test_ResolveImages_missing_kind :
    (resolver.ResolveImages (fun _ => lit "map[]") (fun _ => .ok [])
      [.obj [(lit "apiVersion", .str (lit "v1")),
        (lit "metadata", .map [(lit "name", .str (lit "test"))]),
        (lit "data", .map [(lit "key", .str (lit "value"))])]] []).2
      = some (lit "resolving images: missing kind in object map[]") := by
  decide

theorem test_ResolveImages_multi_document :
    resolver.ResolveImages (fun _ => []) (fun o => .ok (extractName o ++ lit "\n"))
      [.obj [(lit "kind", .str (lit "ConfigMap")),
          (lit "metadata", .map [(lit "name", .str (lit "cm1"))])],
        .obj [(lit "kind", .str (lit "ConfigMap")),
          (lit "metadata", .map [(lit "name", .str (lit "cm2"))])]] []
      = (lit "cm1\n---\ncm2\n", none) := by
  decide

theorem test_ReplacePDWithEmptyDirs_skips_pvc :
    filter.ReplacePDWithEmptyDirs (fun _ => []) (fun o => .ok (extractName o ++ lit "\n"))
      [.obj [(lit "kind", .str (lit "PersistentVolumeClaim")),
          (lit "metadata", .map [(lit "name", .str (lit "my-pvc"))])],
        .obj [(lit "kind", .str (lit "ConfigMap")),
          (lit "metadata", .map [(lit "name", .str (lit "test"))])]]
      = (lit "test\n", none) := by
  decide

theorem test_processStatefulSet_example :
    filter.processStatefulSet filter.exampleStatefulSet
      = [(lit "apiVersion", .str (lit "apps/v1")), (lit "kind", .str (lit "StatefulSet")),
          (lit "metadata", .map [(lit "name", .str (lit "db"))]),
          (lit "spec", .map [(lit "template", .map [(lit "spec", .map [(lit "volumes", .seq
            [.map [(lit "name", .str (lit "cfg")), (lit "configMap", .map [])],
              .map [(lit "name", .str (lit "data")),
                (lit "emptyDir", .map [(lit "sizeLimit", .str (lit "1Gi"))])],
              .map [(lit "name", .str (lit "logs")), (lit "emptyDir", .map [])]])])])])] := by
  decide

theorem test_findAndReplacePVC_volume :
    filter.findAndReplacePVC
        [(lit "spec", .map [(lit "volumes", .seq [.map [(lit "name", .str (lit "data")),
          (lit "persistentVolumeClaim", .map [(lit "claimName", .str (lit "c"))])]])])]
      = [(lit "spec", .map [(lit "volumes", .seq [.map [(lit "name", .str (lit "data")),
          (lit "emptyDir", .map [])]])])] := by
  decide

/-- The quirk on two documents: an unresolved image below `spec` is an error
when the document has no key initContainers, and is not looked at when it has
one, even an empty one. -/
theorem test_recursion_gate_quirk :
    resolver.findAndReplaceTagRun []
        [(lit "spec", .map [(lit "containers", .seq [.map [(lit "image", .str (lit "//x"))]])])]
      = .error (lit "unresolved image found: //x") ∧
    resolver.findAndReplaceTagRun []
        [(lit "initContainers", .seq []),
          (lit "spec", .map [(lit "containers", .seq [.map [(lit "image", .str (lit "//x"))]])])]
      = .ok [(lit "initContainers", .seq []),
          (lit "spec", .map [(lit "containers", .seq [.map [(lit "image", .str (lit "//x"))]])])] := by
  exact ⟨rfl, rfl⟩

/-- The stamps of the witness of C24. -/
theorem test_LoadStamps_later_file_overrides_earlier :
    stamper.LoadStamps
        (fun sf => if sf = lit "s1.txt" then .ok (lit "VER 1.0\nMSG hello world\nnospace\n")
          else .ok (lit "VER 2.0\n"))
        [lit "s1.txt", lit "s2.txt"]
      = .ok [(lit "VER", lit "2.0"), (lit "MSG", lit "hello world")] := by
  rfl

/-- The two loaders on a file that is missing. -/
theorem test_loaders_missing_stamp_file :
    stamper.LoadStamps (fun _ => .error (lit "open /nonexistent/stamp.txt: no such file"))
        [lit "/nonexistent/stamp.txt"]
      = .error (lit "loading stamps: open /nonexistent/stamp.txt: no such file") ∧
    templating.Engine.loadStamps
        (fun _ => .error (lit "open /nonexistent/stamp.txt: no such file"))
        ⟨[], [], [lit "/nonexistent/stamp.txt"]⟩
      = .error (lit "loading stamps: open /nonexistent/stamp.txt: no such file") :=
  ⟨rfl, rfl⟩

/-- The cases of the tests of Expand on variables. -/
theorem test_Expand_variables :
    templating.Engine.Expand
        (fun p => if p = lit "tpl.txt" then .ok (lit "\x7b\x7bvariables.APP\x7d\x7d-\x7b\x7bAPP\x7d\x7d")
          else .error (lit "no such file"))
        (.ok []) (fun _ _ => none) ⟨[], [], []⟩ (lit "tpl.txt") (lit "out.txt")
        [lit "APP=myapp"] [] false
      = .ok (lit "myapp-myapp") ∧
    templating.Engine.Expand
        (fun p => if p = lit "tpl.txt" then .ok (lit "version=\x7b\x7bVERSION\x7d\x7d")
          else .ok (lit "VERSION 1.0.0\n"))
        (.ok []) (fun _ _ => none) ⟨[], [], [lit "stamp.txt"]⟩ (lit "tpl.txt") (lit "out.txt")
        [lit "VERSION=2.0.0"] [] false
      = .ok (lit "version=2.0.0") ∧
    templating.Engine.Expand
        (fun p => if p = lit "tpl.txt" then .ok (lit "Hello <%name%>!")
          else .error (lit "no such file"))
        (.ok []) (fun _ _ => none) ⟨lit "<%", lit "%>", []⟩ (lit "tpl.txt") (lit "out.txt")
        [lit "name=World"] [] false
      = .ok (lit "Hello World!") ∧
    templating.Engine.Expand
        (fun p => if p = lit "tpl.txt" then .ok (lit "x") else .error (lit "no such file"))
        (.ok []) (fun _ _ => none) ⟨[], [], []⟩ (lit "tpl.txt") (lit "out.txt")
        [lit "missing-equals"] [] false
      = .error (lit ("expanding template: resolving variables: "
          ++ "variable must be VAR=value, got missing-equals")) :=
  ⟨rfl, rfl, rfl, rfl⟩

/-- The cases of TestStampFile. -/
theorem test_StampFile :
    prer.stampFile
        (fun _ => .ok (lit ("apiVersion: v1\nimage: myapp:\x7b\x7bSTABLE_GIT_COMMIT\x7d\x7d\n"
          ++ "branch: \x7b\x7bSTABLE_GIT_BRANCH\x7d\x7d\n")))
        (fun _ _ _ => none) (lit "manifest.yaml")
        [(lit "STABLE_GIT_COMMIT", lit "deadbeef"), (lit "STABLE_GIT_BRANCH", lit "main")]
      = .written (lit "apiVersion: v1\nimage: myapp:deadbeef\nbranch: main\n") ∧
    prer.stampFile (fun _ => .error (lit "open /nonexistent/path.txt: no such file"))
        (fun _ _ _ => none) (lit "/nonexistent/path.txt") []
      = .failed (lit ("stamping file: read /nonexistent/path.txt: "
          ++ "open /nonexistent/path.txt: no such file")) ∧
    prer.stampFile (fun _ => .ok (lit "image: \x7b\x7bSTABLE_GIT_COMMIT")) (fun _ _ _ => none)
        (lit "manifest.yaml") [(lit "STABLE_GIT_COMMIT", lit "deadbeef")]
      = .panicked := by
  refine ⟨by decide, by decide, by decide⟩

/-- The cases of the tests of CreatePR on the status code. -/
theorem test_bitbucket_CreatePR_status :
    bitbucket.CreatePR none none (.ok 201) = none ∧
    bitbucket.CreatePR none none (.ok 409) = none ∧
    bitbucket.CreatePR none none (.ok 500)
      = some (lit "creating bitbucket pull request: unexpected status 500") ∧
    bitbucket.CreatePR none none (.error (lit "connection refused"))
      = some (lit "creating bitbucket pull request: send request: connection refused") := by
  refine ⟨by decide, by decide, by decide, by decide⟩

/-- The case of the test of CreatePR on an empty body. -/
theorem test_GitProviderFunc_empty_body_uses_title :
    git.GitProviderFunc.CreatePR (fun (_ : Unit) _ _ _ body => body) ()
        (lit "a") (lit "b") (lit "the title") (lit "")
      = lit "the title" := by
  decide

/-- The bytes written on the input of the witness of C16: the two names with
one separator between them. -/
theorem test_separator_between_two_documents :
    filter.ReplacePDWithEmptyDirs (fun _ => [])
        (fun o => (.ok (extractName o) : Except GoString GoString))
        [.null,
          .obj [(lit "kind", .str (lit "Ingress")),
            (lit "metadata", .map [(lit "name", .str (lit "i"))])],
          .obj [(lit "kind", .str (lit "Service")),
            (lit "metadata", .map [(lit "name", .str (lit "a"))])],
          .obj [(lit "kind", .str (lit "ConfigMap")),
            (lit "metadata", .map [(lit "name", .str (lit "b"))])]]
      = (lit "a---\nb", none) := by
  decide

/-- The list form on a list that holds one map twice, as a YAML anchor and its
alias do: the first item binds the image x to //y, and the second item, the
same map, has the image //y when the loop reaches it. -/
theorem test_updateContainers_shared_item :
    heap.updateContainers [(lit "x", lit "//y")]
        [[(lit "containers", .seq [.ref 1, .ref 1])], [(lit "image", .str (lit "x"))]]
        0 (lit "containers")
      = .error (lit "unresolved image found: //y") ∧
    heap.updateContainers [(lit "x", lit "y"), (lit "y", lit "z")]
        [[(lit "containers", .seq [.ref 1, .ref 1])], [(lit "image", .str (lit "x"))]]
        0 (lit "containers")
      = .ok [[(lit "containers", .seq [.ref 1, .ref 1])], [(lit "image", .str (lit "z"))]] :=
  ⟨rfl, rfl⟩

/-- The single-container form on a map held under both keys `container` and
`spec`, as a YAML anchor and its alias do: the call on `container` binds the
image a to b under both keys, and the call on `spec` that follows binds it
to c. -/
theorem test_updateContainer_shared_map :
    heap.updateContainer [(lit "a", lit "b"), (lit "b", lit "c")]
        [[(lit "container", .ref 1), (lit "spec", .ref 1)], [(lit "image", .str (lit "a"))]]
        0 (lit "container")
      = .ok [[(lit "container", .ref 1), (lit "spec", .ref 1)],
          [(lit "image", .str (lit "b"))]] ∧
    heap.updateContainer [(lit "a", lit "b"), (lit "b", lit "c")]
        [[(lit "container", .ref 1), (lit "spec", .ref 1)], [(lit "image", .str (lit "b"))]]
        0 (lit "spec")
      = .ok [[(lit "container", .ref 1), (lit "spec", .ref 1)],
          [(lit "image", .str (lit "c"))]] :=
  ⟨rfl, rfl⟩

/-- The document `a: &x {persistentVolumeClaim: {}, sub: {persistentVolumeClaim:
{}}}`, `b: *x`, the two keys holding one map: the call rewrites the map under
`a`, reaches it again under `b`, now without the key, and rewrites the map
under `sub` as well. -/
theorem test_findAndReplacePVC_shared_map :
    heap.findAndReplacePVC heap.listOrder 3 heap.exampleSharedClaim 0
      = some [[(lit "a", .ref 1), (lit "b", .ref 1)],
          [(lit "sub", .ref 3), (lit "emptyDir", .ref 5)],
          [],
          [(lit "emptyDir", .ref 6)],
          [],
          [],
          []] ∧
    heap.findAndReplacePVCRun heap.listOrder heap.exampleSharedClaim 0
      = [[(lit "a", .ref 1), (lit "b", .ref 1)],
          [(lit "sub", .ref 3), (lit "emptyDir", .ref 5)],
          [],
          [(lit "emptyDir", .ref 6)],
          [],
          [],
          []] :=
  ⟨rfl, rfl⟩

/-- The issuer step on exampleCertificate and on exampleSharedIssuer: one map
is written, at one key. -/
theorem test_issuerStep_heaps :
    heap.issuerStep (heap.extractKind heap.exampleCertificate 0) heap.exampleCertificate 0
      = [[(lit "kind", .str (lit "Certificate")), (lit "metadata", .ref 1),
            (lit "spec", .ref 2)],
          [(lit "name", .str (lit "c"))],
          [(lit "secretName", .str (lit "tls")), (lit "issuerRef", .ref 3)],
          [(lit "kind", .str (lit "ClusterIssuer")),
            (lit "name", .str (lit "letsencrypt-staging"))]] ∧
    heap.issuerStep (heap.extractKind heap.exampleSharedIssuer 0) heap.exampleSharedIssuer 0
      = [[(lit "kind", .str (lit "Certificate")), (lit "metadata", .ref 1),
            (lit "spec", .ref 2)],
          [(lit "name", .str (lit "c"))],
          [(lit "issuerRef", .ref 3), (lit "other", .ref 3)],
          [(lit "name", .str (lit "letsencrypt-staging"))]] ∧
    heap.issuerStep (lit "Issuer") heap.exampleCertificate 0 = heap.exampleCertificate :=
  ⟨rfl, rfl, rfl⟩

/-- The example heaps, read as trees. -/
theorem test_document_examples :
    document heap.exampleNestedClaim 0 = some filter.exampleNestedClaim ∧
    document heap.exampleCertificate 0
      = some [(lit "kind", .str (lit "Certificate")),
          (lit "metadata", .map [(lit "name", .str (lit "c"))]),
          (lit "spec", .map [(lit "secretName", .str (lit "tls")),
            (lit "issuerRef", .map [(lit "kind", .str (lit "ClusterIssuer")),
              (lit "name", .str (lit "letsencrypt-prod"))])])] ∧
    document heap.exampleSharedClaim 0
      = some [(lit "a", .map [(lit "persistentVolumeClaim", .map []),
            (lit "sub", .map [(lit "persistentVolumeClaim", .map [])])]),
          (lit "b", .map [(lit "persistentVolumeClaim", .map []),
            (lit "sub", .map [(lit "persistentVolumeClaim", .map [])])])] :=
  ⟨rfl, rfl, rfl⟩

/-- On documents in which every map is held once, the functions on the heap
and the functions on the tree give the same document. -/
theorem test_heap_and_tree_agree :
    document (heap.findAndReplacePVCRun heap.listOrder heap.exampleNestedClaim 0) 0
      = (document heap.exampleNestedClaim 0).map filter.findAndReplacePVC ∧
    document (heap.issuerStep (heap.extractKind heap.exampleCertificate 0)
        heap.exampleCertificate 0) 0
      = (document heap.exampleCertificate 0).map filter.findAndReplaceIssuerName ∧
    (match heap.updateContainers [(lit "//foo:bar", lit "registry/foo@sha256:1")]
        [[(lit "containers", .seq [.ref 1, .ref 2])],
          [(lit "name", .str (lit "a")), (lit "image", .str (lit "//foo:bar"))],
          [(lit "image", .str (lit "nginx"))]] 0 (lit "containers") with
      | .ok h1 => document h1 0
      | .error _ => none)
      = (match resolver.updateContainers [(lit "//foo:bar", lit "registry/foo@sha256:1")]
          [(lit "containers", .seq [
            .map [(lit "name", .str (lit "a")), (lit "image", .str (lit "//foo:bar"))],
            .map [(lit "image", .str (lit "nginx"))]])] (lit "containers") with
        | .ok m1 => some m1
        | .error _ => none) ∧
    (match heap.updateContainer [(lit "nginx", lit "registry/nginx@sha256:2")]
        [[(lit "spec", .ref 1)], [(lit "image", .str (lit "nginx"))]] 0 (lit "spec") with
      | .ok h1 => document h1 0
      | .error _ => none)
      = (match resolver.updateContainer [(lit "nginx", lit "registry/nginx@sha256:2")]
          [(lit "spec", .map [(lit "image", .str (lit "nginx"))])] (lit "spec") with
        | .ok m1 => some m1
        | .error _ => none) :=
  ⟨rfl, rfl, rfl, rfl⟩

/-- On the document `a: &x {persistentVolumeClaim: {}, sub: {persistentVolumeClaim:
{}}}`, `b: *x` with one map under both keys, the map under `sub` is rewritten;
on the tree with a copy of the map under each key it is not. -/
theorem test_heap_and_tree_differ_on_shared_map :
    document (heap.findAndReplacePVCRun heap.listOrder heap.exampleSharedClaim 0) 0
      = some [(lit "a", .map [(lit "sub", .map [(lit "emptyDir", .map [])]),
            (lit "emptyDir", .map [])]),
          (lit "b", .map [(lit "sub", .map [(lit "emptyDir", .map [])]),
            (lit "emptyDir", .map [])])] ∧
    (document heap.exampleSharedClaim 0).map filter.findAndReplacePVC
      = some [(lit "a", .map [(lit "sub", .map [(lit "persistentVolumeClaim", .map [])]),
            (lit "emptyDir", .map [])]),
          (lit "b", .map [(lit "sub", .map [(lit "persistentVolumeClaim", .map [])]),
            (lit "emptyDir", .map [])])] :=
  ⟨rfl, rfl⟩

end Gitops
